import Mathlib

/-!
# bpp-tools: the PHYLIP reader (`phylip.c`)

A shallow embedding of the PHYLIP ingestion code of bpp-tools and the
properties of it that the specification states.

Conventions of the embedding.

* A byte is a natural number; a C string (`char *`) is the list of its bytes
  before the terminating NUL.  `char` is signed, as on the x86 targets of the
  program: `schar` gives the value a byte has after `(int)c`.
* `FILE *` is the list of the bytes that are still unread.
* `int` and `long` values are integers; the arithmetic the program does on
  them is taken without wrap-around.  The one place where the input can
  supply a number outside the range of `int` is the header, whose numerals are
  converted by `sscanf`: that conversion is modelled as the C library performs
  it (`scanf_d`), so `parse_header` stores what the program stores.
* The global error slot (`bpp_errno`, `bpp_errmsg`) and the cursor are passed
  explicitly.  A call that cannot return normally ends in `Outcome.fatal`
  (the process was stopped by `fatal`), `Outcome.nomem` (allocation failure,
  which is fatal as well) or `Outcome.undefined` (undefined behaviour: a read
  through a null pointer, an index outside an array, a failed `assert`).
* Loops that read from the stream are recursive functions with a fuel
  argument.  Every call site passes more fuel than there are unread bytes,
  and every iteration that repeats the loop has consumed at least one byte,
  so the fuel never runs out.
* Releasing storage (`free`, `msa_destroy`) has no counterpart where it cannot
  go wrong: a destroyed alignment is simply not returned.  It can go wrong in
  `phylip_parse_interleaved`, whose `msa_t` comes from `xmalloc` and reaches
  `msa_destroy` with a field that was never written; there the release is
  modelled (`msa_destroy`, `destroy_return_null`).
-/

namespace BppTools

/-! ## Results of a call -/

/-- How a call of a C function ends. -/
inductive Outcome (α : Type) where
  | ret : α → Outcome α
  | fatal : List Nat → Outcome α
  | nomem : Outcome α
  | undefined : Outcome α

/-! ## Constants of `bpp-tools.h` and `phylip.c` -/

def LINEALLOC : Nat := 2048
def ERROR_PHYLIP_SYNTAX : Int := 106
def ERROR_PHYLIP_LONGSEQ : Int := 107
def ERROR_PHYLIP_NONALIGNED : Int := 108
def ERROR_PHYLIP_ILLEGALCHAR : Int := 109
def ERROR_PHYLIP_UNPRINTABLECHAR : Int := 110
def PHYLIP_SEQUENTIAL : Int := 1
def PHYLIP_INTERLEAVED : Int := 2

/-! ## Data model -/

/-- The alignment `msa_t`: `sequence` and `label` are the two arrays of
`count` pointers (`none` is a null pointer); a sequence buffer has
`length + 1` cells, the last one holding the terminator.  Of the other fields
of the C structure the two that the modelled functions read or write are
kept: `amb_sites_count` and `dtype`.  The readers of `phylip.c` never store
to them (in C they are indeterminate after a parse); here they hold 0 until
they are set, which is also what `xcalloc` gives them in `phylip_concat`. -/
structure msa_t where
  count : Int
  length : Int
  sequence : List (Option (List Nat))
  label : List (Option (List Nat))
  amb_sites_count : Int := 0
  dtype : Int := 0

/-- The file cursor `phylip_t`.  `fp` holds the unread bytes of the stream and
`line` the contents of the line buffer (`none` once it has been released at
end of file).  The capacity bookkeeping of the line buffer (`line_size`,
`line_maxsize`, `buffer`) and `filesize` are left out: they never change which
bytes a line holds. -/
structure phylip_t where
  fp : List Nat
  line : Option (List Nat)
  chrstatus : Nat → Nat
  no : Int
  lineno : Int
  stripped_count : Nat
  stripped : Nat → Nat

/-- The global error slot: `bpp_errno` and `bpp_errmsg`. -/
structure Globals where
  bpp_errno : Int
  bpp_errmsg : List Nat

/-! ## Text helpers (the `printf` conversions that are used) -/

/-- The bytes of an ASCII literal. -/
def str (s : String) : List Nat := s.toList.map Char.toNat

/-- Decimal digits of a natural number, most significant first. -/
def decDigits : Nat → Nat → List Nat
  | 0, _ => []
  | fuel + 1, n =>
    if n < 10 then [48 + n] else decDigits fuel (n / 10) ++ [48 + n % 10]

/-- Conversion `%d` / `%ld`. -/
def fmt_d (n : Int) : List Nat :=
  if n < 0 then 45 :: decDigits (n.natAbs + 1) n.natAbs
  else decDigits (n.natAbs + 1) n.natAbs

/-- Conversion `%.100s`: at most 100 bytes of the string. -/
def fmt_s100 (s : List Nat) : List Nat := s.take 100

/-- One hexadecimal digit, lower case. -/
def hexDigit (d : Nat) : Nat := if d < 10 then 48 + d else 87 + d

/-- Conversion `%#.2x` of a positive value below 256. -/
def fmt_x2 (n : Nat) : List Nat := [48, 120, hexDigit (n / 16), hexDigit (n % 16)]

/-- The value of a byte read as a signed `char` and converted to `int`. -/
def schar (c : Nat) : Int :=
  if c % 256 < 128 then ((c % 256 : Nat) : Int) else ((c % 256 : Nat) : Int) - 256

/-- Read of a 256-entry table at an `int` index; `none` outside the table. -/
def tableAt (t : Nat → Nat) (i : Int) : Option Nat :=
  if 0 ≤ i ∧ i < 256 then some (t i.toNat) else none

/-- The class `(char) fd->chrstatus[(int)c]` the reader computes for a byte,
when the index lies inside the table. -/
def chrclass (t : Nat → Nat) (c : Nat) : Option Nat :=
  (tableAt t (schar c)).map (fun v => v % 256)

/-! ## `getnextline` -/

/-- The bytes `fgets` stores when it may store at most `k` of them: it stops
after a newline. Returns the bytes stored and the rest of the stream. -/
def fgets_read : Nat → List Nat → List Nat × List Nat
  | 0, fp => ([], fp)
  | _ + 1, [] => ([], [])
  | k + 1, c :: fp =>
    if c = 10 then ([c], fp)
    else ((c :: (fgets_read k fp).1), (fgets_read k fp).2)

/-- `fgets(buffer, n, fp)`: `none` at end of file. -/
def fgets (n : Nat) (fp : List Nat) : Option (List Nat × List Nat) :=
  match fp with
  | [] => none
  | _ :: _ => some (fgets_read (n - 1) fp)

/-- `strlen` of a buffer whose stored bytes are `b`. -/
def strlen (b : List Nat) : Nat := (b.takeWhile (fun c => c ≠ 0)).length

/-- The read loop of `getnextline`; `line` is what has accumulated in
`fd->line`.  Returns the line (or `none` for NULL) and the rest of the stream. -/
def getnextline_loop : Nat → List Nat → List Nat → Outcome (Option (List Nat) × List Nat)
  | 0, _, _ => .undefined
  | fuel + 1, fp, line =>
    match fgets LINEALLOC fp with
    | none =>
      if line.length = 0 then .ret (none, fp) else .ret (some line, fp)
    | some (buffer, fp1) =>
      if strlen buffer = 0 then .undefined
      else if buffer.get? (strlen buffer - 1) = some 10 then
        .ret (some ((line ++ buffer.take (strlen buffer)).dropLast), fp1)
      else getnextline_loop fuel fp1 (line ++ buffer.take (strlen buffer))

/-- `getnextline`: the next line without its newline, or NULL at end of file
(the line buffer is released then). -/
def getnextline (fd : phylip_t) : Outcome (Option (List Nat) × phylip_t) :=
  match getnextline_loop (fd.fp.length + 1) fd.fp [] with
  | .ret (l, fp) => .ret (l, { fd with fp := fp, line := l })
  | .fatal m => .fatal m
  | .nomem => .nomem
  | .undefined => .undefined

/-- `phylip_open` on a file with the given contents: caches the first line;
NULL when there is none. -/
def phylip_open (contents : List Nat) (map : Nat → Nat) : Outcome (Option phylip_t) :=
  match getnextline { fp := contents, line := none, chrstatus := map, no := -1,
                      lineno := 0, stripped_count := 0, stripped := fun _ => 0 } with
  | .ret (none, _) => .ret none
  | .ret (some _, fd) => .ret (some { fd with lineno := 1 })
  | .fatal m => .fatal m
  | .nomem => .nomem
  | .undefined => .undefined

/-! ## Header -/

/-- `isspace` in the C locale (the white space `sscanf` skips before `%d`). -/
def isspace (c : Nat) : Bool := c == 32 || (9 ≤ c && c ≤ 13)

def isdigit (c : Nat) : Bool := 48 ≤ c && c ≤ 57

/-- Value of a run of decimal digits. -/
def digitsValue (ds : List Nat) : Nat := ds.foldl (fun a d => 10 * a + (d - 48)) 0

/-- The value `strtol` returns for a numeral of value `v`: it saturates at
`LONG_MIN` and `LONG_MAX` (`long` has 64 bits on the targets of the program). -/
def strtol_value (v : Int) : Int :=
  if v < -(2 ^ 63) then -(2 ^ 63) else if 2 ^ 63 - 1 < v then 2 ^ 63 - 1 else v

/-- The conversion `(int) x` of a `long`: its low 32 bits, read as a signed
value. -/
def int_of_long (x : Int) : Int := (x + 2 ^ 31) % 2 ^ 32 - 2 ^ 31

/-- The `int` that the conversion `%d` of `sscanf` stores for a numeral of
value `v`.  `sscanf` belongs to the C library, not to the sources.  For a
numeral inside the range of `int` it is `v`.  For a numeral outside that range
ISO C leaves the result open; the library of the program's targets (glibc)
converts the digits as `strtol` does and stores the result through the
`int *` argument, which keeps its low 32 bits: "4294967298" is stored as 2,
"4294967296" as 0 and "2147483648" as -2147483648. -/
def scanf_d (v : Int) : Int := int_of_long (strtol_value v)

/-- `args_getint`: `sscanf(arg, "%d%n", &temp, len)`; returns the `int` that
was stored (0 when nothing was converted) and `*len`. -/
def args_getint (arg : List Nat) : Int × Nat :=
  let ws := arg.takeWhile isspace
  let r := arg.dropWhile isspace
  match r with
  | 45 :: r1 =>
    if (r1.takeWhile isdigit).length = 0 then (0, 0)
    else (scanf_d (- (digitsValue (r1.takeWhile isdigit) : Int)),
          ws.length + 1 + (r1.takeWhile isdigit).length)
  | 43 :: r1 =>
    if (r1.takeWhile isdigit).length = 0 then (0, 0)
    else (scanf_d (digitsValue (r1.takeWhile isdigit) : Int),
          ws.length + 1 + (r1.takeWhile isdigit).length)
  | _ =>
    if (r.takeWhile isdigit).length = 0 then (0, 0)
    else (scanf_d (digitsValue (r.takeWhile isdigit) : Int),
          ws.length + (r.takeWhile isdigit).length)

def whitespace (c : Nat) : Bool := c == 32 || c == 9 || c == 10 || c == 13

/-- The loop `while (*p && whitespace(*p)) ++p`. -/
def skipws (p : List Nat) : List Nat := p.dropWhile whitespace

/-- `parse_header`: `some (count, length)` when it returns 1, `none` when it
returns 0; the second component is the error slot afterwards. -/
def parse_header (line : List Nat) (format : Int) (g : Globals) :
    Option (Int × Int) × Globals :=
  if (args_getint line).1 = 0 then
    (none, { bpp_errno := ERROR_PHYLIP_SYNTAX,
             bpp_errmsg := str "Invalid number of sequences in header" })
  else
    let line1 := line.drop (args_getint line).2
    if (args_getint line1).1 = 0 then
      (none, { bpp_errno := ERROR_PHYLIP_SYNTAX,
               bpp_errmsg := str "Invalid sequence length in header" })
    else
      let line2 := skipws (line1.drop (args_getint line1).2)
      match line2 with
      | [] => (some ((args_getint line).1, (args_getint line1).1), g)
      | c :: _ =>
        if format = PHYLIP_SEQUENTIAL then (none, g)
        else if c ≠ 115 ∧ c ≠ 83 ∧ c ≠ 105 ∧ c ≠ 73 then (none, g)
        else
          match skipws line2 with
          | [] => (some ((args_getint line).1, (args_getint line1).1), g)
          | _ :: _ => (none, g)

/-- `emptyline`. -/
def emptyline (line : List Nat) : Int :=
  if (line.dropWhile whitespace).length = 0 then 1 else 0

/-! ## `dfa_parse` -/

/-- The assignment `msa->sequence[seqno][i] = c`; `none` when the cell does not
exist. -/
def msa_t.store (msa : msa_t) (seqno i c : Nat) : Option msa_t :=
  match msa.sequence[seqno]? with
  | some (some buf) =>
    if i < buf.length then
      some { msa with sequence := msa.sequence.set seqno (some (buf.set i c)) }
    else none
  | _ => none

/-- The string `msa->label[seqno]`; `none` when the slot is null or absent. -/
def msa_t.labelAt (msa : msa_t) (seqno : Nat) : Option (List Nat) :=
  match msa.label[seqno]? with
  | some (some l) => some l
  | _ => none

def msg_longseq (seqno : Nat) (label : List Nat) : List Nat :=
  str "Sequence " ++ fmt_d ((seqno : Int) + 1) ++ str " (" ++ fmt_s100 label ++
    str ") longer than expected"

def msg_illegal (c : Nat) (lineno : Int) : List Nat :=
  str "illegal character '" ++ [c] ++ str "' on line " ++ fmt_d lineno ++
    str " in the fasta file"

def msg_unprintable (c : Nat) (lineno : Int) : List Nat :=
  str "illegal unprintable character " ++ fmt_x2 c ++ str " (hexadecimal) on line " ++
    fmt_d lineno ++ str " in the fasta file"

/-- The loop of `dfa_parse` over the bytes of `p`, with `j` bytes stored so
far.  The first component of the result is the returned count, `none` for -1. -/
def dfa_parse_loop (seqno offset : Nat) :
    List Nat → Nat → phylip_t → Globals → msa_t →
      Outcome (Option Nat × phylip_t × Globals × msa_t)
  | [], j, fd, g, msa => .ret (some j, fd, g, msa)
  | c :: p, j, fd, g, msa =>
    match chrclass fd.chrstatus c with
    | none => .undefined
    | some 0 =>
      dfa_parse_loop seqno offset p j
        { fd with stripped_count := fd.stripped_count + 1,
                  stripped := Function.update fd.stripped (schar c).toNat
                                (fd.stripped (schar c).toNat + 1) } g msa
    | some 1 =>
      if msa.length ≤ ((offset + j : Nat) : Int) then
        match msa.labelAt seqno with
        | none => .undefined
        | some l =>
          .ret (none, fd, { bpp_errno := ERROR_PHYLIP_LONGSEQ,
                            bpp_errmsg := msg_longseq seqno l }, msa)
      else
        match msa.store seqno (offset + j) c with
        | none => .undefined
        | some msa1 => dfa_parse_loop seqno offset p (j + 1) fd g msa1
    | some 2 =>
      if 32 ≤ schar c then
        .ret (none, fd, { bpp_errno := ERROR_PHYLIP_ILLEGALCHAR,
                          bpp_errmsg := msg_illegal c fd.lineno }, msa)
      else
        .ret (none, fd, { bpp_errno := ERROR_PHYLIP_UNPRINTABLECHAR,
                          bpp_errmsg := msg_unprintable c fd.lineno }, msa)
    | some _ => dfa_parse_loop seqno offset p j fd g msa

/-- `dfa_parse(fd, msa, p, seqno, offset)`. -/
def dfa_parse (fd : phylip_t) (g : Globals) (msa : msa_t) (p : List Nat)
    (seqno offset : Nat) : Outcome (Option Nat × phylip_t × Globals × msa_t) :=
  dfa_parse_loop seqno offset p 0 fd g msa

/-! ## Allocation of an alignment -/

/-- Modelled from the spec: `xmalloc` and `xcalloc` are not among the sources;
an allocation failure is fatal to the process.  A request whose size is
negative before its conversion to `size_t` cannot be met; every other request
is met.  This is the allocation both block parsers make after the header:
the two pointer arrays, and `count` buffers of `length + 1` bytes with the
terminator stored in the last cell (the other cells are indeterminate in C
and hold 0 here). -/
def msa_alloc (count length : Int) : Outcome msa_t :=
  if count < 0 then .nomem
  else if count = 0 then
    .ret { count := count, length := length, sequence := [], label := [] }
  else if length + 1 < 0 then .nomem
  else if length + 1 = 0 then .undefined
  else
    .ret { count := count, length := length,
           sequence := List.replicate count.toNat
             (some (List.replicate length.toNat 0 ++ [0])),
           label := List.replicate count.toNat none }

/-! ## Sequential blocks -/

/-- Modelled from the spec: `xstrchrnul` is declared in `bpp-tools.h` and
defined outside the sources; it is `strchrnul`: the distance from `p` to the
first occurrence of `c`, or to the terminator when there is none. -/
def xstrchrnul (p : List Nat) (c : Nat) : Nat := (p.takeWhile (fun x => x ≠ c)).length

/-- The length of the label at the start of `p` ("find first blank after
header"): up to the first space if the line has one, else up to the first tab
if it has one, else up to the first carriage return, else up to a newline or
the end. -/
def headerlen (p : List Nat) : Nat :=
  if 32 ∈ p then xstrchrnul p 32
  else if 9 ∈ p then xstrchrnul p 9
  else if 13 ∈ p then xstrchrnul p 13
  else xstrchrnul p 10

/-- The assignment of a fresh copy of `l` to `msa->label[seqno]`. -/
def msa_t.setLabel (msa : msa_t) (seqno : Nat) (l : List Nat) : Option msa_t :=
  if seqno < msa.label.length then
    some { msa with label := msa.label.set seqno (some l) }
  else none

def msg_short (seqno : Nat) (label : List Nat) (j : Nat) (length : Int) : List Nat :=
  str "Sequence " ++ fmt_d ((seqno : Int) + 1) ++ str " (" ++ fmt_s100 label ++
    str ") has " ++ fmt_d j ++ str " characters but expected " ++ fmt_d length

def msg_atleast (seqno : Nat) (count : Int) : List Nat :=
  str "Found at least " ++ fmt_d ((seqno : Int) + 1) ++ str " sequences but expected " ++
    fmt_d count

def msg_found (seqno : Nat) (count : Int) : List Nat :=
  str "Found " ++ fmt_d seqno ++ str " sequence(s) but expected " ++ fmt_d count

/-- The loop `while (emptyline(fd->line)) getnextline(fd);` at the start of
both block parsers. -/
def skip_emptylines : Nat → phylip_t → Outcome phylip_t
  | 0, _ => .undefined
  | fuel + 1, fd =>
    match fd.line with
    | none => .undefined
    | some line =>
      if emptyline line = 1 then
        match getnextline fd with
        | .ret (_, fd1) => skip_emptylines fuel fd1
        | .fatal m => .fatal m
        | .nomem => .nomem
        | .undefined => .undefined
      else .ret fd

/-- The inner loop of `phylip_parse_sequential` ("go through possibly multiple
sequence data lines"), entered with the rest `p` of the current line and `j`
bytes of taxon `seqno` stored.  `some msa` when the loop is left by `break`,
`none` when the function returns NULL from inside it. -/
def sequential_data : Nat → phylip_t → Globals → msa_t → Nat → List Nat → Nat →
    Outcome (Option msa_t × phylip_t × Globals)
  | 0, _, _, _, _, _, _ => .undefined
  | fuel + 1, fd, g, msa, seqno, p, j =>
    match dfa_parse fd g msa p seqno j with
    | .ret (none, fd1, g1, _) => .ret (none, fd1, g1)
    | .ret (some chars_count, fd1, g1, msa1) =>
      if ((j + chars_count : Nat) : Int) = msa1.length then .ret (some msa1, fd1, g1)
      else
        match getnextline fd1 with
        | .ret (none, fd2) =>
          match msa1.labelAt seqno with
          | none => .undefined
          | some l =>
            .ret (none, fd2, { bpp_errno := ERROR_PHYLIP_SYNTAX,
                               bpp_errmsg := msg_short seqno l (j + chars_count) msa1.length })
        | .ret (some p1, fd2) =>
          sequential_data fuel fd2 g1 msa1 seqno p1 (j + chars_count)
        | .fatal m => .fatal m
        | .nomem => .nomem
        | .undefined => .undefined
    | .fatal m => .fatal m
    | .nomem => .nomem
    | .undefined => .undefined

/-- The outer loop of `phylip_parse_sequential` ("read sequences") together
with the check that follows it, entered with `seqno` taxa complete. -/
def sequential_taxa : Nat → phylip_t → Globals → msa_t → Nat →
    Outcome (Option msa_t × phylip_t × Globals)
  | 0, _, _, _, _ => .undefined
  | fuel + 1, fd, g, msa, seqno =>
    match getnextline fd with
    | .ret (none, fd1) =>
      if (seqno : Int) ≠ msa.count then
        .ret (none, fd1, { bpp_errno := ERROR_PHYLIP_SYNTAX,
                           bpp_errmsg := msg_found seqno msa.count })
      else .ret (some msa, fd1, g)
    | .ret (some line, fd1) =>
      match skipws line with
      | [] => sequential_taxa fuel fd1 g msa seqno
      | c :: p0 =>
        if (seqno : Int) = msa.count then
          .ret (none, fd1, { bpp_errno := ERROR_PHYLIP_SYNTAX,
                             bpp_errmsg := msg_atleast seqno msa.count })
        else if headerlen (c :: p0) = 0 then .undefined
        else
          match msa.setLabel seqno ((c :: p0).take (headerlen (c :: p0))) with
          | none => .undefined
          | some msa1 =>
            match sequential_data (fd1.fp.length + 1) fd1 g msa1 seqno
                    ((c :: p0).drop (headerlen (c :: p0))) 0 with
            | .ret (none, fd2, g2) => .ret (none, fd2, g2)
            | .ret (some msa2, fd2, g2) =>
              if ((seqno : Int) + 1) = msa2.count then .ret (some msa2, fd2, g2)
              else sequential_taxa fuel fd2 g2 msa2 (seqno + 1)
            | .fatal m => .fatal m
            | .nomem => .nomem
            | .undefined => .undefined
    | .fatal m => .fatal m
    | .nomem => .nomem
    | .undefined => .undefined

/-- `phylip_parse_sequential`: the alignment (or NULL), the cursor and the
error slot afterwards. -/
def phylip_parse_sequential (fd : phylip_t) (g : Globals) :
    Outcome (Option msa_t × phylip_t × Globals) :=
  match skip_emptylines (fd.fp.length + 2) fd with
  | .ret fd1 =>
    match fd1.line with
    | none => .undefined
    | some line =>
      match parse_header line PHYLIP_SEQUENTIAL g with
      | (none, g1) => .ret (none, fd1, g1)
      | (some (count, length), g1) =>
        match msa_alloc count length with
        | .ret msa => sequential_taxa (fd1.fp.length + 1) fd1 g1 msa 0
        | .fatal m => .fatal m
        | .nomem => .nomem
        | .undefined => .undefined
  | .fatal m => .fatal m
  | .nomem => .nomem
  | .undefined => .undefined

/-- The C string held by a sequence buffer. -/
def cstring (buf : List Nat) : List Nat := buf.takeWhile (fun c => c ≠ 0)

/-- The lines `phylip_print` writes for the taxa `i`, `i+1`, ... of the two
arrays; `none` when a pointer is null. -/
def print_rows : List (Option (List Nat)) → List (Option (List Nat)) → Option (List Nat)
  | some l :: ls, some s :: ss =>
    (print_rows ls ss).map (fun r => l ++ [32] ++ cstring s ++ [10] ++ r)
  | [], [] => some []
  | _, _ => none

/-- `phylip_print`: the bytes written to the stream (`count` rows are
printed; `none` when a row is missing or null). -/
def phylip_print (msa : msa_t) : Option (List Nat) :=
  if msa.label.length < msa.count.toNat ∨ msa.sequence.length < msa.count.toNat then none
  else
    (print_rows (msa.label.take msa.count.toNat) (msa.sequence.take msa.count.toNat)).map
      (fun r => fmt_d msa.count ++ [32] ++ fmt_d msa.length ++ [10] ++ r)

/-! ## Interleaved blocks -/

def msg_nonaligned (seqno : Nat) (label : List Nat) : List Nat :=
  str "Sequence " ++ fmt_d ((seqno : Int) + 1) ++ str " (" ++ fmt_s100 label ++
    str ") data out of alignment"

def msg_block (seqno : Nat) (block_count : Int) (count : Int) : List Nat :=
  str "Found " ++ fmt_d seqno ++ str " sequences in block " ++ fmt_d block_count ++
    str " but expected " ++ fmt_d count

def msg_length (sumlen : Nat) (length : Int) : List Nat :=
  str "Sequence length is " ++ fmt_d sumlen ++ str " but expected " ++ fmt_d length

/-- `parse_oneline_sequence`: the loop `while (p && !j)`.  The result holds the
returned pointer (`none` for NULL), the cursor, the error slot, the alignment
and the values of `*aln_len` and `*error` afterwards. -/
def parse_oneline_sequence : Nat → phylip_t → Globals → msa_t → Option (List Nat) →
    Nat → Nat → Nat → Nat →
    Outcome (Option (List Nat) × phylip_t × Globals × msa_t × Nat × Nat)
  | 0, _, _, _, _, _, _, _, _ => .undefined
  | _ + 1, fd, g, msa, none, _, _, aln_len, error =>
    .ret (none, fd, g, msa, aln_len, error)
  | fuel + 1, fd, g, msa, some p, seqno, offset, aln_len, error =>
    match dfa_parse fd g msa p seqno offset with
    | .ret (none, fd1, g1, msa1) => .ret (none, fd1, g1, msa1, aln_len, 1)
    | .ret (some j, fd1, g1, msa1) =>
      if j ≠ 0 then
        if aln_len = 0 then .ret (some p, fd1, g1, msa1, j, error)
        else if aln_len ≠ j then
          match msa1.labelAt seqno with
          | none => .undefined
          | some l =>
            .ret (none, fd1, { bpp_errno := ERROR_PHYLIP_NONALIGNED,
                               bpp_errmsg := msg_nonaligned seqno l }, msa1, aln_len, 1)
        else .ret (some p, fd1, g1, msa1, aln_len, error)
      else
        match getnextline fd1 with
        | .ret (p1, fd2) =>
          parse_oneline_sequence fuel fd2 g1 msa1 p1 seqno offset aln_len error
        | .fatal m => .fatal m
        | .nomem => .nomem
        | .undefined => .undefined
    | .fatal m => .fatal m
    | .nomem => .nomem
    | .undefined => .undefined

/-- The state of `phylip_parse_interleaved` when one of its two loops is
left by `break`. -/
structure ilstate where
  msa : msa_t
  seqno : Nat
  aln_len : Nat
  sumlen : Nat
  block_count : Int
  error : Nat

/-- The first loop of `phylip_parse_interleaved` ("read sequences with
headers").  `some st` when the loop is left by `break`, `none` when the
function leaves it through "Found at least ..." (the caller then runs
`msa_destroy(msa); return NULL;`). -/
def interleaved_first : Nat → phylip_t → Globals → msa_t → Nat → Nat →
    Outcome (Option ilstate × phylip_t × Globals)
  | 0, _, _, _, _, _ => .undefined
  | fuel + 1, fd, g, msa, seqno, aln_len =>
    match getnextline fd with
    | .ret (none, fd1) =>
      .ret (some { msa := msa, seqno := seqno, aln_len := aln_len, sumlen := 0,
                   block_count := 1, error := 0 }, fd1, g)
    | .ret (some line, fd1) =>
      match skipws line with
      | [] => interleaved_first fuel fd1 g msa seqno aln_len
      | c :: p0 =>
        if (seqno : Int) = msa.count then
          .ret (none, fd1, { bpp_errno := ERROR_PHYLIP_SYNTAX,
                             bpp_errmsg := msg_atleast seqno msa.count })
        else if headerlen (c :: p0) = 0 then .undefined
        else
          match msa.setLabel seqno ((c :: p0).take (headerlen (c :: p0))) with
          | none => .undefined
          | some msa1 =>
            match parse_oneline_sequence (fd1.fp.length + 2) fd1 g msa1
                    (some ((c :: p0).drop (headerlen (c :: p0)))) seqno 0 aln_len 0 with
            | .ret (none, fd2, g2, msa2, aln_len2, error2) =>
              .ret (some { msa := msa2, seqno := seqno, aln_len := aln_len2, sumlen := 0,
                           block_count := 1, error := error2 }, fd2, g2)
            | .ret (some _, fd2, g2, msa2, aln_len2, error2) =>
              if ((seqno : Int) + 1) = msa2.count then
                .ret (some { msa := msa2, seqno := seqno + 1, aln_len := aln_len2,
                             sumlen := 0, block_count := 1, error := error2 }, fd2, g2)
              else interleaved_first fuel fd2 g2 msa2 (seqno + 1) aln_len2
            | .fatal m => .fatal m
            | .nomem => .nomem
            | .undefined => .undefined
    | .fatal m => .fatal m
    | .nomem => .nomem
    | .undefined => .undefined

/-- The second loop of `phylip_parse_interleaved` ("now read the remaining
blocks"); it is always left by `break`. -/
def interleaved_rest : Nat → phylip_t → Globals → ilstate →
    Outcome (ilstate × phylip_t × Globals)
  | 0, _, _, _ => .undefined
  | fuel + 1, fd, g, st =>
    match getnextline fd with
    | .ret (p, fd1) =>
      match parse_oneline_sequence (fd1.fp.length + 2) fd1 g st.msa p st.seqno st.sumlen
              st.aln_len st.error with
      | .ret (none, fd2, g2, msa2, aln_len2, error2) =>
        .ret ({ st with msa := msa2, aln_len := aln_len2, error := error2 }, fd2, g2)
      | .ret (some _, fd2, g2, msa2, aln_len2, error2) =>
        if msa2.count = 0 then .undefined
        else if (((st.seqno : Int) + 1) % msa2.count).toNat = 0 then
          interleaved_rest fuel fd2 g2
            { msa := msa2, seqno := 0, aln_len := 0, sumlen := st.sumlen + aln_len2,
              block_count := st.block_count + 1, error := error2 }
        else
          interleaved_rest fuel fd2 g2
            { st with msa := msa2, seqno := (((st.seqno : Int) + 1) % msa2.count).toNat,
                      aln_len := aln_len2, error := error2 }
      | .fatal m => .fatal m
      | .nomem => .nomem
      | .undefined => .undefined
    | .fatal m => .fatal m
    | .nomem => .nomem
    | .undefined => .undefined

/-- `msa_destroy(msa)` as far as it can go wrong.  It releases the labels and
the sequences that are not null and the two arrays (all of them set by the
parser, the arrays by `xcalloc`), then runs `if (msa->freqs) free(msa->freqs);`
and releases the structure.  `freqs` is the value the field `freqs` holds, 0
for NULL: with another value `free` is called on a pointer that no allocation
returned, which is undefined. -/
def msa_destroy (freqs : Nat) : Outcome Unit :=
  if freqs = 0 then .ret () else .undefined

/-- The statements `msa_destroy(msa); return NULL;` of
`phylip_parse_interleaved`. -/
def destroy_return_null (freqs : Nat) (fd : phylip_t) (g : Globals) :
    Outcome (Option msa_t × phylip_t × Globals) :=
  match msa_destroy freqs with
  | .ret _ => .ret (none, fd, g)
  | .fatal m => .fatal m
  | .nomem => .nomem
  | .undefined => .undefined

/-- The end of `phylip_parse_interleaved`, after the second loop: the three
checks ("was the last block of sequences non-aligned?", the taxa of the last
block, the sum of the chunk lengths) and the return. -/
def interleaved_finish (freqs : Nat) (st3 : ilstate) (fd3 : phylip_t) (g3 : Globals) :
    Outcome (Option msa_t × phylip_t × Globals) :=
  if st3.error ≠ 0 then destroy_return_null freqs fd3 g3
  else if st3.seqno ≠ 0 then
    destroy_return_null freqs fd3
      { bpp_errno := ERROR_PHYLIP_SYNTAX,
        bpp_errmsg := msg_block st3.seqno st3.block_count st3.msa.count }
  else if (st3.sumlen : Int) ≠ st3.msa.length then
    destroy_return_null freqs fd3
      { g3 with bpp_errmsg := msg_length st3.sumlen st3.msa.length }
  else .ret (some st3.msa, fd3, g3)

/-- `phylip_parse_interleaved`: the alignment (or NULL), the cursor and the
error slot afterwards.  The structure `msa_t` comes from `xmalloc`, which
leaves its storage as it was, and the parser writes `count`, `length`,
`sequence` and `label` only: `freqs` is the value its field `freqs` holds from
the allocation on (0 for NULL; `phylip_parse_sequential` uses `xcalloc`, which
makes it NULL).  A header that is rejected returns NULL at once; every later
failure releases the alignment with `msa_destroy` first; in the first loop that
is the path on which `interleaved_first` gives `none`. -/
def phylip_parse_interleaved (freqs : Nat) (fd : phylip_t) (g : Globals) :
    Outcome (Option msa_t × phylip_t × Globals) :=
  match skip_emptylines (fd.fp.length + 2) fd with
  | .ret fd1 =>
    match fd1.line with
    | none => .undefined
    | some line =>
      match parse_header line PHYLIP_INTERLEAVED g with
      | (none, g1) => .ret (none, fd1, g1)
      | (some (count, length), g1) =>
        match msa_alloc count length with
        | .ret msa =>
          match interleaved_first (fd1.fp.length + 1) fd1 g1 msa 0 0 with
          | .ret (none, fd2, g2) => destroy_return_null freqs fd2 g2
          | .ret (some st, fd2, g2) =>
            if st.error ≠ 0 then destroy_return_null freqs fd2 g2
            else if (st.seqno : Int) ≠ st.msa.count then
              destroy_return_null freqs fd2
                { bpp_errno := ERROR_PHYLIP_SYNTAX,
                  bpp_errmsg := msg_found st.seqno st.msa.count }
            else
              match interleaved_rest (fd2.fp.length + 1) fd2 g2
                      { msa := st.msa, seqno := 0, aln_len := 0, sumlen := st.aln_len,
                        block_count := 2, error := st.error } with
              | .ret (st3, fd3, g3) => interleaved_finish freqs st3 fd3 g3
              | .fatal m => .fatal m
              | .nomem => .nomem
              | .undefined => .undefined
          | .fatal m => .fatal m
          | .nomem => .nomem
          | .undefined => .undefined
        | .fatal m => .fatal m
        | .nomem => .nomem
        | .undefined => .undefined
  | .fatal m => .fatal m
  | .nomem => .nomem
  | .undefined => .undefined

/-! ## Vocabulary of the statements -/

/-- What `phylip_parse_interleaved` does with a result `r` that it reaches
behind the header: an alignment is returned as it is, and NULL is returned
through `msa_destroy(msa); return NULL;`. -/
def released (freqs : Nat) (r : Option msa_t) (fd : phylip_t) (g : Globals) :
    Outcome (Option msa_t × phylip_t × Globals) :=
  match r with
  | some m => .ret (some m, fd, g)
  | none => destroy_return_null freqs fd g

/-- The bytes of `p` the table classifies as data (class 1), in order. -/
def accepted (t : Nat → Nat) (p : List Nat) : List Nat :=
  p.filter (fun c => chrclass t c == some 1)

/-- Every byte of `p` indexes the table inside its bounds and none is fatal
(class 2). -/
def Clean (t : Nat → Nat) (p : List Nat) : Prop :=
  ∀ c ∈ p, (chrclass t c).isSome = true ∧ chrclass t c ≠ some 2

instance (t : Nat → Nat) (p : List Nat) : Decidable (Clean t p) := by
  unfold Clean; infer_instance

/-- The cursor after `dfa_parse` has counted the stripped bytes (class 0) of
`p`. -/
def strip_counts : phylip_t → List Nat → phylip_t
  | fd, [] => fd
  | fd, c :: p =>
    if chrclass fd.chrstatus c = some 0 then
      strip_counts
        { fd with stripped_count := fd.stripped_count + 1,
                  stripped := Function.update fd.stripped (schar c).toNat
                                (fd.stripped (schar c).toNat + 1) } p
    else strip_counts fd p

/-- The assignments `msa->sequence[seqno][i] = c`, `[i+1] = ...` for the bytes
of a list. -/
def msa_t.storeList (msa : msa_t) (seqno : Nat) : Nat → List Nat → Option msa_t
  | _, [] => some msa
  | i, c :: cs => (msa.store seqno i c).bind (fun m => m.storeList seqno (i + 1) cs)

/-- A byte list that can be a line of a file: no NUL and no newline in it. -/
def IsLine (l : List Nat) : Prop := ∀ c ∈ l, c ≠ 0 ∧ c ≠ 10

instance (l : List Nat) : Decidable (IsLine l) := by
  unfold IsLine; infer_instance

/-- The unread bytes `fp` of a stream are the given lines: every line is ended
by a newline, except that the last one, when it is not empty, may end with the
stream. -/
def IsText : List Nat → List (List Nat) → Prop
  | fp, [] => fp = []
  | fp, l :: ls => (∃ fp1, fp = l ++ 10 :: fp1 ∧ IsText fp1 ls) ∨ (ls = [] ∧ l ≠ [] ∧ fp = l)

/-- The lines a cursor has still to read. -/
def Reads (fd : phylip_t) (lines : List (List Nat)) : Prop :=
  IsText fd.fp lines ∧ ∀ l ∈ lines, IsLine l

/-- The cursor stands on the given lines: the first one is in the line buffer,
the others are still to be read. -/
def OnLines (fd : phylip_t) (lines : List (List Nat)) : Prop :=
  ∃ l ls, lines = l :: ls ∧ fd.line = some l ∧ Reads fd ls

/-- The text of a stream made of the given lines, each ended by a newline. -/
def unlines : List (List Nat) → List Nat
  | [] => []
  | l :: ls => l ++ 10 :: unlines ls

/-- The contents of a sequence buffer of `L + 1` cells in which the bytes `c`
have been stored from the start. -/
def bufOf (L : Nat) (c : List Nat) : List Nat := c ++ List.replicate (L - c.length) 0 ++ [0]

/-- The alignment under construction: `n` taxa, `L` columns, the label slots,
and for every taxon the bytes stored so far. -/
def msaOf (n L : Nat) (labels : List (Option (List Nat))) (contents : List (List Nat)) : msa_t :=
  { count := n, length := L, sequence := contents.map (fun c => some (bufOf L c)),
    label := labels }

/-- A label as the parsers store it: not empty, free of NUL, newline and
space, and not starting with white space. -/
def GoodLabel (l : List Nat) : Prop :=
  l ≠ [] ∧ (∀ c ∈ l, c ≠ 0 ∧ c ≠ 10 ∧ c ≠ 32) ∧ ∀ c, l.head? = some c → whitespace c = false

/-- Sequence data as the parsers store it: bytes of class 1 read from a line. -/
def GoodSeq (t : Nat → Nat) (s : List Nat) : Prop :=
  ∀ c ∈ s, chrclass t c = some 1 ∧ c ≠ 0 ∧ c ≠ 10

/-- The first `k` taxa are complete: each has its label and `L` data bytes. -/
def RowsDone (t : Nat → Nat) (L : Nat) (labels : List (Option (List Nat)))
    (contents : List (List Nat)) (k : Nat) : Prop :=
  ∀ i < k, ∃ lab s, labels[i]? = some (some lab) ∧ GoodLabel lab ∧ contents[i]? = some s ∧
    s.length = L ∧ GoodSeq t s

/-- A line that holds white space only (`emptyline` is 1 on it). -/
def Blank (l : List Nat) : Prop := skipws l = []

/-- The data lines of one taxon, read with `j` bytes already stored, fill its
row of `L` columns: no line holds a fatal byte, and the count of data bytes
reaches `L` at the end of the last line and not on a line before it. -/
def Fills (t : Nat → Nat) (L : Nat) : Nat → List (List Nat) → Prop
  | _, [] => False
  | j, d :: ds =>
    Clean t d ∧
      ((ds = [] ∧ j + (accepted t d).length = L) ∨
       (j + (accepted t d).length < L ∧ Fills t L (j + (accepted t d).length) ds))

/-- The lines of one taxon of a sequential block: blank lines, the line that
starts with the label, and the data lines that follow it. -/
structure TaxonLines where
  blanks : List (List Nat)
  first : List Nat
  more : List (List Nat)

def TaxonLines.lines (r : TaxonLines) : List (List Nat) := r.blanks ++ r.first :: r.more

/-- The label the parsers cut from the first line. -/
def TaxonLines.label (r : TaxonLines) : List Nat :=
  (skipws r.first).take (headerlen (skipws r.first))

/-- The parts of the lines that are scanned for data: what follows the label,
and the following lines. -/
def TaxonLines.data (r : TaxonLines) : List (List Nat) :=
  (skipws r.first).drop (headerlen (skipws r.first)) :: r.more

/-- The data bytes of the taxon. -/
def TaxonLines.seq (t : Nat → Nat) (r : TaxonLines) : List Nat := accepted t r.data.flatten

/-- The lines are those of one complete taxon of `L` columns. -/
def TaxonLines.ok (t : Nat → Nat) (L : Nat) (r : TaxonLines) : Prop :=
  (∀ b ∈ r.blanks, Blank b) ∧ skipws r.first ≠ [] ∧ Fills t L 0 r.data

/-- The line `phylip_print` writes for a row. -/
def rowLine (r : List Nat × List Nat) : List Nat := r.1 ++ 32 :: r.2

/-! ## Inputs of the examples -/

/-- The text of the four-taxon example: the header `4 6` and four lines
`X ACGTAC`. -/
def example_lines : List (List Nat) :=
  [str "4 6", str "A ACGTAC", str "B ACGTAC", str "C ACGTAC", str "D ACGTAC"]

/-- The alignment the example denotes. -/
def example_msa : msa_t :=
  { count := 4, length := 6,
    sequence := [some (str "ACGTAC" ++ [0]), some (str "ACGTAC" ++ [0]),
                 some (str "ACGTAC" ++ [0]), some (str "ACGTAC" ++ [0])],
    label := [some (str "A"), some (str "B"), some (str "C"), some (str "D")] }

def example_table : Nat → Nat := fun c =>
  if c = 65 ∨ c = 67 ∨ c = 71 ∨ c = 84 then 1 else if c = 32 then 0 else 2

/-- A cursor standing on the header of a block of two taxa and three columns. -/
def small_cursor : phylip_t :=
  { fp := str "A ACG\nB  TTA\n", line := some (str "2 3"), chrstatus := example_table,
    no := -1, lineno := 1, stripped_count := 0, stripped := fun _ => 0 }

/-- The alignment of that block. -/
def small_msa : msa_t :=
  { count := 2, length := 3, sequence := [some (str "ACG" ++ [0]), some (str "TTA" ++ [0])],
    label := [some (str "A"), some (str "B")] }

/-- The cursor after the block has been read. -/
def small_cursor_after : phylip_t :=
  match phylip_parse_sequential small_cursor ⟨0, []⟩ with
  | .ret (_, fd, _) => fd
  | _ => small_cursor

instance (l : List Nat) : Decidable (Blank l) := by
  unfold Blank; infer_instance

/-- The text starts with an integer numeral as `%d` reads one: a digit, or a
sign followed by a digit. -/
def startsNumeral : List Nat → Bool
  | [] => false
  | c :: r =>
    isdigit c || ((c == 43 || c == 45) &&
      (match r with
       | d :: _ => isdigit d
       | [] => false))

/-- The line starts with a numeral of the value `v`, and scanning it with `%d`
stops before `rest`: white space, an optional sign, at least one digit, and
then no further digit.  What `%d` stores for it is `scanf_d v`. -/
def Scans (line : List Nat) (v : Int) (rest : List Nat) : Prop :=
  ∃ ws sign ds, line = ws ++ sign ++ ds ++ rest ∧ (∀ c ∈ ws, isspace c = true) ∧ ds ≠ [] ∧
    (∀ c ∈ ds, isdigit c = true) ∧ (∀ c, rest.head? = some c → isdigit c = false) ∧
    ((sign = [] ∧ v = (digitsValue ds : Int)) ∨ (sign = [43] ∧ v = (digitsValue ds : Int)) ∨
     (sign = [45] ∧ v = - (digitsValue ds : Int)))

/-- The field at the start of `line` is missing or is not an integer (after
white space the text does not start with a numeral), or it is the integer 0. -/
def NoInteger (line : List Nat) : Prop :=
  (∃ ws r, line = ws ++ r ∧ (∀ c ∈ ws, isspace c = true) ∧
    (∀ c, r.head? = some c → isspace c = false) ∧ startsNumeral r = false) ∨
  (∃ rest, Scans line 0 rest)

def msg_header_count : List Nat := str "Invalid number of sequences in header"

def msg_header_length : List Nat := str "Invalid sequence length in header"

/-- A group of lines that gives one taxon its chunk of `w` data bytes in an
interleaved block: lines without fatal bytes, of which the last one holds `w`
data bytes (`w` is not 0) and the ones before it hold none. -/
def Yields (t : Nat → Nat) (w : Nat) (ls : List (List Nat)) : Prop :=
  ∃ zs d, ls = zs ++ [d] ∧ (∀ z ∈ zs, Clean t z ∧ accepted t z = []) ∧ Clean t d ∧
    (accepted t d).length = w ∧ 0 < w

/-- The rows after the chunks of one block have been appended: the chunk of a
taxon is the data of its group of lines. -/
def pasteBlock (t : Nat → Nat) (contents : List (List Nat)) (gs : List (List (List Nat))) :
    List (List Nat) :=
  List.zipWith (fun c grp => c ++ accepted t grp.flatten) contents gs
/-- The rows after the chunks of several blocks, each given with its width,
have been appended. -/
def pasteBlocks (t : Nat → Nat) (contents : List (List Nat))
    (bs : List (Nat × List (List (List Nat)))) : List (List Nat) :=
  bs.foldl (fun c b => pasteBlock t c b.2) contents

/-- The lines of several blocks. -/
def blocksLines (bs : List (Nat × List (List (List Nat)))) : List (List Nat) :=
  (bs.map (fun b => b.2.flatten)).flatten

/-- The sum of the widths of several blocks. -/
def blocksWidth (bs : List (Nat × List (List (List Nat)))) : Nat :=
  (bs.map (fun b => b.1)).sum

/-- The lines are those of one taxon in the first block of an interleaved
alignment whose chunks are `w` bytes wide: blank lines, the line with the
label, and a chunk of `w` data bytes after the label (on the same line or on a
following one). -/
def TaxonLines.yields (t : Nat → Nat) (w : Nat) (r : TaxonLines) : Prop :=
  (∀ b ∈ r.blanks, Blank b) ∧ skipws r.first ≠ [] ∧ Yields t w r.data

/-- A cursor on an interleaved alignment of two taxa and five columns written
in two blocks, of three and of two columns, with an empty line between them. -/
def blocks_cursor : phylip_t :=
  { fp := str "A ACG\nB TTA\n\nTA\nCC\n", line := some (str "2 5"),
    chrstatus := example_table, no := -1, lineno := 1, stripped_count := 0,
    stripped := fun _ => 0 }

/-- A cursor on an interleaved alignment of two taxa written in one block of
three columns under a header that declares five columns. -/
def narrow_cursor : phylip_t :=
  { fp := str "A ACG\nB TTA\n", line := some (str "2 5"),
    chrstatus := example_table, no := -1, lineno := 1, stripped_count := 0,
    stripped := fun _ => 0 }

/-- A cursor on a sequential block of two taxa and three columns whose header
gives the count as the numeral 4294967298. -/
def wrapped_cursor : phylip_t :=
  { fp := str "A ACG\nB TTA\n", line := some (str "4294967298 3"),
    chrstatus := example_table, no := -1, lineno := 1, stripped_count := 0,
    stripped := fun _ => 0 }

/-- The inner loop of `phylip_parse_multisequential` ("skip empty lines"):
it reads lines until one holds something else than white space (`true`: `p`
is not NULL) or the stream ends (`false`: `p` is NULL). -/
def skip_blank_lines : Nat → phylip_t → Outcome (Bool × phylip_t)
  | 0, _ => .undefined
  | fuel + 1, fd =>
    match getnextline fd with
    | .ret (none, fd1) => .ret (false, fd1)
    | .ret (some line, fd1) =>
      match skipws line with
      | [] => skip_blank_lines fuel fd1
      | _ :: _ => .ret (true, fd1)
    | .fatal m => .fatal m
    | .nomem => .nomem
    | .undefined => .undefined

/-- The outer loop of `phylip_parse_multisequential`, entered with `count`
alignments stored in the array `msa` (a list here: growing the array by ten
slots copies the pointers stored so far).  A NULL from
`phylip_parse_sequential` ends the process through `fatal("%s", bpp_errmsg)`. -/
def multisequential_loop : Nat → phylip_t → Globals → List msa_t → Int →
    Outcome (List msa_t × Int × phylip_t × Globals)
  | 0, _, _, _, _ => .undefined
  | fuel + 1, fd, g, msa, count =>
    match phylip_parse_sequential fd g with
    | .ret (none, _, g1) => .fatal g1.bpp_errmsg
    | .ret (some m, fd1, g1) =>
      match skip_blank_lines (fd1.fp.length + 1) fd1 with
      | .ret (false, fd2) => .ret (msa ++ [m], count + 1, fd2, g1)
      | .ret (true, fd2) => multisequential_loop fuel fd2 g1 (msa ++ [m]) (count + 1)
      | .fatal x => .fatal x
      | .nomem => .nomem
      | .undefined => .undefined
    | .fatal x => .fatal x
    | .nomem => .nomem
    | .undefined => .undefined

/-- `phylip_parse_multisequential(fd, &count)`: the array of alignments, the
value of `*count`, the cursor and the error slot afterwards. -/
def phylip_parse_multisequential (fd : phylip_t) (g : Globals) :
    Outcome (List msa_t × Int × phylip_t × Globals) :=
  multisequential_loop (fd.fp.length + 2) fd g [] 0

/-- The lines of one sequential block (a locus): blank lines, the header, and
the lines of its taxa; `count` and `length` are the numbers of its header. -/
structure LocusLines where
  blanks : List (List Nat)
  hdr : List Nat
  recs : List TaxonLines
  count : Nat
  length : Nat

def LocusLines.lines (b : LocusLines) : List (List Nat) :=
  b.blanks ++ b.hdr :: (b.recs.map TaxonLines.lines).flatten

/-- The block is well formed: the header gives `count` and `length`, and
`count` complete taxa of `length` columns follow. -/
def LocusLines.ok (t : Nat → Nat) (g : Globals) (b : LocusLines) : Prop :=
  (∀ x ∈ b.blanks, Blank x) ∧
  (parse_header b.hdr PHYLIP_SEQUENTIAL g).1 = some ((b.count : Int), (b.length : Int)) ∧
  b.recs.length = b.count ∧ ∀ r ∈ b.recs, r.ok t b.length

/-- The alignment the block denotes. -/
def LocusLines.msa (t : Nat → Nat) (b : LocusLines) : msa_t :=
  msaOf b.count b.length (b.recs.map (fun r => some r.label)) (b.recs.map (TaxonLines.seq t))

/-- A cursor on two blocks of two taxa separated by an empty line and followed
by one. -/
def two_loci_cursor : phylip_t :=
  { fp := str "A ACG\nB TTA\n\n2 2\nC AC\nD GT\n\n", line := some (str "2 3"),
    chrstatus := example_table, no := -1, lineno := 1, stripped_count := 0,
    stripped := fun _ => 0 }

/-- A cursor on a block of two taxa followed by a line that is no header. -/
def bad_locus_cursor : phylip_t :=
  { fp := str "A ACG\nB TTA\nx\n", line := some (str "2 3"),
    chrstatus := example_table, no := -1, lineno := 1, stripped_count := 0,
    stripped := fun _ => 0 }

/-! ## Ambiguous sites (`msa.c`) -/

def BPP_DATA_DNA : Int := 0
def BPP_DATA_AA : Int := 1

/-- The table entry `map[(int)(msa->sequence[j][i])]`; `none` when the row is
null or absent, the cell is outside the buffer, or the index is outside the
table. -/
def msa_t.mapAt (map : Nat → Nat) (msa : msa_t) (j i : Nat) : Option Nat :=
  match msa.sequence[j]? with
  | some (some buf) =>
    match buf[i]? with
    | some c => tableAt map (schar c)
    | none => none
  | _ => none

/-- The loop `for (j = 0; j < msa->count; ++j) amb |= map[...]` of
`mark_ambiguous_sites` for the site `i`, with `n` taxa still to visit from
taxon `j` on. -/
def site_or (map : Nat → Nat) (msa : msa_t) (i : Nat) : Nat → Nat → Nat → Option Nat
  | 0, _, amb => some amb
  | n + 1, j, amb =>
    match msa.mapAt map j i with
    | none => none
    | some v => site_or map msa i n (j + 1) (amb ||| v)

/-- The loop over the sites of `mark_ambiguous_sites`, with `n` sites still to
visit from site `i` on: the vector of marks and the counter
`msa->amb_sites_count`. -/
def mark_sites (map : Nat → Nat) (msa : msa_t) :
    Nat → Nat → List Int → Int → Option (List Int × Int)
  | 0, _, ambvector, cnt => some (ambvector, cnt)
  | n + 1, i, ambvector, cnt =>
    match site_or map msa i msa.count.toNat 0 0 with
    | none => none
    | some amb =>
      if amb ≠ 0 then
        if i < ambvector.length then mark_sites map msa n (i + 1) (ambvector.set i 1) (cnt + 1)
        else none
      else mark_sites map msa n (i + 1) ambvector cnt

/-- `mark_ambiguous_sites(msa, map)`: the vector of marks and the alignment
with its counter set.  The vector comes from `xcalloc(msa->length, ...)`: a
negative length cannot be allocated. -/
def mark_ambiguous_sites (msa : msa_t) (map : Nat → Nat) : Outcome (List Int × msa_t) :=
  if msa.length < 0 then .nomem
  else
    match mark_sites map msa msa.length.toNat 0 (List.replicate msa.length.toNat 0) 0 with
    | none => .undefined
    | some (ambvector, cnt) => .ret (ambvector, { msa with amb_sites_count := cnt })

/-- The loop `for (i = 0; i < msa->length; ++i) amb_count += ambiguous[i]`,
with `n` sites still to visit from site `i` on. -/
def sum_marks (ambiguous : List Int) : Nat → Nat → Int → Option Int
  | 0, _, amb_count => some amb_count
  | n + 1, i, amb_count =>
    match ambiguous[i]? with
    | none => none
    | some a => sum_marks ambiguous n (i + 1) (amb_count + a)

/-- The loop `while (i < msa->length && !ambiguous[i]) ++i`. -/
def next_ambiguous (ambiguous : List Int) (length : Int) : Nat → Nat → Option Nat
  | 0, _ => none
  | fuel + 1, i =>
    if (i : Int) < length then
      match ambiguous[i]? with
      | none => none
      | some a => if a = 0 then next_ambiguous ambiguous length fuel (i + 1) else some i
    else some i

/-- The loop `while (j >= 0 && ambiguous[j]) --j`. -/
def prev_unambiguous (ambiguous : List Int) : Nat → Int → Option Int
  | 0, _ => none
  | fuel + 1, j =>
    if 0 ≤ j then
      match ambiguous[j.toNat]? with
      | none => none
      | some a => if a ≠ 0 then prev_unambiguous ambiguous fuel (j - 1) else some j
    else some j

/-- The exchange `SWAP(x[i], x[j])` of two cells of an array. -/
def swapCells {α : Type} (x : List α) (i j : Nat) : Option (List α) :=
  match x[i]?, x[j]? with
  | some a, some b => some ((x.set i b).set j a)
  | _, _ => none

/-- The loop `for (k = 0; k < msa->count; ++k) SWAP(msa->sequence[k][i],
msa->sequence[k][j])`, with `n` taxa still to visit from taxon `k` on. -/
def swap_sites (i j : Nat) : Nat → Nat → List (Option (List Nat)) →
    Option (List (Option (List Nat)))
  | 0, _, sequence => some sequence
  | n + 1, k, sequence =>
    match sequence[k]? with
    | some (some buf) =>
      match swapCells buf i j with
      | some buf1 => swap_sites i j n (k + 1) (sequence.set k (some buf1))
      | none => none
    | _ => none

/-- The loop of `remove_ambiguous` that moves the ambiguous sites to the right
end, entered at its test `i < msa->length && j >= 0`. -/
def move_ambiguous : Nat → msa_t → List Int → Nat → Int → Option (msa_t × List Int)
  | 0, _, _, _, _ => none
  | fuel + 1, msa, ambiguous, i, j =>
    if (i : Int) < msa.length ∧ 0 ≤ j then
      match next_ambiguous ambiguous msa.length (msa.length.toNat + 1) i with
      | none => none
      | some i1 =>
        match prev_unambiguous ambiguous (msa.length.toNat + 1) j with
        | none => none
        | some j1 =>
          if j1 < (i1 : Int) then some (msa, ambiguous)
          else
            match swap_sites i1 j1.toNat msa.count.toNat 0 msa.sequence with
            | none => none
            | some sequence1 =>
              match swapCells ambiguous j1.toNat i1 with
              | none => none
              | some ambiguous1 =>
                move_ambiguous fuel { msa with sequence := sequence1 } ambiguous1 (i1 + 1)
                  (j1 - 1)
    else some (msa, ambiguous)

/-- The loop `for (k = 0; k < msa->count; ++k) msa->sequence[k][msa->length] = 0`,
with `n` taxa still to visit from taxon `k` on. -/
def terminate_rows (length : Int) : Nat → Nat → List (Option (List Nat)) →
    Option (List (Option (List Nat)))
  | 0, _, sequence => some sequence
  | n + 1, k, sequence =>
    match sequence[k]? with
    | some (some buf) =>
      if 0 ≤ length ∧ length.toNat < buf.length then
        terminate_rows length n (k + 1) (sequence.set k (some (buf.set length.toNat 0)))
      else none
    | _ => none

/-- `remove_ambiguous(msa, ambiguous)`: the return value and the alignment
afterwards. -/
def remove_ambiguous (msa : msa_t) (ambiguous : List Int) : Outcome (Int × msa_t) :=
  match sum_marks ambiguous msa.length.toNat 0 0 with
  | none => .undefined
  | some amb_count =>
    if amb_count = msa.length then .ret (0, msa)
    else
      match move_ambiguous (msa.length.toNat + 1) msa ambiguous 0 (msa.length - 1) with
      | none => .undefined
      | some (msa1, _) =>
        match terminate_rows (msa1.length - amb_count) msa1.count.toNat 0 msa1.sequence with
        | none => .undefined
        | some sequence2 =>
          .ret (1, { msa1 with length := msa1.length - amb_count, sequence := sequence2 })

/-- `msa_remove_ambiguous(msa)`, with the table `pll_map_amb` (defined outside
the sources) as a parameter. -/
def msa_remove_ambiguous (pll_map_amb : Nat → Nat) (msa : msa_t) : Outcome (Int × msa_t) :=
  match mark_ambiguous_sites msa pll_map_amb with
  | .ret (ambiguous, msa1) => remove_ambiguous msa1 ambiguous
  | .fatal m => .fatal m
  | .nomem => .nomem
  | .undefined => .undefined

/-- A table of ambiguity codes for the examples: `N` and `R` are ambiguous. -/
def example_amb : Nat → Nat := fun c => if c = 78 then 15 else if c = 82 then 5 else 0

/-- An alignment of two taxa and four sites whose first and third sites hold
an ambiguity code. -/
def amb_msa : msa_t :=
  { count := 2, length := 4,
    sequence := [some (str "NACG" ++ [0]), some (str "TARC" ++ [0])],
    label := [some (str "A"), some (str "B")] }
/-- The alignment holds the row buffers `rows`: `count` rows, none of them
null, each with room for `length` bytes and a terminator, and every byte of
the `length` columns below 128 (an index inside the 256-entry tables). -/
def msa_t.HasRows (msa : msa_t) (rows : List (List Nat)) : Prop :=
  0 ≤ msa.length ∧ msa.count = rows.length ∧ msa.sequence = rows.map some ∧
  ∀ buf ∈ rows, msa.length.toNat < buf.length ∧ ∀ c ∈ buf.take msa.length.toNat, c < 128

/-- The site `i` is ambiguous: the byte of some taxon at `i` maps to a
non-zero code. -/
def ambiguousSite (map : Nat → Nat) (rows : List (List Nat)) (i : Nat) : Bool :=
  rows.any (fun buf => map (buf.getD i 0) != 0)

/-- The marks of the first `n` sites: 1 for an ambiguous site, 0 for the
others. -/
def siteMarks (map : Nat → Nat) (rows : List (List Nat)) (n : Nat) : List Int :=
  (List.range n).map (fun i => if ambiguousSite map rows i then 1 else 0)

/-- The number of ambiguous sites among the first `n`. -/
def ambiguousCount (map : Nat → Nat) (rows : List (List Nat)) (n : Nat) : Nat :=
  ((List.range n).filter (ambiguousSite map rows)).length

/-- The array `l` with its cells rearranged: cell `c` holds what cell `s c`
held. -/
def permuteCells {α : Type} (d : α) (s : Nat → Nat) (l : List α) : List α :=
  (List.range l.length).map (fun c => l.getD (s c) d)

/-- The state of the loop of `remove_ambiguous` at its test, in terms of the
marks `amb0` it started with and of the map `s` that tells for every cell
which original site it holds: the sites left of `i` are free of ambiguity,
the ones right of `j` are ambiguous, the ones from `i` to `j` have not moved;
a site left of `i` that was free of ambiguity has not moved, and the others
left of `i` hold sites taken from the right of `j`, from right to left. -/
def MoveInv (amb0 : List Int) (s : Nat → Nat) (i : Nat) (j : Int) : Prop :=
  (∀ c, amb0.length ≤ c → s c = c) ∧
  (i : Int) ≤ j + 1 ∧ j < amb0.length ∧
  (∀ c, c < i → amb0.getD (s c) 0 = 0) ∧
  (∀ c : Nat, j < c → c < amb0.length → amb0.getD (s c) 0 ≠ 0) ∧
  (∀ c : Nat, i ≤ c → (c : Int) ≤ j → s c = c) ∧
  (∀ c, c < i → amb0.getD c 0 = 0 → s c = c) ∧
  (∀ c, c < i → amb0.getD c 0 ≠ 0 → j < s c ∧ s c < amb0.length) ∧
  (∀ c d, c < d → d < i → amb0.getD c 0 ≠ 0 → amb0.getD d 0 ≠ 0 → s d < s c)

/-- The sites when the loop of `remove_ambiguous` is left: the first `n` cells
hold the sites free of ambiguity, the others the ambiguous ones; a site below
`n` that was free of ambiguity has not moved, and the other cells below `n`
hold sites taken from `n` on, from right to left. -/
def MoveDone (amb0 : List Int) (s : Nat → Nat) (n : Nat) : Prop :=
  (∀ c, amb0.length ≤ c → s c = c) ∧ n ≤ amb0.length ∧
  (∀ c, c < amb0.length → (c < n ↔ amb0.getD (s c) 0 = 0)) ∧
  (∀ c, c < n → amb0.getD c 0 = 0 → s c = c) ∧
  (∀ c, c < n → amb0.getD c 0 ≠ 0 → n ≤ s c ∧ s c < amb0.length) ∧
  (∀ c d, c < d → d < n → amb0.getD c 0 ≠ 0 → amb0.getD d 0 ≠ 0 → s d < s c)

/-- The row buffers of `amb_msa`. -/
def amb_rows : List (List Nat) := [str "NACG" ++ [0], str "TARC" ++ [0]]

/-- An alignment of two taxa and two sites that are both ambiguous. -/
def all_amb_msa : msa_t :=
  { count := 2, length := 2, sequence := [some (str "NA" ++ [0]), some (str "TR" ++ [0])],
    label := [some (str "A"), some (str "B")] }

/-! ## Missing sequences (`msa.c`) -/

/-- The loop `for (j = 0; j < msa->length; ++j) if (!map[...]) break;` of
`msa_remove_missing_sequences` for the taxon `i`, with `n` sites still to
visit from site `j` on: the value of `j` when the loop is left. -/
def missing_run (map : Nat → Nat) (msa : msa_t) (i : Nat) : Nat → Nat → Option Nat
  | 0, j => some j
  | n + 1, j =>
    match msa.mapAt map i j with
    | none => none
    | some v => if v = 0 then some j else missing_run map msa i n (j + 1)

/-- The loop "go over the sequences and delete those that comprise of missing
data", with `n` taxa still to visit from taxon `i` on: the alignment with the
slots of the deleted taxa nulled, and the counter `deleted`. -/
def delete_missing (map : Nat → Nat) : Nat → Nat → msa_t → Int → Option (msa_t × Int)
  | 0, _, msa, deleted => some (msa, deleted)
  | n + 1, i, msa, deleted =>
    match missing_run map msa i msa.length.toNat 0 with
    | none => none
    | some j =>
      if (j : Int) = msa.length then
        if i < msa.sequence.length ∧ i < msa.label.length then
          delete_missing map n (i + 1)
            { msa with sequence := msa.sequence.set i none, label := msa.label.set i none }
            (deleted + 1)
        else none
      else delete_missing map n (i + 1) msa deleted

/-- The loop "populate new arrays", with `n` slots still to visit from slot `i`
on; `seq` and `label` hold the `k` pointers copied so far, and `size` is the
number of cells of the new arrays.  The `assert` of the loop fails when one of
the two pointers of a slot is null and the other is not. -/
def populate_arrays (msa : msa_t) (size : Int) :
    Nat → Nat → List (Option (List Nat)) → List (Option (List Nat)) →
    Option (List (Option (List Nat)) × List (Option (List Nat)))
  | 0, _, seq, label => some (seq, label)
  | n + 1, i, seq, label =>
    match msa.sequence[i]?, msa.label[i]? with
    | some s, some l =>
      if (s.isSome ∧ l.isSome) ∨ (s.isNone ∧ l.isNone) then
        if s.isSome then
          if (seq.length : Int) < size then
            populate_arrays msa size n (i + 1) (seq ++ [s]) (label ++ [l])
          else none
        else populate_arrays msa size n (i + 1) seq label
      else none
    | _, _ => none

/-- `msa_remove_missing_sequences(msa)`, with the two tables
`pll_map_nt_missing` and `pll_map_aa_missing` (defined outside the sources) as
parameters: the return value and the alignment afterwards. -/
def msa_remove_missing_sequences (pll_map_nt_missing pll_map_aa_missing : Nat → Nat)
    (msa : msa_t) : Outcome (Int × msa_t) :=
  match delete_missing
      (if msa.dtype = BPP_DATA_DNA then pll_map_nt_missing else pll_map_aa_missing)
      msa.count.toNat 0 msa 0 with
  | none => .undefined
  | some (msa1, deleted) =>
    if ¬ (deleted ≤ msa1.count) then .undefined
    else if msa1.count = deleted then .ret (-1, msa1)
    else if deleted ≠ 0 then
      match populate_arrays msa1 (msa1.count - deleted) msa1.count.toNat 0 [] [] with
      | none => .undefined
      | some (seq, label) =>
        .ret (deleted, { msa1 with sequence := seq, label := label,
                                   count := msa1.count - deleted })
    else .ret (deleted, msa1)

/-- The alignment holds the taxa `taxa` (label and row buffer of each). -/
def msa_t.HasTaxa (msa : msa_t) (taxa : List (List Nat × List Nat)) : Prop :=
  msa.HasRows (taxa.map (fun p => p.2)) ∧ msa.label = taxa.map (fun p => some p.1)

/-- The taxon is fully missing: every byte of its row maps to non-zero in the
table of missing data. -/
def fullyMissing (map : Nat → Nat) (length : Nat) (row : List Nat) : Bool :=
  (row.take length).all (fun c => map c != 0)

/-- A table of missing data for the examples: `?`, `-` and `N`. -/
def example_missing : Nat → Nat := fun c => if c = 63 ∨ c = 45 ∨ c = 78 then 1 else 0

/-- Three taxa of which the second is fully missing. -/
def gap_taxa : List (List Nat × List Nat) :=
  [(str "A", str "AC-T" ++ [0]), (str "B", str "??N-" ++ [0]), (str "C", str "?CGT" ++ [0])]

def gap_msa : msa_t :=
  { count := 3, length := 4, sequence := gap_taxa.map (fun p => some p.2),
    label := gap_taxa.map (fun p => some p.1) }

/-- Two taxa that are both fully missing. -/
def void_taxa : List (List Nat × List Nat) :=
  [(str "A", str "??" ++ [0]), (str "B", str "N-" ++ [0])]

def void_msa : msa_t :=
  { count := 2, length := 2, sequence := void_taxa.map (fun p => some p.2),
    label := void_taxa.map (fun p => some p.1) }

/-- The slot of a taxon in the array `sequence` after the deleting loop: null
when the taxon is fully missing. -/
def keptSequence (map : Nat → Nat) (length : Nat) (p : List Nat × List Nat) :
    Option (List Nat) :=
  if fullyMissing map length p.2 then none else some p.2

/-- The slot of a taxon in the array `label` after the deleting loop. -/
def keptLabel (map : Nat → Nat) (length : Nat) (p : List Nat × List Nat) :
    Option (List Nat) :=
  if fullyMissing map length p.2 then none else some p.1

/-- The taxa that are not fully missing, in their order. -/
def survivors (map : Nat → Nat) (length : Nat) (taxa : List (List Nat × List Nat)) :
    List (List Nat × List Nat) :=
  taxa.filter (fun p => !fullyMissing map length p.2)

/-- The number of fully missing taxa. -/
def missingCount (map : Nat → Nat) (length : Nat) (taxa : List (List Nat × List Nat)) : Nat :=
  (taxa.filter (fun p => fullyMissing map length p.2)).length

/-! ## Concatenation of loci (`dstat.c`) -/

/-- The loop `for (i = 0; i < msa_count; ++i) total_length += msa_list[i]->length`,
with `n` loci still to visit from locus `i` on. -/
def total_length_loop (msa_list : List msa_t) : Nat → Nat → Int → Option Int
  | 0, _, total => some total
  | n + 1, i, total =>
    match msa_list[i]? with
    | none => none
    | some m => total_length_loop msa_list n (i + 1) (total + m.length)

/-- The loop `for (m = 0; m < k; ++m) if (!strcmp(l, msa->label[m])) break;`
over the `k` labels stored so far: the value of `m` when the loop is left. -/
def label_index (l : List Nat) : List (List Nat) → Nat
  | [] => 0
  | x :: xs => if l = x then 0 else label_index l xs + 1

def msg_more_in_alignment (i : Nat) : List Nat :=
  str "More than 4 sequences in alignment " ++ fmt_d (i : Int)

def msg_more_in_full : List Nat := str "More than 4 sequences in full alignment"

def msg_only (k : Nat) : List Nat :=
  str "Error: only " ++ fmt_d (k : Int) ++ str " sequences in alignments. Need 4 sequences."

/-- The loop over the labels of one locus in the "naive check of species
labels", with `n` labels still to visit from label `j` on; `labels` are the
`k` labels stored in the result so far (`xstrdup` copies a label). -/
def collect_labels (m : msa_t) : Nat → Nat → List (List Nat) → Outcome (List (List Nat))
  | 0, _, labels => .ret labels
  | n + 1, j, labels =>
    match m.label[j]? with
    | some (some l) =>
      if label_index l labels = labels.length then
        if labels.length = 4 then .fatal msg_more_in_full
        else collect_labels m n (j + 1) (labels ++ [l])
      else collect_labels m n (j + 1) labels
    | _ => .undefined

/-- The loop over the loci in the "naive check of species labels", with `n`
loci still to visit from locus `i` on. -/
def check_labels (msa_list : List msa_t) :
    Nat → Nat → List (List Nat) → Outcome (List (List Nat))
  | 0, _, labels => .ret labels
  | n + 1, i, labels =>
    match msa_list[i]? with
    | none => .undefined
    | some m =>
      if m.count > 4 then .fatal (msg_more_in_alignment i)
      else
        match collect_labels m m.count.toNat 0 labels with
        | .ret labels1 => check_labels msa_list n (i + 1) labels1
        | .fatal x => .fatal x
        | .nomem => .nomem
        | .undefined => .undefined

/-- The loop `for (j = 0; j < msa_list[i]->count; ++j) if (!strcmp(...)) break;`
that looks for the taxon labelled `l` in a locus, with `n` taxa still to visit
from taxon `j` on: the value of `j` when the loop is left. -/
def find_taxon (m : msa_t) (l : List Nat) : Nat → Nat → Option Nat
  | 0, j => some j
  | n + 1, j =>
    match m.label[j]? with
    | some (some x) => if x = l then some j else find_taxon m l n (j + 1)
    | _ => none

/-- The bytes `data` stored into `buf` from the cell `offset` on (`memset`,
`memcpy`); `none` when they do not fit. -/
def write_cells (buf : List Nat) (offset : Nat) (data : List Nat) : Option (List Nat) :=
  if offset + data.length ≤ buf.length then
    some (buf.take offset ++ data ++ buf.drop (offset + data.length))
  else none

/-- The loop over the four rows of the result for one locus `m`, with `n` rows
still to fill from row `r` on: `memset` with `?` when the locus has no taxon
with the label of the row, `memcpy` of its sequence otherwise. -/
def fill_locus (m : msa_t) (labels : List (List Nat)) (offset : Int) :
    Nat → Nat → List (Option (List Nat)) → Option (List (Option (List Nat)))
  | 0, _, sequence => some sequence
  | n + 1, r, sequence =>
    match labels[r]?, sequence[r]? with
    | some l, some (some buf) =>
      match find_taxon m l m.count.toNat 0 with
      | none => none
      | some j =>
        if m.length < 0 ∨ offset < 0 then none
        else if (j : Int) = m.count then
          match write_cells buf offset.toNat (List.replicate m.length.toNat 63) with
          | none => none
          | some buf1 => fill_locus m labels offset n (r + 1) (sequence.set r (some buf1))
        else
          match m.sequence[j]? with
          | some (some src) =>
            if m.length.toNat ≤ src.length then
              match write_cells buf offset.toNat (src.take m.length.toNat) with
              | none => none
              | some buf1 => fill_locus m labels offset n (r + 1) (sequence.set r (some buf1))
            else none
          | _ => none
    | _, _ => none

/-- The loop "create concatenated alignment", with `n` loci still to visit
from locus `i` on. -/
def fill_loci (msa_list : List msa_t) (labels : List (List Nat)) :
    Nat → Nat → Int → List (Option (List Nat)) → Option (List (Option (List Nat)) × Int)
  | 0, _, offset, sequence => some (sequence, offset)
  | n + 1, i, offset, sequence =>
    match msa_list[i]? with
    | none => none
    | some m =>
      match fill_locus m labels offset labels.length 0 sequence with
      | none => none
      | some sequence1 => fill_loci msa_list labels n (i + 1) (offset + m.length) sequence1

/-- `phylip_concat(msa_list, msa_count)`.  The four buffers come from
`xmalloc(total_length + 1)` (a negative size cannot be allocated; their cells
are indeterminate in C and hold 0 here) and the result from `xcalloc`, so
that its other fields are 0. -/
def phylip_concat (msa_list : List msa_t) (msa_count : Int) : Outcome msa_t :=
  match total_length_loop msa_list msa_count.toNat 0 0 with
  | none => .undefined
  | some total_length =>
    if total_length + 1 < 0 then .nomem
    else
      match check_labels msa_list msa_count.toNat 0 [] with
      | .ret labels =>
        if labels.length ≠ 4 then .fatal (msg_only labels.length)
        else
          match fill_loci msa_list labels msa_count.toNat 0 0
              (List.replicate 4 (some (List.replicate (total_length + 1).toNat 0))) with
          | none => .undefined
          | some (sequence, offset) =>
            if offset ≠ total_length then .undefined
            else
              match terminate_rows total_length 4 0 sequence with
              | none => .undefined
              | some sequence1 =>
                .ret { count := 4, length := total_length, sequence := sequence1,
                       label := labels.map some, amb_sites_count := 0, dtype := 0 }
      | .fatal x => .fatal x
      | .nomem => .nomem
      | .undefined => .undefined

/-- The union of the labels in the order of their first appearance. -/
def firstSeen : List (List Nat) → List (List Nat)
  | [] => []
  | a :: l => a :: (firstSeen l).filter (fun x => x ≠ a)

/-- The alignment lists the taxa `taxa` (label and row buffer of each), and
every row has room for `length` bytes. -/
def msa_t.Lists (msa : msa_t) (taxa : List (List Nat × List Nat)) : Prop :=
  0 ≤ msa.length ∧ msa.count = taxa.length ∧
  msa.sequence = taxa.map (fun p => some p.2) ∧ msa.label = taxa.map (fun p => some p.1) ∧
  ∀ p ∈ taxa, msa.length.toNat ≤ p.2.length

/-- The columns of one locus in the row of the result labelled `l`: the
sequence of the first taxon of the locus with that label, or `?` in every
column when the locus has none. -/
def locusChunk (l : List Nat) (length : Nat) (taxa : List (List Nat × List Nat)) : List Nat :=
  match taxa.find? (fun p => p.1 = l) with
  | some p => p.2.take length
  | none => List.replicate length 63

/-- The locus A of the example: length 5, taxa W and X. -/
def locus_A : msa_t :=
  { count := 2, length := 5,
    sequence := [some (str "ACGTA" ++ [0]), some (str "CCGTA" ++ [0])],
    label := [some (str "W"), some (str "X")] }

/-- All labels of the loci, locus by locus. -/
def allLabels (loci : List (msa_t × List (List Nat × List Nat))) : List (List Nat) :=
  (loci.map (fun q => q.2.map (fun p => p.1))).flatten
/-- The number of columns of the loci together. -/
def colsOf (loci : List (msa_t × List (List Nat × List Nat))) : Nat :=
  (loci.map (fun q => q.1.length.toNat)).sum

/-- The row of the result labelled `l`, without its terminator: the columns
of the loci one after the other. -/
def concatRow (l : List Nat) (loci : List (msa_t × List (List Nat × List Nat))) : List Nat :=
  (loci.map (fun q => locusChunk l q.1.length.toNat q.2)).flatten
/-- The taxa of locus A of the example. -/
def taxa_A : List (List Nat × List Nat) :=
  [(str "W", str "ACGTA" ++ [0]), (str "X", str "CCGTA" ++ [0])]

/-- A table in which every byte is fatal. -/
def fatal_table : Nat → Nat := fun _ => 2

/-- A cursor whose table is `example_table`, with nothing left to read. -/
def idle_cursor : phylip_t :=
  { fp := [], line := some (str "AC!G"), chrstatus := example_table, no := -1, lineno := 1,
    stripped_count := 0, stripped := fun _ => 0 }

/-- An alignment of one taxon and three columns, the row still empty. -/
def one_row_msa : msa_t :=
  { count := 1, length := 3, sequence := [some [0, 0, 0, 0]], label := [some (str "A")] }

/-- The lines of the contents of a stream, in the words of the specification:
the maximal newline-free segments, each without the newline that ends it; the
bytes after the last newline are a last line when there are any.  `cur` holds
the bytes of the segment that is being collected. -/
def segmentsFrom (cur : List Nat) : List Nat → List (List Nat)
  | [] => if cur = [] then [] else [cur]
  | c :: fp => if c = 10 then cur :: segmentsFrom [] fp else segmentsFrom (cur ++ [c]) fp

/-- The lines of the contents of a stream. -/
def segments (fp : List Nat) : List (List Nat) := segmentsFrom [] fp

/-- The results of `n` successive calls of `getnextline` on a cursor, and the
cursor after the last call. -/
def getnextline_calls : Nat → phylip_t → Outcome (List (Option (List Nat)) × phylip_t)
  | 0, fd => .ret ([], fd)
  | n + 1, fd =>
    match getnextline fd with
    | .ret (l, fd1) =>
      match getnextline_calls n fd1 with
      | .ret (ls, fd2) => .ret (l :: ls, fd2)
      | .fatal m => .fatal m
      | .nomem => .nomem
      | .undefined => .undefined
    | .fatal m => .fatal m
    | .nomem => .nomem
    | .undefined => .undefined

/-- A stream of two lines: a line of 5000 bytes, which `fgets` delivers in
three pieces, and a last line without a newline. -/
def long_line_cursor : phylip_t :=
  { fp := List.replicate 5000 65 ++ 10 :: [66], line := none, chrstatus := example_table,
    no := -1, lineno := 0, stripped_count := 0, stripped := fun _ => 0 }

/-- A cursor on a block whose header carries a third token. -/
def trailing_cursor : phylip_t :=
  { fp := str "A ACG\nB TTA\n", line := some (str "2 3 x"), chrstatus := example_table,
    no := -1, lineno := 1, stripped_count := 0, stripped := fun _ => 0 }

/-- The label of a taxon line from which the leading white space has been
removed, as the amended statement words it: the bytes before the first space
when the line has a space; otherwise the bytes before the first tab when it
has a tab; otherwise the bytes before the first carriage return when it has
one; otherwise the whole line. -/
def spaceFirstLabel (p : List Nat) : List Nat :=
  if 32 ∈ p then p.takeWhile (fun x => x ≠ 32)
  else if 9 ∈ p then p.takeWhile (fun x => x ≠ 9)
  else if 13 ∈ p then p.takeWhile (fun x => x ≠ 13)
  else p

/-- A cursor on a sequential block of one taxon whose line holds a tab before
its first space. -/
def tab_label_cursor : phylip_t :=
  { fp := str "A\tC ACG\n", line := some (str "1 3"), chrstatus := example_table,
    no := -1, lineno := 1, stripped_count := 0, stripped := fun _ => 0 }

/-- A cursor on an interleaved alignment of one taxon in one block. -/
def single_cursor : phylip_t :=
  { fp := str "A ACG\n", line := some (str "1 3"), chrstatus := example_table,
    no := -1, lineno := 1, stripped_count := 0, stripped := fun _ => 0 }

/-- A cursor on a block of one taxon and three columns whose line holds a
fourth data byte. -/
def over_cursor : phylip_t :=
  { fp := str "A ACGT\n", line := some (str "1 3"), chrstatus := example_table,
    no := -1, lineno := 1, stripped_count := 0, stripped := fun _ => 0 }

/-- A cursor on a block of one taxon and three columns whose line holds a
fatal byte after the third data byte. -/
def bang_cursor : phylip_t :=
  { fp := str "A ACG!\n", line := some (str "1 3"), chrstatus := example_table,
    no := -1, lineno := 1, stripped_count := 0, stripped := fun _ => 0 }

/-- A cursor on a block of two taxa and three columns that is followed by the
line of a third taxon. -/
def extra_cursor : phylip_t :=
  { fp := str "A ACG\nB TTA\nC GGG\n", line := some (str "2 3"), chrstatus := example_table,
    no := -1, lineno := 1, stripped_count := 0, stripped := fun _ => 0 }

/-- The contents of a file whose third line holds a fatal byte. -/
def bang_file : List Nat := str "1 3\nA AC\nG!\n"

/-! ## The filter of `cmd_extract` (`extract.c`) -/

/-- `ends_with(x, suffix)` of `extract.c`. -/
def ends_with (x suffix : List Nat) : Int :=
  if suffix.length > x.length then 0
  else if x.drop (x.length - suffix.length) = suffix then 1
  else 0

/-- `starts_with(x, prefix)` of `extract.c`: `strncmp` over the length of the
second string. -/
def starts_with (x pfx : List Nat) : Int :=
  if pfx.length > x.length then 0
  else if x.take pfx.length = pfx then 1
  else 0

/-- The loop "separate specimen and sequences" of `cmd_extract`: the tokens
that start with `^` and the other ones, each group in the order of the
list. -/
def separate_tokens : List (List Nat) → List (List Nat) × List (List Nat)
  | [] => ([], [])
  | tok :: rest =>
    if tok.head? = some 94 then (tok :: (separate_tokens rest).1, (separate_tokens rest).2)
    else ((separate_tokens rest).1, tok :: (separate_tokens rest).2)

/-- The loops `for (k = 0; k < count; ++k) if (test(label, tokens[k])) break;`
of `cmd_extract`: the value of `k` when the loop is left. -/
def first_hit (test : List Nat → List Nat → Int) (label : List Nat) : List (List Nat) → Nat
  | [] => 0
  | tok :: rest => if test label tok ≠ 0 then 0 else first_hit test label rest + 1

/-- The value of `index[j]` after the two loops over the tokens. -/
def mark_taxon (sp_tokens seq_tokens : List (List Nat)) (label : List Nat) : Int :=
  let index1 : Int := if first_hit ends_with label sp_tokens ≠ sp_tokens.length then 1 else 0
  if first_hit starts_with label seq_tokens ≠ seq_tokens.length then 1 else index1

/-- The loop over the taxa of one locus that fills `index` and counts the
taxa to copy, with `n` taxa still to visit from taxon `j` on. -/
def mark_taxa (m : msa_t) (sp_tokens seq_tokens : List (List Nat)) :
    Nat → Nat → List Int → Int → Option (List Int × Int)
  | 0, _, index, seq_copy_count => some (index, seq_copy_count)
  | n + 1, j, index, seq_copy_count =>
    match m.label[j]? with
    | some (some l) =>
      if j < index.length then
        mark_taxa m sp_tokens seq_tokens n (j + 1)
          (index.set j (mark_taxon sp_tokens seq_tokens l))
          (if mark_taxon sp_tokens seq_tokens l ≠ 0 then seq_copy_count + 1
           else seq_copy_count)
      else none
    | _ => none

/-- The copy loop of `cmd_extract`, with `n` taxa still to visit from taxon
`j` on; `xstrdup` copies a string up to its terminator. -/
def copy_taxa (m : msa_t) (index : List Int) :
    Nat → Nat → List (Option (List Nat)) → List (Option (List Nat)) →
    Option (List (Option (List Nat)) × List (Option (List Nat)))
  | 0, _, label, sequence => some (label, sequence)
  | n + 1, j, label, sequence =>
    match index[j]? with
    | none => none
    | some v =>
      if v ≠ 0 then
        match m.label[j]?, m.sequence[j]? with
        | some (some l), some (some s) =>
          if 0 ∈ s then
            copy_taxa m index n (j + 1) (label ++ [some l]) (sequence ++ [some (cstring s ++ [0])])
          else none
        | _, _ => none
      else copy_taxa m index n (j + 1) label sequence

/-- The loop "filter out sequences" of `cmd_extract` over the loci that are
left, with the list `new_list` built so far.  The index array is cleared for
every locus; the new alignment comes from `xcalloc`, so that its other fields
are 0. -/
def filter_loci (sp_tokens seq_tokens : List (List Nat)) :
    List msa_t → List msa_t → Outcome (List msa_t)
  | [], new_list => .ret new_list
  | m :: rest, new_list =>
    if m.count < 0 then .undefined
    else
      match mark_taxa m sp_tokens seq_tokens m.count.toNat 0
              (List.replicate m.count.toNat 0) 0 with
      | none => .undefined
      | some (index, seq_copy_count) =>
        if seq_copy_count = 0 then filter_loci sp_tokens seq_tokens rest new_list
        else
          match copy_taxa m index m.count.toNat 0 [] [] with
          | none => .undefined
          | some (label, sequence) =>
            filter_loci sp_tokens seq_tokens rest
              (new_list ++ [{ count := seq_copy_count, length := m.length,
                              sequence := sequence, label := label,
                              amb_sites_count := 0, dtype := 0 }])

/-- The part of `cmd_extract` between the parse of the tokens and the output:
the tokens are separated and the loci are filtered.  The result is the list
`new_list` that is printed. -/
def cmd_extract_filter (tokens : List (List Nat)) (msa_list : List msa_t) :
    Outcome (List msa_t) :=
  filter_loci (separate_tokens tokens).1 (separate_tokens tokens).2 msa_list []

/-- The alignment lists the taxa `taxa` (label and row buffer of each), and
every row buffer holds a terminator. -/
def msa_t.Rows (msa : msa_t) (taxa : List (List Nat × List Nat)) : Prop :=
  msa.count = taxa.length ∧ msa.sequence = taxa.map (fun p => some p.2) ∧
  msa.label = taxa.map (fun p => some p.1) ∧ ∀ p ∈ taxa, 0 ∈ p.2

/-- A taxon is kept, in the words of the specification: its label ends with
one of the tokens that begin with `^` (the whole token is the ending), or
starts with one of the other tokens. -/
def keptBy (tokens : List (List Nat)) (label : List Nat) : Bool :=
  tokens.any (fun tok =>
    if tok.head? = some 94 then tok.isSuffixOf label else tok.isPrefixOf label)

/-- The locus of the output for a locus of the input: the kept taxa in their
order, under the length of the input; no locus when no taxon is kept. -/
def extractLocus (tokens : List (List Nat)) (q : msa_t × List (List Nat × List Nat)) :
    Option msa_t :=
  if q.2.filter (fun p => keptBy tokens p.1) = [] then none
  else
    some { count := ((q.2.filter (fun p => keptBy tokens p.1)).length : Int),
           length := q.1.length,
           sequence := (q.2.filter (fun p => keptBy tokens p.1)).map
             (fun p => some (cstring p.2 ++ [0])),
           label := (q.2.filter (fun p => keptBy tokens p.1)).map (fun p => some p.1),
           amb_sites_count := 0, dtype := 0 }

/-- Tokens of the example: the ending `^a` and the beginning `X`. -/
def example_tokens : List (List Nat) := [str "^a", str "X"]

/-- Taxa of the example. -/
def extract_taxa : List (List Nat × List Nat) :=
  [(str "s1^a", str "ACG" ++ [0]), (str "s2^b", str "TTA" ++ [0]), (str "Xy", str "GGA" ++ [0])]

/-- A locus of the example with the taxa `s1^a`, `s2^b` and `Xy`. -/
def extract_msa : msa_t :=
  { count := 3, length := 3, sequence := extract_taxa.map (fun p => some p.2),
    label := extract_taxa.map (fun p => some p.1) }

/-- A locus of the example of which no taxon is kept. -/
def dropped_msa : msa_t :=
  { count := 1, length := 2, sequence := [some (str "AC" ++ [0])], label := [some (str "q")] }

/-- What a call of a block parser tells its caller: the alignment or NULL and
the error slot, without the cursor. -/
def verdict : Outcome (Option msa_t × phylip_t × Globals) → Outcome (Option msa_t × Globals)
  | .ret (r, _, g) => .ret (r, g)
  | .fatal m => .fatal m
  | .nomem => .nomem
  | .undefined => .undefined

/-- Two cursors that may differ in what they have read and counted, but not in
what they have still to read: the same table, the same line number and the
same lines to come. -/
def SameRest (fa fb : phylip_t) (ls : List (List Nat)) : Prop :=
  fa.chrstatus = fb.chrstatus ∧ fa.lineno = fb.lineno ∧ Reads fa ls ∧ Reads fb ls

/-- The label slots and the rows after complete taxa have been stored from
taxon `k` on. -/
def afterRecs (t : Nat → Nat) :
    List TaxonLines → Nat → List (Option (List Nat)) × List (List Nat) →
    List (Option (List Nat)) × List (List Nat)
  | [], _, s => s
  | r :: recs, k, s => afterRecs t recs (k + 1) (s.1.set k (some r.label), s.2.set k (r.seq t))
/-- A cursor on the block of two taxa and three columns with blank lines
before the header, after it and between the two taxa. -/
def airy_cursor : phylip_t :=
  { fp := str " \n2 3\n\nA ACG\n\t\n\nB  TTA\n", line := some [], chrstatus := example_table,
    no := -1, lineno := 1, stripped_count := 0, stripped := fun _ => 0 }

/-- The contents of a file that holds two blank lines and nothing else. -/
def blank_file : List Nat := str "\n \t\n"

/-- A cursor whose line buffer holds a blank line, with one more blank line to
read before the stream ends. -/
def blank_cursor : phylip_t :=
  { fp := str " \t\n", line := some [], chrstatus := example_table, no := -1, lineno := 1,
    stripped_count := 0, stripped := fun _ => 0 }

/-- A cursor on a header whose count is negative. -/
def negative_cursor : phylip_t :=
  { fp := str "A ACGTAC\n", line := some (str "-3 6"), chrstatus := example_table, no := -1,
    lineno := 1, stripped_count := 0, stripped := fun _ => 0 }

/-- The bytes of a line before its first fatal byte (class 2). -/
def beforeFatal (t : Nat → Nat) (p : List Nat) : List Nat :=
  p.takeWhile (fun c => chrclass t c != some 2)

/-- An alignment of one taxon and three columns whose row holds one byte and
a mark `9` in the cell after the terminator. -/
def marked_row_msa : msa_t :=
  { count := 1, length := 3, sequence := [some [84, 0, 0, 0, 9]], label := [some (str "A")] }

/-- The marks of `amb_msa` under `example_amb`: the first and the third site
are ambiguous. -/
def amb_marks : List Int := [1, 0, 1, 0]

/-- The first block of `two_loci_cursor`: the header "2 3" and the taxa A
and B. -/
def first_locus : LocusLines :=
  { blanks := [], hdr := str "2 3",
    recs := [⟨[], str "A ACG", []⟩, ⟨[], str "B TTA", []⟩], count := 2, length := 3 }

/-- The second block of `two_loci_cursor`, with the empty line before its
header: the header "2 2" and the taxa C and D. -/
def second_locus : LocusLines :=
  { blanks := [[]], hdr := str "2 2",
    recs := [⟨[], str "C AC", []⟩, ⟨[], str "D GT", []⟩], count := 2, length := 2 }

/-! ## The score of a site pattern (`dstat.c`) -/

/-- The bit `(s >> i) & 1` of a state mask. -/
def mask_bit (s i : Nat) : Nat := (s >>> i) &&& 1

/-- The value `code` of `abba_baba_score` for the indices `ii[0..3]`; `s0`,
..., `s3` are the masks `s[0]`, ..., `s[3]`. -/
def score_code (s0 s1 s2 s3 i0 i1 i2 i3 : Nat) : Nat :=
  (mask_bit s0 i0 <<< 3) ||| (mask_bit s1 i1 <<< 2) ||| (mask_bit s2 i2 <<< 1) |||
    mask_bit s3 i3

/-- The body of the innermost loop of `abba_baba_score` on the counters
`(pats, abba, baba)`. -/
def score_body (s0 s1 s2 s3 i0 i1 i2 i3 : Nat) (c : Int × Int × Int) : Int × Int × Int :=
  if score_code s0 s1 s2 s3 i0 i1 i2 i3 = 15 then
    (c.1 + 1,
     (if i0 = i3 ∧ i1 = i2 ∧ i0 ≠ i1 then c.2.1 + 1 else c.2.1),
     (if i0 = i2 ∧ i1 = i3 ∧ i0 ≠ i1 then c.2.2 + 1 else c.2.2))
  else c

/-- A loop `for (i = 0; i < 4; ++i)` over a state. -/
def for4 {α : Type} (body : Nat → α → α) (a : α) : α :=
  (List.range 4).foldl (fun acc i => body i acc) a

/-- The four nested loops of `abba_baba_score`: the counters
`(pats, abba, baba)` when they are left. -/
def score_loops (s0 s1 s2 s3 : Nat) : Int × Int × Int :=
  for4 (fun i0 => for4 (fun i1 => for4 (fun i2 => for4 (fun i3 =>
    score_body s0 s1 s2 s3 i0 i1 i2 i3)))) (0, 0, 0)

/-- `abba_baba_score(s, &abba, &baba, &pats)`: the counters
`(pats, abba, baba)` after the loops.  The function stores `pats` and the two
quotients `abba/(double)pats` and `baba/(double)pats`; the result here keeps
the two numerators.  `assert(pats)` fails when no pattern was counted. -/
def abba_baba_score (s0 s1 s2 s3 : Nat) : Outcome (Int × Int × Int) :=
  if (score_loops s0 s1 s2 s3).1 = 0 then .undefined else .ret (score_loops s0 s1 s2 s3)

/-- The set bits among the low 4 bits of a state mask. -/
def setBits (s : Nat) : Finset Nat := (Finset.range 4).filter (fun i => s.testBit i = true)

/-- The resolutions of four state masks: one set bit of each. -/
def resolutions (s0 s1 s2 s3 : Nat) : Finset (Nat × Nat × Nat × Nat) :=
  setBits s0 ×ˢ setBits s1 ×ˢ setBits s2 ×ˢ setBits s3

/-- The resolution `(a, b, c, d)` has the pattern ABBA. -/
def isABBA (q : Nat × Nat × Nat × Nat) : Prop := q.1 = q.2.2.2 ∧ q.2.1 = q.2.2.1 ∧ q.1 ≠ q.2.1

/-- The resolution `(a, b, c, d)` has the pattern BABA. -/
def isBABA (q : Nat × Nat × Nat × Nat) : Prop := q.1 = q.2.2.1 ∧ q.2.1 = q.2.2.2 ∧ q.1 ≠ q.2.1

instance : DecidablePred isABBA := fun q => by unfold isABBA; infer_instance

instance : DecidablePred isBABA := fun q => by unfold isBABA; infer_instance
/-- What one pass of the innermost body adds to the counters. -/
def score_term (s0 s1 s2 s3 i0 i1 i2 i3 : Nat) : Int × Int × Int :=
  score_body s0 s1 s2 s3 i0 i1 i2 i3 (0, 0, 0)

/-! ## Lists (`list.c`) -/

/-- A list item `list_item_t`.  A pointer to an item is its address; `none`
is the null pointer.  `data` stands for the pointer `void * data`. -/
structure list_item_t where
  data : Nat
  next : Option Nat

/-- The list header `list_t`. -/
structure list_t where
  head : Option Nat
  tail : Option Nat
  count : Int

/-- The items that are allocated: `read` gives the item stored at an address,
`none` when no item is allocated there. -/
def read_item (h : List (Nat × list_item_t)) (a : Nat) : Option list_item_t :=
  (h.find? (fun p => p.1 = a)).map (fun p => p.2)

/-- The assignment `a->next = nx` to an allocated item. -/
def set_next (h : List (Nat × list_item_t)) (a : Nat) (nx : Option Nat) :
    List (Nat × list_item_t) :=
  h.map (fun p => if p.1 = a then (p.1, { p.2 with next := nx }) else p)

/-- `free(a)`. -/
def free_item (h : List (Nat × list_item_t)) (a : Nat) : List (Nat × list_item_t) :=
  h.filter (fun p => p.1 ≠ a)

/-- Modelled from the spec: `xmalloc` is not among the sources; it returns the
address of fresh storage, that is, an address at which nothing is allocated.
Here: the successor of the largest address in use. -/
def fresh_item (h : List (Nat × list_item_t)) : Nat := (h.map (fun p => p.1)).foldl max 0 + 1

/-- `list_insert(list, data, where)` for a list that is not null: the return
value, the allocated items and the list afterwards.  `front` is
`where != DEF_LIST_APPEND`. -/
def list_insert (h : List (Nat × list_item_t)) (list : list_t) (data : Nat) (front : Bool) :
    Outcome (Int × List (Nat × list_item_t) × list_t) :=
  if list.count = 0 then
    .ret (1, h ++ [(fresh_item h, { data := data, next := none })],
          { head := some (fresh_item h), tail := some (fresh_item h), count := 1 })
  else if front = false then
    match list.tail with
    | none => .undefined
    | some t =>
      match read_item h t with
      | none => .undefined
      | some _ =>
        .ret (1, set_next h t (some (fresh_item h)) ++
                   [(fresh_item h, { data := data, next := none })],
              { list with tail := some (fresh_item h), count := list.count + 1 })
  else
    .ret (1, h ++ [(fresh_item h, { data := data, next := list.head })],
          { list with head := some (fresh_item h), count := list.count + 1 })

/-- `list_append(list, data)`. -/
def list_append (h : List (Nat × list_item_t)) (list : list_t) (data : Nat) :
    Outcome (Int × List (Nat × list_item_t) × list_t) :=
  list_insert h list data false

/-- `list_prepend(list, data)`. -/
def list_prepend (h : List (Nat × list_item_t)) (list : list_t) (data : Nat) :
    Outcome (Int × List (Nat × list_item_t) × list_t) :=
  list_insert h list data true

/-- The loop of `list_clear`, which releases the items from `head` on. -/
def clear_items : Nat → List (Nat × list_item_t) → Option Nat →
    Option (List (Nat × list_item_t))
  | 0, _, _ => none
  | _ + 1, h, none => some h
  | fuel + 1, h, some a =>
    match read_item h a with
    | none => none
    | some it => clear_items fuel (free_item h a) it.next

/-- `list_clear(list, cb_dealloc)`; what `cb_dealloc` does with the data of an
item is outside the list. -/
def list_clear (h : List (Nat × list_item_t)) (list : list_t) :
    Outcome (List (Nat × list_item_t) × list_t) :=
  match clear_items (h.length + 1) h list.head with
  | none => .undefined
  | some h1 => .ret (h1, { head := none, tail := none, count := 0 })

/-- The loop `while (li) { if (li == item) break; prev = li; li = li->next; }`
of `list_delitem` and `list_reposition_tail`: the values of `li` and `prev`
when it is left. -/
def find_item (h : List (Nat × list_item_t)) (item : Nat) :
    Nat → Option Nat → Option Nat → Option (Option Nat × Option Nat)
  | 0, _, _ => none
  | _ + 1, none, prev => some (none, prev)
  | fuel + 1, some li, prev =>
    if li = item then some (some li, prev)
    else
      match read_item h li with
      | none => none
      | some it => find_item h item fuel it.next (some li)

/-- `list_delitem(list, item, cb_dealloc)`: the return value, the allocated
items and the list afterwards. -/
def list_delitem (h : List (Nat × list_item_t)) (list : list_t) (item : Nat) :
    Outcome (Int × List (Nat × list_item_t) × list_t) :=
  match find_item h item (h.length + 1) list.head none with
  | none => .undefined
  | some (none, _) => .ret (0, h, list)
  | some (some li, prev) =>
    match read_item h li with
    | none => .undefined
    | some it =>
      match prev with
      | some p =>
        .ret (1, free_item (set_next h p it.next) li, { list with count := list.count - 1 })
      | none =>
        .ret (1, free_item h li, { list with head := it.next, count := list.count - 1 })

/-- `list_reposition_tail(list, item)`: the return value, the allocated items
and the list afterwards. -/
def list_reposition_tail (h : List (Nat × list_item_t)) (list : list_t) (item : Nat) :
    Outcome (Int × List (Nat × list_item_t) × list_t) :=
  match find_item h item (h.length + 1) list.head none with
  | none => .undefined
  | some (none, _) => .ret (0, h, list)
  | some (some li, prev) =>
    if list.tail = some li then .ret (1, h, list)
    else
      match read_item h li, list.tail with
      | some it, some t =>
        match read_item h t with
        | none => .undefined
        | some _ =>
          match prev with
          | some p =>
            .ret (1, set_next (set_next (set_next h p it.next) t (some li)) li none,
                  { list with tail := some li })
          | none =>
            .ret (1, set_next (set_next h t (some li)) li none,
                  { list with head := it.next, tail := some li })
      | _, _ => .undefined

/-- The items reached from the pointer `p` by following `next` up to the null
pointer are `items`. -/
def Chain (h : List (Nat × list_item_t)) : Option Nat → List Nat → Prop
  | p, [] => p = none
  | p, a :: rest => p = some a ∧ ∃ it, read_item h a = some it ∧ Chain h it.next rest

/-- The list is well formed, with the items `items`: they are the items
reached from `head`, `count` is their number, and `tail` is the last of them
(`head` and `tail` are null when there is none). -/
def WellFormed (h : List (Nat × list_item_t)) (list : list_t) (items : List Nat) : Prop :=
  Chain h list.head items ∧ list.count = items.length ∧ list.tail = items.getLast?

/-- Two allocated items: the one at address 1 points to the one at address
2. -/
def two_items : List (Nat × list_item_t) :=
  [(1, { data := 10, next := some 2 }), (2, { data := 20, next := none })]

/-- The list of these two items. -/
def two_item_list : list_t := { head := some 1, tail := some 2, count := 2 }

/-! ## The tokens of `cmd_extract` (`extract.c`) -/

/-- `strcspn(s, d)` for a string `d` of one byte: the number of bytes of `s`
before the first occurrence of that byte. -/
def strcspn (s : List Nat) (d : Nat) : Nat := (s.takeWhile (fun c => c ≠ d)).length

/-- The loop `while (*s)` of `split`.  The array `tokens` comes from `xmalloc`:
a cell holds `none` as long as nothing has been stored in it (its value is
indeterminate then).  The result is `none` when the function returns NULL from
inside the loop, and the array with the value of `k` otherwise.
Modelled from the spec: `xstrndup` is not among the sources; it returns a
copy of the first `token_len` bytes. -/
def split_loop (d : Nat) : Nat → List Nat → List (Option (List Nat)) → Nat →
    Outcome (Option (List (Option (List Nat)) × Nat))
  | 0, _, _, _ => .undefined
  | _ + 1, [], tokens, k => .ret (some (tokens, k))
  | fuel + 1, c :: s, tokens, k =>
    if strcspn (c :: s) d = 0 then .ret none
    else if k < tokens.length then
      match (c :: s).drop (strcspn (c :: s) d) with
      | [] =>
        split_loop d fuel [] (tokens.set k (some ((c :: s).take (strcspn (c :: s) d)))) (k + 1)
      | x :: s1 =>
        if x = d then
          split_loop d fuel s1 (tokens.set k (some ((c :: s).take (strcspn (c :: s) d))))
            (k + 1)
        else .undefined
    else .undefined

/-- `split(s, d, &token_count)`: the returned array (`none` for NULL) and the
value of `*token_count` afterwards, which is `token_count` when the function
has not stored to it.  The last test reads `tokens[0]`; when nothing has been
stored in that cell the value read is indeterminate. -/
def split (s d : List Nat) (token_count : Int) :
    Outcome (Option (List (Option (List Nat))) × Int) :=
  match d with
  | [dc] =>
    match split_loop dc (s.length + 1) s
        (List.replicate ((s.filter (fun c => c = dc)).length + 1) none) 0 with
    | .ret none => .ret (none, token_count)
    | .ret (some (tokens, _)) =>
      if (((s.filter (fun c => c = dc)).length : Int) + 1) = 1 then
        match tokens[0]? with
        | some (some _) => .ret (some tokens, ((s.filter (fun c => c = dc)).length : Int) + 1)
        | _ => .undefined
      else .ret (some tokens, ((s.filter (fun c => c = dc)).length : Int) + 1)
    | .fatal m => .fatal m
    | .nomem => .nomem
    | .undefined => .undefined
  | _ => .undefined

/-- The loop "count number of specimens and sequences in list" of
`cmd_extract` over the cells `tokens[0]`, ..., `tokens[token_count - 1]`, with
`n` cells still to visit from cell `i` on: the counters `sp_count` and
`seq_count`.  `assert(tokens[i])` and `tokens[i][0]` read the cell; there is no
result when the cell is outside the array or nothing has been stored in it. -/
def count_tokens (tokens : List (Option (List Nat))) : Nat → Nat → Int → Int → Option (Int × Int)
  | 0, _, sp_count, seq_count => some (sp_count, seq_count)
  | n + 1, i, sp_count, seq_count =>
    match tokens[i]? with
    | some (some tok) =>
      if tok.head? = some 94 then count_tokens tokens n (i + 1) (sp_count + 1) seq_count
      else count_tokens tokens n (i + 1) sp_count (seq_count + 1)
    | _ => none

/-- The fields of a string: the pieces between the occurrences of `d` (what
stands before the first one, between two of them, and after the last one).
`cur` holds the bytes of the piece that is being collected. -/
def fieldsFrom (d : Nat) (cur : List Nat) : List Nat → List (List Nat)
  | [] => [cur]
  | c :: s => if c = d then cur :: fieldsFrom d [] s else fieldsFrom d (cur ++ [c]) s

/-- The fields of a string. -/
def fields (d : Nat) (s : List Nat) : List (List Nat) := fieldsFrom d [] s

/-- The text of the fields `fs` with the byte `d` between them. -/
def joinFields (d : Nat) : List (List Nat) → List Nat
  | [] => []
  | [f] => f
  | f :: g :: fs => f ++ d :: joinFields d (g :: fs)

/-- A cursor on a block of two taxa followed by a block of one taxon whose
line holds a fatal byte. -/
def bang_locus_cursor : phylip_t :=
  { fp := str "A ACG\nB TTA\n1 3\nA ACG!\n", line := some (str "2 3"),
    chrstatus := example_table, no := -1, lineno := 1, stripped_count := 0,
    stripped := fun _ => 0 }

/-- A table in which every byte is of class Accept. -/
def accept_table : Nat → Nat := fun _ => 1

/-! ## Lemmas: `getnextline` -/

theorem strlen_nonul (l : List Nat) (h0 : ∀ c ∈ l, c ≠ 0) : strlen l = l.length := by
  unfold strlen
  rw [List.takeWhile_eq_self_iff.mpr]
  intro c hc
  simpa using h0 c hc

theorem fgets_read_short (k : Nat) (l rest : List Nat) (h10 : ∀ c ∈ l, c ≠ 10)
    (hk : l.length < k) : fgets_read k (l ++ 10 :: rest) = (l ++ [10], rest) := by
  induction l generalizing k with
  | nil =>
    cases k with
    | zero => simp at hk
    | succ k => simp [fgets_read]
  | cons c l ih =>
    cases k with
    | zero => simp at hk
    | succ k =>
      have hc : c ≠ 10 := h10 c (by simp)
      have hl : ∀ c ∈ l, c ≠ 10 := fun x hx => h10 x (by simp [hx])
      have hk2 : l.length < k := by simpa using hk
      simp [fgets_read, hc, ih k hl hk2]

theorem fgets_read_long (k : Nat) (l rest : List Nat) (h10 : ∀ c ∈ l, c ≠ 10)
    (hk : k ≤ l.length) : fgets_read k (l ++ rest) = (l.take k, l.drop k ++ rest) := by
  induction l generalizing k with
  | nil =>
    have : k = 0 := by simpa using hk
    subst this
    simp [fgets_read]
  | cons c l ih =>
    cases k with
    | zero => simp [fgets_read]
    | succ k =>
      have hc : c ≠ 10 := h10 c (by simp)
      have hl : ∀ c ∈ l, c ≠ 10 := fun x hx => h10 x (by simp [hx])
      have hk2 : k ≤ l.length := by simpa using hk
      simp [fgets_read, hc, ih k hl hk2]

theorem getnextline_loop_line (n : Nat) : ∀ (l rest acc : List Nat) (fuel : Nat),
    l.length ≤ n → (∀ c ∈ l, c ≠ 0 ∧ c ≠ 10) → l.length < fuel →
    getnextline_loop fuel (l ++ 10 :: rest) acc = .ret (some (acc ++ l), rest) := by
  induction n using Nat.strong_induction_on with
  | _ n ih =>
    intro l rest acc fuel hn hl hfuel
    have h10 : ∀ c ∈ l, c ≠ 10 := fun c hc => (hl c hc).2
    have h0 : ∀ c ∈ l, c ≠ 0 := fun c hc => (hl c hc).1
    cases fuel with
    | zero => omega
    | succ fuel =>
      have hne : l ++ 10 :: rest ≠ [] := by simp
      obtain ⟨x, xs, hx⟩ := List.exists_cons_of_ne_nil hne
      by_cases hshort : l.length < 2047
      · have hr := fgets_read_short 2047 l rest h10 hshort
        have hs : strlen (l ++ [10]) = l.length + 1 := by
          rw [strlen_nonul]
          · simp
          · intro c hc
            rcases List.mem_append.mp hc with h | h
            · exact h0 c h
            · simp at h; omega
        rw [getnextline_loop, hx, fgets, ← hx]
        simp only [LINEALLOC, show 2048 - 1 = 2047 from rfl, hr, hs]
        have ht : List.take (l.length + 1) (l ++ [10]) = l ++ [10] :=
          List.take_of_length_le (by simp)
        simp [List.getElem?_append_right, ← List.append_assoc, ht]
      · have hlong : 2047 ≤ l.length := by omega
        have hr := fgets_read_long 2047 l (10 :: rest) h10 hlong
        have hs : strlen (l.take 2047) = 2047 := by
          rw [strlen_nonul]
          · simp; omega
          · intro c hc; exact h0 c (List.mem_of_mem_take hc)
        have hlast : (l.take 2047).get? 2046 ≠ some 10 := by
          intro h
          have := List.get?_mem h
          exact h10 _ (List.mem_of_mem_take this) rfl
        rw [getnextline_loop, hx, fgets, ← hx]
        simp only [LINEALLOC, show 2048 - 1 = 2047 from rfl, hr, hs]
        simp only [show (2047:Nat) - 1 = 2046 from rfl, hlast, if_false]
        have hd : (l.drop 2047).length < n := by simp; omega
        have := ih (l.drop 2047).length hd (l.drop 2047) rest (acc ++ l.take 2047) fuel
          (le_refl _) (fun c hc => hl c (List.mem_of_mem_drop hc)) (by simp; omega)
        simp [List.take_take] at this ⊢
        rw [this]
theorem fgets_read_nonl (k : Nat) (l : List Nat) (h10 : ∀ c ∈ l, c ≠ 10) :
    fgets_read k l = (l.take k, l.drop k) := by
  induction l generalizing k with
  | nil => cases k <;> simp [fgets_read]
  | cons c l ih =>
    cases k with
    | zero => simp [fgets_read]
    | succ k =>
      have hc : c ≠ 10 := h10 c (by simp)
      have hl : ∀ c ∈ l, c ≠ 10 := fun x hx => h10 x (by simp [hx])
      simp [fgets_read, hc, ih k hl]

theorem getnextline_loop_eof (n : Nat) : ∀ (l acc : List Nat) (fuel : Nat),
    l.length ≤ n → (∀ c ∈ l, c ≠ 0 ∧ c ≠ 10) → l.length < fuel →
    getnextline_loop fuel l acc =
      if (acc ++ l).length = 0 then .ret (none, []) else .ret (some (acc ++ l), []) := by
  induction n using Nat.strong_induction_on with
  | _ n ih =>
    intro l acc fuel hn hl hfuel
    have h10 : ∀ c ∈ l, c ≠ 10 := fun c hc => (hl c hc).2
    have h0 : ∀ c ∈ l, c ≠ 0 := fun c hc => (hl c hc).1
    cases fuel with
    | zero => omega
    | succ fuel =>
      cases l with
      | nil => simp [getnextline_loop, fgets]
      | cons x xs =>
        have hr := fgets_read_nonl 2047 (x :: xs) h10
        have hs : strlen ((x :: xs).take 2047) = ((x :: xs).take 2047).length := by
          rw [strlen_nonul]
          intro c hc; exact h0 c (List.mem_of_mem_take hc)
        have hpos : ((x :: xs).take 2047).length ≠ 0 := by simp
        have hlast : ((x :: xs).take 2047).get? (((x :: xs).take 2047).length - 1) ≠ some 10 := by
          intro h
          have := List.get?_mem h
          exact h10 _ (List.mem_of_mem_take this) rfl
        rw [getnextline_loop, fgets]
        simp only [LINEALLOC, show 2048 - 1 = 2047 from rfl, hr, hs, hpos, hlast, if_false]
        have hd : ((x :: xs).drop 2047).length < n := by
          simp at hn ⊢; omega
        have := ih ((x :: xs).drop 2047).length hd ((x :: xs).drop 2047)
          (acc ++ (x :: xs).take 2047) fuel
          (le_refl _) (fun c hc => hl c (List.mem_of_mem_drop hc)) (by simp at hfuel ⊢; omega)
        rw [List.take_of_length_le (le_refl _), this]
        simp [List.append_assoc]

/-- What `fgets_read` stores: a newline can only be the last byte, the bytes stored
followed by the rest are the stream, and something is stored when there is room. -/
theorem fgets_read_spec (k : Nat) (fp : List Nat) :
    (fgets_read k fp).1 ++ (fgets_read k fp).2 = fp ∧
    (∀ i, i + 1 < (fgets_read k fp).1.length → (fgets_read k fp).1.get? i ≠ some 10) ∧
    (0 < k → fp ≠ [] → (fgets_read k fp).1 ≠ []) := by
  induction fp generalizing k with
  | nil => cases k <;> simp [fgets_read]
  | cons c fp ih =>
    cases k with
    | zero => simp [fgets_read]
    | succ k =>
      by_cases hc : c = 10
      · simp [fgets_read, hc]
      · obtain ⟨h1, h2, _⟩ := ih k
        simp only [fgets_read, hc, if_false]
        refine ⟨by simp [h1], ?_, by simp⟩
        intro i hi
        cases i with
        | zero => simp [hc]
        | succ i =>
          simp only [List.length_cons] at hi
          simpa using h2 i (by omega)

theorem take_strlen (b : List Nat) : b.take (strlen b) = b.takeWhile (fun c => c ≠ 0) := by
  unfold strlen
  induction b with
  | nil => simp
  | cons c b ih =>
    by_cases hc : c = 0
    · simp [List.takeWhile_cons, hc]
    · simp only [List.takeWhile_cons, hc, ne_eq, not_false_eq_true, decide_True, if_true,
        List.length_cons, List.take_succ_cons]
      rw [ih]

theorem strlen_le (b : List Nat) : strlen b ≤ b.length := by
  unfold strlen
  exact (List.takeWhile_sublist _).length_le

theorem getnextline_loop_inv : ∀ (fuel : Nat) (fp acc : List Nat) (r : Option (List Nat))
    (fp1 : List Nat),
    getnextline_loop fuel fp acc = .ret (r, fp1) → (∀ c ∈ acc, c ≠ 0 ∧ c ≠ 10) →
    (∀ l, r = some l → ∀ c ∈ l, c ≠ 0 ∧ c ≠ 10) := by
  intro fuel
  induction fuel with
  | zero => intro fp acc r fp1 h; simp [getnextline_loop] at h
  | succ fuel ih =>
    intro fp acc r fp1 h hacc l hl
    rw [getnextline_loop] at h
    cases hfg : fgets LINEALLOC fp with
    | none =>
      rw [hfg] at h
      simp only at h
      split at h
      · simp at h; rw [← h.1] at hl; simp at hl
      · simp at h; rw [← h.1] at hl; simp at hl; subst hl; exact hacc
    | some bf =>
      obtain ⟨buffer, fp2⟩ := bf
      rw [hfg] at h
      simp only at h
      have hb : buffer = (fgets_read 2047 fp).1 := by
        cases fp with
        | nil => simp [fgets] at hfg
        | cons x xs =>
          simp only [fgets, LINEALLOC, Option.some.injEq] at hfg
          rw [show 2048 - 1 = 2047 from rfl] at hfg
          rw [hfg]
      obtain ⟨_, hnl, _⟩ := fgets_read_spec 2047 fp
      rw [← hb] at hnl
      have hle := strlen_le buffer
      have hchunk0 : ∀ c ∈ buffer.take (strlen buffer), c ≠ 0 := by
        intro c hc
        rw [take_strlen] at hc
        simpa using List.mem_takeWhile_imp hc
      -- a newline among the bytes copied is the last of them
      have hchunk10 : ∀ i, i + 1 < strlen buffer → (buffer.take (strlen buffer)).get? i ≠ some 10 := by
        intro i hi
        rw [List.get?_eq_getElem?, List.getElem?_take_of_lt (by omega), ← List.get?_eq_getElem?]
        exact hnl i (by omega)
      split at h
      · simp at h
      · rename_i hpos
        split at h
        · rename_i hlast
          simp only [Outcome.ret.injEq, Prod.mk.injEq] at h
          rw [← h.1] at hl
          simp only [Option.some.injEq] at hl
          subst hl
          intro c hc
          have hlen : (buffer.take (strlen buffer)).length = strlen buffer := by
            simp [hle]
          have hne : buffer.take (strlen buffer) ≠ [] := by
            intro h0; rw [h0] at hlen; simp at hlen; omega
          rw [List.dropLast_append_of_ne_nil _ hne] at hc
          rcases List.mem_append.mp hc with hc | hc
          · exact hacc c hc
          · refine ⟨hchunk0 c (List.mem_of_mem_dropLast hc), ?_⟩
            intro h10
            subst h10
            obtain ⟨i, hi, hget⟩ := List.getElem_of_mem hc
            simp only [List.length_dropLast, hlen] at hi
            rw [List.getElem_dropLast] at hget
            apply hchunk10 i (by omega)
            rw [List.get?_eq_getElem?, List.getElem?_eq_getElem (by rw [hlen]; omega), hget]
        · rename_i hlast
          apply ih _ _ _ _ h _ l hl
          intro c hc
          rcases List.mem_append.mp hc with hc | hc
          · exact hacc c hc
          · refine ⟨hchunk0 c hc, ?_⟩
            intro h10
            subst h10
            obtain ⟨i, hi, hget⟩ := List.getElem_of_mem hc
            have hlen : (buffer.take (strlen buffer)).length = strlen buffer := by
              simp [hle]
            rw [hlen] at hi
            by_cases hi2 : i + 1 < strlen buffer
            · apply hchunk10 i hi2
              rw [List.get?_eq_getElem?, List.getElem?_eq_getElem (by rw [hlen]; omega), hget]
            · have hieq : i = strlen buffer - 1 := by omega
              apply hlast
              rw [← hieq, List.get?_eq_getElem?]
              rw [List.getElem_take] at hget
              rw [List.getElem?_eq_getElem (by omega), hget]

theorem getnextline_inv (fd fd1 : phylip_t) (r : Option (List Nat))
    (h : getnextline fd = .ret (r, fd1)) :
    (∀ l, r = some l → ∀ c ∈ l, c ≠ 0 ∧ c ≠ 10) ∧ fd1.chrstatus = fd.chrstatus ∧
      fd1.lineno = fd.lineno ∧ fd1.line = r := by
  unfold getnextline at h
  split at h
  · rename_i l fp hloop
    simp only [Outcome.ret.injEq, Prod.mk.injEq] at h
    obtain ⟨h1, h2⟩ := h
    subst h1 h2
    exact ⟨getnextline_loop_inv _ _ _ _ _ hloop (by simp), rfl, rfl, rfl⟩
  all_goals simp at h

theorem getnextline_line (fd : phylip_t) (l rest : List Nat)
    (hl : ∀ c ∈ l, c ≠ 0 ∧ c ≠ 10) (hfp : fd.fp = l ++ 10 :: rest) :
    getnextline fd = .ret (some l, { fd with fp := rest, line := some l }) := by
  unfold getnextline
  rw [hfp, getnextline_loop_line l.length l rest [] _ (le_refl _) hl (by simp; omega)]
  simp

theorem getnextline_last (fd : phylip_t) (l : List Nat)
    (hl : ∀ c ∈ l, c ≠ 0 ∧ c ≠ 10) (hne : l ≠ []) (hfp : fd.fp = l) :
    getnextline fd = .ret (some l, { fd with fp := [], line := some l }) := by
  unfold getnextline
  rw [hfp, getnextline_loop_eof l.length l [] _ (le_refl _) hl (by simp)]
  simp [hne]

theorem getnextline_eof (fd : phylip_t) (hfp : fd.fp = []) :
    getnextline fd = .ret (none, { fd with fp := [], line := none }) := by
  unfold getnextline
  rw [hfp]
  simp [getnextline_loop, fgets]

/-! ## Lemmas: `dfa_parse` -/

@[simp] theorem strip_counts_chrstatus (fd : phylip_t) (p : List Nat) :
    (strip_counts fd p).chrstatus = fd.chrstatus ∧ (strip_counts fd p).fp = fd.fp ∧
    (strip_counts fd p).line = fd.line ∧ (strip_counts fd p).lineno = fd.lineno := by
  induction p generalizing fd with
  | nil => simp [strip_counts]
  | cons c p ih =>
    unfold strip_counts
    split
    · simpa using ih _
    · exact ih _

theorem store_fields (msa msa1 : msa_t) (seqno i c : Nat) (h : msa.store seqno i c = some msa1) :
    msa1.length = msa.length ∧ msa1.count = msa.count ∧ msa1.label = msa.label := by
  unfold msa_t.store at h
  split at h
  · split at h
    · simp at h; subst h; simp
    · simp at h
  · simp at h

theorem dfa_parse_loop_ret (seqno offset : Nat) (p : List Nat) :
    ∀ (j : Nat) (fd : phylip_t) (g : Globals) (msa : msa_t) (j1 : Nat) (fd1 : phylip_t)
      (g1 : Globals) (msa1 : msa_t),
    dfa_parse_loop seqno offset p j fd g msa = .ret (some j1, fd1, g1, msa1) ↔
      (Clean fd.chrstatus p ∧
        (accepted fd.chrstatus p = [] ∨
          ((offset + j + (accepted fd.chrstatus p).length : Nat) : Int) ≤ msa.length) ∧
        j1 = j + (accepted fd.chrstatus p).length ∧ fd1 = strip_counts fd p ∧ g1 = g ∧
        msa.storeList seqno (offset + j) (accepted fd.chrstatus p) = some msa1) := by
  induction p with
  | nil =>
    intro j fd g msa j1 fd1 g1 msa1
    simp [dfa_parse_loop, Clean, accepted, strip_counts, msa_t.storeList]
    constructor
    · rintro ⟨rfl, rfl, rfl, rfl⟩; simp
    · rintro ⟨rfl, rfl, rfl, rfl⟩; simp
  | cons c p ih =>
    intro j fd g msa j1 fd1 g1 msa1
    have hclean : Clean fd.chrstatus (c :: p) ↔
        ((chrclass fd.chrstatus c).isSome = true ∧ chrclass fd.chrstatus c ≠ some 2) ∧
          Clean fd.chrstatus p := by
      simp [Clean]
    rw [hclean]
    cases hcl : chrclass fd.chrstatus c with
    | none => simp [dfa_parse_loop, hcl]
    | some k =>
      rcases k with _ | _ | _ | k
      · -- stripped
        simp only [dfa_parse_loop, hcl]
        rw [ih]
        simp [accepted, strip_counts, hcl]
      · -- data
        simp only [dfa_parse_loop, hcl]
        have hacc : accepted fd.chrstatus (c :: p) = c :: accepted fd.chrstatus p := by
          simp [accepted, hcl]
        rw [hacc]
        by_cases hfull : msa.length ≤ ((offset + j : Nat) : Int)
        · simp only [hfull, if_true]
          constructor
          · intro h; split at h <;> simp at h
          · rintro ⟨_, h, _⟩
            simp at h
            omega
        · simp only [hfull, if_false]
          cases hst : msa.store seqno (offset + j) c with
          | none => simp [msa_t.storeList, hst]
          | some msa2 =>
            obtain ⟨hlen, _, _⟩ := store_fields _ _ _ _ _ hst
            simp only []
            rw [ih]
            simp only [msa_t.storeList, hst, Option.bind, strip_counts, hcl, hlen]
            simp
            intro _
            have e : offset + (j + 1) = offset + j + 1 := by omega
            rw [e]
            constructor
            · rintro ⟨h2, h3, h4, h5, h6⟩
              refine ⟨?_, by omega, h4, h5, h6⟩
              rcases h2 with h2 | h2
              · rw [h2]; simp; omega
              · omega
            · rintro ⟨h2, h3, h4, h5, h6⟩
              exact ⟨Or.inr (by omega), by omega, h4, h5, h6⟩
      · -- fatal
        simp only [dfa_parse_loop, hcl]
        constructor
        · intro h; split at h <;> simp at h
        · rintro ⟨⟨⟨_, hk⟩, _⟩, _⟩
          simp at hk
      · -- anything else
        simp only [dfa_parse_loop, hcl]
        rw [ih]
        simp [accepted, strip_counts, hcl]

/-! ## Lemmas: lines and buffers -/

/-- Reading a line from a cursor that has lines left. -/
theorem getnextline_reads (fd : phylip_t) (l : List Nat) (ls : List (List Nat))
    (h : Reads fd (l :: ls)) :
    ∃ fp1, getnextline fd = .ret (some l, { fd with fp := fp1, line := some l }) ∧
      Reads { fd with fp := fp1, line := some l } ls ∧ fp1.length < fd.fp.length := by
  obtain ⟨ht, hl⟩ := h
  have hline : IsLine l := hl l (by simp)
  have hls : ∀ x ∈ ls, IsLine x := fun x hx => hl x (by simp [hx])
  rcases ht with ⟨fp1, hfp, ht1⟩ | ⟨rfl, hne, hfp⟩
  · exact ⟨fp1, getnextline_line fd l fp1 hline hfp, ⟨ht1, hls⟩, by rw [hfp]; simp; omega⟩
  · refine ⟨[], getnextline_last fd l hline hne hfp, ⟨by simp [IsText], hls⟩, ?_⟩
    rw [hfp]
    exact List.length_pos.mpr hne

theorem getnextline_reads_nil (fd : phylip_t) (h : Reads fd []) :
    getnextline fd = .ret (none, { fd with fp := [], line := none }) :=
  getnextline_eof fd h.1

theorem isText_unlines (ls : List (List Nat)) : IsText (unlines ls) ls := by
  induction ls with
  | nil => simp [IsText, unlines]
  | cons l ls ih => exact Or.inl ⟨unlines ls, rfl, ih⟩

theorem isText_append_unlines (ls ms : List (List Nat)) (fp : List Nat) (h : IsText fp ms)
    : IsText (unlines ls ++ fp) (ls ++ ms) := by
  induction ls with
  | nil => simpa [unlines] using h
  | cons l ls ih => exact Or.inl ⟨unlines ls ++ fp, by simp [unlines], ih⟩

theorem set_same {α : Type} (l : List α) (k : Nat) (c : α) (h : l[k]? = some c) :
    l.set k c = l := by
  induction l generalizing k with
  | nil => simp
  | cons x l ih =>
    cases k with
    | zero => simp at h; simp [h]
    | succ k => simp at h; simp [ih k h]

theorem bufOf_length (L : Nat) (c : List Nat) (h : c.length ≤ L) : (bufOf L c).length = L + 1 := by
  simp [bufOf]; omega

theorem bufOf_set (L : Nat) (c : List Nat) (x : Nat) (h : c.length < L) :
    (bufOf L c).set c.length x = bufOf L (c ++ [x]) := by
  unfold bufOf
  have hr : List.replicate (L - c.length) 0 = 0 :: List.replicate (L - (c.length + 1)) 0 := by
    have : L - c.length = (L - (c.length + 1)) + 1 := by omega
    rw [this, List.replicate_succ]
  rw [hr]
  simp [List.set_append]

theorem msaOf_store (n L : Nat) (labels : List (Option (List Nat)))
    (contents : List (List Nat)) (k : Nat) (c : List Nat) (x : Nat)
    (hk : contents[k]? = some c) (hc : c.length < L) :
    (msaOf n L labels contents).store k c.length x =
      some (msaOf n L labels (contents.set k (c ++ [x]))) := by
  unfold msa_t.store
  have hs : (msaOf n L labels contents).sequence[k]? = some (some (bufOf L c)) := by
    simp [msaOf, hk]
  rw [hs]
  simp only []
  rw [if_pos (by rw [bufOf_length L c (by omega)]; omega)]
  simp [msaOf, bufOf_set L c x hc, List.map_set]

theorem msaOf_storeList (n L : Nat) (labels : List (Option (List Nat))) (k : Nat)
    (piece : List Nat) : ∀ (contents : List (List Nat)) (c : List Nat),
    contents[k]? = some c → c.length + piece.length ≤ L →
    (msaOf n L labels contents).storeList k c.length piece =
      some (msaOf n L labels (contents.set k (c ++ piece))) := by
  induction piece with
  | nil =>
    intro contents c hk _
    simp only [msa_t.storeList, List.append_nil]
    congr 2
    rw [set_same _ _ _ hk]
  | cons x piece ih =>
    intro contents c hk hlen
    simp only [List.length_cons] at hlen
    simp only [msa_t.storeList]
    rw [msaOf_store n L labels contents k c x hk (by omega)]
    simp only [Option.bind]
    have hk2 : (contents.set k (c ++ [x]))[k]? = some (c ++ [x]) := by
      have hlt : k < contents.length := by
        by_contra hge
        rw [List.getElem?_eq_none (by omega)] at hk
        simp at hk
      simp [List.getElem?_set_self, hlt]
    have := ih (contents.set k (c ++ [x])) (c ++ [x]) hk2 (by simp; omega)
    simp only [List.length_append, List.length_singleton] at this
    rw [this]
    simp [List.set_set]

theorem msaOf_setLabel (n L : Nat) (labels : List (Option (List Nat)))
    (contents : List (List Nat)) (k : Nat) (l : List Nat) (hk : k < labels.length) :
    (msaOf n L labels contents).setLabel k l = some (msaOf n L (labels.set k (some l)) contents) := by
  simp [msa_t.setLabel, msaOf, hk]

theorem msaOf_labelAt (n L : Nat) (labels : List (Option (List Nat)))
    (contents : List (List Nat)) (k : Nat) (l : List Nat) (hk : labels[k]? = some (some l)) :
    (msaOf n L labels contents).labelAt k = some l := by
  simp [msa_t.labelAt, msaOf, hk]

theorem msa_alloc_ok (n L : Nat) (hn : 0 < n) :
    msa_alloc n L = .ret (msaOf n L (List.replicate n none) (List.replicate n [])) := by
  unfold msa_alloc
  rw [if_neg (by omega), if_neg (by omega), if_neg (by omega), if_neg (by omega)]
  simp [msaOf, bufOf]

/-! ## Lemmas: a sequential block, read forward -/

theorem strip_counts_fp (fd : phylip_t) (p : List Nat) : (strip_counts fd p).fp = fd.fp :=
  (strip_counts_chrstatus fd p).2.1

theorem strip_counts_chr (fd : phylip_t) (p : List Nat) :
    (strip_counts fd p).chrstatus = fd.chrstatus :=
  (strip_counts_chrstatus fd p).1

theorem accepted_append (t : Nat → Nat) (a b : List Nat) :
    accepted t (a ++ b) = accepted t a ++ accepted t b := by
  simp [accepted]

/-- `dfa_parse` on a line without fatal bytes whose data bytes fit. -/
theorem dfa_parse_clean (fd : phylip_t) (g : Globals) (n L : Nat)
    (labels : List (Option (List Nat))) (contents : List (List Nat)) (k : Nat)
    (cur d : List Nat) (hk : contents[k]? = some cur) (hc : Clean fd.chrstatus d)
    (hfit : cur.length + (accepted fd.chrstatus d).length ≤ L) :
    dfa_parse fd g (msaOf n L labels contents) d k cur.length =
      .ret (some (accepted fd.chrstatus d).length, strip_counts fd d, g,
            msaOf n L labels (contents.set k (cur ++ accepted fd.chrstatus d))) := by
  unfold dfa_parse
  rw [dfa_parse_loop_ret]
  refine ⟨hc, Or.inr ?_, by simp, rfl, rfl, ?_⟩
  · simp only [msaOf]; norm_cast
  · simpa using msaOf_storeList n L labels k _ contents cur hk hfit

theorem sequential_data_fills (t : Nat → Nat) (n L k : Nat) (labels : List (Option (List Nat)))
    (tail : List (List Nat)) :
    ∀ (ds : List (List Nat)) (d : List Nat) (fuel : Nat) (fd : phylip_t) (g : Globals)
      (contents : List (List Nat)) (cur : List Nat),
    fd.chrstatus = t → Fills t L cur.length (d :: ds) → Reads fd (ds ++ tail) →
    fd.fp.length < fuel → contents[k]? = some cur →
    ∃ fd1, sequential_data fuel fd g (msaOf n L labels contents) k d cur.length =
        .ret (some (msaOf n L labels
                (contents.set k (cur ++ accepted t (d :: ds).flatten))), fd1, g) ∧
      Reads fd1 tail ∧ fd1.chrstatus = t ∧ fd1.fp.length ≤ fd.fp.length := by
  intro ds
  induction ds with
  | nil =>
    intro d fuel fd g contents cur ht hf hr hfuel hk
    obtain ⟨hclean, hcase⟩ := hf
    have hlen : cur.length + (accepted t d).length = L := by
      rcases hcase with ⟨_, h⟩ | ⟨_, h⟩
      · exact h
      · simp [Fills] at h
    cases fuel with
    | zero => omega
    | succ fuel =>
      subst ht
      refine ⟨strip_counts fd d, ?_, ?_, strip_counts_chr fd d, by rw [strip_counts_fp]⟩
      · rw [sequential_data, dfa_parse_clean fd g n L labels contents k cur d hk hclean (by omega)]
        simp only []
        rw [if_pos (by simp only [msaOf]; norm_cast)]
        simp
      · exact ⟨by rw [strip_counts_fp]; simpa using hr.1, by simpa using hr.2⟩
  | cons d2 ds ih =>
    intro d fuel fd g contents cur ht hf hr hfuel hk
    obtain ⟨hclean, hcase⟩ := hf
    have hlt : cur.length + (accepted t d).length < L ∧
        Fills t L (cur.length + (accepted t d).length) (d2 :: ds) := by
      rcases hcase with ⟨h, _⟩ | h
      · simp at h
      · exact h
    cases fuel with
    | zero => omega
    | succ fuel =>
      subst ht
      have hr1 : Reads (strip_counts fd d) (d2 :: (ds ++ tail)) :=
        ⟨by rw [strip_counts_fp]; simpa using hr.1, by simpa using hr.2⟩
      obtain ⟨fp1, hget, hr2, hlen2⟩ := getnextline_reads _ _ _ hr1
      have hk2 : (contents.set k (cur ++ accepted fd.chrstatus d))[k]? =
          some (cur ++ accepted fd.chrstatus d) := by
        have hltk : k < contents.length := by
          by_contra hge
          rw [List.getElem?_eq_none (by omega)] at hk
          simp at hk
        simp [List.getElem?_set_self, hltk]
      have hf2 : Fills fd.chrstatus L (cur ++ accepted fd.chrstatus d).length (d2 :: ds) := by
        simpa using hlt.2
      rw [strip_counts_fp] at hlen2
      obtain ⟨fd1, hrec, hr3, hchr, hlen3⟩ :=
        ih d2 fuel { strip_counts fd d with fp := fp1, line := some d2 } g
          (contents.set k (cur ++ accepted fd.chrstatus d)) (cur ++ accepted fd.chrstatus d)
          (by simp [strip_counts_chr]) hf2 hr2 (by simp; omega) hk2
      refine ⟨fd1, ?_, hr3, by simpa [strip_counts_chr] using hchr, by simp at hlen3; omega⟩
      rw [sequential_data, dfa_parse_clean fd g n L labels contents k cur d hk hclean (by omega)]
      simp only []
      rw [if_neg (by simp only [msaOf]; norm_cast; omega), hget]
      simp only []
      simp only [List.length_append] at hrec
      rw [hrec]
      simp [List.set_set, accepted_append, strip_counts_chr]

theorem skipws_head (l : List Nat) (c : Nat) (p : List Nat) (h : skipws l = c :: p) :
    whitespace c = false := by
  unfold skipws at h
  have := List.head_dropWhile_not whitespace l (by rw [h]; simp)
  simpa [h] using this

theorem xstrchrnul_pos (c x : Nat) (p : List Nat) (h : c ≠ x) : xstrchrnul (c :: p) x ≠ 0 := by
  simp [xstrchrnul, List.takeWhile_cons, h]

theorem headerlen_pos (c : Nat) (p : List Nat) (h : whitespace c = false) :
    headerlen (c :: p) ≠ 0 := by
  simp [whitespace] at h
  unfold headerlen
  split
  · exact xstrchrnul_pos c 32 p (by omega)
  · split
    · exact xstrchrnul_pos c 9 p (by omega)
    · split
      · exact xstrchrnul_pos c 13 p (by omega)
      · exact xstrchrnul_pos c 10 p (by omega)

theorem sequential_taxa_blanks (msa : msa_t) (k : Nat) (g : Globals) (rest : List (List Nat)) :
    ∀ (blanks : List (List Nat)) (fuel : Nat) (fd : phylip_t),
    (∀ b ∈ blanks, Blank b) → Reads fd (blanks ++ rest) → fd.fp.length < fuel →
    ∃ fd1 fuel1, sequential_taxa fuel fd g msa k = sequential_taxa fuel1 fd1 g msa k ∧
      Reads fd1 rest ∧ fd1.chrstatus = fd.chrstatus ∧ fd1.fp.length < fuel1 ∧
      fd1.fp.length ≤ fd.fp.length := by
  intro blanks
  induction blanks with
  | nil =>
    intro fuel fd _ hr hfuel
    exact ⟨fd, fuel, rfl, by simpa using hr, rfl, hfuel, le_refl _⟩
  | cons b blanks ih =>
    intro fuel fd hb hr hfuel
    cases fuel with
    | zero => omega
    | succ fuel =>
      obtain ⟨fp1, hget, hr1, hlen1⟩ := getnextline_reads fd b (blanks ++ rest) (by simpa using hr)
      have hbl : skipws b = [] := hb b (by simp)
      obtain ⟨fd1, fuel1, heq, hr2, hchr, hf1, hle⟩ :=
        ih fuel { fd with fp := fp1, line := some b } (fun x hx => hb x (by simp [hx])) hr1
          (by simp; omega)
      refine ⟨fd1, fuel1, ?_, hr2, by simpa using hchr, hf1, by simp at hle; omega⟩
      rw [sequential_taxa, hget]
      simp only [hbl]
      exact heq

theorem set_take_succ {α : Type} (l : List α) (k : Nat) (x : α) (h : k < l.length) :
    (l.set k x).take (k + 1) = l.take k ++ [x] := by
  induction l generalizing k with
  | nil => simp at h
  | cons y l ih =>
    cases k with
    | zero => simp
    | succ k => simp at h; simp [ih k h]

theorem take_all_of_length {α : Type} (l : List α) (k : Nat) (h : l.length = k) :
    l.take k = l := by
  subst h; simp

theorem sequential_taxa_records (t : Nat → Nat) (n L : Nat) (g : Globals)
    (tail : List (List Nat)) :
    ∀ (recs : List TaxonLines) (k fuel : Nat) (fd : phylip_t)
      (labels : List (Option (List Nat))) (contents : List (List Nat)),
    fd.chrstatus = t → recs ≠ [] → k + recs.length = n → labels.length = n →
    contents.length = n → (∀ i, k ≤ i → i < n → contents[i]? = some []) →
    (∀ r ∈ recs, r.ok t L) →
    Reads fd ((recs.map TaxonLines.lines).flatten ++ tail) → fd.fp.length < fuel →
    ∃ fd1, sequential_taxa fuel fd g (msaOf n L labels contents) k =
        .ret (some (msaOf n L (labels.take k ++ recs.map (fun r => some r.label))
                (contents.take k ++ recs.map (TaxonLines.seq t))), fd1, g) ∧
      Reads fd1 tail ∧ fd1.chrstatus = t ∧ fd1.fp.length ≤ fd.fp.length := by
  intro recs
  induction recs with
  | nil => intro k fuel fd labels contents _ h; exact absurd rfl h
  | cons r recs ih =>
    intro k fuel fd labels contents ht _ hk hll hcl hfresh hok hr hfuel
    obtain ⟨hblank, hfirst, hfills⟩ := hok r (by simp)
    simp only [List.length_cons] at hk
    -- the blank lines before the label
    have hr0 : Reads fd (r.blanks ++ (r.first :: (r.more ++
        ((recs.map TaxonLines.lines).flatten ++ tail)))) := by
      simpa [TaxonLines.lines, List.append_assoc] using hr
    obtain ⟨fd1, fuel1, heq, hr1, hchr1, hf1, hle1⟩ :=
      sequential_taxa_blanks (msaOf n L labels contents) k g _ r.blanks fuel fd hblank hr0 hfuel
    rw [heq]
    cases fuel1 with
    | zero => omega
    | succ fuel1 =>
      obtain ⟨fp2, hget, hr2, hlen2⟩ := getnextline_reads fd1 _ _ hr1
      obtain ⟨c, p0, hp⟩ := List.exists_cons_of_ne_nil hfirst
      have hws := skipws_head _ _ _ hp
      have hdata : r.data = (c :: p0).drop (headerlen (c :: p0)) :: r.more := by
        simp [TaxonLines.data, hp]
      have hlab : r.label = (c :: p0).take (headerlen (c :: p0)) := by
        simp [TaxonLines.label, hp]
      rw [hdata] at hfills
      have hk0 : (contents)[k]? = some [] := hfresh k (le_refl _) (by omega)
      obtain ⟨fd3, hdat, hr3, hchr3, hle3⟩ :=
        sequential_data_fills t n L k (labels.set k (some r.label))
          ((recs.map TaxonLines.lines).flatten ++ tail) r.more
          ((c :: p0).drop (headerlen (c :: p0))) (fp2.length + 1)
          { fd1 with fp := fp2, line := some r.first } g contents []
          (by simp [hchr1, ht]) (by simpa using hfills) hr2 (by simp) hk0
      simp only [List.length_nil, List.nil_append] at hdat
      have hseq : accepted t (((c :: p0).drop (headerlen (c :: p0)) :: r.more).flatten) =
          r.seq t := by
        simp [TaxonLines.seq, hdata]
      rw [hseq] at hdat
      rw [sequential_taxa, hget]
      simp only [hp]
      rw [if_neg (by simp only [msaOf]; norm_cast; omega), if_neg (headerlen_pos c p0 hws),
        ← hlab, msaOf_setLabel n L labels contents k r.label (by omega)]
      simp only []
      rw [hdat]
      simp only []
      by_cases hlast : recs = []
      · subst hlast
        simp only [List.length_nil] at hk
        rw [if_pos (by simp only [msaOf]; norm_cast)]
        refine ⟨fd3, ?_, by simpa using hr3, hchr3, by simp at hle3; omega⟩
        have e1 : labels.set k (some r.label) = labels.take k ++ [some r.label] := by
          rw [← set_take_succ labels k _ (by omega)]
          exact (take_all_of_length _ _ (by simp; omega)).symm
        have e2 : contents.set k (r.seq t) = contents.take k ++ [r.seq t] := by
          rw [← set_take_succ contents k _ (by omega)]
          exact (take_all_of_length _ _ (by simp; omega)).symm
        simp [e1, e2]
      · rw [if_neg (by simp only [msaOf]; norm_cast; have := List.length_pos.mpr hlast; omega)]
        obtain ⟨fd4, hrec, hr4, hchr4, hle4⟩ :=
          ih (k + 1) fuel1 fd3 (labels.set k (some r.label)) (contents.set k (r.seq t))
            hchr3 hlast (by omega) (by simp; omega) (by simp; omega)
            (by
              intro i hi hin
              rw [List.getElem?_set_ne (by omega)]
              exact hfresh i (by omega) hin)
            (fun x hx => hok x (by simp [hx])) hr3 (by simp at hle3; omega)
        refine ⟨fd4, ?_, hr4, hchr4, by simp at hle3; omega⟩
        rw [hrec, set_take_succ labels k _ (by omega), set_take_succ contents k _ (by omega)]
        simp [List.append_assoc]

theorem emptyline_blank (l : List Nat) : emptyline l = 1 ↔ Blank l := by
  unfold emptyline Blank skipws
  by_cases h : List.dropWhile whitespace l = []
  · simp [h]
  · simp [h]

theorem skip_emptylines_spec (hdr : List Nat) (body : List (List Nat)) :
    ∀ (blanks : List (List Nat)) (fuel : Nat) (fd : phylip_t),
    (∀ b ∈ blanks, Blank b) → ¬ Blank hdr → OnLines fd (blanks ++ hdr :: body) →
    fd.fp.length + 1 < fuel →
    ∃ fd1, skip_emptylines fuel fd = .ret fd1 ∧ fd1.line = some hdr ∧ Reads fd1 body ∧
      fd1.chrstatus = fd.chrstatus ∧ fd1.fp.length ≤ fd.fp.length := by
  intro blanks
  induction blanks with
  | nil =>
    intro fuel fd _ hh hon hfuel
    obtain ⟨l, ls, heq, hline, hr⟩ := hon
    simp only [List.nil_append, List.cons.injEq] at heq
    obtain ⟨rfl, rfl⟩ := heq
    cases fuel with
    | zero => omega
    | succ fuel =>
      refine ⟨fd, ?_, hline, hr, rfl, le_refl _⟩
      rw [skip_emptylines, hline]
      simp only []
      rw [if_neg (by rw [emptyline_blank]; exact hh)]
  | cons b blanks ih =>
    intro fuel fd hb hh hon hfuel
    obtain ⟨l, ls, heq, hline, hr⟩ := hon
    simp only [List.cons_append, List.cons.injEq] at heq
    obtain ⟨rfl, rfl⟩ := heq
    cases fuel with
    | zero => omega
    | succ fuel =>
      have hne : blanks ++ hdr :: body ≠ [] := by simp
      obtain ⟨x, xs, hx⟩ := List.exists_cons_of_ne_nil hne
      rw [hx] at hr
      obtain ⟨fp1, hget, hr1, hlen1⟩ := getnextline_reads fd x xs hr
      obtain ⟨fd1, hskip, hl1, hr2, hchr, hle⟩ :=
        ih fuel { fd with fp := fp1, line := some x } (fun y hy => hb y (by simp [hy])) hh
          ⟨x, xs, hx, rfl, hr1⟩ (by simp; omega)
      refine ⟨fd1, ?_, hl1, hr2, by simpa using hchr, by simp at hle; omega⟩
      rw [skip_emptylines, hline]
      simp only []
      rw [if_pos (by rw [emptyline_blank]; exact hb b (by simp)), hget]
      exact hskip

theorem isspace_of_whitespace (c : Nat) (h : whitespace c = true) : isspace c = true := by
  simp [whitespace] at h
  simp [isspace]
  omega

theorem dropWhile_isspace_blank (l : List Nat) (h : Blank l) : l.dropWhile isspace = [] := by
  unfold Blank skipws at h
  rw [List.dropWhile_eq_nil_iff] at h ⊢
  intro c hc
  exact isspace_of_whitespace c (h c hc)

/-- A numeral inside the range of `int` is stored as it is. -/
theorem scanf_d_of_range (v : Int) (h1 : -(2 ^ 31) ≤ v) (h2 : v < 2 ^ 31) : scanf_d v = v := by
  unfold scanf_d int_of_long strtol_value
  rw [if_neg (by omega), if_neg (by omega)]
  omega

/-- What `%d` stores is an `int`. -/
theorem scanf_d_range (v : Int) : -(2 ^ 31) ≤ scanf_d v ∧ scanf_d v < 2 ^ 31 := by
  unfold scanf_d int_of_long
  omega

theorem args_getint_range (l : List Nat) :
    -(2 ^ 31) ≤ (args_getint l).1 ∧ (args_getint l).1 < 2 ^ 31 := by
  unfold args_getint
  simp only []
  split
  · split
    · simp
    · exact scanf_d_range _
  · split
    · simp
    · exact scanf_d_range _
  · split
    · simp
    · exact scanf_d_range _

theorem args_getint_blank (l : List Nat) (h : Blank l) : (args_getint l).1 = 0 := by
  unfold args_getint
  simp [dropWhile_isspace_blank l h]

/-- A header that is accepted is not a blank line, its two numbers are not
zero, and the error slot is left as it was. -/
theorem parse_header_some (line : List Nat) (format : Int) (g : Globals) (c l : Int)
    (h : (parse_header line format g).1 = some (c, l)) :
    ¬ Blank line ∧ c ≠ 0 ∧ l ≠ 0 ∧ (parse_header line format g).2 = g ∧
      c = (args_getint line).1 ∧
      l = (args_getint (line.drop (args_getint line).2)).1 := by
  unfold parse_header at h ⊢
  by_cases h1 : (args_getint line).1 = 0
  · simp [h1] at h
  · simp only [h1, if_false] at h ⊢
    by_cases h2 : (args_getint (List.drop (args_getint line).2 line)).1 = 0
    · simp [h2] at h
    · simp only [h2, if_false] at h ⊢
      have hnb : ¬ Blank line := fun hb => h1 (args_getint_blank line hb)
      split at h
      · simp at h
        exact ⟨hnb, by rw [← h.1]; exact h1, by rw [← h.2]; exact h2, rfl, h.1.symm, h.2.symm⟩
      · split at h
        · simp at h
        · split at h
          · simp at h
          · split at h
            · simp at h
              refine ⟨hnb, by rw [← h.1]; exact h1, by rw [← h.2]; exact h2, ?_, h.1.symm,
                h.2.symm⟩
              rename_i hfmt hmark _ hsk
              simp [hfmt, hmark, hsk]
            · simp at h

theorem phylip_open_lines (contents : List Nat) (t : Nat → Nat) (l : List Nat)
    (ls : List (List Nat)) (ht : IsText contents (l :: ls)) (hl : ∀ x ∈ l :: ls, IsLine x) :
    ∃ fd, phylip_open contents t = .ret (some fd) ∧ OnLines fd (l :: ls) ∧ fd.chrstatus = t ∧
      fd.lineno = 1 := by
  obtain ⟨fp1, hget, hr, _⟩ := getnextline_reads
    { fp := contents, line := none, chrstatus := t, no := -1, lineno := 0,
      stripped_count := 0, stripped := fun _ => 0 } l ls ⟨ht, hl⟩
  unfold phylip_open
  rw [hget]
  exact ⟨_, rfl, ⟨l, ls, rfl, rfl, hr⟩, rfl, rfl⟩

/-- A sequential block read from its header: blank lines, the header, and
the lines of `n` complete taxa; what follows them stays unread. -/
theorem parse_sequential_block (t : Nat → Nat) (n L : Nat) (fd : phylip_t) (g : Globals)
    (blanks : List (List Nat)) (hdr : List Nat) (recs : List TaxonLines)
    (tail : List (List Nat)) (ht : fd.chrstatus = t)
    (hon : OnLines fd (blanks ++ hdr :: ((recs.map TaxonLines.lines).flatten ++ tail)))
    (hb : ∀ b ∈ blanks, Blank b)
    (hh : (parse_header hdr PHYLIP_SEQUENTIAL g).1 = some ((n : Int), (L : Int)))
    (hn : recs.length = n) (hok : ∀ r ∈ recs, r.ok t L) :
    ∃ fd1, phylip_parse_sequential fd g =
        .ret (some (msaOf n L (recs.map (fun r => some r.label))
                (recs.map (TaxonLines.seq t))), fd1, g) ∧
      Reads fd1 tail ∧ fd1.chrstatus = t := by
  obtain ⟨hnb, hn0, _, hg, _, _⟩ := parse_header_some _ _ _ _ _ hh
  have hnpos : 0 < n := by omega
  obtain ⟨fd1, hskip, hl1, hr1, hchr1, _⟩ :=
    skip_emptylines_spec hdr _ blanks (fd.fp.length + 2) fd hb hnb hon (by omega)
  have hrecs : recs ≠ [] := by
    intro h; rw [h] at hn; simp at hn; omega
  obtain ⟨fd2, htaxa, hr2, hchr2, _⟩ :=
    sequential_taxa_records t n L g tail recs 0 (fd1.fp.length + 1) fd1
      (List.replicate n none) (List.replicate n []) (by rw [hchr1, ht]) hrecs (by omega)
      (by simp) (by simp)
      (by intro i _ hi; simp [List.getElem?_replicate, hi]) hok hr1 (by omega)
  refine ⟨fd2, ?_, hr2, hchr2⟩
  unfold phylip_parse_sequential
  rw [hskip]
  simp only [hl1]
  have hph : parse_header hdr PHYLIP_SEQUENTIAL g = (some ((n : Int), (L : Int)), g) := by
    exact Prod.ext hh hg
  rw [hph]
  simp only []
  rw [msa_alloc_ok n L hnpos]
  simp only []
  rw [htaxa]
  simp

/-! ## Lemmas: what a successful sequential parse returns -/

theorem accepted_good (t : Nat → Nat) (p : List Nat) (hp : IsLine p) : GoodSeq t (accepted t p) := by
  intro c hc
  simp only [accepted, List.mem_filter, beq_iff_eq] at hc
  exact ⟨hc.2, hp c hc.1⟩

theorem goodSeq_append (t : Nat → Nat) (a b : List Nat) (ha : GoodSeq t a) (hb : GoodSeq t b) :
    GoodSeq t (a ++ b) := by
  intro c hc
  rcases List.mem_append.mp hc with h | h
  · exact ha c h
  · exact hb c h

/-- What a successful `dfa_parse` has done to the alignment under construction. -/
theorem dfa_parse_some (fd fd1 : phylip_t) (g g1 : Globals) (n L : Nat)
    (labels : List (Option (List Nat))) (contents : List (List Nat)) (k : Nat)
    (cur d : List Nat) (j : Nat) (m : msa_t) (hk : contents[k]? = some cur)
    (hcur : cur.length ≤ L)
    (h : dfa_parse fd g (msaOf n L labels contents) d k cur.length = .ret (some j, fd1, g1, m)) :
    Clean fd.chrstatus d ∧ j = (accepted fd.chrstatus d).length ∧ cur.length + j ≤ L ∧
      fd1 = strip_counts fd d ∧ g1 = g ∧
      m = msaOf n L labels (contents.set k (cur ++ accepted fd.chrstatus d)) := by
  unfold dfa_parse at h
  rw [dfa_parse_loop_ret] at h
  obtain ⟨hc, hfit, hj, hfd, hg, hst⟩ := h
  have hfit2 : cur.length + (accepted fd.chrstatus d).length ≤ L := by
    rcases hfit with h0 | h1
    · rw [h0]; simpa using hcur
    · simp only [msaOf] at h1
      omega
  have := msaOf_storeList n L labels k (accepted fd.chrstatus d) contents cur hk hfit2
  simp only [Nat.add_zero] at hst
  rw [this] at hst
  simp only [Option.some.injEq] at hst
  exact ⟨hc, by omega, by omega, hfd, hg, hst.symm⟩

theorem sequential_data_good (t : Nat → Nat) (n L k : Nat) (labels : List (Option (List Nat))) :
    ∀ (fuel : Nat) (fd fd1 : phylip_t) (g g1 : Globals) (contents : List (List Nat))
      (cur p : List Nat) (m : msa_t),
    fd.chrstatus = t → IsLine p → contents[k]? = some cur → cur.length ≤ L → GoodSeq t cur →
    sequential_data fuel fd g (msaOf n L labels contents) k p cur.length =
      .ret (some m, fd1, g1) →
    ∃ s, m = msaOf n L labels (contents.set k s) ∧ s.length = L ∧ GoodSeq t s ∧
      fd1.chrstatus = t := by
  intro fuel
  induction fuel with
  | zero => intro fd fd1 g g1 contents cur p m _ _ _ _ _ h; simp [sequential_data] at h
  | succ fuel ih =>
    intro fd fd1 g g1 contents cur p m ht hp hk hcur hgood h
    rw [sequential_data] at h
    cases hd : dfa_parse fd g (msaOf n L labels contents) p k cur.length with
    | fatal x => simp [hd] at h
    | nomem => simp [hd] at h
    | undefined => simp [hd] at h
    | ret x =>
      obtain ⟨oj, fd2, g2, m2⟩ := x
      cases oj with
      | none => simp [hd] at h
      | some j =>
        obtain ⟨_, hj, hfit, hfd2, hg2, hm2⟩ :=
          dfa_parse_some fd fd2 g g2 n L labels contents k cur p j m2 hk hcur hd
        rw [hd] at h
        simp only [] at h
        have hgood2 : GoodSeq t (cur ++ accepted fd.chrstatus p) :=
          goodSeq_append t _ _ hgood (by rw [ht]; exact accepted_good t p hp)
        have hchr2 : fd2.chrstatus = t := by rw [hfd2, strip_counts_chr, ht]
        by_cases hfull : ((cur.length + j : Nat) : Int) = m2.length
        · rw [if_pos hfull] at h
          simp only [Outcome.ret.injEq, Prod.mk.injEq, Option.some.injEq] at h
          obtain ⟨h1, h2, h3⟩ := h
          refine ⟨cur ++ accepted fd.chrstatus p, by rw [← h1, hm2], ?_, hgood2, by rw [← h2, hchr2]⟩
          rw [hm2] at hfull
          simp only [msaOf] at hfull
          norm_cast at hfull
          simp; omega
        · rw [if_neg hfull] at h
          cases hg : getnextline fd2 with
          | fatal x => simp [hg] at h
          | nomem => simp [hg] at h
          | undefined => simp [hg] at h
          | ret y =>
            obtain ⟨ol, fd3⟩ := y
            obtain ⟨hline, hchr3, _, _⟩ := getnextline_inv fd2 fd3 ol hg
            cases ol with
            | none =>
              rw [hg] at h
              simp only [] at h
              split at h <;> simp at h
            | some p1 =>
              rw [hg] at h
              simp only [] at h
              have hltk : k < contents.length := by
                by_contra hge
                rw [List.getElem?_eq_none (by omega)] at hk
                simp at hk
              have hlen : (cur ++ accepted fd.chrstatus p).length = cur.length + j := by
                simp [hj]
              rw [hm2, ← hlen] at h
              obtain ⟨s, hs1, hs2, hs3, hs4⟩ :=
                ih fd3 fd1 g2 g1 (contents.set k (cur ++ accepted fd.chrstatus p))
                  (cur ++ accepted fd.chrstatus p) p1 m (by rw [hchr3, hchr2])
                  (hline p1 rfl) (by simp [List.getElem?_set_self, hltk]) (by omega) hgood2 h
              exact ⟨s, by rw [hs1, List.set_set], hs2, hs3, hs4⟩

theorem take_takeWhile_length (f : Nat → Bool) (l : List Nat) :
    l.take (l.takeWhile f).length = l.takeWhile f := by
  induction l with
  | nil => simp
  | cons c l ih =>
    by_cases hc : f c = true
    · simp [List.takeWhile_cons, hc, ih]
    · simp [List.takeWhile_cons, hc]

theorem mem_skipws (l : List Nat) (x : Nat) (h : x ∈ skipws l) : x ∈ l :=
  (List.dropWhile_sublist whitespace).subset h

theorem goodLabel_of_line (line : List Nat) (c : Nat) (p0 : List Nat) (hl : IsLine line)
    (hp : skipws line = c :: p0) : GoodLabel ((c :: p0).take (headerlen (c :: p0))) := by
  have hws := skipws_head line c p0 hp
  have hpos := headerlen_pos c p0 hws
  have hmem : ∀ x ∈ (c :: p0).take (headerlen (c :: p0)), x ∈ line := by
    intro x hx
    exact mem_skipws line x (by rw [hp]; exact List.mem_of_mem_take hx)
  refine ⟨?_, ?_, ?_⟩
  · obtain ⟨k, hk⟩ := Nat.exists_eq_succ_of_ne_zero hpos
    rw [hk]; simp
  · intro x hx
    refine ⟨(hl x (hmem x hx)).1, (hl x (hmem x hx)).2, ?_⟩
    by_cases h32 : 32 ∈ c :: p0
    · have hh : headerlen (c :: p0) = ((c :: p0).takeWhile (fun x => x ≠ 32)).length := by
        simp only [headerlen, h32, if_true, xstrchrnul]
      rw [hh, take_takeWhile_length] at hx
      simpa using List.mem_takeWhile_imp hx
    · intro hx32
      subst hx32
      exact h32 (List.mem_of_mem_take hx)
  · intro x hx
    obtain ⟨k, hk⟩ := Nat.exists_eq_succ_of_ne_zero hpos
    rw [hk] at hx
    simp at hx
    subst hx
    exact hws

theorem rowsDone_step (t : Nat → Nat) (L : Nat) (labels : List (Option (List Nat)))
    (contents : List (List Nat)) (k : Nat) (lab s : List Nat) (hkl : k < labels.length)
    (hkc : k < contents.length) (hd : RowsDone t L labels contents k) (hlab : GoodLabel lab)
    (hs : s.length = L) (hg : GoodSeq t s) :
    RowsDone t L (labels.set k (some lab)) (contents.set k s) (k + 1) := by
  intro i hi
  by_cases hik : i = k
  · subst hik
    exact ⟨lab, s, by simp [List.getElem?_set_self, hkl], hlab,
      by simp [List.getElem?_set_self, hkc], hs, hg⟩
  · obtain ⟨lab1, s1, h1, h2, h3, h4, h5⟩ := hd i (by omega)
    refine ⟨lab1, s1, ?_, h2, ?_, h4, h5⟩
    · rw [List.getElem?_set_ne (by omega)]; exact h1
    · rw [List.getElem?_set_ne (by omega)]; exact h3

theorem sequential_taxa_good (t : Nat → Nat) (n L : Nat) :
    ∀ (fuel : Nat) (fd fd1 : phylip_t) (g g1 : Globals) (labels : List (Option (List Nat)))
      (contents : List (List Nat)) (k : Nat) (m : msa_t),
    fd.chrstatus = t → labels.length = n → contents.length = n → k ≤ n →
    RowsDone t L labels contents k → (∀ i, k ≤ i → i < n → contents[i]? = some []) →
    sequential_taxa fuel fd g (msaOf n L labels contents) k = .ret (some m, fd1, g1) →
    ∃ labels1 contents1, m = msaOf n L labels1 contents1 ∧ labels1.length = n ∧
      contents1.length = n ∧ RowsDone t L labels1 contents1 n := by
  intro fuel
  induction fuel with
  | zero => intro fd fd1 g g1 labels contents k m _ _ _ _ _ _ h; simp [sequential_taxa] at h
  | succ fuel ih =>
    intro fd fd1 g g1 labels contents k m ht hll hcl hkn hdone hfresh h
    rw [sequential_taxa] at h
    cases hg : getnextline fd with
    | fatal x => simp [hg] at h
    | nomem => simp [hg] at h
    | undefined => simp [hg] at h
    | ret y =>
      obtain ⟨ol, fd2⟩ := y
      obtain ⟨hline, hchr2, _, _⟩ := getnextline_inv fd fd2 ol hg
      rw [hg] at h
      cases ol with
      | none =>
        simp only [] at h
        by_cases hc : (k : Int) ≠ (msaOf n L labels contents).count
        · rw [if_pos hc] at h; simp at h
        · rw [if_neg hc] at h
          simp only [Outcome.ret.injEq, Prod.mk.injEq, Option.some.injEq] at h
          simp only [msaOf, ne_eq, not_not] at hc
          have hkeq : k = n := by omega
          subst hkeq
          exact ⟨labels, contents, h.1.symm, hll, hcl, hdone⟩
      | some line =>
        simp only [] at h
        cases hsk : skipws line with
        | nil =>
          rw [hsk] at h
          simp only [] at h
          exact ih fd2 fd1 g g1 labels contents k m (by rw [hchr2, ht]) hll hcl hkn hdone hfresh h
        | cons c p0 =>
          rw [hsk] at h
          simp only [] at h
          by_cases hc : (k : Int) = (msaOf n L labels contents).count
          · rw [if_pos hc] at h; simp at h
          · rw [if_neg hc] at h
            simp only [msaOf] at hc
            have hklt : k < n := by omega
            by_cases hh : headerlen (c :: p0) = 0
            · rw [if_pos hh] at h; simp at h
            · rw [if_neg hh,
                msaOf_setLabel n L labels contents k _ (by omega)] at h
              simp only [] at h
              have hlab := goodLabel_of_line line c p0 (hline line rfl) hsk
              have hpl : IsLine ((c :: p0).drop (headerlen (c :: p0))) := by
                intro x hx
                exact hline line rfl x (mem_skipws line x (by rw [hsk]; exact List.mem_of_mem_drop hx))
              cases hd : sequential_data (fd2.fp.length + 1) fd2 g
                  (msaOf n L (labels.set k (some ((c :: p0).take (headerlen (c :: p0))))) contents)
                  k ((c :: p0).drop (headerlen (c :: p0))) 0 with
              | fatal x => simp [hd] at h
              | nomem => simp [hd] at h
              | undefined => simp [hd] at h
              | ret z =>
                obtain ⟨om, fd3, g3⟩ := z
                rw [hd] at h
                cases om with
                | none => simp at h
                | some m2 =>
                  simp only [] at h
                  obtain ⟨s, hm2, hsl, hsg, hchr3⟩ :=
                    sequential_data_good t n L k _ (fd2.fp.length + 1) fd2 fd3 g g3 contents []
                      _ m2 (by rw [hchr2, ht]) hpl (hfresh k (le_refl _) hklt) (by simp)
                      (by intro x hx; simp at hx) hd
                  have hstep := rowsDone_step t L labels contents k _ s (by omega) (by omega)
                    hdone hlab hsl hsg
                  by_cases hlast : ((k : Int) + 1) = m2.count
                  · rw [if_pos hlast] at h
                    simp only [Outcome.ret.injEq, Prod.mk.injEq, Option.some.injEq] at h
                    rw [hm2] at hlast
                    simp only [msaOf] at hlast
                    have hk1 : k + 1 = n := by omega
                    rw [hk1] at hstep
                    exact ⟨_, _, by rw [← h.1, hm2], by simp [hll], by simp [hcl], hstep⟩
                  · rw [if_neg hlast, hm2] at h
                    exact ih fd3 fd1 g3 g1 _ _ (k + 1) m hchr3 (by simp [hll]) (by simp [hcl])
                      (by omega) hstep
                      (by
                        intro i hi hin
                        rw [List.getElem?_set_ne (by omega)]
                        exact hfresh i (by omega) hin) h

theorem skip_emptylines_chr : ∀ (fuel : Nat) (fd fd1 : phylip_t),
    skip_emptylines fuel fd = .ret fd1 → fd1.chrstatus = fd.chrstatus := by
  intro fuel
  induction fuel with
  | zero => intro fd fd1 h; simp [skip_emptylines] at h
  | succ fuel ih =>
    intro fd fd1 h
    rw [skip_emptylines] at h
    cases hl : fd.line with
    | none => simp [hl] at h
    | some line =>
      simp only [hl] at h
      by_cases he : emptyline line = 1
      · rw [if_pos he] at h
        cases hg : getnextline fd with
        | fatal x => simp [hg] at h
        | nomem => simp [hg] at h
        | undefined => simp [hg] at h
        | ret y =>
          obtain ⟨ol, fd2⟩ := y
          rw [hg] at h
          simp only [] at h
          rw [ih fd2 fd1 h]
          exact (getnextline_inv fd fd2 ol hg).2.1
      · rw [if_neg he] at h
        simp only [Outcome.ret.injEq] at h
        rw [h]

/-- What a successful `phylip_parse_sequential` returns: the header it read
gave `n` and `L`, and the alignment has `n` complete rows of `L` columns. -/
theorem parse_sequential_good (fd fd1 : phylip_t) (g g1 : Globals) (m : msa_t)
    (h : phylip_parse_sequential fd g = .ret (some m, fd1, g1)) :
    ∃ (fd0 : phylip_t) (hdr : List Nat) (n L : Nat) (labels : List (Option (List Nat)))
      (contents : List (List Nat)),
      skip_emptylines (fd.fp.length + 2) fd = .ret fd0 ∧ fd0.line = some hdr ∧
      (parse_header hdr PHYLIP_SEQUENTIAL g).1 = some ((n : Int), (L : Int)) ∧
      0 < n ∧ 0 < L ∧ m = msaOf n L labels contents ∧ labels.length = n ∧
      contents.length = n ∧ RowsDone fd.chrstatus L labels contents n := by
  unfold phylip_parse_sequential at h
  cases hs : skip_emptylines (fd.fp.length + 2) fd with
  | fatal x => simp [hs] at h
  | nomem => simp [hs] at h
  | undefined => simp [hs] at h
  | ret fd0 =>
    rw [hs] at h
    simp only [] at h
    cases hl : fd0.line with
    | none => simp [hl] at h
    | some hdr =>
      simp only [hl] at h
      cases hp : parse_header hdr PHYLIP_SEQUENTIAL g with
      | mk o g2 =>
        rw [hp] at h
        cases o with
        | none => simp at h
        | some cl =>
          obtain ⟨count, length⟩ := cl
          simp only [] at h
          obtain ⟨_, hc0, hl0, _, _, _⟩ :=
            parse_header_some hdr PHYLIP_SEQUENTIAL g count length (by rw [hp])
          by_cases hcn : count < 0
          · simp [msa_alloc, hcn] at h
          · by_cases hln : length + 1 < 0
            · simp [msa_alloc, hcn, hc0, hln] at h
            · by_cases hlz : length + 1 = 0
              · simp [msa_alloc, hcn, hc0, hln, hlz] at h
              · have hcc : count = ((count.toNat : Nat) : Int) := by omega
                have hlc : length = ((length.toNat : Nat) : Int) := by omega
                rw [hcc, hlc, msa_alloc_ok count.toNat length.toNat (by omega)] at h
                simp only [] at h
                obtain ⟨labels, contents, hm, hll, hcl, hdone⟩ :=
                  sequential_taxa_good fd.chrstatus count.toNat length.toNat _ fd0 fd1 g2 g1
                    _ _ 0 m (skip_emptylines_chr _ _ _ hs) (by simp) (by simp) (by omega)
                    (by intro i hi; omega)
                    (by intro i _ hi; simp [List.getElem?_replicate, hi]) h
                refine ⟨fd0, hdr, count.toNat, length.toNat, labels, contents, rfl, hl, ?_,
                  by omega, by omega, hm, hll, hcl, hdone⟩
                rw [hp, ← hcc, ← hlc]

/-! ## Lemmas: decimal numerals -/

theorem digitsValue_append (a : List Nat) (d : Nat) :
    digitsValue (a ++ [d]) = 10 * digitsValue a + (d - 48) := by
  simp [digitsValue, List.foldl_append]

theorem decDigits_spec : ∀ (fuel n : Nat), n < fuel →
    digitsValue (decDigits fuel n) = n ∧ (∀ c ∈ decDigits fuel n, isdigit c = true) ∧
      decDigits fuel n ≠ [] := by
  intro fuel
  induction fuel with
  | zero => intro n h; omega
  | succ fuel ih =>
    intro n h
    unfold decDigits
    by_cases h10 : n < 10
    · simp only [h10, if_true]
      refine ⟨by simp [digitsValue], ?_, by simp⟩
      intro c hc
      simp at hc
      subst hc
      simp [isdigit]; omega
    · simp only [h10, if_false]
      obtain ⟨h1, h2, _⟩ := ih (n / 10) (by omega)
      refine ⟨?_, ?_, by simp⟩
      · rw [digitsValue_append, h1]; omega
      · intro c hc
        rcases List.mem_append.mp hc with hc | hc
        · exact h2 c hc
        · simp at hc
          subst hc
          simp [isdigit]; omega

theorem fmt_d_nat (n : Nat) : fmt_d (n : Int) = decDigits (n + 1) n := by
  unfold fmt_d
  rw [if_neg (by omega)]
  simp

theorem isdigit_not_isspace (c : Nat) (h : isdigit c = true) : isspace c = false := by
  simp [isdigit] at h
  simp [isspace]; omega

/-- Scanning a decimal numeral: white space, then digits, then something that
is not a digit. -/
theorem args_getint_digits (ws ds rest : List Nat) (hws : ∀ c ∈ ws, isspace c = true)
    (hds : ∀ c ∈ ds, isdigit c = true) (hne : ds ≠ [])
    (hrest : ∀ c, rest.head? = some c → isdigit c = false) :
    args_getint (ws ++ ds ++ rest) =
      (scanf_d (digitsValue ds : Int), ws.length + ds.length) := by
  obtain ⟨d, ds1, rfl⟩ := List.exists_cons_of_ne_nil hne
  have hd : isdigit d = true := hds d (by simp)
  have hdsp : isspace d = false := isdigit_not_isspace d hd
  have htw : (ws ++ (d :: ds1) ++ rest).takeWhile isspace = ws := by
    rw [List.append_assoc, List.takeWhile_append_of_pos hws]
    simp [List.takeWhile_cons, hdsp]
  have hdw : (ws ++ (d :: ds1) ++ rest).dropWhile isspace = d :: (ds1 ++ rest) := by
    rw [List.append_assoc, List.dropWhile_append_of_pos hws]
    simp [List.dropWhile_cons, hdsp]
  have htd : (d :: (ds1 ++ rest)).takeWhile isdigit = d :: ds1 := by
    have : d :: (ds1 ++ rest) = (d :: ds1) ++ rest := by simp
    rw [this, List.takeWhile_append_of_pos hds]
    cases rest with
    | nil => simp
    | cons r rs =>
      have := hrest r (by simp)
      simp [List.takeWhile_cons, this]
  have h45 : d ≠ 45 := by simp [isdigit] at hd; omega
  have h43 : d ≠ 43 := by simp [isdigit] at hd; omega
  unfold args_getint
  simp only [htw, hdw]
  split
  · rename_i heq; simp at heq; exact absurd heq.1 h45
  · rename_i heq; simp at heq; exact absurd heq.1 h43
  · rw [htd]; simp

theorem args_getint_fmt (ws rest : List Nat) (n : Nat) (hws : ∀ c ∈ ws, isspace c = true)
    (hrest : ∀ c, rest.head? = some c → isdigit c = false) (hn : n < 2 ^ 31) :
    args_getint (ws ++ fmt_d (n : Int) ++ rest) = ((n : Int), ws.length + (fmt_d (n : Int)).length) := by
  obtain ⟨h1, h2, h3⟩ := decDigits_spec (n + 1) n (by omega)
  rw [fmt_d_nat, args_getint_digits ws _ rest hws h2 h3 hrest, h1,
    scanf_d_of_range (n : Int) (by omega) (by exact_mod_cast hn)]

/-- The header `phylip_print` writes is accepted and gives back the two numbers. -/
theorem parse_header_printed (n L : Nat) (hn : 0 < n) (hL : 0 < L) (hn2 : n < 2 ^ 31)
    (hL2 : L < 2 ^ 31) (g : Globals) :
    parse_header (fmt_d (n : Int) ++ [32] ++ fmt_d (L : Int)) PHYLIP_SEQUENTIAL g =
      (some ((n : Int), (L : Int)), g) := by
  have h1 : args_getint (fmt_d (n : Int) ++ [32] ++ fmt_d (L : Int)) =
      ((n : Int), (fmt_d (n : Int)).length) := by
    have := args_getint_fmt [] (32 :: fmt_d (L : Int)) n (by simp) (by simp [isdigit]) hn2
    simpa using this
  have hdrop : (fmt_d (n : Int) ++ [32] ++ fmt_d (L : Int)).drop (fmt_d (n : Int)).length =
      [32] ++ fmt_d (L : Int) ++ [] := by
    simp [List.append_assoc]
  have h2 : args_getint ([32] ++ fmt_d (L : Int) ++ []) =
      ((L : Int), 1 + (fmt_d (L : Int)).length) := by
    have := args_getint_fmt [32] [] L (by simp [isspace]) (by simp) hL2
    simpa using this
  unfold parse_header
  simp only [h1]
  rw [if_neg (by omega), hdrop]
  simp only [h2]
  rw [if_neg (by omega)]
  have : skipws (([32] ++ fmt_d (L : Int) ++ []).drop (1 + (fmt_d (L : Int)).length)) = [] := by
    rw [List.drop_of_length_le (by simp; omega)]
    rfl
  rw [this]

/-! ## Lemmas: printing -/

theorem bufOf_full (L : Nat) (s : List Nat) (h : s.length = L) : bufOf L s = s ++ [0] := by
  simp [bufOf, h]

theorem cstring_terminated (s : List Nat) (h : ∀ c ∈ s, c ≠ 0) : cstring (s ++ [0]) = s := by
  unfold cstring
  rw [List.takeWhile_append_of_pos (by simpa using h)]
  simp

theorem chrclass_of_entry (t : Nat → Nat) (c v : Nat) (hc : c < 128) (hv : v < 256)
    (h : t c = v) : chrclass t c = some v := by
  unfold chrclass tableAt schar
  have h1 : c % 256 = c := Nat.mod_eq_of_lt (by omega)
  simp only [h1, hc, if_true]
  rw [if_pos (by omega)]
  simp [h, Nat.mod_eq_of_lt hv]

/-- The rows of a complete alignment as pairs of label and data. -/
theorem rows_of_done (t : Nat → Nat) (L : Nat) :
    ∀ (labels : List (Option (List Nat))) (contents : List (List Nat)),
    labels.length = contents.length → RowsDone t L labels contents labels.length →
    ∃ rows : List (List Nat × List Nat),
      labels = rows.map (fun r => some r.1) ∧ contents = rows.map (fun r => r.2) ∧
      ∀ r ∈ rows, GoodLabel r.1 ∧ r.2.length = L ∧ GoodSeq t r.2 := by
  intro labels
  induction labels with
  | nil =>
    intro contents hl _
    have : contents = [] := by
      cases contents with
      | nil => rfl
      | cons _ _ => simp at hl
    exact ⟨[], by simp, by simp [this], by simp⟩
  | cons x xs ih =>
    intro contents hl hd
    cases contents with
    | nil => simp at hl
    | cons y ys =>
      simp only [List.length_cons, Nat.add_right_cancel_iff] at hl
      obtain ⟨lab, s, h1, h2, h3, h4, h5⟩ := hd 0 (by simp)
      simp only [List.getElem?_cons_zero, Option.some.injEq] at h1 h3
      subst h1 h3
      obtain ⟨rows, hr1, hr2, hr3⟩ := ih ys hl (by
        intro i hi
        obtain ⟨lab1, s1, g1, g2, g3, g4, g5⟩ := hd (i + 1) (by simp; omega)
        simp only [List.getElem?_cons_succ] at g1 g3
        exact ⟨lab1, s1, g1, g2, g3, g4, g5⟩)
      refine ⟨(lab, y) :: rows, by simp [hr1], by simp [hr2], ?_⟩
      intro r hr
      simp only [List.mem_cons] at hr
      rcases hr with rfl | hr
      · exact ⟨h2, h4, h5⟩
      · exact hr3 r hr

theorem print_rows_rows (t : Nat → Nat) (L : Nat) :
    ∀ (rows : List (List Nat × List Nat)), (∀ r ∈ rows, r.2.length = L ∧ GoodSeq t r.2) →
    print_rows (rows.map (fun r => some r.1)) (rows.map (fun r => some (bufOf L r.2))) =
      some (unlines (rows.map rowLine)) := by
  intro rows
  induction rows with
  | nil => intro _; simp [print_rows, unlines]
  | cons r rows ih =>
    intro h
    obtain ⟨hl, hg⟩ := h r (by simp)
    have hcs : cstring (bufOf L r.2) = r.2 := by
      rw [bufOf_full L r.2 hl]
      exact cstring_terminated r.2 (fun c hc => (hg c hc).2.1)
    simp only [List.map_cons, print_rows]
    rw [ih (fun x hx => h x (by simp [hx])), hcs]
    simp [unlines, rowLine]

theorem phylip_print_rows (t : Nat → Nat) (n L : Nat) (rows : List (List Nat × List Nat))
    (hn : rows.length = n) (h : ∀ r ∈ rows, r.2.length = L ∧ GoodSeq t r.2) :
    phylip_print (msaOf n L (rows.map (fun r => some r.1)) (rows.map (fun r => r.2))) =
      some (unlines ((fmt_d (n : Int) ++ [32] ++ fmt_d (L : Int)) :: rows.map rowLine)) := by
  unfold phylip_print
  simp only [msaOf, List.length_map, Int.toNat_ofNat, hn, lt_self_iff_false, or_self, if_false]
  rw [List.take_of_length_le (by simp [hn]), List.take_of_length_le (by simp [hn])]
  have := print_rows_rows t L rows h
  simp only [List.map_map] at this ⊢
  rw [show ((fun c => some (bufOf L c)) ∘ fun r : List Nat × List Nat => r.2) =
    (fun r => some (bufOf L r.2)) from rfl, this]
  simp [unlines]

/-! ## Lemmas: reading back a printed alignment -/

theorem skipws_of_head (c : Nat) (p : List Nat) (h : whitespace c = false) :
    skipws (c :: p) = c :: p := by
  simp [skipws, List.dropWhile_cons, h]

theorem rowLine_facts (t : Nat → Nat) (L : Nat) (r : List Nat × List Nat)
    (hs : chrclass t 32 = some 0) (hlab : GoodLabel r.1) (hl : r.2.length = L)
    (hg : GoodSeq t r.2) :
    IsLine (rowLine r) ∧ (⟨[], rowLine r, []⟩ : TaxonLines).label = r.1 ∧
      (⟨[], rowLine r, []⟩ : TaxonLines).seq t = r.2 ∧
      (⟨[], rowLine r, []⟩ : TaxonLines).ok t L := by
  obtain ⟨hne, hchars, hhead⟩ := hlab
  obtain ⟨c, p, hcp⟩ := List.exists_cons_of_ne_nil hne
  have hws : whitespace c = false := hhead c (by rw [hcp]; rfl)
  have hrow : rowLine r = c :: (p ++ 32 :: r.2) := by simp [rowLine, hcp]
  have hsk : skipws (rowLine r) = rowLine r := by rw [hrow]; exact skipws_of_head _ _ hws
  have h32 : 32 ∈ rowLine r := by simp [rowLine]
  have htw : (rowLine r).takeWhile (fun x => x ≠ 32) = r.1 := by
    unfold rowLine
    rw [List.takeWhile_append_of_pos (by
      intro x hx
      simpa using (hchars x hx).2.2)]
    simp
  have hhl : headerlen (rowLine r) = r.1.length := by
    simp only [headerlen, h32, if_true, xstrchrnul, htw]
  have hlabel : (⟨[], rowLine r, []⟩ : TaxonLines).label = r.1 := by
    simp only [TaxonLines.label, hsk, hhl]
    simp [rowLine]
  have hdata : (⟨[], rowLine r, []⟩ : TaxonLines).data = [32 :: r.2] := by
    simp only [TaxonLines.data, hsk, hhl]
    simp [rowLine]
  have hacc : accepted t (32 :: r.2) = r.2 := by
    simp only [accepted, List.filter_cons, hs]
    simp only [Option.some.injEq, beq_iff_eq, zero_ne_one, if_false]
    rw [List.filter_eq_self]
    intro x hx
    simpa using (hg x hx).1
  have hclean : Clean t (32 :: r.2) := by
    intro x hx
    simp only [List.mem_cons] at hx
    rcases hx with rfl | hx
    · simp [hs]
    · simp [(hg x hx).1]
  refine ⟨?_, hlabel, ?_, ?_⟩
  · intro x hx
    simp only [rowLine, List.mem_append, List.mem_cons] at hx
    rcases hx with hx | rfl | hx
    · exact ⟨(hchars x hx).1, (hchars x hx).2.1⟩
    · simp
    · exact (hg x hx).2
  · simp only [TaxonLines.seq, hdata]
    simpa using hacc
  · refine ⟨by simp, by rw [hsk, hrow]; simp, ?_⟩
    rw [hdata]
    exact ⟨hclean, Or.inl ⟨rfl, by rw [hacc]; omega⟩⟩

theorem isLine_header (n L : Nat) : IsLine (fmt_d (n : Int) ++ [32] ++ fmt_d (L : Int)) := by
  obtain ⟨_, h1, _⟩ := decDigits_spec (n + 1) n (by omega)
  obtain ⟨_, h2, _⟩ := decDigits_spec (L + 1) L (by omega)
  intro c hc
  rw [fmt_d_nat, fmt_d_nat] at hc
  simp only [List.mem_append, List.mem_singleton] at hc
  rcases hc with (hc | rfl) | hc
  · have := h1 c hc; simp [isdigit] at this; omega
  · simp
  · have := h2 c hc; simp [isdigit] at this; omega

theorem flatten_rowLines (rows : List (List Nat × List Nat)) :
    ((rows.map (fun r => (⟨[], rowLine r, []⟩ : TaxonLines))).map
      TaxonLines.lines).flatten = rows.map rowLine := by
  induction rows with
  | nil => rfl
  | cons r rows ih =>
    simp only [List.map_cons, List.flatten_cons, ih]
    simp [TaxonLines.lines]

/-- Reading back what `phylip_print` wrote for complete rows. -/
theorem parse_printed (t : Nat → Nat) (n L : Nat) (rows : List (List Nat × List Nat))
    (g : Globals) (hs : chrclass t 32 = some 0) (hn : rows.length = n) (hnpos : 0 < n)
    (hL : 0 < L) (hn2 : n < 2 ^ 31) (hL2 : L < 2 ^ 31)
    (h : ∀ r ∈ rows, GoodLabel r.1 ∧ r.2.length = L ∧ GoodSeq t r.2) :
    ∃ fd fd1,
      phylip_open (unlines ((fmt_d (n : Int) ++ [32] ++ fmt_d (L : Int)) :: rows.map rowLine)) t =
        .ret (some fd) ∧
      phylip_parse_sequential fd g =
        .ret (some (msaOf n L (rows.map (fun r => some r.1)) (rows.map (fun r => r.2))),
              fd1, g) := by
  have hfacts := fun r hr => rowLine_facts t L r hs (h r hr).1 (h r hr).2.1 (h r hr).2.2
  have hlines : ∀ x ∈ (fmt_d (n : Int) ++ [32] ++ fmt_d (L : Int)) :: rows.map rowLine,
      IsLine x := by
    intro x hx
    simp only [List.mem_cons, List.mem_map] at hx
    rcases hx with rfl | ⟨r, hr, rfl⟩
    · exact isLine_header n L
    · exact (hfacts r hr).1
  obtain ⟨fd, hopen, hon, hchr, _⟩ :=
    phylip_open_lines _ t _ _ (isText_unlines _) hlines
  have hflat := flatten_rowLines rows
  obtain ⟨fd1, hparse, _, _⟩ :=
    parse_sequential_block t n L fd g [] (fmt_d (n : Int) ++ [32] ++ fmt_d (L : Int))
      (rows.map (fun r => (⟨[], rowLine r, []⟩ : TaxonLines))) [] hchr
      (by rw [hflat]; simp only [List.nil_append, List.append_nil]; exact hon) (by simp)
      (by rw [parse_header_printed n L hnpos hL hn2 hL2 g]) (by simp [hn])
      (by
        intro r hr
        simp only [List.mem_map] at hr
        obtain ⟨x, hx, rfl⟩ := hr
        exact (hfacts x hx).2.2.2)
  refine ⟨fd, fd1, hopen, ?_⟩
  rw [hparse]
  have e1 : (rows.map (fun r => (⟨[], rowLine r, []⟩ : TaxonLines))).map
      (fun r => some r.label) = rows.map (fun r => some r.1) := by
    rw [List.map_map]
    apply List.map_congr_left
    intro r hr
    simp [(hfacts r hr).2.1]
  have e2 : (rows.map (fun r => (⟨[], rowLine r, []⟩ : TaxonLines))).map
      (TaxonLines.seq t) = rows.map (fun r => r.2) := by
    rw [List.map_map]
    apply List.map_congr_left
    intro r hr
    simp [(hfacts r hr).2.2.1]
  rw [e1, e2]

/-! ## Lemmas: the header -/

theorem takeWhile_isdigit_append (ds rest : List Nat) (hds : ∀ c ∈ ds, isdigit c = true)
    (hrest : ∀ c, rest.head? = some c → isdigit c = false) :
    (ds ++ rest).takeWhile isdigit = ds := by
  rw [List.takeWhile_append_of_pos hds]
  cases rest with
  | nil => simp
  | cons r rs =>
    have := hrest r (by simp)
    simp [List.takeWhile_cons, this]

theorem args_getint_scans (line : List Nat) (v : Int) (rest : List Nat)
    (h : Scans line v rest) :
    (args_getint line).1 = scanf_d v ∧ line.drop (args_getint line).2 = rest := by
  obtain ⟨ws, sign, ds, hline, hws, hne, hds, hrest, hsign⟩ := h
  rcases hsign with ⟨rfl, rfl⟩ | ⟨rfl, rfl⟩ | ⟨rfl, rfl⟩
  · subst hline
    have := args_getint_digits ws ds rest hws hds hne hrest
    simp only [List.append_nil] at this ⊢
    rw [this]
    refine ⟨rfl, ?_⟩
    simp [← List.append_assoc]
  · have htw : line.takeWhile isspace = ws := by
      rw [hline, List.append_assoc, List.append_assoc, List.takeWhile_append_of_pos hws]
      simp [List.takeWhile_cons, isspace]
    have hdw : line.dropWhile isspace = 43 :: (ds ++ rest) := by
      rw [hline, List.append_assoc, List.append_assoc, List.dropWhile_append_of_pos hws]
      simp [List.dropWhile_cons, isspace]
    have hd := takeWhile_isdigit_append ds rest hds hrest
    have hlen : ds.length ≠ 0 := by
      intro h0; exact hne (List.length_eq_zero.mp h0)
    have hval : args_getint line =
        (scanf_d (digitsValue ds : Int), ws.length + 1 + ds.length) := by
      unfold args_getint
      simp only [htw, hdw, hd, hlen, if_false]
    rw [hval]
    refine ⟨rfl, ?_⟩
    rw [hline, show ws.length + 1 + ds.length = (ws ++ [43] ++ ds).length by simp; omega]
    simp only [List.drop_left]
  · have htw : line.takeWhile isspace = ws := by
      rw [hline, List.append_assoc, List.append_assoc, List.takeWhile_append_of_pos hws]
      simp [List.takeWhile_cons, isspace]
    have hdw : line.dropWhile isspace = 45 :: (ds ++ rest) := by
      rw [hline, List.append_assoc, List.append_assoc, List.dropWhile_append_of_pos hws]
      simp [List.dropWhile_cons, isspace]
    have hd := takeWhile_isdigit_append ds rest hds hrest
    have hlen : ds.length ≠ 0 := by
      intro h0; exact hne (List.length_eq_zero.mp h0)
    have hval : args_getint line =
        (scanf_d (- (digitsValue ds : Int)), ws.length + 1 + ds.length) := by
      unfold args_getint
      simp only [htw, hdw, hd, hlen, if_false]
    rw [hval]
    refine ⟨rfl, ?_⟩
    rw [hline, show ws.length + 1 + ds.length = (ws ++ [45] ++ ds).length by simp; omega]
    simp only [List.drop_left]

theorem args_getint_nointeger (line : List Nat) (h : NoInteger line) :
    (args_getint line).1 = 0 := by
  rcases h with ⟨ws, r, hline, hws, hhead, hnum⟩ | ⟨rest, hs⟩
  · have hdw : line.dropWhile isspace = r := by
      rw [hline, List.dropWhile_append_of_pos hws]
      cases r with
      | nil => rfl
      | cons c r1 =>
        have := hhead c rfl
        simp [List.dropWhile_cons, this]
    unfold args_getint
    simp only [hdw]
    cases r with
    | nil => simp
    | cons c r1 =>
      simp only [startsNumeral, Bool.or_eq_false_iff, Bool.and_eq_false_iff] at hnum
      obtain ⟨hc, hsign⟩ := hnum
      have hr1 : (c = 43 ∨ c = 45) → (r1.takeWhile isdigit).length = 0 := by
        intro hc2
        rcases hsign with h1 | h1
        · rcases hc2 with rfl | rfl <;> simp at h1
        · cases r1 with
          | nil => rfl
          | cons d r2 =>
            simp only at h1
            simp [List.takeWhile_cons, h1]
      split
      · rename_i heq
        simp only [List.cons.injEq] at heq
        rw [← heq.2, if_pos (hr1 (Or.inr heq.1))]
      · rename_i heq
        simp only [List.cons.injEq] at heq
        rw [← heq.2, if_pos (hr1 (Or.inl heq.1))]
      · simp [List.takeWhile_cons, hc]
  · exact (args_getint_scans line 0 rest hs).1.trans (by decide)

theorem parse_header_first_bad (line : List Nat) (format : Int) (g : Globals)
    (h : NoInteger line) :
    parse_header line format g =
      (none, { bpp_errno := ERROR_PHYLIP_SYNTAX, bpp_errmsg := msg_header_count }) := by
  unfold parse_header
  rw [if_pos (args_getint_nointeger line h)]
  rfl

theorem parse_header_second_bad (line : List Nat) (format : Int) (g : Globals) (v : Int)
    (rest : List Nat) (hs : Scans line v rest) (hv : scanf_d v ≠ 0) (h : NoInteger rest) :
    parse_header line format g =
      (none, { bpp_errno := ERROR_PHYLIP_SYNTAX, bpp_errmsg := msg_header_length }) := by
  obtain ⟨h1, h2⟩ := args_getint_scans line v rest hs
  unfold parse_header
  rw [if_neg (by rw [h1]; exact hv)]
  simp only [h2]
  rw [if_pos (args_getint_nointeger rest h)]
  rfl

/-- A block parser whose header line is rejected returns NULL at once. -/
theorem parse_sequential_header_rejected (fd : phylip_t) (g : Globals) (hdr : List Nat)
    (hl : fd.line = some hdr) (hnb : ¬ Blank hdr)
    (hp : (parse_header hdr PHYLIP_SEQUENTIAL g).1 = none) :
    phylip_parse_sequential fd g = .ret (none, fd, (parse_header hdr PHYLIP_SEQUENTIAL g).2) := by
  unfold phylip_parse_sequential
  have hskip : skip_emptylines (fd.fp.length + 2) fd = .ret fd := by
    rw [skip_emptylines, hl]
    simp only []
    rw [if_neg (by rw [emptyline_blank]; exact hnb)]
  rw [hskip]
  simp only [hl]
  cases hph : parse_header hdr PHYLIP_SEQUENTIAL g with
  | mk o g1 =>
    rw [hph] at hp
    simp only at hp
    subst hp
    rfl

theorem destroy_return_null_eq (freqs : Nat) (fd : phylip_t) (g : Globals) :
    destroy_return_null freqs fd g = if freqs = 0 then .ret (none, fd, g) else .undefined := by
  by_cases h : freqs = 0 <;> simp [destroy_return_null, msa_destroy, h]

theorem released_eq (freqs : Nat) (r : Option msa_t) (fd : phylip_t) (g : Globals) :
    released freqs r fd g =
      if r.isSome = true ∨ freqs = 0 then .ret (r, fd, g) else .undefined := by
  cases r with
  | some m => simp [released]
  | none => by_cases h : freqs = 0 <;> simp [released, destroy_return_null, msa_destroy, h]

theorem parse_interleaved_header_rejected (freqs : Nat) (fd : phylip_t) (g : Globals) (hdr : List Nat)
    (hl : fd.line = some hdr) (hnb : ¬ Blank hdr)
    (hp : (parse_header hdr PHYLIP_INTERLEAVED g).1 = none) :
    phylip_parse_interleaved freqs fd g =
      .ret (none, fd, (parse_header hdr PHYLIP_INTERLEAVED g).2) := by
  unfold phylip_parse_interleaved
  have hskip : skip_emptylines (fd.fp.length + 2) fd = .ret fd := by
    rw [skip_emptylines, hl]
    simp only []
    rw [if_neg (by rw [emptyline_blank]; exact hnb)]
  rw [hskip]
  simp only [hl]
  cases hph : parse_header hdr PHYLIP_INTERLEAVED g with
  | mk o g1 =>
    rw [hph] at hp
    simp only at hp
    subst hp
    rfl

/-! ## Lemmas: trailing text of the header -/

theorem skipws_nil_iff (l : List Nat) : skipws l = [] ↔ ∀ c ∈ l, whitespace c = true := by
  unfold skipws
  exact List.dropWhile_eq_nil_iff

/-- After two integers that are stored as non-zero values `parse_header`
returns 1 exactly when white space alone follows, whatever the expected format
is. -/
theorem parse_header_two_integers (line : List Nat) (format : Int) (g : Globals) (v1 v2 : Int)
    (r1 r2 : List Nat) (h1 : Scans line v1 r1) (hv1 : scanf_d v1 ≠ 0) (h2 : Scans r1 v2 r2)
    (hv2 : scanf_d v2 ≠ 0) :
    parse_header line format g =
      if skipws r2 = [] then (some (scanf_d v1, scanf_d v2), g) else (none, g) := by
  obtain ⟨a1, a2⟩ := args_getint_scans line v1 r1 h1
  obtain ⟨b1, b2⟩ := args_getint_scans r1 v2 r2 h2
  unfold parse_header
  rw [if_neg (by rw [a1]; exact hv1)]
  simp only [a2]
  rw [if_neg (by rw [b1]; exact hv2)]
  simp only [b2, a1, b1]
  cases hsk : skipws r2 with
  | nil => simp
  | cons c p =>
    have hws := skipws_head r2 c p hsk
    simp only [skipws_of_head c p hws]
    simp only [reduceCtorEq, if_false]
    split <;> [rfl; (split <;> rfl)]

/-! ## Lemmas: a block that ends too early -/

theorem getElem?_lt_length {α : Type} (l : List α) (k : Nat) (c : α) (h : l[k]? = some c) :
    k < l.length := by
  by_contra hge
  rw [List.getElem?_eq_none (by omega)] at h
  simp at h

/-- The taxa loop over complete taxa that are not the last ones of the block:
it goes on with the next taxon. -/
theorem sequential_taxa_more (t : Nat → Nat) (n L : Nat) (g : Globals)
    (tail : List (List Nat)) :
    ∀ (recs : List TaxonLines) (k fuel : Nat) (fd : phylip_t)
      (labels : List (Option (List Nat))) (contents : List (List Nat)),
    fd.chrstatus = t → k + recs.length < n → labels.length = n →
    contents.length = n → (∀ i, k ≤ i → i < n → contents[i]? = some []) →
    (∀ r ∈ recs, r.ok t L) →
    Reads fd ((recs.map TaxonLines.lines).flatten ++ tail) → fd.fp.length < fuel →
    ∃ fd1 fuel1 labels1 contents1,
      sequential_taxa fuel fd g (msaOf n L labels contents) k =
        sequential_taxa fuel1 fd1 g (msaOf n L labels1 contents1) (k + recs.length) ∧
      Reads fd1 tail ∧ fd1.chrstatus = t ∧ fd1.fp.length < fuel1 ∧
      labels1.length = n ∧ contents1.length = n ∧
      (∀ i, k + recs.length ≤ i → i < n → contents1[i]? = some []) := by
  intro recs
  induction recs with
  | nil =>
    intro k fuel fd labels contents ht _ hll hcl hfresh _ hr hfuel
    exact ⟨fd, fuel, labels, contents, rfl, by simpa using hr, ht, hfuel, hll, hcl,
      by simpa using hfresh⟩
  | cons r recs ih =>
    intro k fuel fd labels contents ht hk hll hcl hfresh hok hr hfuel
    obtain ⟨hblank, hfirst, hfills⟩ := hok r (by simp)
    simp only [List.length_cons] at hk
    have hr0 : Reads fd (r.blanks ++ (r.first :: (r.more ++
        ((recs.map TaxonLines.lines).flatten ++ tail)))) := by
      simpa [TaxonLines.lines, List.append_assoc] using hr
    obtain ⟨fd1, fuel1, heq, hr1, hchr1, hf1, hle1⟩ :=
      sequential_taxa_blanks (msaOf n L labels contents) k g _ r.blanks fuel fd hblank hr0 hfuel
    rw [heq]
    cases fuel1 with
    | zero => omega
    | succ fuel1 =>
      obtain ⟨fp2, hget, hr2, hlen2⟩ := getnextline_reads fd1 _ _ hr1
      obtain ⟨c, p0, hp⟩ := List.exists_cons_of_ne_nil hfirst
      have hws := skipws_head _ _ _ hp
      have hdata : r.data = (c :: p0).drop (headerlen (c :: p0)) :: r.more := by
        simp [TaxonLines.data, hp]
      have hlab : r.label = (c :: p0).take (headerlen (c :: p0)) := by
        simp [TaxonLines.label, hp]
      rw [hdata] at hfills
      have hk0 : (contents)[k]? = some [] := hfresh k (le_refl _) (by omega)
      obtain ⟨fd3, hdat, hr3, hchr3, hle3⟩ :=
        sequential_data_fills t n L k (labels.set k (some r.label))
          ((recs.map TaxonLines.lines).flatten ++ tail) r.more
          ((c :: p0).drop (headerlen (c :: p0))) (fp2.length + 1)
          { fd1 with fp := fp2, line := some r.first } g contents []
          (by simp [hchr1, ht]) (by simpa using hfills) hr2 (by simp) hk0
      simp only [List.length_nil, List.nil_append] at hdat
      obtain ⟨fd4, fuel4, labels4, contents4, hrec, hr4, hchr4, hf4, hll4, hcl4, hfresh4⟩ :=
        ih (k + 1) fuel1 fd3 (labels.set k (some r.label))
          (contents.set k (accepted t
            ((((c :: p0).drop (headerlen (c :: p0))) :: r.more).flatten)))
          hchr3 (by omega) (by simp; omega) (by simp; omega)
          (by
            intro i hi hin
            rw [List.getElem?_set_ne (by omega)]
            exact hfresh i (by omega) hin)
          (fun x hx => hok x (by simp [hx])) hr3 (by simp at hle3; omega)
      refine ⟨fd4, fuel4, labels4, contents4, ?_, hr4, hchr4, hf4, hll4, hcl4, ?_⟩
      · rw [sequential_taxa, hget]
        simp only [hp]
        rw [if_neg (by simp only [msaOf]; norm_cast; omega), if_neg (headerlen_pos c p0 hws),
          ← hlab, msaOf_setLabel n L labels contents k r.label (by omega)]
        simp only []
        rw [hdat]
        simp only []
        rw [if_neg (by simp only [msaOf]; norm_cast; omega), hrec]
        congr 1
        simp only [List.length_cons]; omega
      · intro i hi hin
        exact hfresh4 i (by simp only [List.length_cons] at hi; omega) hin

theorem dfa_parse_loop_overflow (t : Nat → Nat) (n L k offset : Nat)
    (labels : List (Option (List Nat))) (lab : List Nat) (hlab : labels[k]? = some (some lab))
    (g : Globals) :
    ∀ (d : List Nat) (j : Nat) (fd : phylip_t) (contents : List (List Nat)) (cur : List Nat),
    fd.chrstatus = t → Clean t d → contents[k]? = some cur → cur.length = offset + j →
    cur.length ≤ L → L < cur.length + (accepted t d).length →
    ∃ fd1 m1, dfa_parse_loop k offset d j fd g (msaOf n L labels contents) =
      .ret (none, fd1, { bpp_errno := ERROR_PHYLIP_LONGSEQ, bpp_errmsg := msg_longseq k lab },
            m1) ∧ fd1.chrstatus = t ∧ fd1.fp = fd.fp := by
  intro d
  induction d with
  | nil => intro j fd contents cur _ _ _ _ hle h; simp [accepted] at h; omega
  | cons c d ih =>
    intro j fd contents cur ht hclean hk hcur hle hlt
    have hc := hclean c (by simp)
    have hd : Clean t d := fun x hx => hclean x (by simp [hx])
    subst ht
    cases hcl : chrclass fd.chrstatus c with
    | none => rw [hcl] at hc; simp at hc
    | some v =>
      rcases v with _ | _ | _ | v
      · have hacc : accepted fd.chrstatus (c :: d) = accepted fd.chrstatus d := by
          simp [accepted, hcl]
        rw [hacc] at hlt
        obtain ⟨fd1, m1, h1, h2, h3⟩ := ih j
          { fd with stripped_count := fd.stripped_count + 1,
                    stripped := Function.update fd.stripped (schar c).toNat
                                  (fd.stripped (schar c).toNat + 1) } contents cur rfl hd hk
          hcur hle hlt
        exact ⟨fd1, m1, by simp only [dfa_parse_loop, hcl]; exact h1, h2, h3⟩
      · have hacc : accepted fd.chrstatus (c :: d) = c :: accepted fd.chrstatus d := by
          simp [accepted, hcl]
        rw [hacc] at hlt
        simp only [List.length_cons] at hlt
        by_cases hfull : cur.length = L
        · refine ⟨fd, msaOf n L labels contents, ?_, rfl, rfl⟩
          simp only [dfa_parse_loop, hcl]
          rw [if_pos (by simp only [msaOf]; omega), msaOf_labelAt n L labels contents k lab hlab]
        · have hst := msaOf_store n L labels contents k cur c hk (by omega)
          rw [hcur] at hst
          obtain ⟨fd1, m1, h1, h2, h3⟩ := ih (j + 1) fd (contents.set k (cur ++ [c]))
            (cur ++ [c]) rfl hd
            (by simp [List.getElem?_set_self, getElem?_lt_length _ _ _ hk])
            (by simp; omega) (by simp; omega) (by simp; omega)
          refine ⟨fd1, m1, ?_, h2, h3⟩
          simp only [dfa_parse_loop, hcl]
          rw [if_neg (by simp only [msaOf]; omega), hst]
          exact h1
      · rw [hcl] at hc; simp at hc
      · have hacc : accepted fd.chrstatus (c :: d) = accepted fd.chrstatus d := by
          simp [accepted, hcl]
        rw [hacc] at hlt
        obtain ⟨fd1, m1, h1, h2, h3⟩ := ih j fd contents cur rfl hd hk hcur hle hlt
        exact ⟨fd1, m1, by simp only [dfa_parse_loop, hcl]; exact h1, h2, h3⟩

/-- `parse_oneline_sequence` on the lines of a group that yields a chunk which fits. -/
theorem parse_oneline_yield (t : Nat → Nat) (n L k : Nat) (labels : List (Option (List Nat)))
    (g : Globals) (rest : List (List Nat)) (d : List Nat) (a e : Nat)
    (hd : Clean t d) (hpos : accepted t d ≠ [])
    (ha : a = 0 ∨ a = (accepted t d).length) :
    ∀ (zs : List (List Nat)) (p : List Nat) (fl : List (List Nat)) (fuel : Nat) (fd : phylip_t)
      (contents : List (List Nat)) (cur : List Nat),
    zs ++ [d] = p :: fl → (∀ z ∈ zs, Clean t z ∧ accepted t z = []) →
    fd.chrstatus = t → Reads fd (fl ++ rest) → fd.fp.length + 1 < fuel →
    contents[k]? = some cur → cur.length + (accepted t d).length ≤ L →
    ∃ fd1, parse_oneline_sequence fuel fd g (msaOf n L labels contents) (some p) k cur.length a e =
        .ret (some d, fd1, g, msaOf n L labels (contents.set k (cur ++ accepted t d)),
              (accepted t d).length, e) ∧
      Reads fd1 rest ∧ fd1.chrstatus = t ∧ fd1.fp.length ≤ fd.fp.length := by
  intro zs
  induction zs with
  | nil =>
    intro p fl fuel fd contents cur heq _ ht hr hfuel hk hfit
    simp only [List.nil_append, List.cons.injEq] at heq
    obtain ⟨rfl, rfl⟩ := heq
    cases fuel with
    | zero => omega
    | succ fuel =>
      subst ht
      refine ⟨strip_counts fd d, ?_, ⟨by rw [strip_counts_fp]; simpa using hr.1,
        by simpa using hr.2⟩, strip_counts_chr fd d, by rw [strip_counts_fp]⟩
      rw [parse_oneline_sequence, dfa_parse_clean fd g n L labels contents k cur d hk hd hfit]
      simp only []
      have hj : (accepted fd.chrstatus d).length ≠ 0 := by
        intro h0; exact hpos (List.length_eq_zero.mp h0)
      rw [if_pos hj]
      rcases ha with rfl | rfl
      · simp
      · rw [if_neg hj]; simp
  | cons z zs ih =>
    intro p fl fuel fd contents cur heq hz ht hr hfuel hk hfit
    simp only [List.cons_append, List.cons.injEq] at heq
    obtain ⟨rfl, rfl⟩ := heq
    obtain ⟨hzc, hza⟩ := hz z (by simp)
    cases fuel with
    | zero => omega
    | succ fuel =>
      subst ht
      obtain ⟨x, xs, hx⟩ := List.exists_cons_of_ne_nil (show zs ++ [d] ≠ [] by simp)
      have hr1 : Reads (strip_counts fd z) (x :: (xs ++ rest)) := by
        refine ⟨by rw [strip_counts_fp]; simpa [hx] using hr.1, by simpa [hx] using hr.2⟩
      obtain ⟨fp1, hget, hr2, hlen2⟩ := getnextline_reads _ _ _ hr1
      rw [strip_counts_fp] at hlen2
      obtain ⟨fd1, hrec, hr3, hchr, hle⟩ :=
        ih x xs fuel { strip_counts fd z with fp := fp1, line := some x } contents cur hx
          (fun y hy => hz y (by simp [hy])) (by simp [strip_counts_chr]) hr2
          (by simp; omega) hk hfit
      refine ⟨fd1, ?_, hr3, by simpa [strip_counts_chr] using hchr, by simp at hle; omega⟩
      rw [parse_oneline_sequence, dfa_parse_clean fd g n L labels contents k cur z hk hzc
        (by rw [hza]; simp; omega)]
      simp only [hza, List.length_nil, ne_eq, not_true_eq_false, if_false, List.append_nil]
      rw [hget, set_same contents k cur hk]
      simp only []
      exact hrec

/-- `parse_oneline_sequence` passes over lines that hold no data byte. -/
theorem parse_oneline_skip (t : Nat → Nat) (n L k : Nat) (labels : List (Option (List Nat)))
    (g : Globals) (rest : List (List Nat)) (a e : Nat) (contents : List (List Nat))
    (cur : List Nat) (hk : contents[k]? = some cur) (hcur : cur.length ≤ L) :
    ∀ (zs : List (List Nat)) (z : List Nat) (fuel : Nat) (fd : phylip_t),
    (∀ x ∈ z :: zs, Clean t x ∧ accepted t x = []) →
    fd.chrstatus = t → Reads fd (zs ++ rest) → fd.fp.length + 1 < fuel →
    ∃ fd1 fuel1,
      parse_oneline_sequence fuel fd g (msaOf n L labels contents) (some z) k cur.length a e =
        parse_oneline_sequence fuel1 fd1 g (msaOf n L labels contents) rest.head? k
          cur.length a e ∧
      Reads fd1 rest.tail ∧ fd1.chrstatus = t ∧ fd1.fp.length < fuel1 ∧
      fd1.fp.length ≤ fd.fp.length ∧ (rest ≠ [] → fd1.fp.length + 1 < fuel1) := by
  intro zs
  induction zs with
  | nil =>
    intro z fuel fd hz ht hr hfuel
    obtain ⟨hzc, hza⟩ := hz z (by simp)
    cases fuel with
    | zero => omega
    | succ fuel =>
      subst ht
      have hdfa := dfa_parse_clean fd g n L labels contents k cur z hk hzc
        (by rw [hza]; simp; omega)
      rw [hza] at hdfa
      simp only [List.length_nil, List.append_nil, set_same contents k cur hk] at hdfa
      cases rest with
      | nil =>
        have hr1 : Reads (strip_counts fd z) [] :=
          ⟨by rw [strip_counts_fp]; simpa using hr.1, by simp⟩
        refine ⟨{ strip_counts fd z with fp := [], line := none }, fuel, ?_,
          ⟨rfl, by simp⟩, by simp [strip_counts_chr], by simp; omega, by simp, by simp⟩
        rw [parse_oneline_sequence, hdfa]
        simp only [ne_eq, not_true_eq_false, if_false]
        rw [getnextline_reads_nil _ hr1]
        rfl
      | cons x xs =>
        have hr1 : Reads (strip_counts fd z) (x :: xs) :=
          ⟨by rw [strip_counts_fp]; simpa using hr.1, by simpa using hr.2⟩
        obtain ⟨fp1, hget, hr2, hlen2⟩ := getnextline_reads _ _ _ hr1
        rw [strip_counts_fp] at hlen2
        refine ⟨{ strip_counts fd z with fp := fp1, line := some x }, fuel, ?_, hr2,
          by simp [strip_counts_chr], by simp; omega, by simp; omega, by simp; omega⟩
        rw [parse_oneline_sequence, hdfa]
        simp only [ne_eq, not_true_eq_false, if_false]
        rw [hget]
        rfl
  | cons z2 zs ih =>
    intro z fuel fd hz ht hr hfuel
    obtain ⟨hzc, hza⟩ := hz z (by simp)
    cases fuel with
    | zero => omega
    | succ fuel =>
      subst ht
      have hdfa := dfa_parse_clean fd g n L labels contents k cur z hk hzc
        (by rw [hza]; simp; omega)
      rw [hza] at hdfa
      simp only [List.length_nil, List.append_nil, set_same contents k cur hk] at hdfa
      have hr1 : Reads (strip_counts fd z) (z2 :: (zs ++ rest)) :=
        ⟨by rw [strip_counts_fp]; simpa using hr.1, by simpa using hr.2⟩
      obtain ⟨fp1, hget, hr2, hlen2⟩ := getnextline_reads _ _ _ hr1
      rw [strip_counts_fp] at hlen2
      obtain ⟨fd1, fuel1, hrec, h1, h2, h3, h4, h5⟩ :=
        ih z2 fuel { strip_counts fd z with fp := fp1, line := some z2 }
          (fun x hx => hz x (by simp at hx ⊢; tauto)) (by simp [strip_counts_chr]) hr2
          (by simp; omega)
      refine ⟨fd1, fuel1, ?_, h1, by simpa [strip_counts_chr] using h2, h3,
        by simp at h4; omega, h5⟩
      rw [parse_oneline_sequence, hdfa]
      simp only [ne_eq, not_true_eq_false, if_false]
      rw [hget]
      exact hrec

/-- `parse_oneline_sequence` on a line whose data bytes do not fit. -/
theorem parse_oneline_overflow (n L k : Nat) (labels : List (Option (List Nat)))
    (lab : List Nat) (hlab : labels[k]? = some (some lab)) (g : Globals) (d : List Nat)
    (a e : Nat) (fuel : Nat) (fd : phylip_t) (contents : List (List Nat)) (cur : List Nat)
    (hd : Clean fd.chrstatus d) (hk : contents[k]? = some cur) (hcur : cur.length ≤ L)
    (hover : L < cur.length + (accepted fd.chrstatus d).length) :
    ∃ fd1 m1, parse_oneline_sequence (fuel + 1) fd g (msaOf n L labels contents) (some d) k
        cur.length a e =
      .ret (none, fd1,
            { bpp_errno := ERROR_PHYLIP_LONGSEQ, bpp_errmsg := msg_longseq k lab }, m1, a, 1) := by
  obtain ⟨fd1, m1, h, _, _⟩ := dfa_parse_loop_overflow fd.chrstatus n L k cur.length labels lab
    hlab g d 0 fd contents cur rfl hd hk (by simp) hcur hover
  refine ⟨fd1, m1, ?_⟩
  rw [parse_oneline_sequence]
  unfold dfa_parse
  rw [h]

theorem parse_oneline_none (fuel : Nat) (fd : phylip_t) (g : Globals) (m : msa_t)
    (k off a e : Nat) :
    parse_oneline_sequence (fuel + 1) fd g m none k off a e = .ret (none, fd, g, m, a, e) := by
  rw [parse_oneline_sequence]

/-! ## Lemmas: the second loop of interleaved blocks -/

theorem yields_accepted (t : Nat → Nat) (zs : List (List Nat)) (d : List Nat)
    (hz : ∀ z ∈ zs, Clean t z ∧ accepted t z = []) :
    accepted t (zs ++ [d]).flatten = accepted t d := by
  induction zs with
  | nil => simp
  | cons z zs ih =>
    simp only [List.cons_append, List.flatten_cons, accepted_append, (hz z (by simp)).2,
      List.nil_append]
    exact ih (fun x hx => hz x (by simp [hx]))

theorem next_seqno_wrap (n : Nat) (hn : 0 < n) :
    ((((n - 1 : Nat) : Int) + 1) % (n : Int)).toNat = 0 := by
  have : (((n - 1 : Nat) : Int) + 1) = (n : Int) := by omega
  rw [this, Int.emod_self]
  rfl

theorem next_seqno_step (n k : Nat) (hk : k + 1 < n) :
    (((k : Int) + 1) % (n : Int)).toNat = k + 1 := by
  rw [Int.emod_eq_of_lt (by omega) (by omega)]
  omega

/-- One taxon of a later block of `phylip_parse_interleaved`: the second loop
reads the lines of its group and goes on with the next taxon, or with the
next block after the last taxon. -/
theorem interleaved_rest_step (t : Nat → Nat) (n L k s a w : Nat) (b : Int)
    (labels : List (Option (List Nat))) (g : Globals) (rest : List (List Nat))
    (grp : List (List Nat)) (fuel : Nat) (fd : phylip_t) (contents : List (List Nat))
    (cur : List Nat) (ht : fd.chrstatus = t) (hy : Yields t w grp) (ha : a = 0 ∨ a = w)
    (hk : contents[k]? = some cur) (hcur : cur.length = s) (hfit : s + w ≤ L) (hkn : k < n)
    (hr : Reads fd (grp ++ rest)) (hfuel : fd.fp.length < fuel) :
    ∃ fd1 fuel1,
      interleaved_rest fuel fd g
          { msa := msaOf n L labels contents, seqno := k, aln_len := a, sumlen := s,
            block_count := b, error := 0 } =
        interleaved_rest fuel1 fd1 g
          (if k + 1 = n then
            { msa := msaOf n L labels (contents.set k (cur ++ accepted t grp.flatten)),
              seqno := 0, aln_len := 0, sumlen := s + w, block_count := b + 1, error := 0 }
           else
            { msa := msaOf n L labels (contents.set k (cur ++ accepted t grp.flatten)),
              seqno := k + 1, aln_len := w, sumlen := s, block_count := b, error := 0 }) ∧
      Reads fd1 rest ∧ fd1.chrstatus = t ∧ fd1.fp.length < fuel1 ∧
      fd1.fp.length ≤ fd.fp.length := by
  obtain ⟨zs, d, rfl, hz, hd, hw, hwpos⟩ := hy
  have hacc := yields_accepted t zs d hz
  rw [hacc]
  cases fuel with
  | zero => omega
  | succ fuel =>
    obtain ⟨p, fl, hpf⟩ := List.exists_cons_of_ne_nil (show zs ++ [d] ≠ [] by simp)
    have hr0 : Reads fd (p :: (fl ++ rest)) := by
      rw [hpf] at hr; simpa using hr
    obtain ⟨fp1, hget, hr1, hlen1⟩ := getnextline_reads fd _ _ hr0
    have hpos : accepted t d ≠ [] := by
      intro h0; rw [h0] at hw; simp at hw; omega
    obtain ⟨fd2, hpo, hr2, hchr2, hle2⟩ :=
      parse_oneline_yield t n L k labels g rest d a 0 hd hpos (by rw [hw]; exact ha) zs p fl
        (fp1.length + 2) { fd with fp := fp1, line := some p } contents cur hpf hz
        (by simp [ht]) hr1 (by simp) hk (by rw [hcur, hw]; exact hfit)
    refine ⟨fd2, fuel, ?_, hr2, hchr2, by simp at hle2; omega, by simp at hle2; omega⟩
    rw [interleaved_rest, hget]
    simp only []
    rw [← hcur, hpo]
    simp only []
    rw [if_neg (by simp only [msaOf]; omega)]
    by_cases hlast : k + 1 = n
    · have hk1 : k = n - 1 := by omega
      simp only [msaOf, hlast, if_true]
      rw [if_pos (by rw [hk1]; exact next_seqno_wrap n (by omega)), hw, hcur]
    · simp only [msaOf, hlast, if_false]
      rw [if_neg (by rw [next_seqno_step n k (by omega)]; omega),
        next_seqno_step n k (by omega), hw]

theorem yields_length (t : Nat → Nat) (w : Nat) (grp : List (List Nat)) (h : Yields t w grp) :
    (accepted t grp.flatten).length = w := by
  obtain ⟨zs, d, rfl, hz, _, hw, _⟩ := h
  rw [yields_accepted t zs d hz, hw]

theorem drop_eq_cons_of_getElem? {α : Type} (l : List α) (k : Nat) (c : α)
    (h : l[k]? = some c) : l.drop k = c :: l.drop (k + 1) := by
  induction l generalizing k with
  | nil => simp at h
  | cons x l ih =>
    cases k with
    | zero => simp at h; simp [h]
    | succ k => simp at h; simpa using ih k h

theorem set_take_drop {α : Type} (l : List α) (k : Nat) (x : α) (h : k < l.length) :
    (l.set k x).take (k + 1) = l.take k ++ [x] ∧ (l.set k x).drop (k + 1) = l.drop (k + 1) := by
  refine ⟨set_take_succ l k x h, ?_⟩
  induction l generalizing k with
  | nil => simp at h
  | cons y l ih =>
    cases k with
    | zero => simp
    | succ k => simp at h; simpa using ih k h

/-- The taxa `k`, `k+1`, ... of a later block, up to its last taxon. -/
theorem interleaved_rest_groups (t : Nat → Nat) (n L s w : Nat) (b : Int)
    (labels : List (Option (List Nat))) (g : Globals) (rest : List (List Nat))
    (hfit : s + w ≤ L) :
    ∀ (gs : List (List (List Nat))) (k a fuel : Nat) (fd : phylip_t)
      (contents : List (List Nat)),
    gs ≠ [] → k + gs.length = n → contents.length = n → fd.chrstatus = t →
    (∀ grp ∈ gs, Yields t w grp) → (a = 0 ∨ a = w) →
    (∀ i, k ≤ i → i < n → ∃ c, contents[i]? = some c ∧ c.length = s) →
    Reads fd (gs.flatten ++ rest) → fd.fp.length < fuel →
    ∃ fd1 fuel1,
      interleaved_rest fuel fd g
          { msa := msaOf n L labels contents, seqno := k, aln_len := a, sumlen := s,
            block_count := b, error := 0 } =
        interleaved_rest fuel1 fd1 g
          { msa := msaOf n L labels (contents.take k ++ pasteBlock t (contents.drop k) gs),
            seqno := 0, aln_len := 0, sumlen := s + w, block_count := b + 1, error := 0 } ∧
      Reads fd1 rest ∧ fd1.chrstatus = t ∧ fd1.fp.length < fuel1 ∧
      fd1.fp.length ≤ fd.fp.length := by
  intro gs
  induction gs with
  | nil => intro k a fuel fd contents h; exact absurd rfl h
  | cons grp gs ih =>
    intro k a fuel fd contents _ hk hcl ht hy ha hrows hr hfuel
    simp only [List.length_cons] at hk
    obtain ⟨cur, hcur, hcurlen⟩ := hrows k (le_refl _) (by omega)
    obtain ⟨fd1, fuel1, hstep, hr1, hchr1, hf1, hle1⟩ :=
      interleaved_rest_step t n L k s a w b labels g (gs.flatten ++ rest) grp fuel fd contents
        cur ht (hy grp (by simp)) ha hcur hcurlen hfit (by omega)
        (by simpa [List.append_assoc] using hr) hfuel
    have hklt : k < contents.length := by omega
    obtain ⟨e1, e2⟩ := set_take_drop contents k (cur ++ accepted t grp.flatten) hklt
    have hpaste : contents.take k ++ pasteBlock t (contents.drop k) (grp :: gs) =
        (contents.set k (cur ++ accepted t grp.flatten)).take (k + 1) ++
          pasteBlock t ((contents.set k (cur ++ accepted t grp.flatten)).drop (k + 1)) gs := by
      rw [e1, e2, drop_eq_cons_of_getElem? contents k cur hcur]
      simp [pasteBlock]
    by_cases hlast : gs = []
    · subst hlast
      simp only [List.length_nil] at hk
      rw [if_pos (by omega)] at hstep
      refine ⟨fd1, fuel1, ?_, by simpa using hr1, hchr1, hf1, hle1⟩
      rw [hstep, hpaste]
      rw [take_all_of_length _ _ (by simp; omega)]
      simp [pasteBlock]
    · rw [if_neg (by have := List.length_pos.mpr hlast; omega)] at hstep
      obtain ⟨fd2, fuel2, hrec, hr2, hchr2, hf2, hle2⟩ :=
        ih (k + 1) w fuel1 fd1 (contents.set k (cur ++ accepted t grp.flatten)) hlast
          (by omega) (by simp [hcl]) hchr1 (fun x hx => hy x (by simp [hx])) (Or.inr rfl)
          (by
            intro i hi hin
            rw [List.getElem?_set_ne (by omega)]
            exact hrows i (by omega) hin) hr1 hf1
      refine ⟨fd2, fuel2, ?_, hr2, hchr2, hf2, by omega⟩
      rw [hstep, hrec, hpaste]

theorem pasteBlock_length (t : Nat → Nat) (contents : List (List Nat))
    (gs : List (List (List Nat))) (h : gs.length = contents.length) :
    (pasteBlock t contents gs).length = contents.length := by
  simp [pasteBlock, h]

theorem pasteBlock_getElem? (t : Nat → Nat) (contents : List (List Nat))
    (gs : List (List (List Nat))) (i : Nat) (c : List Nat) (grp : List (List Nat))
    (hc : contents[i]? = some c) (hg : gs[i]? = some grp) :
    (pasteBlock t contents gs)[i]? = some (c ++ accepted t grp.flatten) := by
  simp [pasteBlock, List.getElem?_zipWith, hc, hg]

/-- A complete later block. -/
theorem interleaved_rest_block (t : Nat → Nat) (n L s w : Nat) (b : Int)
    (labels : List (Option (List Nat))) (g : Globals) (rest : List (List Nat))
    (gs : List (List (List Nat))) (fuel : Nat) (fd : phylip_t) (contents : List (List Nat))
    (hfit : s + w ≤ L) (hn : 0 < n) (hgl : gs.length = n) (hcl : contents.length = n)
    (ht : fd.chrstatus = t) (hy : ∀ grp ∈ gs, Yields t w grp)
    (hrows : ∀ c ∈ contents, c.length = s) (hr : Reads fd (gs.flatten ++ rest))
    (hfuel : fd.fp.length < fuel) :
    ∃ fd1 fuel1,
      interleaved_rest fuel fd g
          { msa := msaOf n L labels contents, seqno := 0, aln_len := 0, sumlen := s,
            block_count := b, error := 0 } =
        interleaved_rest fuel1 fd1 g
          { msa := msaOf n L labels (pasteBlock t contents gs), seqno := 0, aln_len := 0,
            sumlen := s + w, block_count := b + 1, error := 0 } ∧
      Reads fd1 rest ∧ fd1.chrstatus = t ∧ fd1.fp.length < fuel1 ∧
      fd1.fp.length ≤ fd.fp.length ∧ (pasteBlock t contents gs).length = n ∧
      ∀ c ∈ pasteBlock t contents gs, c.length = s + w := by
  have hgs : gs ≠ [] := by intro h; rw [h] at hgl; simp at hgl; omega
  obtain ⟨fd1, fuel1, h1, h2, h3, h4, h5⟩ :=
    interleaved_rest_groups t n L s w b labels g rest hfit gs 0 0 fuel fd contents hgs
      (by omega) hcl ht hy (Or.inl rfl)
      (by
        intro i _ hi
        have hlt : i < contents.length := by omega
        exact ⟨contents[i], by simp [hlt], hrows _ (List.getElem_mem hlt)⟩) hr hfuel
  refine ⟨fd1, fuel1, by simpa using h1, h2, h3, h4, h5,
    by rw [pasteBlock_length t contents gs (by omega), hcl], ?_⟩
  intro c hc
  simp only [pasteBlock, List.mem_iff_getElem?, List.getElem?_zipWith] at hc
  obtain ⟨i, hi⟩ := hc
  cases hci : contents[i]? with
  | none => simp [hci] at hi
  | some c0 =>
    cases hgi : gs[i]? with
    | none => simp [hci, hgi] at hi
    | some grp =>
      simp only [hci, hgi, Option.map_some', Option.bind_some, Option.some.injEq] at hi
      rw [← hi]
      simp only [List.length_append]
      rw [hrows c0 (List.getElem?_mem hci),
        yields_length t w grp (hy grp (List.getElem?_mem hgi))]

/-- Several complete later blocks whose chunks fit. -/
theorem interleaved_rest_blocks (t : Nat → Nat) (n L : Nat) (labels : List (Option (List Nat)))
    (g : Globals) (rest : List (List Nat)) (hn : 0 < n) :
    ∀ (bs : List (Nat × List (List (List Nat)))) (s : Nat) (b : Int) (fuel : Nat)
      (fd : phylip_t) (contents : List (List Nat)),
    (∀ p ∈ bs, p.2.length = n ∧ ∀ grp ∈ p.2, Yields t p.1 grp) →
    s + blocksWidth bs ≤ L → contents.length = n → (∀ c ∈ contents, c.length = s) →
    fd.chrstatus = t → Reads fd (blocksLines bs ++ rest) → fd.fp.length < fuel →
    ∃ fd1 fuel1,
      interleaved_rest fuel fd g
          { msa := msaOf n L labels contents, seqno := 0, aln_len := 0, sumlen := s,
            block_count := b, error := 0 } =
        interleaved_rest fuel1 fd1 g
          { msa := msaOf n L labels (pasteBlocks t contents bs), seqno := 0, aln_len := 0,
            sumlen := s + blocksWidth bs, block_count := b + bs.length, error := 0 } ∧
      Reads fd1 rest ∧ fd1.chrstatus = t ∧ fd1.fp.length < fuel1 ∧
      (pasteBlocks t contents bs).length = n ∧
      ∀ c ∈ pasteBlocks t contents bs, c.length = s + blocksWidth bs := by
  intro bs
  induction bs with
  | nil =>
    intro s b fuel fd contents _ _ hcl hrows ht hr hfuel
    refine ⟨fd, fuel, ?_, by simpa [blocksLines] using hr, ht, hfuel, hcl, ?_⟩
    · simp [pasteBlocks, blocksWidth]
    · simpa [pasteBlocks, blocksWidth] using hrows
  | cons p bs ih =>
    intro s b fuel fd contents hok hfit hcl hrows ht hr hfuel
    obtain ⟨hpl, hpy⟩ := hok p (by simp)
    have hw : blocksWidth (p :: bs) = p.1 + blocksWidth bs := by simp [blocksWidth]
    rw [hw] at hfit
    obtain ⟨fd1, fuel1, h1, hr1, hchr1, hf1, _, hl1, hrows1⟩ :=
      interleaved_rest_block t n L s p.1 b labels g (blocksLines bs ++ rest) p.2 fuel fd
        contents (by omega) hn hpl hcl ht hpy hrows
        (by simpa [blocksLines, List.append_assoc] using hr) hfuel
    obtain ⟨fd2, fuel2, h2, hr2, hchr2, hf2, hl2, hrows2⟩ :=
      ih (s + p.1) (b + 1) fuel1 fd1 (pasteBlock t contents p.2)
        (fun q hq => hok q (by simp [hq])) (by omega) hl1 hrows1 hchr1 hr1 hf1
    refine ⟨fd2, fuel2, ?_, hr2, hchr2, hf2, hl2, ?_⟩
    · rw [h1, h2, hw]
      simp only [pasteBlocks, List.foldl_cons, List.length_cons]
      congr 2
      · omega
      · push_cast; ring
    · intro c hc
      rw [hw, ← Nat.add_assoc]
      exact hrows2 c hc

/-- A group of a later block whose chunk does not fit: the loop is left with
the error flag set. -/
theorem interleaved_rest_overflow (t : Nat → Nat) (n L k s a w : Nat) (b : Int)
    (labels : List (Option (List Nat))) (lab : List Nat) (g : Globals)
    (rest : List (List Nat)) (grp : List (List Nat)) (fuel : Nat) (fd : phylip_t)
    (contents : List (List Nat)) (cur : List Nat) (ht : fd.chrstatus = t)
    (hlab : labels[k]? = some (some lab)) (hy : Yields t w grp)
    (hk : contents[k]? = some cur) (hcur : cur.length = s) (hs : s ≤ L) (hover : L < s + w)
    (hr : Reads fd (grp ++ rest)) (hfuel : fd.fp.length < fuel) :
    ∃ st1 fd1,
      interleaved_rest fuel fd g
          { msa := msaOf n L labels contents, seqno := k, aln_len := a, sumlen := s,
            block_count := b, error := 0 } =
        .ret (st1, fd1, { bpp_errno := ERROR_PHYLIP_LONGSEQ,
                          bpp_errmsg := msg_longseq k lab }) ∧ st1.error = 1 := by
  obtain ⟨zs, d, rfl, hz, hd, hw, _⟩ := hy
  cases fuel with
  | zero => omega
  | succ fuel =>
    cases zs with
    | nil =>
      obtain ⟨fp1, hget, hr1, _⟩ := getnextline_reads fd d rest (by simpa using hr)
      obtain ⟨fd2, m2, hpo⟩ :=
        parse_oneline_overflow n L k labels lab hlab g d a 0 (fp1.length + 1)
          { fd with fp := fp1, line := some d } contents cur (by simpa [ht] using hd) hk
          (by omega) (by simp only [ht, hw]; omega)
      have hres : interleaved_rest (fuel + 1) fd g
          { msa := msaOf n L labels contents, seqno := k, aln_len := a, sumlen := s,
            block_count := b, error := 0 } =
          .ret ({ msa := m2, seqno := k, aln_len := a, sumlen := s, block_count := b,
                  error := 1 }, fd2,
                { bpp_errno := ERROR_PHYLIP_LONGSEQ, bpp_errmsg := msg_longseq k lab }) := by
        rw [interleaved_rest, hget]
        simp only []
        rw [← hcur, hpo]
      exact ⟨_, _, hres, rfl⟩
    | cons z zs =>
      obtain ⟨fp1, hget, hr1, _⟩ := getnextline_reads fd z (zs ++ d :: rest)
        (by simpa using hr)
      obtain ⟨fd2, fuel2, hskip, hr2, hchr2, hf2, _, hf2b⟩ :=
        parse_oneline_skip t n L k labels g (d :: rest) a 0 contents cur hk (by omega) zs z
          (fp1.length + 2) { fd with fp := fp1, line := some z } hz (by simp [ht])
          (by simpa using hr1) (by simp)
      have hfpos := hf2b (by simp)
      obtain ⟨fuel3, hfuel3⟩ : ∃ f, fuel2 = f + 1 := ⟨fuel2 - 1, by omega⟩
      obtain ⟨fd3, m3, hpo⟩ :=
        parse_oneline_overflow n L k labels lab hlab g d a 0 fuel3 fd2 contents cur
          (by simpa [hchr2] using hd) hk (by omega) (by simp only [hchr2, hw]; omega)
      have hres : interleaved_rest (fuel + 1) fd g
          { msa := msaOf n L labels contents, seqno := k, aln_len := a, sumlen := s,
            block_count := b, error := 0 } =
          .ret ({ msa := m3, seqno := k, aln_len := a, sumlen := s, block_count := b,
                  error := 1 }, fd3,
                { bpp_errno := ERROR_PHYLIP_LONGSEQ, bpp_errmsg := msg_longseq k lab }) := by
        rw [interleaved_rest, hget]
        simp only []
        rw [← hcur, hskip, hfuel3]
        simp only [List.head?_cons]
        rw [hpo]
      exact ⟨_, _, hres, rfl⟩

/-- At the end of the stream, after lines without data bytes, the second loop
is left with its state unchanged. -/
theorem interleaved_rest_eof (t : Nat → Nat) (n L k s a : Nat) (b : Int)
    (labels : List (Option (List Nat))) (g : Globals) (trail : List (List Nat)) (fuel : Nat)
    (fd : phylip_t) (contents : List (List Nat)) (cur : List Nat) (ht : fd.chrstatus = t)
    (hz : ∀ z ∈ trail, Clean t z ∧ accepted t z = []) (hk : contents[k]? = some cur)
    (hcur : cur.length = s) (hs : s ≤ L) (hr : Reads fd trail) (hfuel : fd.fp.length < fuel) :
    ∃ fd1,
      interleaved_rest fuel fd g
          { msa := msaOf n L labels contents, seqno := k, aln_len := a, sumlen := s,
            block_count := b, error := 0 } =
        .ret ({ msa := msaOf n L labels contents, seqno := k, aln_len := a, sumlen := s,
                block_count := b, error := 0 }, fd1, g) := by
  cases fuel with
  | zero => omega
  | succ fuel =>
    cases trail with
    | nil =>
      refine ⟨{ fd with fp := [], line := none }, ?_⟩
      rw [interleaved_rest, getnextline_reads_nil fd hr]
      simp only []
      rw [parse_oneline_none]
    | cons z zs =>
      obtain ⟨fp1, hget, hr1, _⟩ := getnextline_reads fd z zs hr
      obtain ⟨fd2, fuel2, hskip, _, _, hf2, _, _⟩ :=
        parse_oneline_skip t n L k labels g [] a 0 contents cur hk (by omega) zs z
          (fp1.length + 2) { fd with fp := fp1, line := some z } hz (by simp [ht])
          (by simpa using hr1) (by simp)
      obtain ⟨fuel3, hfuel3⟩ : ∃ f, fuel2 = f + 1 := ⟨fuel2 - 1, by omega⟩
      refine ⟨fd2, ?_⟩
      rw [interleaved_rest, hget]
      simp only []
      rw [← hcur, hskip, hfuel3]
      simp only [List.head?_nil]
      rw [parse_oneline_none]

/-! ## Lemmas: the first loop of interleaved blocks -/

theorem interleaved_first_blanks (msa : msa_t) (k a : Nat) (g : Globals)
    (rest : List (List Nat)) :
    ∀ (blanks : List (List Nat)) (fuel : Nat) (fd : phylip_t),
    (∀ b ∈ blanks, Blank b) → Reads fd (blanks ++ rest) → fd.fp.length < fuel →
    ∃ fd1 fuel1, interleaved_first fuel fd g msa k a = interleaved_first fuel1 fd1 g msa k a ∧
      Reads fd1 rest ∧ fd1.chrstatus = fd.chrstatus ∧ fd1.fp.length < fuel1 ∧
      fd1.fp.length ≤ fd.fp.length := by
  intro blanks
  induction blanks with
  | nil =>
    intro fuel fd _ hr hfuel
    exact ⟨fd, fuel, rfl, by simpa using hr, rfl, hfuel, le_refl _⟩
  | cons b blanks ih =>
    intro fuel fd hb hr hfuel
    cases fuel with
    | zero => omega
    | succ fuel =>
      obtain ⟨fp1, hget, hr1, hlen1⟩ := getnextline_reads fd b (blanks ++ rest) (by simpa using hr)
      have hbl : skipws b = [] := hb b (by simp)
      obtain ⟨fd1, fuel1, heq, hr2, hchr, hf1, hle⟩ :=
        ih fuel { fd with fp := fp1, line := some b } (fun x hx => hb x (by simp [hx])) hr1
          (by simp; omega)
      refine ⟨fd1, fuel1, ?_, hr2, by simpa using hchr, hf1, by simp at hle; omega⟩
      rw [interleaved_first, hget]
      simp only [hbl]
      exact heq

theorem yields_seq (t : Nat → Nat) (w : Nat) (r : TaxonLines) (h : Yields t w r.data) :
    (r.seq t).length = w := by
  unfold TaxonLines.seq
  exact yields_length t w r.data h

/-- One taxon of the first block of `phylip_parse_interleaved`, up to the
point where its label is stored and its data are about to be read. -/
theorem interleaved_first_label (t : Nat → Nat) (n L k a : Nat)
    (labels : List (Option (List Nat))) (g : Globals) (rest : List (List Nat))
    (r : TaxonLines) (fuel : Nat) (fd : phylip_t) (contents : List (List Nat))
    (ht : fd.chrstatus = t) (hb : ∀ b ∈ r.blanks, Blank b) (hf : skipws r.first ≠ [])
    (hkn : k < n) (hll : labels.length = n)
    (hr : Reads fd (r.lines ++ rest)) (hfuel : fd.fp.length < fuel) :
    ∃ fd1 fuel1 p fl, r.data = p :: fl ∧ Reads fd1 (fl ++ rest) ∧ fd1.chrstatus = t ∧
      fd1.fp.length < fuel1 ∧ fd1.fp.length ≤ fd.fp.length ∧
      interleaved_first fuel fd g (msaOf n L labels contents) k a =
        (match parse_oneline_sequence (fd1.fp.length + 2) fd1 g
                 (msaOf n L (labels.set k (some r.label)) contents) (some p) k 0 a 0 with
         | .ret (none, fd2, g2, msa2, aln_len2, error2) =>
           .ret (some { msa := msa2, seqno := k, aln_len := aln_len2, sumlen := 0,
                        block_count := 1, error := error2 }, fd2, g2)
         | .ret (some _, fd2, g2, msa2, aln_len2, error2) =>
           if ((k : Int) + 1) = msa2.count then
             .ret (some { msa := msa2, seqno := k + 1, aln_len := aln_len2,
                          sumlen := 0, block_count := 1, error := error2 }, fd2, g2)
           else interleaved_first fuel1 fd2 g2 msa2 (k + 1) aln_len2
         | .fatal m => .fatal m
         | .nomem => .nomem
         | .undefined => .undefined) := by
  have hr0 : Reads fd (r.blanks ++ (r.first :: (r.more ++ rest))) := by
    simpa [TaxonLines.lines, List.append_assoc] using hr
  obtain ⟨fd1, fuel1, heq, hr1, hchr1, hf1, hle1⟩ :=
    interleaved_first_blanks (msaOf n L labels contents) k a g _ r.blanks fuel fd hb hr0 hfuel
  cases fuel1 with
  | zero => omega
  | succ fuel1 =>
    obtain ⟨fp2, hget, hr2, hlen2⟩ := getnextline_reads fd1 _ _ hr1
    obtain ⟨c, p0, hp⟩ := List.exists_cons_of_ne_nil hf
    have hws := skipws_head _ _ _ hp
    have hdata : r.data = (c :: p0).drop (headerlen (c :: p0)) :: r.more := by
      simp [TaxonLines.data, hp]
    have hlab : r.label = (c :: p0).take (headerlen (c :: p0)) := by
      simp [TaxonLines.label, hp]
    refine ⟨{ fd1 with fp := fp2, line := some r.first }, fuel1, _, _, hdata, hr2,
      by simp [hchr1, ht], by simp; omega, by simp; omega, ?_⟩
    rw [heq, interleaved_first, hget]
    simp only [hp]
    rw [if_neg (by simp only [msaOf]; norm_cast; omega), if_neg (headerlen_pos c p0 hws),
      ← hlab, msaOf_setLabel n L labels contents k r.label (by omega)]

/-- One taxon of the first block whose chunk fits. -/
theorem interleaved_first_step (t : Nat → Nat) (n L k a w : Nat)
    (labels : List (Option (List Nat))) (g : Globals) (rest : List (List Nat))
    (r : TaxonLines) (fuel : Nat) (fd : phylip_t) (contents : List (List Nat))
    (ht : fd.chrstatus = t) (hy : r.yields t w) (ha : a = 0 ∨ a = w) (hfit : w ≤ L)
    (hkn : k < n) (hll : labels.length = n) (hk : contents[k]? = some [])
    (hr : Reads fd (r.lines ++ rest)) (hfuel : fd.fp.length < fuel) :
    ∃ fd1 fuel1, Reads fd1 rest ∧ fd1.chrstatus = t ∧ fd1.fp.length < fuel1 ∧
      fd1.fp.length ≤ fd.fp.length ∧
      interleaved_first fuel fd g (msaOf n L labels contents) k a =
        (if k + 1 = n then
           .ret (some { msa := msaOf n L (labels.set k (some r.label))
                                (contents.set k (r.seq t)),
                        seqno := k + 1, aln_len := w, sumlen := 0, block_count := 1,
                        error := 0 }, fd1, g)
         else interleaved_first fuel1 fd1 g
                (msaOf n L (labels.set k (some r.label)) (contents.set k (r.seq t)))
                (k + 1) w) := by
  obtain ⟨hb, hf, hyd⟩ := hy
  obtain ⟨fd1, fuel1, p, fl, hdata, hr1, hchr1, hf1, hle1, heq⟩ :=
    interleaved_first_label t n L k a labels g rest r fuel fd contents ht hb hf hkn hll hr hfuel
  obtain ⟨zs, d, hzd, hz, hd, hw, hwpos⟩ := hyd
  have hpos : accepted t d ≠ [] := by
    intro h0; rw [h0] at hw; simp at hw; omega
  obtain ⟨fd2, hpo, hr2, hchr2, hle2⟩ :=
    parse_oneline_yield t n L k (labels.set k (some r.label)) g rest d a 0 hd hpos
      (by rw [hw]; exact ha) zs p fl (fd1.fp.length + 2) fd1 contents [] (by rw [← hzd, hdata])
      hz hchr1 hr1 (by omega) hk (by simp [hw, hfit])
  have hseq : r.seq t = accepted t d := by
    unfold TaxonLines.seq
    rw [hzd]
    exact yields_accepted t zs d hz
  simp only [List.length_nil, List.nil_append] at hpo
  refine ⟨fd2, fuel1, hr2, hchr2, by omega, by omega, ?_⟩
  rw [heq, hpo]
  simp only [msaOf, hw, hseq]
  by_cases hlast : k + 1 = n
  · rw [if_pos (by omega), if_pos hlast]
  · rw [if_neg (by omega), if_neg hlast]

/-- `parse_oneline_sequence` on a group whose chunk does not fit. -/
theorem parse_oneline_group_overflow (t : Nat → Nat) (n L k : Nat)
    (labels : List (Option (List Nat))) (lab : List Nat) (hlab : labels[k]? = some (some lab))
    (g : Globals) (rest : List (List Nat)) (a e w : Nat) (grp : List (List Nat)) (p : List Nat)
    (fl : List (List Nat)) (fuel : Nat) (fd : phylip_t) (contents : List (List Nat))
    (cur : List Nat) (hy : Yields t w grp) (hg : grp = p :: fl)
    (ht : fd.chrstatus = t) (hk : contents[k]? = some cur) (hcur : cur.length ≤ L)
    (hover : L < cur.length + w)
    (hr : Reads fd (fl ++ rest)) (hfuel : fd.fp.length + 1 < fuel) :
    ∃ fd1 m1, parse_oneline_sequence fuel fd g (msaOf n L labels contents) (some p) k
        cur.length a e =
      .ret (none, fd1,
            { bpp_errno := ERROR_PHYLIP_LONGSEQ, bpp_errmsg := msg_longseq k lab },
            m1, a, 1) := by
  obtain ⟨zs, d, rfl, hz, hd, hw, hwpos⟩ := hy
  cases zs with
  | nil =>
    simp only [List.nil_append, List.cons.injEq] at hg
    obtain ⟨rfl, rfl⟩ := hg
    obtain ⟨fuel1, rfl⟩ : ∃ f, fuel = f + 1 := ⟨fuel - 1, by omega⟩
    exact parse_oneline_overflow n L k labels lab hlab g d a e fuel1 fd contents cur
      (by rw [ht]; exact hd) hk hcur (by rw [ht, hw]; exact hover)
  | cons z zs =>
    simp only [List.cons_append, List.cons.injEq] at hg
    obtain ⟨rfl, rfl⟩ := hg
    obtain ⟨fd2, fuel2, hskip, _, hchr2, _, _, hf2b⟩ :=
      parse_oneline_skip t n L k labels g (d :: rest) a e contents cur hk hcur zs z
        fuel fd hz ht (by simpa using hr) hfuel
    have hfpos := hf2b (by simp)
    obtain ⟨fuel3, rfl⟩ : ∃ f, fuel2 = f + 1 := ⟨fuel2 - 1, by omega⟩
    obtain ⟨fd3, m3, h3⟩ :=
      parse_oneline_overflow n L k labels lab hlab g d a e fuel3 fd2 contents cur
        (by rw [hchr2]; exact hd) hk hcur (by rw [hchr2, hw]; exact hover)
    refine ⟨fd3, m3, ?_⟩
    rw [hskip]
    simp only [List.head?_cons]
    exact h3

/-- The first block of `phylip_parse_interleaved` from taxon `k` to its last
taxon, when the chunks fit. -/
theorem interleaved_first_records (t : Nat → Nat) (n L w : Nat) (g : Globals)
    (rest : List (List Nat)) (hfit : w ≤ L) :
    ∀ (recs : List TaxonLines) (k a fuel : Nat) (fd : phylip_t)
      (labels : List (Option (List Nat))) (contents : List (List Nat)),
    fd.chrstatus = t → recs ≠ [] → k + recs.length = n → labels.length = n →
    contents.length = n → (∀ i, k ≤ i → i < n → contents[i]? = some []) →
    (∀ r ∈ recs, r.yields t w) → (a = 0 ∨ a = w) →
    Reads fd ((recs.map TaxonLines.lines).flatten ++ rest) → fd.fp.length < fuel →
    ∃ fd1, interleaved_first fuel fd g (msaOf n L labels contents) k a =
        .ret (some { msa := msaOf n L (labels.take k ++ recs.map (fun r => some r.label))
                              (contents.take k ++ recs.map (TaxonLines.seq t)),
                     seqno := n, aln_len := w, sumlen := 0, block_count := 1, error := 0 },
              fd1, g) ∧
      Reads fd1 rest ∧ fd1.chrstatus = t ∧ fd1.fp.length ≤ fd.fp.length := by
  intro recs
  induction recs with
  | nil => intro k a fuel fd labels contents _ h; exact absurd rfl h
  | cons r recs ih =>
    intro k a fuel fd labels contents ht _ hk hll hcl hfresh hok ha hr hfuel
    simp only [List.length_cons] at hk
    obtain ⟨fd1, fuel1, hr1, hchr1, hf1, hle1, hstep⟩ :=
      interleaved_first_step t n L k a w labels g
        ((recs.map TaxonLines.lines).flatten ++ rest) r fuel fd contents ht (hok r (by simp))
        ha hfit (by omega) hll (hfresh k (le_refl _) (by omega))
        (by simpa [List.append_assoc] using hr) hfuel
    by_cases hlast : recs = []
    · subst hlast
      simp only [List.length_nil] at hk
      rw [if_pos (by omega)] at hstep
      refine ⟨fd1, ?_, by simpa using hr1, hchr1, hle1⟩
      have e1 : labels.set k (some r.label) = labels.take k ++ [some r.label] := by
        rw [← set_take_succ labels k _ (by omega)]
        exact (take_all_of_length _ _ (by simp; omega)).symm
      have e2 : contents.set k (r.seq t) = contents.take k ++ [r.seq t] := by
        rw [← set_take_succ contents k _ (by omega)]
        exact (take_all_of_length _ _ (by simp; omega)).symm
      rw [hstep, e1, e2]
      simp only [List.map_cons, List.map_nil]
      rw [show k + 1 = n by omega]
    · rw [if_neg (by have := List.length_pos.mpr hlast; omega)] at hstep
      obtain ⟨fd2, hrec, hr2, hchr2, hle2⟩ :=
        ih (k + 1) w fuel1 fd1 (labels.set k (some r.label)) (contents.set k (r.seq t))
          hchr1 hlast (by omega) (by simp; omega) (by simp; omega)
          (by
            intro i hi hin
            rw [List.getElem?_set_ne (by omega)]
            exact hfresh i (by omega) hin)
          (fun x hx => hok x (by simp [hx])) (Or.inr rfl) hr1 hf1
      refine ⟨fd2, ?_, hr2, hchr2, by omega⟩
      rw [hstep, hrec, set_take_succ labels k _ (by omega),
        set_take_succ contents k _ (by omega)]
      simp [List.append_assoc]

/-- `phylip_parse_interleaved` up to the start of its second loop, when the
first block is complete and its chunks fit: the result of the call is what
`interleaved_finish` makes of the state in which the second loop is left. -/
theorem parse_interleaved_first_ok (freqs : Nat) (t : Nat → Nat) (n L w : Nat) (fd : phylip_t) (g : Globals)
    (blanks : List (List Nat)) (hdr : List Nat) (first : List TaxonLines)
    (rest : List (List Nat)) (ht : fd.chrstatus = t)
    (hon : OnLines fd (blanks ++ hdr :: ((first.map TaxonLines.lines).flatten ++ rest)))
    (hb : ∀ b ∈ blanks, Blank b)
    (hh : (parse_header hdr PHYLIP_INTERLEAVED g).1 = some ((n : Int), (L : Int)))
    (hn : first.length = n) (hy : ∀ r ∈ first, r.yields t w) (hfit : w ≤ L) :
    ∃ fd2, Reads fd2 rest ∧ fd2.chrstatus = t ∧
      ∀ st3 fd3 g3,
        interleaved_rest (fd2.fp.length + 1) fd2 g
            { msa := msaOf n L (first.map (fun r => some r.label)) (first.map (TaxonLines.seq t)),
              seqno := 0, aln_len := 0, sumlen := w, block_count := 2, error := 0 } =
          .ret (st3, fd3, g3) →
        phylip_parse_interleaved freqs fd g = interleaved_finish freqs st3 fd3 g3 := by
  obtain ⟨hnb, hn0, _, hg, _, _⟩ := parse_header_some _ _ _ _ _ hh
  have hnpos : 0 < n := by omega
  obtain ⟨fd1, hskip, hl1, hr1, hchr1, _⟩ :=
    skip_emptylines_spec hdr _ blanks (fd.fp.length + 2) fd hb hnb hon (by omega)
  have hrecs : first ≠ [] := by
    intro h; rw [h] at hn; simp at hn; omega
  obtain ⟨fd2, hfirst, hr2, hchr2, _⟩ :=
    interleaved_first_records t n L w g rest hfit first 0 0 (fd1.fp.length + 1) fd1
      (List.replicate n none) (List.replicate n []) (by rw [hchr1, ht]) hrecs (by omega)
      (by simp) (by simp) (by intro i _ hi; simp [List.getElem?_replicate, hi]) hy
      (Or.inl rfl) hr1 (by omega)
  simp only [List.take_zero, List.nil_append] at hfirst
  refine ⟨fd2, hr2, hchr2, ?_⟩
  intro st3 fd3 g3 hrest
  unfold phylip_parse_interleaved
  rw [hskip]
  simp only [hl1]
  have hph : parse_header hdr PHYLIP_INTERLEAVED g = (some ((n : Int), (L : Int)), g) :=
    Prod.ext hh hg
  rw [hph]
  simp only []
  rw [msa_alloc_ok n L hnpos]
  simp only []
  rw [hfirst]
  simp only [ne_eq, not_true_eq_false, if_false, msaOf]
  simp only [msaOf] at hrest
  rw [hrest]

/-- The first loop on a taxon whose chunk does not fit: it is left with the
error flag set. -/
theorem interleaved_first_overflow (t : Nat → Nat) (n L k a w : Nat)
    (labels : List (Option (List Nat))) (g : Globals) (rest : List (List Nat))
    (r : TaxonLines) (fuel : Nat) (fd : phylip_t) (contents : List (List Nat))
    (ht : fd.chrstatus = t) (hy : r.yields t w) (hover : L < w)
    (hkn : k < n) (hll : labels.length = n) (hk : contents[k]? = some [])
    (hr : Reads fd (r.lines ++ rest)) (hfuel : fd.fp.length < fuel) :
    ∃ st fd1, interleaved_first fuel fd g (msaOf n L labels contents) k a =
      .ret (some st, fd1, { bpp_errno := ERROR_PHYLIP_LONGSEQ,
                            bpp_errmsg := msg_longseq k r.label }) ∧ st.error = 1 := by
  obtain ⟨hb, hf, hyd⟩ := hy
  obtain ⟨fd1, fuel1, p, fl, hdata, hr1, hchr1, hf1, hle1, heq⟩ :=
    interleaved_first_label t n L k a labels g rest r fuel fd contents ht hb hf hkn hll hr hfuel
  obtain ⟨fd2, m2, hpo⟩ :=
    parse_oneline_group_overflow t n L k (labels.set k (some r.label)) r.label
      (by simp [List.getElem?_set_self, hll, hkn]) g rest a 0 w r.data p fl
      (fd1.fp.length + 2) fd1 contents [] hyd hdata hchr1 hk (by simp) (by simpa using hover)
      hr1 (by omega)
  simp only [List.length_nil] at hpo
  rw [hpo] at heq
  exact ⟨_, _, heq, rfl⟩

/-- `phylip_parse_interleaved` on a first block whose chunks are longer than
the declared length releases the alignment and returns NULL. -/
theorem parse_interleaved_first_overflow (freqs : Nat) (t : Nat → Nat) (n L w : Nat) (fd : phylip_t)
    (g : Globals) (blanks : List (List Nat)) (hdr : List Nat) (r : TaxonLines)
    (rest : List (List Nat)) (ht : fd.chrstatus = t)
    (hon : OnLines fd (blanks ++ hdr :: (r.lines ++ rest)))
    (hb : ∀ b ∈ blanks, Blank b)
    (hh : (parse_header hdr PHYLIP_INTERLEAVED g).1 = some ((n : Int), (L : Int)))
    (hy : r.yields t w) (hover : L < w) :
    ∃ fd1, phylip_parse_interleaved freqs fd g =
      destroy_return_null freqs fd1
        { bpp_errno := ERROR_PHYLIP_LONGSEQ,
          bpp_errmsg := msg_longseq 0 r.label } := by
  obtain ⟨hnb, hn0, _, hg, _, _⟩ := parse_header_some _ _ _ _ _ hh
  have hnpos : 0 < n := by omega
  obtain ⟨fd1, hskip, hl1, hr1, hchr1, _⟩ :=
    skip_emptylines_spec hdr _ blanks (fd.fp.length + 2) fd hb hnb hon (by omega)
  obtain ⟨st, fd2, hfirst, herr⟩ :=
    interleaved_first_overflow t n L 0 0 w (List.replicate n none) g rest r
      (fd1.fp.length + 1) fd1 (List.replicate n []) (by rw [hchr1, ht]) hy hover hnpos
      (by simp) (by simp [List.getElem?_replicate, hnpos]) hr1 (by omega)
  refine ⟨fd2, ?_⟩
  unfold phylip_parse_interleaved
  rw [hskip]
  simp only [hl1]
  have hph : parse_header hdr PHYLIP_INTERLEAVED g = (some ((n : Int), (L : Int)), g) :=
    Prod.ext hh hg
  rw [hph]
  simp only []
  rw [msa_alloc_ok n L hnpos]
  simp only []
  rw [hfirst]
  simp only []
  rw [if_pos (by rw [herr]; simp)]

theorem blocksWidth_append (a b : List (Nat × List (List (List Nat)))) :
    blocksWidth (a ++ b) = blocksWidth a + blocksWidth b := by
  simp [blocksWidth]

theorem blocksLines_append (a b : List (Nat × List (List (List Nat)))) :
    blocksLines (a ++ b) = blocksLines a ++ blocksLines b := by
  simp [blocksLines]

theorem exists_overflow_split (L : Nat) :
    ∀ (bs : List (Nat × List (List (List Nat)))) (s : Nat), s ≤ L → L < s + blocksWidth bs →
    ∃ pre p post, bs = pre ++ p :: post ∧ s + blocksWidth pre ≤ L ∧
      L < s + blocksWidth pre + p.1 := by
  intro bs
  induction bs with
  | nil => intro s h1 h2; simp [blocksWidth] at h2; omega
  | cons p bs ih =>
    intro s h1 h2
    have hw : blocksWidth (p :: bs) = p.1 + blocksWidth bs := by simp [blocksWidth]
    rw [hw] at h2
    by_cases hp : L < s + p.1
    · exact ⟨[], p, bs, rfl, by simpa [blocksWidth] using h1, by simpa [blocksWidth] using hp⟩
    · obtain ⟨pre, q, post, he, h3, h4⟩ := ih (s + p.1) (by omega) (by omega)
      refine ⟨p :: pre, q, post, by rw [he]; rfl, ?_, ?_⟩
      · have : blocksWidth (p :: pre) = p.1 + blocksWidth pre := by simp [blocksWidth]
        omega
      · have : blocksWidth (p :: pre) = p.1 + blocksWidth pre := by simp [blocksWidth]
        omega

/-- An interleaved alignment written in complete blocks, each of its own
width, followed by lines without data: the parser returns the alignment when
the widths sum to the declared length, and otherwise releases it and returns
NULL. -/
theorem parse_interleaved_blocks (freqs : Nat) (t : Nat → Nat) (n L w1 : Nat) (fd : phylip_t) (g : Globals)
    (blanks : List (List Nat)) (hdr : List Nat) (first : List TaxonLines)
    (bs : List (Nat × List (List (List Nat)))) (trail : List (List Nat))
    (ht : fd.chrstatus = t)
    (hon : OnLines fd (blanks ++ hdr ::
      ((first.map TaxonLines.lines).flatten ++ (blocksLines bs ++ trail))))
    (hb : ∀ b ∈ blanks, Blank b)
    (hh : (parse_header hdr PHYLIP_INTERLEAVED g).1 = some ((n : Int), (L : Int)))
    (hn : first.length = n) (hy : ∀ r ∈ first, r.yields t w1)
    (hbs : ∀ p ∈ bs, p.2.length = n ∧ ∀ grp ∈ p.2, Yields t p.1 grp)
    (htr : ∀ z ∈ trail, Clean t z ∧ accepted t z = []) :
    ∃ r fd1 g1, phylip_parse_interleaved freqs fd g = released freqs r fd1 g1 ∧
      (w1 + blocksWidth bs = L →
        r = some (msaOf n L (first.map (fun r => some r.label))
                   (pasteBlocks t (first.map (TaxonLines.seq t)) bs)) ∧
        (pasteBlocks t (first.map (TaxonLines.seq t)) bs).length = n ∧
        ∀ c ∈ pasteBlocks t (first.map (TaxonLines.seq t)) bs, c.length = L) ∧
      (w1 + blocksWidth bs ≠ L → r = none) ∧
      (w1 + blocksWidth bs < L →
        g1 = { g with bpp_errmsg := msg_length (w1 + blocksWidth bs) (L : Int) }) ∧
      (L < w1 + blocksWidth bs → ∀ x, first[0]? = some x →
        g1 = { bpp_errno := ERROR_PHYLIP_LONGSEQ, bpp_errmsg := msg_longseq 0 x.label }) := by
  obtain ⟨hnb, hn0, _, hg, _, _⟩ := parse_header_some _ _ _ _ _ hh
  have hnpos : 0 < n := by omega
  obtain ⟨r0, first', hfirst⟩ := List.exists_cons_of_ne_nil
    (show first ≠ [] by intro h; rw [h] at hn; simp at hn; omega)
  by_cases hw1 : L < w1
  · -- the first block is too wide
    obtain ⟨fd1, h⟩ :=
      parse_interleaved_first_overflow freqs t n L w1 fd g blanks hdr r0
        ((first'.map TaxonLines.lines).flatten ++ (blocksLines bs ++ trail)) ht
        (by rw [hfirst] at hon; simpa [List.append_assoc] using hon) hb hh
        (hy r0 (by rw [hfirst]; simp)) hw1
    refine ⟨none, fd1,
      { bpp_errno := ERROR_PHYLIP_LONGSEQ, bpp_errmsg := msg_longseq 0 r0.label },
      h, by intro h2; omega, fun _ => rfl, by intro h2; omega, ?_⟩
    intro _ x hx
    rw [hfirst] at hx
    simp only [List.getElem?_cons_zero, Option.some.injEq] at hx
    rw [hx]
  · obtain ⟨fd2, hr2, hchr2, hfin⟩ :=
      parse_interleaved_first_ok freqs t n L w1 fd g blanks hdr first (blocksLines bs ++ trail) ht
        hon hb hh hn hy (by omega)
    have hrows0 : ∀ c ∈ first.map (TaxonLines.seq t), c.length = w1 := by
      intro c hc
      simp only [List.mem_map] at hc
      obtain ⟨r, hr, rfl⟩ := hc
      exact yields_seq t w1 r (hy r hr).2.2
    by_cases hfit : w1 + blocksWidth bs ≤ L
    · -- every block fits
      obtain ⟨fd3, fuel3, h3, hr3, hchr3, hf3, hl3, hrows3⟩ :=
        interleaved_rest_blocks t n L (first.map (fun r => some r.label)) g trail hnpos bs w1 2
          (fd2.fp.length + 1) fd2 (first.map (TaxonLines.seq t)) hbs hfit (by simp [hn])
          hrows0 hchr2 hr2 (by omega)
      have hlt0 : 0 < (pasteBlocks t (first.map (TaxonLines.seq t)) bs).length := by omega
      obtain ⟨fd4, h4⟩ :=
        interleaved_rest_eof t n L 0 (w1 + blocksWidth bs) 0 (2 + bs.length)
          (first.map (fun r => some r.label)) g trail fuel3 fd3
          (pasteBlocks t (first.map (TaxonLines.seq t)) bs)
          ((pasteBlocks t (first.map (TaxonLines.seq t)) bs)[0]) hchr3 htr
          (by simp [hlt0]) (hrows3 _ (List.getElem_mem hlt0)) hfit hr3 hf3
      have hres := hfin _ _ _ (h3.trans h4)
      by_cases heq : w1 + blocksWidth bs = L
      · refine ⟨_, fd4, g, hres.trans ?_,
          fun _ => ⟨rfl, hl3, fun c hc => by rw [hrows3 c hc, heq]⟩, fun h => absurd heq h,
          by intro h2; omega, by intro h2; omega⟩
        simp only [interleaved_finish, released, ne_eq, not_true_eq_false, if_false, msaOf]
        rw [if_neg (by simp only [not_not]; exact_mod_cast heq)]
      · refine ⟨none, fd4, { g with bpp_errmsg := msg_length (w1 + blocksWidth bs) (L : Int) },
          hres.trans ?_, fun h => absurd h heq, fun _ => rfl, fun _ => rfl,
          by intro h2; omega⟩
        simp only [interleaved_finish, released, ne_eq, not_true_eq_false, if_false, msaOf]
        rw [if_pos (by exact_mod_cast heq)]
    · -- some block does not fit
      obtain ⟨pre, p, post, hsplit, hpre, hover⟩ :=
        exists_overflow_split L bs w1 (by omega) (by omega)
      subst hsplit
      have hlines : blocksLines (pre ++ p :: post) ++ trail =
          blocksLines pre ++ (blocksLines (p :: post) ++ trail) := by
        rw [blocksLines_append, List.append_assoc]
      rw [hlines] at hr2
      obtain ⟨fd3, fuel3, h3, hr3, hchr3, hf3, hl3, hrows3⟩ :=
        interleaved_rest_blocks t n L (first.map (fun r => some r.label)) g
          (blocksLines (p :: post) ++ trail) hnpos pre w1 2
          (fd2.fp.length + 1) fd2 (first.map (TaxonLines.seq t))
          (fun q hq => hbs q (by simp [hq])) hpre (by simp [hn])
          hrows0 hchr2 hr2 (by omega)
      obtain ⟨hpl, hpy⟩ := hbs p (by simp)
      obtain ⟨grp, gs, hgrp⟩ := List.exists_cons_of_ne_nil
        (show p.2 ≠ [] by intro h; rw [h] at hpl; simp at hpl; omega)
      have hlt0 : 0 < (pasteBlocks t (first.map (TaxonLines.seq t)) pre).length := by omega
      obtain ⟨st4, fd4, h4, herr⟩ :=
        interleaved_rest_overflow t n L 0 (w1 + blocksWidth pre) 0 p.1 (2 + pre.length)
          (first.map (fun r => some r.label)) r0.label g
          (gs.flatten ++ (blocksLines post ++ trail)) grp fuel3 fd3
          (pasteBlocks t (first.map (TaxonLines.seq t)) pre)
          ((pasteBlocks t (first.map (TaxonLines.seq t)) pre)[0]) hchr3
          (by rw [hfirst]; simp) (hpy grp (by rw [hgrp]; simp))
          (by simp [hlt0]) (hrows3 _ (List.getElem_mem hlt0)) hpre hover
          (by
            have : blocksLines (p :: post) = grp ++ (gs.flatten ++ blocksLines post) := by
              simp [blocksLines, hgrp, List.append_assoc]
            rw [this] at hr3
            simpa [List.append_assoc] using hr3) hf3
      have hres := hfin _ _ _ (h3.trans h4)
      have hwide : blocksWidth (pre ++ p :: post) =
          blocksWidth pre + (p.1 + blocksWidth post) := by
        simp [blocksWidth]
      refine ⟨none, fd4,
        { bpp_errno := ERROR_PHYLIP_LONGSEQ, bpp_errmsg := msg_longseq 0 r0.label },
        hres.trans ?_, fun h => absurd (by omega) hfit, fun _ => rfl,
        fun h => absurd (by omega) hfit, ?_⟩
      · simp only [interleaved_finish, released]
        rw [if_pos (by rw [herr]; simp)]
      · intro _ x hx
        rw [hfirst] at hx
        simp only [List.getElem?_cons_zero, Option.some.injEq] at hx
        rw [hx]

/-! ## Lemmas: rows of the blocks -/

theorem pasteBlocks_getElem? (t : Nat → Nat) :
    ∀ (bs : List (Nat × List (List (List Nat)))) (contents : List (List Nat)) (i : Nat)
      (c : List Nat),
    contents[i]? = some c → (∀ p ∈ bs, p.2.length = contents.length) →
    (pasteBlocks t contents bs)[i]? =
      some (c ++ ((bs.map (fun b => b.2)).map
        (fun gs => accepted t (gs.getD i []).flatten)).flatten) := by
  intro bs
  induction bs with
  | nil => intro contents i c hc _; simp [pasteBlocks, hc]
  | cons p bs ih =>
    intro contents i c hc hl
    have hi : i < contents.length := by
      by_contra h
      rw [List.getElem?_eq_none (by omega)] at hc
      exact absurd hc (by simp)
    have hpl : p.2.length = contents.length := hl p (by simp)
    have hg : p.2[i]? = some (p.2.getD i []) := by
      rw [List.getD_eq_getElem?_getD, List.getElem?_eq_getElem (by omega)]
      simp
    have h1 := pasteBlock_getElem? t contents p.2 i c _ hc hg
    have h2 := ih (pasteBlock t contents p.2) i _ h1
      (fun q hq => by rw [pasteBlock_length t contents p.2 hpl]; exact hl q (by simp [hq]))
    have : pasteBlocks t contents (p :: bs) = pasteBlocks t (pasteBlock t contents p.2) bs := by
      simp [pasteBlocks]
    rw [this, h2]
    simp [List.append_assoc]

theorem dropLast_append_getLast?_toList {α : Type} (l : List α) :
    l.dropLast ++ l.getLast?.toList = l := by
  rcases List.eq_nil_or_concat l with h | ⟨l1, a, h⟩
  · subst h; rfl
  · subst h; simp

/-- Blocks of a uniform width `w` whose last one has the width `wl`, given
with their widths. -/
theorem uniform_blocks (w wl : Nat) (later : List (List (List (List Nat)))) :
    ∃ bs : List (Nat × List (List (List Nat))), bs.map (fun b => b.2) = later ∧
      (if later = [] then wl else w) + blocksWidth bs = later.length * w + wl ∧
      ∀ p ∈ bs, (p.1 = w ∧ p.2 ∈ later.dropLast) ∨ (p.1 = wl ∧ p.2 ∈ later.getLast?) := by
  refine ⟨later.dropLast.map (fun gs => (w, gs)) ++ later.getLast?.toList.map (fun gs => (wl, gs)),
    ?_, ?_, ?_⟩
  · simp only [List.map_append, List.map_map]
    have : ∀ (x : Nat) (l : List (List (List (List Nat)))),
        List.map ((fun b : Nat × List (List (List Nat)) => b.2) ∘ fun gs => (x, gs)) l = l := by
      intro x l; induction l <;> simp_all
    rw [this, this]
    exact dropLast_append_getLast?_toList later
  · rcases List.eq_nil_or_concat later with h | ⟨l1, a, h⟩
    · subst h; simp [blocksWidth]
    · subst h
      rw [List.concat_eq_append]
      have hne : l1 ++ [a] ≠ [] := by simp
      rw [if_neg hne]
      simp [blocksWidth, List.map_map, Function.comp_def]
      ring
  · intro p hp
    simp only [List.mem_append, List.mem_map] at hp
    rcases hp with ⟨gs, hgs, rfl⟩ | ⟨gs, hgs, rfl⟩
    · exact Or.inl ⟨rfl, hgs⟩
    · refine Or.inr ⟨rfl, ?_⟩
      cases h : later.getLast? with
      | none => rw [h] at hgs; simp at hgs
      | some x => rw [h] at hgs; simp at hgs; simp [hgs]

/-! ## Lemmas: a stream that ends inside a later block -/

theorem isText_length : ∀ (ls : List (List Nat)) (fp : List Nat), IsText fp ls →
    ls.length ≤ fp.length := by
  intro ls
  induction ls with
  | nil => intro fp _; simp
  | cons l ls ih =>
    intro fp h
    rcases h with ⟨fp1, hfp, h1⟩ | ⟨rfl, hne, hfp⟩
    · have := ih fp1 h1
      rw [hfp]; simp; omega
    · rw [hfp]
      have := List.length_pos.mpr hne
      simp; omega

theorem skip_blank_lines_eof :
    ∀ (trail : List (List Nat)) (fuel : Nat) (fd : phylip_t),
    (∀ b ∈ trail, Blank b) → Reads fd trail → fd.fp.length < fuel →
    ∃ fd1, skip_blank_lines fuel fd = .ret (false, fd1) := by
  intro trail
  induction trail with
  | nil =>
    intro fuel fd _ hr hfuel
    cases fuel with
    | zero => omega
    | succ fuel =>
      refine ⟨{ fd with fp := [], line := none }, ?_⟩
      rw [skip_blank_lines, getnextline_reads_nil fd hr]
  | cons b trail ih =>
    intro fuel fd hb hr hfuel
    cases fuel with
    | zero => omega
    | succ fuel =>
      obtain ⟨fp1, hget, hr1, hlen1⟩ := getnextline_reads fd b trail hr
      obtain ⟨fd1, h1⟩ := ih fuel { fd with fp := fp1, line := some b }
        (fun y hy => hb y (by simp [hy])) hr1 (by simp; omega)
      refine ⟨fd1, ?_⟩
      rw [skip_blank_lines, hget]
      simp only []
      have hbb : skipws b = [] := hb b (by simp)
      rw [hbb]
      exact h1

theorem skip_blank_lines_line (l : List Nat) (rest : List (List Nat)) :
    ∀ (blanks : List (List Nat)) (fuel : Nat) (fd : phylip_t),
    (∀ b ∈ blanks, Blank b) → ¬ Blank l → Reads fd (blanks ++ l :: rest) →
    fd.fp.length < fuel →
    ∃ fd1, skip_blank_lines fuel fd = .ret (true, fd1) ∧ OnLines fd1 (l :: rest) ∧
      fd1.chrstatus = fd.chrstatus := by
  intro blanks
  induction blanks with
  | nil =>
    intro fuel fd _ hl hr hfuel
    cases fuel with
    | zero => omega
    | succ fuel =>
      obtain ⟨fp1, hget, hr1, hlen1⟩ := getnextline_reads fd l rest (by simpa using hr)
      refine ⟨{ fd with fp := fp1, line := some l }, ?_, ⟨l, rest, rfl, rfl, hr1⟩, rfl⟩
      rw [skip_blank_lines, hget]
      simp only []
      cases hs : skipws l with
      | nil => exact absurd hs hl
      | cons c p => rfl
  | cons b blanks ih =>
    intro fuel fd hb hl hr hfuel
    cases fuel with
    | zero => omega
    | succ fuel =>
      obtain ⟨fp1, hget, hr1, hlen1⟩ := getnextline_reads fd b (blanks ++ l :: rest)
        (by simpa using hr)
      obtain ⟨fd1, h1, h2, h3⟩ := ih fuel { fd with fp := fp1, line := some b }
        (fun y hy => hb y (by simp [hy])) hl hr1 (by simp; omega)
      refine ⟨fd1, ?_, h2, by simpa using h3⟩
      rw [skip_blank_lines, hget]
      simp only []
      have hbb : skipws b = [] := hb b (by simp)
      rw [hbb]
      exact h1

theorem locus_count_pos (t : Nat → Nat) (g : Globals) (b : LocusLines) (h : b.ok t g) :
    0 < b.count := by
  obtain ⟨_, hh, _, _⟩ := h
  obtain ⟨_, hn0, _⟩ := parse_header_some _ _ _ _ _ hh
  omega

theorem locus_header_not_blank (t : Nat → Nat) (g : Globals) (b : LocusLines)
    (h : b.ok t g) : ¬ Blank b.hdr := by
  obtain ⟨_, hh, _, _⟩ := h
  exact (parse_header_some _ _ _ _ _ hh).1

/-- One block read by `phylip_parse_sequential`, with the lines `tail` behind
it. -/
theorem parse_sequential_locus (t : Nat → Nat) (g : Globals) (b : LocusLines)
    (tail : List (List Nat)) (fd : phylip_t) (ht : fd.chrstatus = t) (hok : b.ok t g)
    (hon : OnLines fd (b.lines ++ tail)) :
    ∃ fd1, phylip_parse_sequential fd g = .ret (some (b.msa t), fd1, g) ∧
      Reads fd1 tail ∧ fd1.chrstatus = t := by
  obtain ⟨hb, hh, hn, hr⟩ := hok
  exact parse_sequential_block t b.count b.length fd g b.blanks b.hdr b.recs tail ht
    (by simpa [LocusLines.lines, List.append_assoc] using hon) hb hh hn hr

/-- The outer loop over blocks that are followed by a further line with
text: it goes on with the cursor on that line. -/
theorem multisequential_loop_blocks (t : Nat → Nat) (g : Globals) (l : List Nat)
    (rest : List (List Nat)) (bl : List (List Nat)) (hbl : ∀ x ∈ bl, Blank x)
    (hl : ¬ Blank l) :
    ∀ (n : Nat) (blocks : List LocusLines) (fuel : Nat) (fd : phylip_t) (acc : List msa_t)
      (cnt : Int),
    blocks.length = n → n ≠ 0 → (∀ b ∈ blocks, b.ok t g) → fd.chrstatus = t →
    OnLines fd ((blocks.map LocusLines.lines).flatten ++ (bl ++ l :: rest)) →
    n ≤ fuel →
    ∃ fd1, multisequential_loop fuel fd g acc cnt =
        multisequential_loop (fuel - n) fd1 g (acc ++ blocks.map (LocusLines.msa t))
          (cnt + n) ∧
      OnLines fd1 (l :: rest) ∧ fd1.chrstatus = t := by
  intro n
  induction n with
  | zero => intro blocks fuel fd acc cnt _ h; exact absurd rfl h
  | succ n ih =>
    intro blocks fuel fd acc cnt hlen _ hok ht hon hfuel
    obtain ⟨b, bs, rfl⟩ : ∃ b bs, blocks = b :: bs := by
      cases blocks with
      | nil => simp at hlen
      | cons b bs => exact ⟨b, bs, rfl⟩
    simp only [List.length_cons, Nat.add_right_cancel_iff] at hlen
    obtain ⟨fuel1, rfl⟩ : ∃ f, fuel = f + 1 := ⟨fuel - 1, by omega⟩
    obtain ⟨fd1, hparse, hr1, hchr1⟩ :=
      parse_sequential_locus t g b ((bs.map LocusLines.lines).flatten ++ (bl ++ l :: rest)) fd
        ht (hok b (by simp)) (by simpa [List.append_assoc] using hon)
    cases bs with
    | nil =>
      simp only [List.length_nil] at hlen
      subst hlen
      obtain ⟨fd2, hskip, hon2, hchr2⟩ :=
        skip_blank_lines_line l rest bl (fd1.fp.length + 1) fd1 hbl hl
          (by simpa using hr1) (by omega)
      refine ⟨fd2, ?_, hon2, by rw [hchr2, hchr1]⟩
      rw [multisequential_loop, hparse]
      simp only []
      rw [hskip]
      simp
    | cons b2 bs =>
      have hok2 := hok b2 (by simp)
      obtain ⟨fd2, hskip, hon2, hchr2⟩ :=
        skip_blank_lines_line b2.hdr
          ((b2.recs.map TaxonLines.lines).flatten ++
            ((bs.map LocusLines.lines).flatten ++ (bl ++ l :: rest)))
          b2.blanks (fd1.fp.length + 1) fd1 hok2.1 (locus_header_not_blank t g b2 hok2)
          (by simpa [LocusLines.lines, List.append_assoc] using hr1) (by omega)
      obtain ⟨fd3, hrec, hon3, hchr3⟩ :=
        ih ({ b2 with blanks := [] } :: bs) fuel1 fd2 (acc ++ [b.msa t]) (cnt + 1)
          (by simpa using hlen) (by subst hlen; simp)
          (by
            intro x hx
            simp only [List.mem_cons] at hx
            rcases hx with rfl | hx
            · exact ⟨by simp, hok2.2.1, hok2.2.2.1, hok2.2.2.2⟩
            · exact hok x (by simp [hx]))
          (by rw [hchr2, hchr1])
          (by simpa [LocusLines.lines, List.append_assoc] using hon2) (by omega)
      refine ⟨fd3, ?_, hon3, hchr3⟩
      rw [multisequential_loop, hparse]
      simp only []
      rw [hskip]
      simp only []
      rw [hrec]
      simp only [List.map_cons, List.append_assoc, List.singleton_append, Nat.cast_add,
        Nat.cast_one, Nat.add_sub_add_right]
      rw [show cnt + 1 + (n : Int) = cnt + ((n : Int) + 1) by omega]
      rfl

/-- The outer loop on the last block, followed by blank lines only. -/
theorem multisequential_loop_last (t : Nat → Nat) (g : Globals) (b : LocusLines)
    (trail : List (List Nat)) (fuel : Nat) (fd : phylip_t) (acc : List msa_t) (cnt : Int)
    (ht : fd.chrstatus = t) (hok : b.ok t g) (htr : ∀ x ∈ trail, Blank x)
    (hon : OnLines fd (b.lines ++ trail)) :
    ∃ fd1, multisequential_loop (fuel + 1) fd g acc cnt =
      .ret (acc ++ [b.msa t], cnt + 1, fd1, g) := by
  obtain ⟨fd1, hparse, hr1, hchr1⟩ := parse_sequential_locus t g b trail fd ht hok hon
  obtain ⟨fd2, hskip⟩ := skip_blank_lines_eof trail (fd1.fp.length + 1) fd1 htr hr1 (by omega)
  refine ⟨fd2, ?_⟩
  rw [multisequential_loop, hparse]
  simp only []
  rw [hskip]

theorem lines_length_ge (blocks : List LocusLines) :
    blocks.length ≤ ((blocks.map LocusLines.lines).flatten).length := by
  induction blocks with
  | nil => simp
  | cons b bs ih =>
    simp only [List.map_cons, List.flatten_cons, List.length_append, List.length_cons,
      LocusLines.lines]
    omega

theorem onLines_fuel (fd : phylip_t) (blocks : List LocusLines) (tail : List (List Nat))
    (hon : OnLines fd ((blocks.map LocusLines.lines).flatten ++ tail)) :
    blocks.length ≤ fd.fp.length + 1 := by
  obtain ⟨l, ls, heq, _, hr⟩ := hon
  have h1 := isText_length ls fd.fp hr.1
  have h2 := lines_length_ge blocks
  have h3 : ((blocks.map LocusLines.lines).flatten ++ tail).length = ls.length + 1 := by
    rw [heq]; simp
  simp only [List.length_append] at h3
  omega

/-- `phylip_parse_multisequential` on well-formed blocks. -/
theorem parse_multisequential_blocks (t : Nat → Nat) (g : Globals) (fd : phylip_t)
    (blocks : List LocusLines) (trail : List (List Nat)) (ht : fd.chrstatus = t)
    (hne : blocks ≠ []) (hok : ∀ b ∈ blocks, b.ok t g) (htr : ∀ x ∈ trail, Blank x)
    (hon : OnLines fd ((blocks.map LocusLines.lines).flatten ++ trail)) :
    ∃ fd1, phylip_parse_multisequential fd g =
      .ret (blocks.map (LocusLines.msa t), (blocks.length : Int), fd1, g) := by
  have hfuel := onLines_fuel fd blocks trail hon
  obtain ⟨init, last, rfl⟩ : ∃ init last, blocks = init ++ [last] :=
    ⟨blocks.dropLast, blocks.getLast hne, (List.dropLast_append_getLast hne).symm⟩
  have hlast := hok last (by simp)
  unfold phylip_parse_multisequential
  by_cases hinit : init = []
  · subst hinit
    obtain ⟨fd1, h1⟩ := multisequential_loop_last t g last trail (fd.fp.length + 1) fd [] 0 ht
      hlast htr (by simpa using hon)
    exact ⟨fd1, by rw [h1]; simp⟩
  · obtain ⟨fd1, h1, hon1, hchr1⟩ :=
      multisequential_loop_blocks t g last.hdr
        ((last.recs.map TaxonLines.lines).flatten ++ trail) last.blanks hlast.1
        (locus_header_not_blank t g last hlast) init.length init (fd.fp.length + 2) fd [] 0
        rfl (by simpa [List.length_eq_zero] using hinit) (fun b hb => hok b (by simp [hb])) ht
        (by simpa [LocusLines.lines, List.append_assoc] using hon)
        (by simp only [List.length_append, List.length_singleton] at hfuel; omega)
    obtain ⟨fuel2, hfuel2⟩ : ∃ f, fd.fp.length + 2 - init.length = f + 1 :=
      ⟨fd.fp.length + 2 - init.length - 1, by
        simp only [List.length_append, List.length_singleton] at hfuel; omega⟩
    obtain ⟨fd2, h2⟩ :=
      multisequential_loop_last t g { last with blanks := [] } trail fuel2 fd1
        ([] ++ init.map (LocusLines.msa t)) (0 + init.length) hchr1
        ⟨by simp, hlast.2.1, hlast.2.2.1, hlast.2.2.2⟩ htr
        (by simpa [LocusLines.lines, List.append_assoc] using hon1)
    refine ⟨fd2, ?_⟩
    rw [h1, hfuel2, h2]
    simp only [List.nil_append, List.map_append, List.map_cons, List.map_nil,
      List.length_append, List.length_singleton, Nat.cast_add, Nat.cast_one, Int.zero_add]
    rfl

/-! ## Lemmas: marks of the ambiguous sites -/

theorem lor_eq_zero (a b : Nat) : a ||| b = 0 ↔ a = 0 ∧ b = 0 := by
  constructor
  · intro h
    constructor
    · apply Nat.eq_of_testBit_eq
      intro i
      have := congrArg (fun x => x.testBit i) h
      simp only [Nat.testBit_or, Nat.zero_testBit, Bool.or_eq_false_iff] at this
      simp [this.1]
    · apply Nat.eq_of_testBit_eq
      intro i
      have := congrArg (fun x => x.testBit i) h
      simp only [Nat.testBit_or, Nat.zero_testBit, Bool.or_eq_false_iff] at this
      simp [this.2]
  · rintro ⟨rfl, rfl⟩; rfl

theorem tableAt_small (map : Nat → Nat) (c : Nat) (h : c < 128) :
    tableAt map (schar c) = some (map c) := by
  have h1 : c % 256 = c := Nat.mod_eq_of_lt (by omega)
  simp only [schar, h1, tableAt]
  rw [if_pos h, if_pos (by omega)]
  simp

theorem mapAt_rows (map : Nat → Nat) (msa : msa_t) (rows : List (List Nat)) (L : Nat)
    (hs : msa.sequence = rows.map some)
    (hr : ∀ buf ∈ rows, L < buf.length ∧ ∀ c ∈ buf.take L, c < 128)
    (j i : Nat) (buf : List Nat) (hj : rows[j]? = some buf) (hi : i < L) :
    msa.mapAt map j i = some (map (buf.getD i 0)) := by
  obtain ⟨hlen, hb⟩ := hr buf (List.getElem?_mem hj)
  have hil : i < buf.length := by omega
  have hc : buf[i] < 128 := hb _ (by
    rw [List.mem_take_iff_getElem]
    exact ⟨i, by simp; omega, by simp⟩)
  simp only [msa_t.mapAt, hs, List.getElem?_map, hj, Option.map_some',
    List.getElem?_eq_getElem hil]
  rw [tableAt_small map _ hc]
  simp [List.getD_eq_getElem?_getD, List.getElem?_eq_getElem hil]

/-- The inner loop of `mark_ambiguous_sites`: the value it leaves in `amb` is
zero exactly when `amb` was zero and no remaining taxon has a non-zero code at
the site. -/
theorem site_or_spec (map : Nat → Nat) (msa : msa_t) (rows : List (List Nat)) (L : Nat)
    (hs : msa.sequence = rows.map some)
    (hr : ∀ buf ∈ rows, L < buf.length ∧ ∀ c ∈ buf.take L, c < 128) (i : Nat) (hi : i < L) :
    ∀ (n j amb : Nat), j + n = rows.length →
    ∃ v, site_or map msa i n j amb = some v ∧
      (v = 0 ↔ amb = 0 ∧ ambiguousSite map (rows.drop j) i = false) := by
  intro n
  induction n with
  | zero =>
    intro j amb hj
    refine ⟨amb, rfl, ?_⟩
    rw [List.drop_of_length_le (by omega)]
    simp [ambiguousSite]
  | succ n ih =>
    intro j amb hj
    have hjl : j < rows.length := by omega
    have hrow : rows[j]? = some rows[j] := List.getElem?_eq_getElem hjl
    obtain ⟨v, hv, hz⟩ := ih (j + 1) (amb ||| map (rows[j].getD i 0)) (by omega)
    refine ⟨v, ?_, ?_⟩
    · rw [site_or, mapAt_rows map msa rows L hs hr j i _ hrow hi]
      exact hv
    · rw [hz, lor_eq_zero, List.drop_eq_getElem_cons hjl]
      simp only [ambiguousSite, List.any_cons, Bool.or_eq_false_iff, bne_eq_false_iff_eq,
        beq_iff_eq]
      tauto

theorem siteMarks_length (map : Nat → Nat) (rows : List (List Nat)) (n : Nat) :
    (siteMarks map rows n).length = n := by
  simp [siteMarks]

theorem siteMarks_getElem? (map : Nat → Nat) (rows : List (List Nat)) (n i : Nat)
    (h : i < n) :
    (siteMarks map rows n)[i]? = some (if ambiguousSite map rows i then 1 else 0) := by
  simp [siteMarks, List.getElem?_range h]

theorem siteMarks_sum (map : Nat → Nat) (rows : List (List Nat)) (n : Nat) :
    (siteMarks map rows n).sum = (ambiguousCount map rows n : Int) := by
  induction n with
  | zero => simp [siteMarks, ambiguousCount]
  | succ n ih =>
    simp only [siteMarks, ambiguousCount, List.range_succ, List.map_append, List.sum_append,
      List.map_cons, List.map_nil, List.sum_cons, List.sum_nil, List.filter_append,
      List.length_append] at ih ⊢
    rw [ih]
    by_cases h : ambiguousSite map rows n <;> simp [h]

theorem ambiguousCount_le (map : Nat → Nat) (rows : List (List Nat)) (n : Nat) :
    ambiguousCount map rows n ≤ n := by
  have := List.length_filter_le (ambiguousSite map rows) (List.range n)
  simpa [ambiguousCount] using this

/-- The loop over the sites of `mark_ambiguous_sites`. -/
theorem mark_sites_spec (map : Nat → Nat) (msa : msa_t) (rows : List (List Nat)) (L : Nat)
    (hc : msa.count = rows.length) (hs : msa.sequence = rows.map some)
    (hr : ∀ buf ∈ rows, L < buf.length ∧ ∀ c ∈ buf.take L, c < 128) :
    ∀ (n i : Nat) (cnt : Int), i + n = L →
    mark_sites map msa n i (siteMarks map rows i ++ List.replicate n 0) cnt =
      some (siteMarks map rows L, cnt + ((siteMarks map rows L).drop i).sum) := by
  intro n
  induction n with
  | zero =>
    intro i cnt hi
    have : i = L := by omega
    subst this
    simp [mark_sites, List.drop_of_length_le, siteMarks_length]
  | succ n ih =>
    intro i cnt hi
    have hil : i < L := by omega
    obtain ⟨v, hv, hz⟩ := site_or_spec map msa rows L hs hr i hil rows.length 0 0 (by simp)
    have hcn : msa.count.toNat = rows.length := by rw [hc]; simp
    have hstep : siteMarks map rows (i + 1) =
        siteMarks map rows i ++ [if ambiguousSite map rows i then 1 else 0] := by
      simp [siteMarks, List.range_succ]
    have hdrop : ((siteMarks map rows L).drop i).sum =
        (if ambiguousSite map rows i then 1 else 0) + ((siteMarks map rows L).drop (i + 1)).sum := by
      rw [List.drop_eq_getElem_cons (by rw [siteMarks_length]; exact hil)]
      simp only [List.sum_cons]
      congr 1
      have := siteMarks_getElem? map rows L i hil
      rw [List.getElem?_eq_getElem (by rw [siteMarks_length]; exact hil)] at this
      simpa using this
    rw [mark_sites, hcn, hv]
    simp only [List.drop_zero, true_and] at hz
    by_cases ha : ambiguousSite map rows i = true
    · have hv0 : v ≠ 0 := by
        intro h0; rw [hz.mp h0] at ha; exact absurd ha (by simp)
      simp only []
      rw [if_pos hv0, if_pos (by simp [siteMarks_length])]
      have hset : (siteMarks map rows i ++ List.replicate (n + 1) 0).set i 1 =
          siteMarks map rows (i + 1) ++ List.replicate n 0 := by
        rw [hstep, if_pos ha, List.set_append_right _ _ (by simp [siteMarks_length])]
        simp [siteMarks_length, List.replicate_succ]
      rw [hset, ih (i + 1) (cnt + 1) (by omega), hdrop, if_pos ha]
      congr 2
      omega
    · have ha' : ambiguousSite map rows i = false := by simpa using ha
      have hv0 : v = 0 := hz.mpr ha'
      simp only []
      rw [if_neg (by simp [hv0])]
      have hset : siteMarks map rows i ++ List.replicate (n + 1) 0 =
          siteMarks map rows (i + 1) ++ List.replicate n 0 := by
        rw [hstep, if_neg ha]
        simp [List.replicate_succ]
      rw [hset, ih (i + 1) cnt (by omega), hdrop, if_neg ha]
      simp

theorem mark_ambiguous_sites_spec (map : Nat → Nat) (msa : msa_t) (rows : List (List Nat))
    (h : msa.HasRows rows) :
    mark_ambiguous_sites msa map =
      .ret (siteMarks map rows msa.length.toNat,
            { msa with amb_sites_count := ambiguousCount map rows msa.length.toNat }) := by
  obtain ⟨h0, hc, hs, hr⟩ := h
  unfold mark_ambiguous_sites
  rw [if_neg (by omega)]
  have := mark_sites_spec map msa rows msa.length.toNat hc hs hr msa.length.toNat 0 0 (by simp)
  simp only [siteMarks, List.range_zero, List.map_nil, List.nil_append] at this
  simp only [siteMarks]
  rw [this]
  simp only [List.drop_zero, Int.zero_add]
  have hsum := siteMarks_sum map rows msa.length.toNat
  simp only [siteMarks] at hsum
  rw [hsum]

theorem sum_marks_spec (v : List Int) :
    ∀ (n i : Nat) (acc : Int), i + n = v.length →
    sum_marks v n i acc = some (acc + (v.drop i).sum) := by
  intro n
  induction n with
  | zero =>
    intro i acc hi
    simp [sum_marks, List.drop_of_length_le (show v.length ≤ i by omega)]
  | succ n ih =>
    intro i acc hi
    have hil : i < v.length := by omega
    rw [sum_marks, List.getElem?_eq_getElem hil]
    simp only []
    rw [ih (i + 1) _ (by omega), List.drop_eq_getElem_cons hil]
    simp only [List.sum_cons]
    congr 1
    omega

/-! ## Lemmas: exchanging sites -/

theorem permuteCells_length {α : Type} (d : α) (s : Nat → Nat) (l : List α) :
    (permuteCells d s l).length = l.length := by
  simp [permuteCells]

theorem permuteCells_getElem? {α : Type} (d : α) (s : Nat → Nat) (l : List α) (c : Nat)
    (h : c < l.length) : (permuteCells d s l)[c]? = some (l.getD (s c) d) := by
  simp [permuteCells, List.getElem?_range h]

theorem permuteCells_id {α : Type} (d : α) (s : Nat → Nat) (l : List α)
    (h : ∀ c < l.length, s c = c) : permuteCells d s l = l := by
  apply List.ext_getElem?
  intro c
  by_cases hc : c < l.length
  · rw [permuteCells_getElem? d s l c hc, h c hc, List.getD_eq_getElem?_getD,
      List.getElem?_eq_getElem hc]
    simp
  · rw [List.getElem?_eq_none (by rw [permuteCells_length]; omega),
      List.getElem?_eq_none (by omega)]

/-- Exchanging two cells of a rearranged array rearranges the array by the
composed map. -/
theorem swapCells_permuteCells {α : Type} (d : α) (s : Equiv.Perm Nat) (l : List α)
    (i j : Nat) (hi : i < l.length) (hj : j < l.length) :
    swapCells (permuteCells d s l) i j =
      some (permuteCells d ((Equiv.swap i j).trans s : Equiv.Perm Nat) l) := by
  unfold swapCells
  rw [permuteCells_getElem? d s l i hi, permuteCells_getElem? d s l j hj]
  simp only [Option.some.injEq]
  apply List.ext_getElem?
  intro c
  by_cases hc : c < l.length
  · rw [permuteCells_getElem? d _ l c hc]
    simp only [List.getElem?_set, List.length_set, permuteCells_length]
    by_cases hcj : j = c
    · subst hcj
      simp [hj]
    · rw [if_neg hcj]
      by_cases hci : i = c
      · subst hci
        simp [hi]
      · rw [if_neg hci, permuteCells_getElem? d s l c hc]
        simp [Equiv.swap_apply_of_ne_of_ne (Ne.symm hci) (Ne.symm hcj)]
  · rw [List.getElem?_eq_none (by simp [permuteCells_length]; omega),
      List.getElem?_eq_none (by simp [permuteCells_length]; omega)]

/-- The loop that exchanges two sites in every row. -/
theorem swap_sites_spec (i j : Nat) (f : List Nat → List Nat) :
    ∀ (n k : Nat) (rows : List (List Nat)) (done : List (List Nat)),
    done.length = k → rows.length = n →
    (∀ buf ∈ rows, swapCells buf i j = some (f buf)) →
    swap_sites i j n k ((done ++ rows).map some) = some ((done ++ rows.map f).map some) := by
  intro n
  induction n with
  | zero =>
    intro k rows done _ hr _
    have : rows = [] := List.length_eq_zero.mp hr
    subst this
    simp [swap_sites]
  | succ n ih =>
    intro k rows done hd hr hs
    obtain ⟨buf, rest, rfl⟩ : ∃ b r, rows = b :: r := by
      cases rows with
      | nil => simp at hr
      | cons b r => exact ⟨b, r, rfl⟩
    have hk : ((done ++ buf :: rest).map some)[k]? = some (some buf) := by
      rw [List.getElem?_map, List.getElem?_append_right (by omega)]
      simp [hd]
    rw [swap_sites, hk]
    simp only []
    rw [hs buf (by simp)]
    simp only []
    have hset : ((done ++ buf :: rest).map some).set k (some (f buf)) =
        ((done ++ [f buf]) ++ rest).map some := by
      rw [List.map_append, List.set_append_right _ _ (by simp [hd])]
      simp [hd]
    rw [hset, ih (k + 1) rest (done ++ [f buf]) (by simp [hd]) (by simpa using hr)
      (fun b hb => hs b (by simp [hb]))]
    simp

/-- The loop that stores the terminators. -/
theorem terminate_rows_spec (length : Int) (h0 : 0 ≤ length) :
    ∀ (n k : Nat) (rows : List (List Nat)) (done : List (List Nat)),
    done.length = k → rows.length = n →
    (∀ buf ∈ rows, length.toNat < buf.length) →
    terminate_rows length n k ((done ++ rows).map some) =
      some ((done ++ rows.map (fun buf => buf.set length.toNat 0)).map some) := by
  intro n
  induction n with
  | zero =>
    intro k rows done _ hr _
    have : rows = [] := List.length_eq_zero.mp hr
    subst this
    simp [terminate_rows]
  | succ n ih =>
    intro k rows done hd hr hs
    obtain ⟨buf, rest, rfl⟩ : ∃ b r, rows = b :: r := by
      cases rows with
      | nil => simp at hr
      | cons b r => exact ⟨b, r, rfl⟩
    have hk : ((done ++ buf :: rest).map some)[k]? = some (some buf) := by
      rw [List.getElem?_map, List.getElem?_append_right (by omega)]
      simp [hd]
    rw [terminate_rows, hk]
    simp only []
    rw [if_pos ⟨h0, hs buf (by simp)⟩]
    have hset : ((done ++ buf :: rest).map some).set k (some (buf.set length.toNat 0)) =
        ((done ++ [buf.set length.toNat 0]) ++ rest).map some := by
      rw [List.map_append, List.set_append_right _ _ (by simp [hd])]
      simp [hd]
    rw [hset, ih (k + 1) rest (done ++ [buf.set length.toNat 0]) (by simp [hd])
      (by simpa using hr) (fun b hb => hs b (by simp [hb]))]
    simp

/-- The scan to the next ambiguous site. -/
theorem next_ambiguous_spec (amb : List Int) (L : Nat) (hl : amb.length = L) :
    ∀ (fuel i : Nat), i ≤ L → L - i < fuel →
    ∃ i1, next_ambiguous amb (L : Int) fuel i = some i1 ∧ i ≤ i1 ∧ i1 ≤ L ∧
      (∀ c, i ≤ c → c < i1 → amb[c]? = some 0) ∧
      (i1 < L → ∃ a, amb[i1]? = some a ∧ a ≠ 0) := by
  intro fuel
  induction fuel with
  | zero => intro i _ h; omega
  | succ fuel ih =>
    intro i hi hf
    rw [next_ambiguous]
    by_cases hil : i < L
    · rw [if_pos (by exact_mod_cast hil), List.getElem?_eq_getElem (by omega)]
      simp only []
      by_cases ha : amb[i] = 0
      · rw [if_pos ha]
        obtain ⟨i1, h1, h2, h3, h4, h5⟩ := ih (i + 1) (by omega) (by omega)
        refine ⟨i1, h1, by omega, h3, ?_, h5⟩
        intro c hc1 hc2
        by_cases hci : c = i
        · subst hci
          rw [List.getElem?_eq_getElem (by omega), ha]
        · exact h4 c (by omega) hc2
      · rw [if_neg ha]
        refine ⟨i, rfl, le_refl _, hi, fun c h1 h2 => by omega, fun _ => ⟨amb[i], ?_, ha⟩⟩
        rw [List.getElem?_eq_getElem (by omega)]
    · rw [if_neg (by intro h; exact hil (by exact_mod_cast h))]
      exact ⟨i, rfl, le_refl _, hi, fun c h1 h2 => by omega, fun h => absurd h hil⟩

/-- The scan to the previous site without ambiguity. -/
theorem prev_unambiguous_spec (amb : List Int) (L : Nat) (hl : amb.length = L) :
    ∀ (fuel : Nat) (j : Int), -1 ≤ j → j < L → j + 1 < fuel →
    ∃ j1, prev_unambiguous amb fuel j = some j1 ∧ -1 ≤ j1 ∧ j1 ≤ j ∧
      (∀ c : Nat, j1 < c → (c : Int) ≤ j → ∃ a, amb[c]? = some a ∧ a ≠ 0) ∧
      (0 ≤ j1 → amb[j1.toNat]? = some 0) := by
  intro fuel
  induction fuel with
  | zero => intro j _ _ h; omega
  | succ fuel ih =>
    intro j hj hjl hf
    rw [prev_unambiguous]
    by_cases hj0 : 0 ≤ j
    · have hjn : j.toNat < amb.length := by omega
      rw [if_pos hj0, List.getElem?_eq_getElem hjn]
      simp only []
      by_cases ha : amb[j.toNat] ≠ 0
      · rw [if_pos ha]
        obtain ⟨j1, h1, h2, h3, h4, h5⟩ := ih (j - 1) (by omega) (by omega) (by omega)
        refine ⟨j1, h1, h2, by omega, ?_, h5⟩
        intro c hc1 hc2
        by_cases hcj : (c : Int) = j
        · have : c = j.toNat := by omega
          subst this
          exact ⟨_, List.getElem?_eq_getElem hjn, ha⟩
        · exact h4 c hc1 (by omega)
      · rw [if_neg ha]
        refine ⟨j, rfl, hj, le_refl _, fun c h1 h2 => by omega, fun _ => ?_⟩
        rw [List.getElem?_eq_getElem hjn]
        simpa using ha
    · rw [if_neg hj0]
      exact ⟨j, rfl, hj, le_refl _, fun c h1 h2 => by omega, fun h => absurd h hj0⟩

/-! ## Lemmas: the loop that moves the ambiguous sites -/

/-- The loop of `remove_ambiguous` keeps its invariant and ends. -/
theorem move_ambiguous_spec (amb0 : List Int) (rows0 : List (List Nat))
    (hrows : ∀ buf ∈ rows0, amb0.length < buf.length) :
    ∀ (fuel i : Nat) (j : Int) (s : Equiv.Perm Nat) (msa : msa_t),
    msa.length = amb0.length → msa.count = rows0.length →
    msa.sequence = rows0.map (fun buf => some (permuteCells 0 s buf)) →
    MoveInv amb0 s i j → j + 1 - i < fuel →
    ∃ (s1 : Equiv.Perm Nat) (n : Nat),
      move_ambiguous fuel msa (permuteCells 0 s amb0) i j =
        some ({ msa with sequence := rows0.map (fun buf => some (permuteCells 0 s1 buf)) },
              permuteCells 0 s1 amb0) ∧
      MoveDone amb0 s1 n := by
  intro fuel
  induction fuel with
  | zero =>
    intro i j s msa _ _ _ hinv hf
    obtain ⟨_, hb, _⟩ := hinv
    omega
  | succ fuel ih =>
    intro i j s msa hlen hcnt hseq hinv hf
    obtain ⟨ha, hb, hjl, hc, hd, he, hff, hg, hh⟩ := hinv
    have hcur : ∀ c, c < amb0.length →
        (permuteCells 0 s amb0)[c]? = some (amb0.getD (s c) 0) :=
      fun c hcl => permuteCells_getElem? 0 s amb0 c hcl
    rw [move_ambiguous]
    by_cases hcond : (i : Int) < msa.length ∧ 0 ≤ j
    · rw [if_pos hcond]
      rw [hlen] at hcond
      obtain ⟨hi1, hj0⟩ := hcond
      have hiL : i < amb0.length := by omega
      obtain ⟨i1, hn1, hn2, hn3, hn4, hn5⟩ :=
        next_ambiguous_spec (permuteCells 0 s amb0) amb0.length (permuteCells_length _ _ _)
          (amb0.length + 1) i (by omega) (by omega)
      obtain ⟨j1, hp1, hp2, hp3, hp4, hp5⟩ :=
        prev_unambiguous_spec (permuteCells 0 s amb0) amb0.length (permuteCells_length _ _ _)
          (amb0.length + 1) j (by omega) hjl (by omega)
      have hlt : msa.length.toNat = amb0.length := by rw [hlen]; simp
      have hcn : msa.count.toNat = rows0.length := by rw [hcnt]; simp
      have hn1a : next_ambiguous (permuteCells 0 s amb0) msa.length (msa.length.toNat + 1) i =
          some i1 := by rw [hlt, hlen]; exact hn1
      have hp1a : prev_unambiguous (permuteCells 0 s amb0) (msa.length.toNat + 1) j =
          some j1 := by rw [hlt]; exact hp1
      rw [hn1a]
      simp only []
      rw [hp1a]
      simp only []
      -- facts on the scans, in terms of the original marks
      have hzero : ∀ c, i ≤ c → c < i1 → amb0.getD (s c) 0 = 0 := by
        intro c h1 h2
        have := hn4 c h1 h2
        rw [hcur c (by omega)] at this
        simpa using this
      have hnz : ∀ c : Nat, j1 < c → (c : Int) ≤ j → amb0.getD (s c) 0 ≠ 0 := by
        intro c h1 h2
        obtain ⟨a, h3, h4⟩ := hp4 c h1 h2
        rw [hcur c (by omega)] at h3
        simp only [Option.some.injEq] at h3
        rw [h3]; exact h4
      have hi1j : (i1 : Int) ≤ j + 1 := by
        by_contra hcon
        have hj1 : (j + 1).toNat < amb0.length := by omega
        have h1 := hzero (j + 1).toNat (by omega) (by omega)
        exact hd (j + 1).toNat (by omega) hj1 h1
      have hj1i : (i : Int) - 1 ≤ j1 := by
        by_contra hcon
        have hi0 : 0 < i := by omega
        have h1 := hnz (i - 1) (by omega) (by omega)
        exact h1 (hc (i - 1) (by omega))
      by_cases hbr : j1 < (i1 : Int)
      · -- the loop is left
        rw [if_pos hbr]
        refine ⟨s, i1, ?_, ha, hn3, ?_, ?_, ?_, ?_⟩
        · rw [← hseq]
        · intro c hcl
          constructor
          · intro hci
            by_cases hc2 : c < i
            · exact hc c hc2
            · exact hzero c (by omega) hci
          · intro hz
            by_contra hci
            by_cases hc2 : (c : Int) ≤ j
            · exact hnz c (by omega) hc2 hz
            · exact hd c (by omega) hcl hz
        · intro c hci hz
          by_cases hc2 : c < i
          · exact hff c hc2 hz
          · exact he c (by omega) (by omega)
        · intro c hci hz
          by_cases hc2 : c < i
          · have := hg c hc2 hz
            omega
          · have h1 := he c (by omega) (by omega)
            have h2 := hzero c (by omega) hci
            rw [h1] at h2
            exact absurd h2 hz
        · intro c d hcd hdi hzc hzd
          by_cases hd2 : d < i
          · exact hh c d hcd hd2 hzc hzd
          · have h1 := he d (by omega) (by omega)
            have h2 := hzero d (by omega) hdi
            rw [h1] at h2
            exact absurd h2 hzd
      · -- two sites are exchanged
        rw [if_neg hbr]
        have hj1n : (j1.toNat : Int) = j1 := by omega
        have hi1L : i1 < amb0.length := by omega
        have hj1L : j1.toNat < amb0.length := by omega
        obtain ⟨a, ha1, ha2⟩ := hn5 hi1L
        rw [hcur i1 hi1L] at ha1
        simp only [Option.some.injEq] at ha1
        have hai1 : amb0.getD (s i1) 0 ≠ 0 := by rw [ha1]; exact ha2
        have haj1 : amb0.getD (s j1.toNat) 0 = 0 := by
          have := hp5 (by omega)
          rw [hcur _ hj1L] at this
          simpa using this
        have hne : i1 ≠ j1.toNat := by
          intro h; rw [h] at hai1; exact hai1 haj1
        have hij : i1 < j1.toNat := by omega
        have hsi1 : s i1 = i1 := he i1 hn2 (by omega)
        have hsj1 : s j1.toNat = j1.toNat := he j1.toNat (by omega) (by omega)
        have hsw : ∀ buf0 ∈ rows0, swapCells (permuteCells 0 s buf0) i1 j1.toNat =
            some (permuteCells 0 ((Equiv.swap i1 j1.toNat).trans s : Equiv.Perm Nat) buf0) :=
          fun buf0 hb0 => swapCells_permuteCells 0 s buf0 i1 j1.toNat
            (by have := hrows buf0 hb0; omega) (by have := hrows buf0 hb0; omega)
        have hswap : swap_sites i1 j1.toNat msa.count.toNat 0 msa.sequence =
            some (rows0.map (fun buf => some
              (permuteCells 0 ((Equiv.swap i1 j1.toNat).trans s : Equiv.Perm Nat) buf))) := by
          have h1 := swap_sites_spec i1 j1.toNat (fun b => (swapCells b i1 j1.toNat).getD b)
            rows0.length 0 (rows0.map (permuteCells 0 s)) [] rfl (by simp)
            (by
              intro buf hb
              simp only [List.mem_map] at hb
              obtain ⟨b0, hb0, rfl⟩ := hb
              simp only [hsw b0 hb0, Option.getD_some])
          rw [hcn, hseq]
          simp only [List.nil_append, List.map_map] at h1
          rw [show (fun buf => some (permuteCells 0 (⇑s) buf)) =
            (some ∘ permuteCells (0 : Nat) ⇑s) from rfl, h1]
          congr 1
          apply List.map_congr_left
          intro b0 hb0
          simp only [Function.comp_apply, hsw b0 hb0, Option.getD_some]
        have hswapa : swapCells (permuteCells 0 s amb0) j1.toNat i1 =
            some (permuteCells 0 ((Equiv.swap i1 j1.toNat).trans s : Equiv.Perm Nat) amb0) := by
          rw [swapCells_permuteCells 0 s amb0 j1.toNat i1 hj1L hi1L, Equiv.swap_comm]
        rw [hswap]
        simp only []
        rw [hswapa]
        simp only []
        have hs1 : ∀ c, ((Equiv.swap i1 j1.toNat).trans s : Equiv.Perm Nat) c =
            s (Equiv.swap i1 j1.toNat c) := fun c => rfl
        have hso : ∀ c, c ≠ i1 → c ≠ j1.toNat →
            ((Equiv.swap i1 j1.toNat).trans s : Equiv.Perm Nat) c = s c := by
          intro c h1 h2
          rw [hs1, Equiv.swap_apply_of_ne_of_ne h1 h2]
        have hsi : ((Equiv.swap i1 j1.toNat).trans s : Equiv.Perm Nat) i1 = j1.toNat := by
          rw [hs1, Equiv.swap_apply_left, hsj1]
        have hsj : ((Equiv.swap i1 j1.toNat).trans s : Equiv.Perm Nat) j1.toNat = i1 := by
          rw [hs1, Equiv.swap_apply_right, hsi1]
        obtain ⟨s1, n, hrec, hdone⟩ :=
          ih (i1 + 1) (j1 - 1) ((Equiv.swap i1 j1.toNat).trans s)
            { msa with sequence := rows0.map (fun buf => some
                (permuteCells 0 ((Equiv.swap i1 j1.toNat).trans s : Equiv.Perm Nat) buf)) }
            hlen hcnt rfl
            (by
              refine ⟨?_, by push_cast; omega, by omega, ?_, ?_, ?_, ?_, ?_, ?_⟩
              · intro c hcl
                rw [hso c (by omega) (by omega)]
                exact ha c hcl
              · intro c hci
                by_cases h1 : c = i1
                · rw [h1, hsi, ← hsj1]; exact haj1
                · rw [hso c h1 (by omega)]
                  by_cases h2 : c < i
                  · exact hc c h2
                  · exact hzero c (by omega) (by omega)
              · intro c hcj hcl
                by_cases h1 : c = j1.toNat
                · rw [h1, hsj, ← hsi1]; exact hai1
                · rw [hso c (by omega) h1]
                  by_cases h2 : (c : Int) ≤ j
                  · exact hnz c (by omega) h2
                  · exact hd c (by omega) hcl
              · intro c hci hcj
                rw [hso c (by omega) (by omega)]
                exact he c (by omega) (by omega)
              · intro c hci hz
                by_cases h1 : c = i1
                · rw [h1, ← hsi1] at hz
                  exact absurd hz hai1
                · rw [hso c h1 (by omega)]
                  by_cases h2 : c < i
                  · exact hff c h2 hz
                  · exact he c (by omega) (by omega)
              · intro c hci hz
                by_cases h1 : c = i1
                · rw [h1, hsi]
                  omega
                · rw [hso c h1 (by omega)]
                  by_cases h2 : c < i
                  · have := hg c h2 hz
                    omega
                  · have h3 := he c (by omega) (by omega)
                    have h4 := hzero c (by omega) (by omega)
                    rw [h3] at h4
                    exact absurd h4 hz
              · intro c d hcd hdi hzc hzd
                have hcback : c < i := by
                  by_contra h2
                  have h3 := he c (by omega) (by omega)
                  have h4 := hzero c (by omega) (by omega)
                  rw [h3] at h4
                  exact hzc h4
                rw [hso c (by omega) (by omega)]
                by_cases h1 : d = i1
                · rw [h1, hsi]
                  have := hg c hcback hzc
                  omega
                · rw [hso d h1 (by omega)]
                  have hdback : d < i := by
                    by_contra h2
                    have h3 := he d (by omega) (by omega)
                    have h4 := hzero d (by omega) (by omega)
                    rw [h3] at h4
                    exact hzd h4
                  exact hh c d hcd hdback hzc hzd)
            (by push_cast; omega)
        exact ⟨s1, n, hrec, hdone⟩
    · rw [if_neg hcond]
      rw [hlen] at hcond
      refine ⟨s, i, ?_, ha, by omega, ?_, hff, ?_, hh⟩
      · rw [← hseq]
      · intro c hcl
        constructor
        · exact hc c
        · intro hz
          by_contra hci
          by_cases h1 : 0 ≤ j
          · have : ¬ ((i : Int) < amb0.length) := fun h => hcond ⟨h, h1⟩
            omega
          · exact hd c (by omega) hcl hz
      · intro c hci hz
        have := hg c hci hz
        omega

/-! ## Lemmas: what msa_remove_ambiguous does -/

theorem card_filter_range (p : Nat → Bool) (L : Nat) :
    ((Finset.range L).filter (fun c => p c = true)).card = ((List.range L).filter p).length := by
  induction L with
  | zero => simp
  | succ L ih =>
    rw [Finset.range_succ, Finset.filter_insert, List.range_succ, List.filter_append,
      List.length_append, ← ih]
    by_cases h : p L = true
    · rw [if_pos h, Finset.card_insert_of_not_mem (by simp)]
      simp [h]
    · rw [if_neg h]
      simp [h]

theorem siteMarks_getD (map : Nat → Nat) (rows : List (List Nat)) (L c : Nat) (h : c < L) :
    (siteMarks map rows L).getD c 0 = if ambiguousSite map rows c then 1 else 0 := by
  rw [List.getD_eq_getElem?_getD, siteMarks_getElem? map rows L c h]
  rfl

theorem siteMarks_zero (map : Nat → Nat) (rows : List (List Nat)) (L c : Nat) (h : c < L) :
    (siteMarks map rows L).getD c 0 = 0 ↔ ambiguousSite map rows c = false := by
  rw [siteMarks_getD map rows L c h]
  by_cases ha : ambiguousSite map rows c = true <;> simp [ha]

/-- When the loop is left the number of cells in front is the number of sites
free of ambiguity. -/
theorem moveDone_count (map : Nat → Nat) (rows : List (List Nat)) (L : Nat)
    (s : Equiv.Perm Nat) (n : Nat) (h : MoveDone (siteMarks map rows L) s n) :
    n + ambiguousCount map rows L = L := by
  obtain ⟨ha, hn, hiff, _, _, _⟩ := h
  simp only [siteMarks_length] at ha hn hiff
  have hsub : {a | s a ≠ a} ⊆ ((Finset.range L : Finset Nat) : Set Nat) := by
    intro c hc
    simp only [Set.mem_setOf_eq] at hc
    simp only [Finset.coe_range, Set.mem_Iio]
    by_contra hcl
    exact hc (ha c (by omega))
  have key := Equiv.Perm.sum_comp s (Finset.range L)
    (fun c => if (siteMarks map rows L).getD c 0 = 0 then (1 : Nat) else 0) hsub
  have hl : ∑ c ∈ Finset.range L,
      (if (siteMarks map rows L).getD (s c) 0 = 0 then (1 : Nat) else 0) = n := by
    rw [Finset.sum_congr rfl (g := fun c => if c < n then (1 : Nat) else 0)
      (by
        intro c hc
        simp only [Finset.mem_range] at hc
        by_cases h1 : c < n
        · simp only [if_pos ((hiff c hc).mp h1), if_pos h1]
        · simp only [if_neg (fun h2 => h1 ((hiff c hc).mpr h2)), if_neg h1])]
    rw [Finset.sum_boole]
    have : (Finset.range L).filter (fun c => c < n) = Finset.range n := by
      ext c
      simp only [Finset.mem_filter, Finset.mem_range]
      omega
    rw [this]
    simp
  have hr : ∑ c ∈ Finset.range L,
      (if (siteMarks map rows L).getD c 0 = 0 then (1 : Nat) else 0) +
        ambiguousCount map rows L = L := by
    rw [Finset.sum_congr rfl (g := fun c => if ¬ (ambiguousSite map rows c = true) then (1 : Nat) else 0)
      (by
        intro c hc
        simp only [Finset.mem_range] at hc
        by_cases h1 : ambiguousSite map rows c = true
        · have h2 : ¬ (siteMarks map rows L).getD c 0 = 0 := by
            rw [siteMarks_zero map rows L c hc, h1]; simp
          beta_reduce
          rw [if_neg h2, if_neg (by simp [h1])]
        · have h2 : (siteMarks map rows L).getD c 0 = 0 := by
            rw [siteMarks_zero map rows L c hc]; simpa using h1
          beta_reduce
          rw [if_pos h2, if_pos h1])]
    rw [Finset.sum_boole, ambiguousCount, ← card_filter_range]
    have := Finset.filter_card_add_filter_neg_card_eq_card (s := Finset.range L)
      (fun c => ambiguousSite map rows c = true)
    simp only [Finset.card_range] at this
    simp only [Nat.cast_id]
    omega
  rw [← hl, key]
  exact hr

/-- What `msa_remove_ambiguous` does to an alignment with rows `rows`: it
counts the ambiguous sites; when all sites are ambiguous it returns 0 and
leaves the rows as they are; otherwise it returns 1, with the rows rearranged
by one map `s` for all of them, cut behind the sites free of ambiguity. -/
theorem msa_remove_ambiguous_spec (map : Nat → Nat) (msa : msa_t) (rows : List (List Nat))
    (h : msa.HasRows rows) :
    (ambiguousCount map rows msa.length.toNat = msa.length.toNat →
      msa_remove_ambiguous map msa =
        .ret (0, { msa with amb_sites_count := ambiguousCount map rows msa.length.toNat })) ∧
    (ambiguousCount map rows msa.length.toNat ≠ msa.length.toNat →
      ∃ s : Equiv.Perm Nat,
        MoveDone (siteMarks map rows msa.length.toNat) s
          (msa.length.toNat - ambiguousCount map rows msa.length.toNat) ∧
        msa_remove_ambiguous map msa =
          .ret (1, { msa with
            amb_sites_count := ambiguousCount map rows msa.length.toNat,
            length := ((msa.length.toNat - ambiguousCount map rows msa.length.toNat : Nat) : Int),
            sequence := rows.map (fun buf => some ((permuteCells 0 s buf).set
              (msa.length.toNat - ambiguousCount map rows msa.length.toNat) 0)) })) := by
  have hmark := mark_ambiguous_sites_spec map msa rows h
  obtain ⟨h0, hc, hs, hr⟩ := h
  have hle := ambiguousCount_le map rows msa.length.toNat
  have hsum : sum_marks (siteMarks map rows msa.length.toNat) msa.length.toNat 0 0 =
      some (ambiguousCount map rows msa.length.toNat : Int) := by
    rw [sum_marks_spec _ msa.length.toNat 0 0 (by simp [siteMarks_length])]
    simp [siteMarks_sum]
  have hLL : ((msa.length.toNat : Nat) : Int) = msa.length := by omega
  constructor
  · intro ha
    unfold msa_remove_ambiguous
    rw [hmark]
    simp only [remove_ambiguous]
    rw [hsum]
    simp only []
    rw [if_pos (by rw [ha]; exact hLL)]
  · intro ha
    obtain ⟨s1, n, hmove, hdone⟩ :=
      move_ambiguous_spec (siteMarks map rows msa.length.toNat) rows
        (by intro buf hb; rw [siteMarks_length]; exact (hr buf hb).1)
        (msa.length.toNat + 1) 0 (msa.length - 1) (Equiv.refl Nat)
        { msa with amb_sites_count := ambiguousCount map rows msa.length.toNat }
        (by simp [siteMarks_length, hLL]) hc
        (by
          simp only [hs]
          apply List.map_congr_left
          intro buf _
          rw [permuteCells_id 0 (⇑(Equiv.refl Nat)) buf (fun c _ => rfl)])
        (by
          simp only [MoveInv, siteMarks_length]
          refine ⟨fun c _ => rfl, by omega, by omega, fun c hc => by omega,
            fun c h1 h2 => by omega, fun c _ _ => rfl, fun c hc => by omega,
            fun c hc => by omega, fun c d _ hd => by omega⟩)
        (by omega)
    have hn := moveDone_count map rows msa.length.toNat s1 n hdone
    have hn2 : n = msa.length.toNat - ambiguousCount map rows msa.length.toNat := by omega
    subst hn2
    refine ⟨s1, hdone, ?_⟩
    rw [permuteCells_id (0 : Int) (⇑(Equiv.refl Nat)) _ (fun c _ => rfl)] at hmove
    unfold msa_remove_ambiguous
    rw [hmark]
    simp only [remove_ambiguous]
    rw [hsum]
    simp only []
    rw [if_neg (by rw [← hLL]; exact_mod_cast ha), hmove]
    simp only []
    have hterm := terminate_rows_spec
      (msa.length - (ambiguousCount map rows msa.length.toNat : Int)) (by omega)
      rows.length 0 (rows.map (permuteCells 0 s1)) [] rfl (by simp)
      (by
        intro buf hb
        simp only [List.mem_map] at hb
        obtain ⟨b0, hb0, rfl⟩ := hb
        rw [permuteCells_length]
        have := (hr b0 hb0).1
        omega)
    have hcn : msa.count.toNat = rows.length := by rw [hc]; simp
    have htn : (msa.length - (ambiguousCount map rows msa.length.toNat : Int)).toNat =
        msa.length.toNat - ambiguousCount map rows msa.length.toNat := by omega
    simp only [List.nil_append, List.map_map, htn] at hterm
    rw [hcn]
    rw [show (fun buf => some (permuteCells (0 : Nat) (⇑s1) buf)) =
      (some ∘ permuteCells (0 : Nat) ⇑s1) from rfl, hterm]
    simp only [Outcome.ret.injEq, Prod.mk.injEq, true_and]
    congr 1
    · omega

/-! ## Lemmas: the ambiguity claims -/

theorem ambiguousCount_eq_iff (map : Nat → Nat) (rows : List (List Nat)) (L : Nat) :
    ambiguousCount map rows L = L ↔ ∀ c, c < L → ambiguousSite map rows c = true := by
  unfold ambiguousCount
  constructor
  · intro h c hc
    have hsub : (List.range L).filter (ambiguousSite map rows) = List.range L :=
      List.Sublist.eq_of_length (List.filter_sublist _) (by simpa using h)
    rw [List.filter_eq_self] at hsub
    exact hsub c (by simp [hc])
  · intro h
    rw [List.filter_eq_self.mpr (fun c hc => h c (by simpa using hc))]
    simp

theorem ambiguousCount_zero (map : Nat → Nat) (rows : List (List Nat)) (L : Nat)
    (h : ∀ c, c < L → ambiguousSite map rows c = false) : ambiguousCount map rows L = 0 := by
  unfold ambiguousCount
  rw [List.length_eq_zero, List.filter_eq_nil_iff]
  intro c hc
  rw [h c (by simpa using hc)]
  simp

/-- The map of a finished rearrangement sends the positions below the length
to positions below the length. -/
theorem moveDone_lt (amb0 : List Int) (s : Equiv.Perm Nat) (n : Nat)
    (h : MoveDone amb0 s n) (c : Nat) (hc : c < amb0.length) : s c < amb0.length := by
  by_contra hcon
  have h1 := h.1 (s c) (by omega)
  have h2 := s.injective h1
  omega

/-- The sites of the rearranged rows, in terms of the original rows. -/
theorem ambiguousSite_permute (map : Nat → Nat) (rows : List (List Nat)) (s : Nat → Nat)
    (k m : Nat) (hmk : m ≠ k) (hm : ∀ buf ∈ rows, m < buf.length) :
    ambiguousSite map (rows.map (fun buf => (permuteCells 0 s buf).set k 0)) m =
      ambiguousSite map rows (s m) := by
  induction rows with
  | nil => rfl
  | cons buf rest ih =>
    have ih1 := ih (fun b hb => hm b (by simp [hb]))
    simp only [ambiguousSite] at ih1
    simp only [ambiguousSite, List.map_cons, List.any_cons]
    rw [ih1]
    congr 2
    have hml := hm buf (by simp)
    rw [List.getD_eq_getElem?_getD, List.getElem?_set_ne (Ne.symm hmk),
      permuteCells_getElem? 0 s buf m hml]
    rfl

theorem permuted_row_getElem? (s : Nat → Nat) (buf : List Nat) (k m : Nat) (hmk : m ≠ k)
    (hm : m < buf.length) (hs : s m < buf.length) :
    ((permuteCells 0 s buf).set k 0)[m]? = buf[s m]? := by
  rw [List.getElem?_set_ne (Ne.symm hmk), permuteCells_getElem? 0 s buf m hm,
    List.getD_eq_getElem?_getD, List.getElem?_eq_getElem hs]
  rfl

/-- The result of a successful `msa_remove_ambiguous`, row by row. -/
theorem remove_ambiguous_rows (map : Nat → Nat) (msa : msa_t) (rows : List (List Nat))
    (h : msa.HasRows rows)
    (hna : ambiguousCount map rows msa.length.toNat ≠ msa.length.toNat) :
    ∃ (s : Equiv.Perm Nat) (rows1 : List (List Nat)),
      MoveDone (siteMarks map rows msa.length.toNat) s
        (msa.length.toNat - ambiguousCount map rows msa.length.toNat) ∧
      rows1 = rows.map (fun buf => (permuteCells 0 s buf).set
        (msa.length.toNat - ambiguousCount map rows msa.length.toNat) 0) ∧
      msa_remove_ambiguous map msa =
        .ret (1, { msa with
          amb_sites_count := ambiguousCount map rows msa.length.toNat,
          length := ((msa.length.toNat - ambiguousCount map rows msa.length.toNat : Nat) : Int),
          sequence := rows1.map some }) ∧
      (∀ (k : Nat) (buf : List Nat), rows[k]? = some buf →
        rows1[k]? = some ((permuteCells 0 s buf).set
          (msa.length.toNat - ambiguousCount map rows msa.length.toNat) 0) ∧
        ((permuteCells 0 s buf).set
          (msa.length.toNat - ambiguousCount map rows msa.length.toNat) 0)[
            msa.length.toNat - ambiguousCount map rows msa.length.toNat]? = some 0 ∧
        ∀ m, m < msa.length.toNat - ambiguousCount map rows msa.length.toNat →
          ((permuteCells 0 s buf).set
            (msa.length.toNat - ambiguousCount map rows msa.length.toNat) 0)[m]? = buf[s m]? ∧
          s m < msa.length.toNat) ∧
      (∀ m, m < msa.length.toNat - ambiguousCount map rows msa.length.toNat →
        ambiguousSite map rows1 m = ambiguousSite map rows (s m)) := by
  obtain ⟨s, hdone, hres⟩ := (msa_remove_ambiguous_spec map msa rows h).2 hna
  obtain ⟨h0, hc, hs, hr⟩ := h
  have hle := ambiguousCount_le map rows msa.length.toNat
  refine ⟨s, _, hdone, rfl, ?_, ?_, ?_⟩
  · rw [hres]
    simp only [List.map_map]
    rfl
  · intro k buf hk
    have hbuf := (hr buf (List.getElem?_mem hk)).1
    refine ⟨by simp [hk], ?_, ?_⟩
    · rw [List.getElem?_set_self (by rw [permuteCells_length]; omega)]
    · intro m hm
      have hsm := moveDone_lt _ s _ hdone m (by rw [siteMarks_length]; omega)
      rw [siteMarks_length] at hsm
      exact ⟨permuted_row_getElem? s buf _ m (by omega) (by omega) (by omega), hsm⟩
  · intro m hm
    exact ambiguousSite_permute map rows s _ m (by omega)
      (fun buf hb => by have := (hr buf hb).1; omega)

/-! ## Lemmas: missing sequences -/

theorem mapAt_row (map : Nat → Nat) (msa : msa_t) (i j : Nat) (row : List Nat)
    (hi : msa.sequence[i]? = some (some row)) (hj : j < row.length) (hc : row[j] < 128) :
    msa.mapAt map i j = some (map row[j]) := by
  simp only [msa_t.mapAt, hi, List.getElem?_eq_getElem hj]
  exact tableAt_small map _ hc

/-- The inner loop of `msa_remove_missing_sequences`: it runs to the end of the
row exactly when the taxon is fully missing. -/
theorem missing_run_spec (map : Nat → Nat) (msa : msa_t) (i L : Nat) (row : List Nat)
    (hi : msa.sequence[i]? = some (some row)) (hl : L < row.length)
    (hb : ∀ c ∈ row.take L, c < 128) :
    ∀ (n j : Nat), j + n = L →
    ∃ r, missing_run map msa i n j = some r ∧ r ≤ L ∧
      (r = L ↔ ((row.take L).drop j).all (fun c => map c != 0) = true) := by
  intro n
  induction n with
  | zero =>
    intro j hj
    refine ⟨j, rfl, by omega, ?_⟩
    rw [List.drop_of_length_le (by simp; omega)]
    simp; omega
  | succ n ih =>
    intro j hj
    have hjl : j < row.length := by omega
    have hjt : j < (row.take L).length := by simp; omega
    have hc : row[j] < 128 := hb _ (by
      rw [List.mem_take_iff_getElem]
      exact ⟨j, by simp; omega, rfl⟩)
    rw [missing_run, mapAt_row map msa i j row hi hjl hc]
    simp only []
    rw [List.drop_eq_getElem_cons hjt, List.getElem_take]
    simp only [List.all_cons, Bool.and_eq_true, bne_iff_ne, ne_eq]
    by_cases hv : map row[j] = 0
    · rw [if_pos hv]
      refine ⟨j, rfl, by omega, ?_⟩
      constructor
      · intro h; omega
      · intro h; exact absurd hv h.1
    · rw [if_neg hv]
      obtain ⟨r, h1, h2, h3⟩ := ih (j + 1) (by omega)
      refine ⟨r, h1, h2, ?_⟩
      rw [h3]
      simp [hv]

theorem missing_run_full (map : Nat → Nat) (msa : msa_t) (i L : Nat) (row : List Nat)
    (hi : msa.sequence[i]? = some (some row)) (hl : L < row.length)
    (hb : ∀ c ∈ row.take L, c < 128) :
    ∃ r, missing_run map msa i L 0 = some r ∧ (r = L ↔ fullyMissing map L row = true) := by
  obtain ⟨r, h1, _, h3⟩ := missing_run_spec map msa i L row hi hl hb L 0 (by simp)
  exact ⟨r, h1, by simpa [fullyMissing] using h3⟩

/-- The loop that deletes the fully missing taxa. -/
theorem delete_missing_spec (map : Nat → Nat) (L : Nat) :
    ∀ (suf pre : List (List Nat × List Nat)) (msa : msa_t) (d : Int),
    msa.length = L →
    msa.sequence = pre.map (keptSequence map L) ++ suf.map (fun p => some p.2) →
    msa.label = pre.map (keptLabel map L) ++ suf.map (fun p => some p.1) →
    (∀ p ∈ suf, L < p.2.length ∧ ∀ c ∈ p.2.take L, c < 128) →
    delete_missing map suf.length pre.length msa d =
      some ({ msa with sequence := (pre ++ suf).map (keptSequence map L),
                       label := (pre ++ suf).map (keptLabel map L) },
            d + (missingCount map L suf : Int)) := by
  intro suf
  induction suf with
  | nil =>
    intro pre msa d _ hs hl _
    simp only [List.map_nil, List.append_nil] at hs hl
    simp only [delete_missing, List.length_nil, List.append_nil, missingCount,
      List.filter_nil, Nat.cast_zero, Int.add_zero, ← hs, ← hl]
  | cons p suf ih =>
    intro pre msa d hlen hs hl hrows
    have hi : msa.sequence[pre.length]? = some (some p.2) := by
      rw [hs, List.getElem?_append_right (by simp)]
      simp
    obtain ⟨hpl, hpb⟩ := hrows p (by simp)
    obtain ⟨r, hr, hiff⟩ := missing_run_full map msa pre.length L p.2 hi hpl hpb
    have hlt : msa.length.toNat = L := by rw [hlen]; simp
    rw [List.length_cons, delete_missing, hlt, hr]
    simp only []
    have hcount : missingCount map L (p :: suf) =
        (if fullyMissing map L p.2 then 1 else 0) + missingCount map L suf := by
      simp only [missingCount, List.filter_cons]
      by_cases hm : fullyMissing map L p.2 = true <;> simp [hm]; omega
    by_cases hm : fullyMissing map L p.2 = true
    · have hrl : (r : Int) = msa.length := by rw [hlen, hiff.mpr hm]
      rw [if_pos hrl, if_pos (by rw [hs, hl]; simp)]
      have h1 := ih (pre ++ [p])
        { msa with sequence := msa.sequence.set pre.length none,
                   label := msa.label.set pre.length none } (d + 1) hlen
        (by
          simp only [hs, List.map_append, List.map_cons, List.map_nil, keptSequence, hm,
            if_true]
          rw [List.set_append_right _ _ (by simp)]
          simp)
        (by
          simp only [hl, List.map_append, List.map_cons, List.map_nil, keptLabel, hm,
            if_true]
          rw [List.set_append_right _ _ (by simp)]
          simp)
        (fun q hq => hrows q (by simp [hq]))
      simp only [List.length_append, List.length_singleton, List.append_assoc,
        List.singleton_append] at h1
      rw [h1, hcount, if_pos hm]
      simp only [Option.some.injEq, Prod.mk.injEq, true_and]
      push_cast
      omega
    · have hrl : ¬ (r : Int) = msa.length := by
        rw [hlen]
        intro h
        exact hm (hiff.mp (by exact_mod_cast h))
      rw [if_neg hrl]
      have hmf : fullyMissing map L p.2 = false := by simpa using hm
      have h1 := ih (pre ++ [p]) msa d hlen
        (by simp [hs, keptSequence, hmf])
        (by simp [hl, keptLabel, hmf])
        (fun q hq => hrows q (by simp [hq]))
      simp only [List.length_append, List.length_singleton, List.append_assoc,
        List.singleton_append] at h1
      rw [h1, hcount, if_neg hm]
      simp

theorem survivors_append (map : Nat → Nat) (L : Nat) (a b : List (List Nat × List Nat)) :
    survivors map L (a ++ b) = survivors map L a ++ survivors map L b := by
  simp [survivors]

/-- The loop that copies the surviving pointers. -/
theorem populate_arrays_spec (map : Nat → Nat) (L : Nat) (msa : msa_t) (size : Int) :
    ∀ (suf pre : List (List Nat × List Nat)),
    msa.sequence = (pre ++ suf).map (keptSequence map L) →
    msa.label = (pre ++ suf).map (keptLabel map L) →
    size = ((survivors map L (pre ++ suf)).length : Int) →
    populate_arrays msa size suf.length pre.length
        ((survivors map L pre).map (fun p => some p.2))
        ((survivors map L pre).map (fun p => some p.1)) =
      some ((survivors map L (pre ++ suf)).map (fun p => some p.2),
            (survivors map L (pre ++ suf)).map (fun p => some p.1)) := by
  intro suf
  induction suf with
  | nil => intro pre _ _ _; simp [populate_arrays]
  | cons p suf ih =>
    intro pre hs hl hsize
    have his : msa.sequence[pre.length]? = some (keptSequence map L p) := by
      rw [hs, List.map_append, List.getElem?_append_right (by simp)]
      simp
    have hil : msa.label[pre.length]? = some (keptLabel map L p) := by
      rw [hl, List.map_append, List.getElem?_append_right (by simp)]
      simp
    have hrec := ih (pre ++ [p]) (by simpa using hs) (by simpa using hl)
      (by simpa using hsize)
    simp only [List.length_append, List.length_singleton, List.append_assoc,
      List.singleton_append] at hrec
    rw [List.length_cons, populate_arrays, his, hil]
    simp only []
    by_cases hm : fullyMissing map L p.2 = true
    · simp only [keptSequence, keptLabel, hm, if_true, Option.isSome_none, Option.isNone_none,
        and_self, or_true, Bool.false_eq_true, if_false, false_and, false_or]
      rw [← hrec]
      simp [survivors_append, survivors, hm]
    · have hmf : fullyMissing map L p.2 = false := by simpa using hm
      simp only [keptSequence, keptLabel, hmf, Bool.false_eq_true, if_false,
        Option.isSome_some, and_self, true_or, if_true]
      have hcap : (((survivors map L pre).map (fun p => some p.2)).length : Int) < size := by
        rw [hsize, survivors_append]
        simp only [List.length_map, List.length_append, survivors, List.filter_cons, hmf,
          Bool.not_false, if_true, List.length_cons]
        push_cast
        omega
      rw [if_pos hcap, ← hrec]
      simp [survivors_append, survivors, hmf]

theorem missingCount_le (map : Nat → Nat) (L : Nat) (taxa : List (List Nat × List Nat)) :
    missingCount map L taxa ≤ taxa.length :=
  List.length_filter_le _ _

theorem missingCount_eq_iff (map : Nat → Nat) (L : Nat) (taxa : List (List Nat × List Nat)) :
    missingCount map L taxa = taxa.length ↔ ∀ p ∈ taxa, fullyMissing map L p.2 = true := by
  unfold missingCount
  constructor
  · intro h p hp
    have hsub : taxa.filter (fun p => fullyMissing map L p.2) = taxa :=
      List.Sublist.eq_of_length (List.filter_sublist _) h
    rw [List.filter_eq_self] at hsub
    exact hsub p hp
  · intro h
    rw [List.filter_eq_self.mpr h]

theorem survivors_length (map : Nat → Nat) (L : Nat) (taxa : List (List Nat × List Nat)) :
    (survivors map L taxa).length + missingCount map L taxa = taxa.length := by
  induction taxa with
  | nil => rfl
  | cons p taxa ih =>
    simp only [survivors, missingCount, List.filter_cons, List.length_cons] at ih ⊢
    by_cases hm : fullyMissing map L p.2 = true <;> simp [hm] <;> omega

theorem survivors_all (map : Nat → Nat) (L : Nat) (taxa : List (List Nat × List Nat))
    (h : missingCount map L taxa = 0) : survivors map L taxa = taxa := by
  have h1 := survivors_length map L taxa
  exact List.Sublist.eq_of_length (List.filter_sublist _) (by omega)

/-- What `msa_remove_missing_sequences` does to an alignment with taxa `taxa`
under the table `map` its data type selects. -/
theorem msa_remove_missing_sequences_spec (nt aa : Nat → Nat) (msa : msa_t)
    (taxa : List (List Nat × List Nat)) (map : Nat → Nat)
    (hmap : map = if msa.dtype = BPP_DATA_DNA then nt else aa) (h : msa.HasTaxa taxa) :
    (missingCount map msa.length.toNat taxa = taxa.length →
      msa_remove_missing_sequences nt aa msa =
        .ret (-1, { msa with sequence := taxa.map (keptSequence map msa.length.toNat),
                             label := taxa.map (keptLabel map msa.length.toNat) })) ∧
    (missingCount map msa.length.toNat taxa ≠ taxa.length →
      msa_remove_missing_sequences nt aa msa =
        .ret ((missingCount map msa.length.toNat taxa : Int),
          { msa with
            sequence := (survivors map msa.length.toNat taxa).map (fun p => some p.2),
            label := (survivors map msa.length.toNat taxa).map (fun p => some p.1),
            count := msa.count - (missingCount map msa.length.toNat taxa : Int) })) := by
  obtain ⟨⟨h0, hc, hs, hr⟩, hl⟩ := h
  simp only [List.length_map] at hc
  have hdel := delete_missing_spec map msa.length.toNat taxa [] msa 0 (by omega)
    (by simp [hs, List.map_map, Function.comp_def]) (by simp [hl])
    (by
      intro p hp
      exact hr p.2 (List.mem_map_of_mem _ hp))
  simp only [List.length_nil, List.nil_append, Int.zero_add] at hdel
  have hcn : msa.count.toNat = taxa.length := by rw [hc]; simp
  have hle := missingCount_le map msa.length.toNat taxa
  constructor
  · intro hall
    unfold msa_remove_missing_sequences
    rw [← hmap, hcn, hdel]
    simp only []
    rw [if_neg (by rw [hc, hall]; simp), if_pos (by rw [hc, hall])]
  · intro hnall
    unfold msa_remove_missing_sequences
    rw [← hmap, hcn, hdel]
    simp only []
    rw [if_neg (by rw [hc]; simp; exact hle),
      if_neg (by rw [hc]; intro h; exact hnall (by exact_mod_cast h.symm))]
    by_cases hz : missingCount map msa.length.toNat taxa = 0
    · rw [if_neg (by simp [hz])]
      have hsurv := survivors_all map msa.length.toNat taxa hz
      rw [hsurv, hz]
      simp only [Nat.cast_zero, Int.sub_zero, Outcome.ret.injEq, Prod.mk.injEq, true_and]
      have e1 : taxa.map (keptSequence map msa.length.toNat) = msa.sequence := by
        rw [hs, List.map_map]
        apply List.map_congr_left
        intro p hp
        have : fullyMissing map msa.length.toNat p.2 = false := by
          have hmem : p ∈ survivors map msa.length.toNat taxa := by rw [hsurv]; exact hp
          simp only [survivors, List.mem_filter] at hmem
          simpa using hmem.2
        simp [keptSequence, this]
      have e2 : taxa.map (keptLabel map msa.length.toNat) = msa.label := by
        rw [hl]
        apply List.map_congr_left
        intro p hp
        have : fullyMissing map msa.length.toNat p.2 = false := by
          have hmem : p ∈ survivors map msa.length.toNat taxa := by rw [hsurv]; exact hp
          simp only [survivors, List.mem_filter] at hmem
          simpa using hmem.2
        simp [keptLabel, this]
      have e3 : msa.sequence = taxa.map (fun p => some p.2) := by
        rw [hs, List.map_map]; rfl
      rw [e1, e2, ← e3, ← hl]
    · rw [if_pos (by simpa using hz)]
      have hpop := populate_arrays_spec map msa.length.toNat
        { msa with sequence := taxa.map (keptSequence map msa.length.toNat),
                   label := taxa.map (keptLabel map msa.length.toNat) }
        (msa.count - (missingCount map msa.length.toNat taxa : Int)) taxa [] rfl rfl
        (by
          have := survivors_length map msa.length.toNat taxa
          simp only [List.nil_append]
          rw [hc]
          omega)
      simp only [List.length_nil, List.nil_append, survivors, List.filter_nil,
        List.map_nil] at hpop
      simp only [hcn]
      rw [hpop]
      rfl

/-! ## Lemmas: concatenation of loci -/

theorem total_length_loop_spec :
    ∀ (suf pre : List msa_t) (acc : Int),
    total_length_loop (pre ++ suf) suf.length pre.length acc =
      some (acc + (suf.map (fun m => m.length)).sum) := by
  intro suf
  induction suf with
  | nil => intro pre acc; simp [total_length_loop]
  | cons m suf ih =>
    intro pre acc
    have h1 := ih (pre ++ [m]) (acc + m.length)
    simp only [List.append_assoc, List.singleton_append, List.length_append,
      List.length_singleton] at h1
    rw [List.length_cons, total_length_loop,
      List.getElem?_append_right (by simp)]
    simp only [Nat.sub_self, List.getElem?_cons_zero]
    rw [h1]
    simp only [List.map_cons, List.sum_cons]
    congr 1
    omega

theorem label_index_le (l : List Nat) (labels : List (List Nat)) :
    label_index l labels ≤ labels.length := by
  induction labels with
  | nil => simp [label_index]
  | cons x xs ih =>
    simp only [label_index, List.length_cons]
    split <;> omega

theorem label_index_eq (l : List Nat) (labels : List (List Nat)) :
    label_index l labels = labels.length ↔ l ∉ labels := by
  induction labels with
  | nil => simp [label_index]
  | cons x xs ih =>
    simp only [label_index, List.length_cons, List.mem_cons, not_or]
    by_cases h : l = x
    · simp [h]
    · rw [if_neg h]
      simp only [Nat.add_right_cancel_iff, ih]
      tauto

theorem firstSeen_mem (l : List (List Nat)) (x : List Nat) : x ∈ firstSeen l ↔ x ∈ l := by
  induction l with
  | nil => simp [firstSeen]
  | cons a l ih =>
    simp only [firstSeen, List.mem_cons, List.mem_filter, ih, decide_eq_true_eq]
    by_cases h : x = a <;> simp [h]

theorem firstSeen_nodup (l : List (List Nat)) : (firstSeen l).Nodup := by
  induction l with
  | nil => simp [firstSeen]
  | cons a l ih =>
    simp only [firstSeen, List.nodup_cons, List.mem_filter, decide_eq_true_eq, ne_eq,
      not_true_eq_false, and_false, not_false_eq_true, true_and]
    exact ih.filter _

/-- The number of distinct labels. -/
theorem firstSeen_length (l : List (List Nat)) : (firstSeen l).length = l.toFinset.card := by
  rw [← List.toFinset_card_of_nodup (firstSeen_nodup l)]
  congr 1
  ext x
  simp [firstSeen_mem]

theorem firstSeen_append (a b : List (List Nat)) :
    firstSeen (a ++ b) = firstSeen a ++ (firstSeen b).filter (fun x => x ∉ firstSeen a) := by
  induction a with
  | nil => simp [firstSeen]
  | cons x a ih =>
    have e : firstSeen (x :: a ++ b) = x :: (firstSeen (a ++ b)).filter (fun y => y ≠ x) := rfl
    rw [e, ih, List.filter_append, List.filter_filter]
    simp only [firstSeen, List.cons_append, List.cons.injEq, true_and,
      List.append_cancel_left_eq]
    apply List.filter_congr
    intro y _
    simp only [List.mem_cons, List.mem_filter, decide_eq_true_eq, not_or, not_and,
      Bool.and_eq_true, decide_not, Bool.not_eq_true', decide_eq_false_iff_not,
      Bool.decide_and, Bool.decide_eq_true, ne_eq]
    by_cases h : y = x <;> simp [h]

theorem firstSeen_length_mono (a b : List (List Nat)) :
    (firstSeen a).length ≤ (firstSeen (a ++ b)).length := by
  rw [firstSeen_append]; simp

/-- The labels of one locus are added to the ones stored so far, while there
are no more than four of them. -/
theorem collect_labels_spec (m : msa_t) :
    ∀ (suf pre : List (List Nat)) (acc : List (List Nat)),
    m.label = (pre ++ suf).map some → acc.length ≤ 4 →
    collect_labels m suf.length pre.length acc =
      if (acc ++ (firstSeen suf).filter (fun x => x ∉ acc)).length ≤ 4 then
        .ret (acc ++ (firstSeen suf).filter (fun x => x ∉ acc))
      else .fatal msg_more_in_full := by
  intro suf
  induction suf with
  | nil =>
    intro pre acc _ hacc
    simp [collect_labels, firstSeen, hacc]
  | cons a suf ih =>
    intro pre acc hl hacc
    have hj : m.label[pre.length]? = some (some a) := by
      rw [hl, List.map_append, List.getElem?_append_right (by simp)]
      simp
    rw [List.length_cons, collect_labels, hj]
    simp only []
    by_cases hmem : a ∈ acc
    · rw [if_neg (by rw [label_index_eq]; simpa using hmem)]
      have h1 := ih (pre ++ [a]) acc (by simpa using hl) hacc
      rw [show (pre ++ [a]).length = pre.length + 1 by simp] at h1
      rw [h1]
      have : ((firstSeen (a :: suf)).filter (fun x => x ∉ acc)) =
          (firstSeen suf).filter (fun x => x ∉ acc) := by
        simp only [firstSeen, List.filter_cons, hmem, not_true_eq_false, decide_False,
          Bool.false_eq_true, if_false, List.filter_filter]
        apply List.filter_congr
        intro y _
        by_cases hy : y = a
        · subst hy; simp [hmem]
        · simp [hy]
      rw [this]
    · rw [if_pos (by rw [label_index_eq]; exact hmem)]
      have hexp : acc ++ (firstSeen (a :: suf)).filter (fun x => x ∉ acc) =
          (acc ++ [a]) ++ (firstSeen suf).filter (fun x => x ∉ acc ++ [a]) := by
        simp only [firstSeen, List.filter_cons, hmem, not_false_eq_true, decide_True, if_true,
          List.filter_filter, List.append_assoc, List.singleton_append,
          List.append_cancel_left_eq, List.cons.injEq, true_and]
        apply List.filter_congr
        intro y _
        by_cases hy : y = a
        · subst hy; simp
        · simp [hy]
      rw [hexp]
      by_cases h4 : acc.length = 4
      · rw [if_pos h4, if_neg (by simp; omega)]
      · rw [if_neg h4]
        have h1 := ih (pre ++ [a]) (acc ++ [a]) (by simpa using hl) (by simp; omega)
        rw [show (pre ++ [a]).length = pre.length + 1 by simp] at h1
        rw [h1]

theorem allLabels_append (a b : List (msa_t × List (List Nat × List Nat))) :
    allLabels (a ++ b) = allLabels a ++ allLabels b := by
  simp [allLabels]

theorem collect_locus (q : msa_t × List (List Nat × List Nat)) (h : q.1.Lists q.2)
    (pre : List (msa_t × List (List Nat × List Nat)))
    (hacc : (firstSeen (allLabels pre)).length ≤ 4) :
    collect_labels q.1 q.1.count.toNat 0 (firstSeen (allLabels pre)) =
      if (firstSeen (allLabels (pre ++ [q]))).length ≤ 4 then
        .ret (firstSeen (allLabels (pre ++ [q])))
      else .fatal msg_more_in_full := by
  obtain ⟨_, hc, _, hl, _⟩ := h
  have h1 := collect_labels_spec q.1 (q.2.map (fun p => p.1)) [] (firstSeen (allLabels pre))
    (by simp [hl, List.map_map, Function.comp_def]) hacc
  simp only [List.length_map, List.length_nil] at h1
  have hcn : q.1.count.toNat = q.2.length := by rw [hc]; simp
  have he : allLabels (pre ++ [q]) = allLabels pre ++ q.2.map (fun p => p.1) := by
    simp [allLabels]
  rw [hcn, h1, he, firstSeen_append]

/-- The check of the labels succeeds when no locus has more than four taxa
and there are no more than four distinct labels. -/
theorem check_labels_ok :
    ∀ (suf pre : List (msa_t × List (List Nat × List Nat))),
    (∀ q ∈ suf, q.1.Lists q.2) → (∀ q ∈ suf, q.2.length ≤ 4) →
    (firstSeen (allLabels (pre ++ suf))).length ≤ 4 →
    check_labels ((pre ++ suf).map (fun q => q.1)) suf.length pre.length
        (firstSeen (allLabels pre)) =
      .ret (firstSeen (allLabels (pre ++ suf))) := by
  intro suf
  induction suf with
  | nil => intro pre _ _ _; simp [check_labels]
  | cons q suf ih =>
    intro pre hw h4 htot
    have hq := hw q (by simp)
    have hi : ((pre ++ q :: suf).map (fun q => q.1))[pre.length]? = some q.1 := by
      rw [List.map_append, List.getElem?_append_right (by simp)]
      simp
    have hmono : (firstSeen (allLabels (pre ++ [q]))).length ≤ 4 := by
      have := firstSeen_length_mono (allLabels (pre ++ [q])) (allLabels suf)
      rw [← allLabels_append, List.append_assoc] at this
      exact le_trans this htot
    have hpre : (firstSeen (allLabels pre)).length ≤ 4 := by
      have := firstSeen_length_mono (allLabels pre) (allLabels [q])
      rw [← allLabels_append] at this
      omega
    rw [List.length_cons, check_labels, hi]
    simp only []
    rw [if_neg (by rw [hq.2.1]; have := h4 q (by simp); omega),
      collect_locus q hq pre hpre, if_pos hmono]
    simp only []
    have h1 := ih (pre ++ [q]) (fun x hx => hw x (by simp [hx]))
      (fun x hx => h4 x (by simp [hx])) (by simpa using htot)
    simp only [List.append_assoc, List.singleton_append, List.length_append,
      List.length_singleton] at h1
    exact h1

/-- The check of the labels ends in `fatal` when a locus has more than four
taxa or there are more than four distinct labels. -/
theorem check_labels_fatal :
    ∀ (suf pre : List (msa_t × List (List Nat × List Nat))),
    (∀ q ∈ suf, q.1.Lists q.2) → (firstSeen (allLabels pre)).length ≤ 4 →
    ((∃ q ∈ suf, 4 < q.2.length) ∨ 4 < (firstSeen (allLabels (pre ++ suf))).length) →
    ∃ msg, check_labels ((pre ++ suf).map (fun q => q.1)) suf.length pre.length
        (firstSeen (allLabels pre)) = .fatal msg := by
  intro suf
  induction suf with
  | nil =>
    intro pre _ hpre hbad
    rcases hbad with ⟨q, hq, _⟩ | h
    · simp at hq
    · simp only [List.append_nil] at h; omega
  | cons q suf ih =>
    intro pre hw hpre hbad
    have hq := hw q (by simp)
    have hi : ((pre ++ q :: suf).map (fun q => q.1))[pre.length]? = some q.1 := by
      rw [List.map_append, List.getElem?_append_right (by simp)]
      simp
    rw [List.length_cons, check_labels, hi]
    simp only []
    by_cases hcnt : q.1.count > 4
    · rw [if_pos hcnt]
      exact ⟨_, rfl⟩
    · rw [if_neg hcnt, collect_locus q hq pre hpre]
      by_cases hm : (firstSeen (allLabels (pre ++ [q]))).length ≤ 4
      · rw [if_pos hm]
        simp only []
        have h1 := ih (pre ++ [q]) (fun x hx => hw x (by simp [hx])) hm
          (by
            rcases hbad with ⟨x, hx, hx4⟩ | h
            · simp only [List.mem_cons] at hx
              rcases hx with rfl | hx
              · rw [hq.2.1] at hcnt
                omega
              · exact Or.inl ⟨x, hx, hx4⟩
            · exact Or.inr (by simpa using h))
        simp only [List.append_assoc, List.singleton_append, List.length_append,
          List.length_singleton] at h1
        exact h1
      · rw [if_neg hm]
        exact ⟨_, rfl⟩

/-- The search for the taxon with a given label in a locus. -/
theorem find_taxon_spec (m : msa_t) (l : List Nat) :
    ∀ (suf pre : List (List Nat × List Nat)),
    m.label = (pre ++ suf).map (fun p => some p.1) →
    ∃ j, find_taxon m l suf.length pre.length = some j ∧
      ((suf.find? (fun p => p.1 = l) = none ∧ j = pre.length + suf.length) ∨
       (∃ p, suf.find? (fun p => p.1 = l) = some p ∧ (pre ++ suf)[j]? = some p ∧
         j < pre.length + suf.length)) := by
  intro suf
  induction suf with
  | nil => intro pre _; exact ⟨pre.length, rfl, Or.inl ⟨rfl, rfl⟩⟩
  | cons p suf ih =>
    intro pre hl
    have hj : m.label[pre.length]? = some (some p.1) := by
      rw [hl, List.map_append, List.getElem?_append_right (by simp)]
      simp
    rw [List.length_cons, find_taxon, hj]
    simp only []
    by_cases hp : p.1 = l
    · rw [if_pos hp]
      refine ⟨pre.length, rfl, Or.inr ⟨p, by simp [hp], ?_, by omega⟩⟩
      rw [List.getElem?_append_right (by simp)]
      simp
    · rw [if_neg hp]
      obtain ⟨j, h1, h2⟩ := ih (pre ++ [p]) (by simpa using hl)
      simp only [List.length_append, List.length_singleton, List.append_assoc,
        List.singleton_append] at h1 h2
      refine ⟨j, h1, ?_⟩
      rcases h2 with ⟨h3, h4⟩ | ⟨x, h3, h4, h5⟩
      · exact Or.inl ⟨by simp [hp, h3], by omega⟩
      · exact Or.inr ⟨x, by simp [hp, h3], h4, by omega⟩

theorem write_cells_zeros (d data : List Nat) (z : Nat) (h : data.length ≤ z) :
    write_cells (d ++ List.replicate z 0) d.length data =
      some (d ++ data ++ List.replicate (z - data.length) 0) := by
  unfold write_cells
  rw [if_pos (by simp; omega)]
  simp only [Option.some.injEq]
  rw [List.take_append_of_le_length (le_refl _), List.take_length,
    List.drop_append_eq_append_drop]
  simp [List.drop_of_length_le]

/-- One locus is written into the rows of the result. -/
theorem fill_locus_spec (m : msa_t) (taxa : List (List Nat × List Nat)) (h : m.Lists taxa)
    (labels : List (List Nat)) (rows : List Nat → List Nat) (o z : Nat)
    (ho : ∀ l ∈ labels, (rows l).length = o) (hz : m.length.toNat ≤ z) :
    ∀ (suf pre : List (List Nat)), labels = pre ++ suf →
    fill_locus m labels (o : Int) suf.length pre.length
        (pre.map (fun l => some (rows l ++ locusChunk l m.length.toNat taxa ++
            List.replicate (z - m.length.toNat) 0)) ++
          suf.map (fun l => some (rows l ++ List.replicate z 0))) =
      some (labels.map (fun l => some (rows l ++ locusChunk l m.length.toNat taxa ++
        List.replicate (z - m.length.toNat) 0))) := by
  obtain ⟨h0, hc, hs, hl, hr⟩ := h
  have hcn : m.count.toNat = taxa.length := by rw [hc]; simp
  intro suf
  induction suf with
  | nil => intro pre hp; simp [fill_locus, hp]
  | cons l suf ih =>
    intro pre hp
    have hlab : labels[pre.length]? = some l := by
      rw [hp, List.getElem?_append_right (by simp)]
      simp
    have hlm : l ∈ labels := by rw [hp]; simp
    have hseq : (pre.map (fun l => some (rows l ++ locusChunk l m.length.toNat taxa ++
            List.replicate (z - m.length.toNat) 0)) ++
          (l :: suf).map (fun l => some (rows l ++ List.replicate z 0)))[pre.length]? =
        some (some (rows l ++ List.replicate z 0)) := by
      rw [List.getElem?_append_right (by simp)]
      simp
    obtain ⟨j, hfind, hcase⟩ := find_taxon_spec m l taxa [] (by simpa using hl)
    simp only [List.length_nil, Nat.zero_add, List.nil_append] at hfind hcase
    rw [List.length_cons, fill_locus, hlab, hseq]
    simp only []
    rw [hcn, hfind]
    simp only []
    rw [if_neg (by omega)]
    have hnext : ∀ chunk : List Nat, chunk = locusChunk l m.length.toNat taxa →
        fill_locus m labels (o : Int) suf.length (pre.length + 1)
          ((pre.map (fun l => some (rows l ++ locusChunk l m.length.toNat taxa ++
              List.replicate (z - m.length.toNat) 0)) ++
            (l :: suf).map (fun l => some (rows l ++ List.replicate z 0))).set pre.length
              (some (rows l ++ chunk ++ List.replicate (z - m.length.toNat) 0))) =
        some (labels.map (fun l => some (rows l ++ locusChunk l m.length.toNat taxa ++
          List.replicate (z - m.length.toNat) 0))) := by
      intro chunk hchunk
      have h1 := ih (pre ++ [l]) (by simp [hp])
      rw [← h1, hchunk]
      congr 1
      · simp
      · rw [List.set_append_right _ _ (by simp)]
        simp
    have hol : (rows l).length = o := ho l hlm
    rcases hcase with ⟨hnone, hj⟩ | ⟨p, hsome, hget, hjlt⟩
    · have hchunk : List.replicate m.length.toNat 63 = locusChunk l m.length.toNat taxa := by
        simp [locusChunk, hnone]
      rw [if_pos (by rw [hj, hc])]
      simp only [Int.toNat_ofNat]
      have hwc := write_cells_zeros (rows l) (List.replicate m.length.toNat 63) z
        (by simpa using hz)
      rw [hol] at hwc
      rw [hwc]
      simp only [List.length_replicate]
      exact hnext _ hchunk
    · have hsrc : m.sequence[j]? = some (some p.2) := by
        rw [hs, List.getElem?_map, hget]; rfl
      have hpl : m.length.toNat ≤ p.2.length := hr p (List.getElem?_mem hget)
      have hchunk : p.2.take m.length.toNat = locusChunk l m.length.toNat taxa := by
        simp [locusChunk, hsome]
      rw [if_neg (by rw [hc]; omega), hsrc]
      simp only [Int.toNat_ofNat]
      have hwc := write_cells_zeros (rows l) (p.2.take m.length.toNat) z (by simp; omega)
      rw [hol] at hwc
      rw [if_pos hpl, hwc]
      simp only [List.length_take, Nat.min_eq_left hpl]
      exact hnext _ hchunk

theorem locusChunk_length (m : msa_t) (taxa : List (List Nat × List Nat)) (h : m.Lists taxa)
    (l : List Nat) : (locusChunk l m.length.toNat taxa).length = m.length.toNat := by
  unfold locusChunk
  cases hf : taxa.find? (fun p => p.1 = l) with
  | none => simp
  | some p =>
    have := h.2.2.2.2 p (List.mem_of_find?_eq_some hf)
    simp only [List.length_take]
    omega

theorem colsOf_append (a b : List (msa_t × List (List Nat × List Nat))) :
    colsOf (a ++ b) = colsOf a + colsOf b := by
  simp [colsOf]

theorem concatRow_append (l : List Nat) (a b : List (msa_t × List (List Nat × List Nat))) :
    concatRow l (a ++ b) = concatRow l a ++ concatRow l b := by
  simp [concatRow]

theorem concatRow_length (l : List Nat) :
    ∀ (loci : List (msa_t × List (List Nat × List Nat))), (∀ q ∈ loci, q.1.Lists q.2) →
    (concatRow l loci).length = colsOf loci := by
  intro loci
  induction loci with
  | nil => intro _; rfl
  | cons q loci ih =>
    intro h
    have e1 : concatRow l (q :: loci) =
        locusChunk l q.1.length.toNat q.2 ++ concatRow l loci := rfl
    have e2 : colsOf (q :: loci) = q.1.length.toNat + colsOf loci := by simp [colsOf]
    rw [e1, e2, List.length_append, locusChunk_length q.1 q.2 (h q (by simp)),
      ih (fun x hx => h x (by simp [hx]))]

theorem colsOf_cast :
    ∀ (loci : List (msa_t × List (List Nat × List Nat))), (∀ q ∈ loci, q.1.Lists q.2) →
    ((loci.map (fun q => q.1)).map (fun m => m.length)).sum = (colsOf loci : Int) := by
  intro loci
  induction loci with
  | nil => intro _; rfl
  | cons q loci ih =>
    intro h
    have e2 : colsOf (q :: loci) = q.1.length.toNat + colsOf loci := by simp [colsOf]
    have h0 := (h q (by simp)).1
    rw [e2, List.map_cons, List.map_cons, List.sum_cons, ih (fun x hx => h x (by simp [hx]))]
    push_cast
    rw [Int.toNat_of_nonneg h0]

/-- The loop over the loci writes, into the row of every label, the columns
of the loci one after the other. -/
theorem fill_loci_spec (labels : List (List Nat)) (Z : Nat) :
    ∀ (suf pre : List (msa_t × List (List Nat × List Nat))),
    (∀ q ∈ pre ++ suf, q.1.Lists q.2) → colsOf (pre ++ suf) ≤ Z →
    fill_loci ((pre ++ suf).map (fun q => q.1)) labels suf.length pre.length (colsOf pre : Int)
        (labels.map (fun l => some (concatRow l pre ++ List.replicate (Z - colsOf pre) 0))) =
      some (labels.map (fun l => some (concatRow l (pre ++ suf) ++
          List.replicate (Z - colsOf (pre ++ suf)) 0)), (colsOf (pre ++ suf) : Int)) := by
  intro suf
  induction suf with
  | nil => intro pre _ _; simp [fill_loci]
  | cons q suf ih =>
    intro pre hw hz
    have hq := hw q (by simp)
    have hi : ((pre ++ q :: suf).map (fun q => q.1))[pre.length]? = some q.1 := by
      rw [List.map_append, List.getElem?_append_right (by simp)]
      simp
    have hcols : colsOf (pre ++ [q]) = colsOf pre + q.1.length.toNat := by
      simp [colsOf]
    have hle : colsOf pre + q.1.length.toNat ≤ Z := by
      have := colsOf_append (pre ++ [q]) suf
      rw [List.append_assoc, List.singleton_append] at this
      omega
    have h1 := fill_locus_spec q.1 q.2 hq labels (fun l => concatRow l pre) (colsOf pre)
      (Z - colsOf pre)
      (fun l _ => concatRow_length l pre (fun x hx => hw x (by simp [hx]))) (by omega)
      labels [] rfl
    simp only [List.map_nil, List.nil_append, List.length_nil] at h1
    rw [List.length_cons, fill_loci, hi]
    simp only []
    rw [h1]
    simp only []
    have h2 := ih (pre ++ [q]) (by simpa using hw) (by simpa using hz)
    simp only [List.append_assoc, List.singleton_append, List.length_append,
      List.length_singleton] at h2
    rw [← h2]
    congr 1
    · rw [hcols]
      push_cast
      rw [Int.toNat_of_nonneg hq.1]
    · apply List.map_congr_left
      intro l _
      rw [concatRow_append, hcols]
      have e : concatRow l [q] = locusChunk l q.1.length.toNat q.2 := by simp [concatRow]
      rw [e, Nat.sub_sub]

/-- The result of `phylip_concat` on loci of no more than four taxa each that
have four distinct labels together. -/
theorem phylip_concat_spec (loci : List (msa_t × List (List Nat × List Nat)))
    (hw : ∀ q ∈ loci, q.1.Lists q.2) (h4 : ∀ q ∈ loci, q.2.length ≤ 4)
    (hlab : (firstSeen (allLabels loci)).length = 4) :
    phylip_concat (loci.map (fun q => q.1)) (loci.length : Int) =
      .ret { count := 4, length := (colsOf loci : Int),
             sequence := (firstSeen (allLabels loci)).map
               (fun l => some (concatRow l loci ++ [0])),
             label := (firstSeen (allLabels loci)).map some,
             amb_sites_count := 0, dtype := 0 } := by
  have ht := total_length_loop_spec (loci.map (fun q => q.1)) [] 0
  simp only [List.nil_append, List.length_map, List.length_nil, Int.zero_add] at ht
  rw [colsOf_cast loci hw] at ht
  have hc : check_labels (loci.map (fun q => q.1)) loci.length 0 [] =
      .ret (firstSeen (allLabels loci)) :=
    check_labels_ok loci [] hw h4 (by simp only [List.nil_append]; omega)
  have hf : fill_loci (loci.map (fun q => q.1)) (firstSeen (allLabels loci)) loci.length 0 0
      ((firstSeen (allLabels loci)).map
        (fun l => some (concatRow l [] ++ List.replicate (colsOf loci + 1 - colsOf []) 0))) =
      some ((firstSeen (allLabels loci)).map (fun l => some (concatRow l loci ++
          List.replicate (colsOf loci + 1 - colsOf loci) 0)), (colsOf loci : Int)) :=
    fill_loci_spec (firstSeen (allLabels loci)) (colsOf loci + 1) loci []
      (by simpa using hw) (by simp)
  have hinit : (firstSeen (allLabels loci)).map
      (fun l => some (concatRow l [] ++ List.replicate (colsOf loci + 1 - colsOf []) 0)) =
      List.replicate 4 (some (List.replicate ((colsOf loci : Int) + 1).toNat 0)) := by
    have e1 : ((colsOf loci : Int) + 1).toNat = colsOf loci + 1 := by omega
    have e2 : colsOf ([] : List (msa_t × List (List Nat × List Nat))) = 0 := rfl
    have e3 : ∀ l, concatRow l ([] : List (msa_t × List (List Nat × List Nat))) = [] :=
      fun _ => rfl
    rw [e1, e2, ← hlab]
    simp only [e3, List.nil_append, Nat.sub_zero]
    exact List.map_const _ _
  rw [hinit] at hf
  have hterm := terminate_rows_spec (colsOf loci : Int) (by omega) 4 0
    ((firstSeen (allLabels loci)).map
      (fun l => concatRow l loci ++ List.replicate (colsOf loci + 1 - colsOf loci) 0)) []
    rfl (by simp [hlab])
    (by
      intro buf hb
      obtain ⟨l, _, rfl⟩ := List.mem_map.mp hb
      rw [List.length_append, concatRow_length l loci hw]
      simp)
  simp only [List.nil_append, List.map_map] at hterm
  have hrows : (fun l => some (concatRow l loci ++
        List.replicate (colsOf loci + 1 - colsOf loci) 0)) =
      (some ∘ fun l => concatRow l loci ++
        List.replicate (colsOf loci + 1 - colsOf loci) 0) := rfl
  rw [hrows] at hf
  unfold phylip_concat
  simp only [Int.toNat_ofNat]
  rw [ht]
  simp only []
  rw [if_neg (by omega), hc]
  simp only []
  rw [if_neg (by simp [hlab]), hf]
  simp only []
  rw [if_neg (by simp), hterm]
  simp only [Outcome.ret.injEq, msa_t.mk.injEq, true_and, and_true]
  apply List.map_congr_left
  intro l _
  simp only [Function.comp_apply, Option.some.injEq]
  have e : colsOf loci + 1 - colsOf loci = 1 := by omega
  rw [e]
  have hlen := concatRow_length l loci hw
  simp only [Int.toNat_ofNat, List.replicate_one]
  rw [← hlen, List.set_append_right _ _ (le_refl _)]
  simp

/-- When the loci do not pass the check of the labels, `phylip_concat` ends
in `fatal`. -/
theorem phylip_concat_fatal (loci : List (msa_t × List (List Nat × List Nat)))
    (hw : ∀ q ∈ loci, q.1.Lists q.2)
    (hbad : (∃ q ∈ loci, 4 < q.2.length) ∨ (firstSeen (allLabels loci)).length ≠ 4) :
    ∃ msg, phylip_concat (loci.map (fun q => q.1)) (loci.length : Int) = .fatal msg := by
  have ht := total_length_loop_spec (loci.map (fun q => q.1)) [] 0
  simp only [List.nil_append, List.length_map, List.length_nil, Int.zero_add] at ht
  rw [colsOf_cast loci hw] at ht
  unfold phylip_concat
  simp only [Int.toNat_ofNat]
  rw [ht]
  simp only []
  rw [if_neg (by omega)]
  by_cases hok : (∀ q ∈ loci, q.2.length ≤ 4) ∧ (firstSeen (allLabels loci)).length ≤ 4
  · have hc : check_labels (loci.map (fun q => q.1)) loci.length 0 [] =
        .ret (firstSeen (allLabels loci)) :=
      check_labels_ok loci [] hw hok.1 (by simpa using hok.2)
    have hne : (firstSeen (allLabels loci)).length ≠ 4 := by
      rcases hbad with ⟨q, hq, hq4⟩ | h
      · have := hok.1 q hq; omega
      · exact h
    rw [hc]
    simp only []
    rw [if_pos hne]
    exact ⟨_, rfl⟩
  · have hc : ∃ msg, check_labels (loci.map (fun q => q.1)) loci.length 0 [] = .fatal msg :=
      check_labels_fatal loci [] hw (by simp [allLabels, firstSeen])
      (by
        by_cases h1 : ∀ q ∈ loci, q.2.length ≤ 4
        · right
          have : ¬ (firstSeen (allLabels loci)).length ≤ 4 := fun h => hok ⟨h1, h⟩
          simpa using this
        · left
          push_neg at h1
          exact h1)
    obtain ⟨msg, hm⟩ := hc
    rw [hm]
    exact ⟨msg, rfl⟩
/-- The scan of `a ++ b` is the scan of `a` followed, when that one comes to
the end of `a`, by the scan of `b`. -/
theorem dfa_parse_loop_append (seqno offset : Nat) (b : List Nat) :
    ∀ (a : List Nat) (j : Nat) (fd : phylip_t) (g : Globals) (msa : msa_t)
      (j1 : Nat) (fd1 : phylip_t) (g1 : Globals) (msa1 : msa_t),
    dfa_parse_loop seqno offset a j fd g msa = .ret (some j1, fd1, g1, msa1) →
    dfa_parse_loop seqno offset (a ++ b) j fd g msa =
      dfa_parse_loop seqno offset b j1 fd1 g1 msa1 := by
  intro a
  induction a with
  | nil =>
    intro j fd g msa j1 fd1 g1 msa1 h
    simp only [dfa_parse_loop, Outcome.ret.injEq, Prod.mk.injEq, Option.some.injEq] at h
    obtain ⟨rfl, rfl, rfl, rfl⟩ := h
    rfl
  | cons c a ih =>
    intro j fd g msa j1 fd1 g1 msa1 h
    simp only [List.cons_append]
    cases hcl : chrclass fd.chrstatus c with
    | none => simp [dfa_parse_loop, hcl] at h
    | some v =>
      rcases v with _ | _ | _ | v
      · simp only [dfa_parse_loop, hcl] at h ⊢
        exact ih _ _ _ _ _ _ _ _ h
      · simp only [dfa_parse_loop, hcl] at h ⊢
        by_cases hfull : msa.length ≤ ((offset + j : Nat) : Int)
        · rw [if_pos hfull] at h
          cases hl : msa.labelAt seqno with
          | none => simp [hl] at h
          | some l => simp [hl] at h
        · rw [if_neg hfull] at h ⊢
          cases hst : msa.store seqno (offset + j) c with
          | none => simp [hst] at h
          | some m1 =>
            rw [hst] at h
            simp only [] at h ⊢
            exact ih _ _ _ _ _ _ _ _ h
      · simp only [dfa_parse_loop, hcl] at h
        by_cases h32 : 32 ≤ schar c
        · rw [if_pos h32] at h; simp at h
        · rw [if_neg h32] at h; simp at h
      · simp only [dfa_parse_loop, hcl] at h ⊢
        exact ih _ _ _ _ _ _ _ _ h

theorem schar_small (c : Nat) (h : c < 128) : schar c = (c : Int) := by
  have h1 : c % 256 = c := Nat.mod_eq_of_lt (by omega)
  simp [schar, h1, h]

theorem chrclass_none_of_high (t : Nat → Nat) (c : Nat) (h1 : 128 ≤ c) (h2 : c < 256) :
    chrclass t c = none := by
  have h3 : c % 256 = c := Nat.mod_eq_of_lt h2
  have hs : schar c = (c : Int) - 256 := by
    unfold schar
    rw [h3, if_neg (by omega)]
  unfold chrclass tableAt
  rw [hs, if_neg (by omega)]
  rfl

theorem chrclass_some_lt (t : Nat → Nat) (c v : Nat) (h : chrclass t c = some v) (hc : c < 256) :
    c < 128 := by
  by_contra hcon
  rw [chrclass_none_of_high t c (by omega) hc] at h
  cases h

/-- The assignments of a list of bytes to a row that has room for them. -/
theorem storeList_spec (seqno : Nat) :
    ∀ (cs : List Nat) (msa : msa_t) (i : Nat) (buf : List Nat),
    msa.sequence[seqno]? = some (some buf) → i + cs.length ≤ buf.length →
    msa.storeList seqno i cs =
      some { msa with sequence :=
        (msa.sequence.set seqno (some (buf.take i ++ cs ++ buf.drop (i + cs.length)))) } := by
  intro cs
  induction cs with
  | nil =>
    intro msa i buf hrow _
    simp only [msa_t.storeList, List.append_nil, List.length_nil, Nat.add_zero,
      List.take_append_drop]
    rw [set_same _ _ _ hrow]
  | cons c cs ih =>
    intro msa i buf hrow hlen
    simp only [List.length_cons] at hlen
    have hst : msa.store seqno i c =
        some { msa with sequence := msa.sequence.set seqno (some (buf.set i c)) } := by
      unfold msa_t.store
      rw [hrow]
      simp only []
      rw [if_pos (by omega)]
    have hlt : seqno < msa.sequence.length := by
      by_contra hcon
      rw [List.getElem?_eq_none (by omega)] at hrow
      cases hrow
    simp only [msa_t.storeList, hst, Option.bind_some]
    have hih := ih { msa with sequence := msa.sequence.set seqno (some (buf.set i c)) }
      (i + 1) (buf.set i c) (by simp [List.getElem?_set_self hlt]) (by simp; omega)
    simp only [Option.some_bind]
    rw [hih]
    simp only [List.set_set, Option.some.injEq]
    congr 3
    have hi : i < buf.length := by omega
    have hd : (buf.set i c).drop (i + 1 + cs.length) = buf.drop (i + (c :: cs).length) := by
      have h2 : i + 1 + cs.length = (i + 1) + cs.length := rfl
      rw [h2, ← List.drop_drop, (set_take_drop buf i c hi).2, List.drop_drop]
      simp [Nat.add_assoc, Nat.add_comm 1]
    rw [set_take_succ buf i c hi, hd]
    simp

/-- The counters after the stripped bytes of a line of ASCII bytes have been
counted. -/
theorem strip_counts_spec :
    ∀ (p : List Nat) (fd : phylip_t), (∀ c ∈ p, c < 128) →
    strip_counts fd p =
      { fd with
        stripped_count := fd.stripped_count +
          (p.filter (fun c => chrclass fd.chrstatus c == some 0)).length,
        stripped := fun b => fd.stripped b +
          (p.filter (fun c => chrclass fd.chrstatus c == some 0)).count b } := by
  intro p
  induction p with
  | nil => intro fd _; simp [strip_counts]
  | cons c p ih =>
    intro fd hb
    have hc : c < 128 := hb c (by simp)
    have hp : ∀ x ∈ p, x < 128 := fun x hx => hb x (by simp [hx])
    by_cases hcl : chrclass fd.chrstatus c = some 0
    · have hidx : (schar c).toNat = c := by rw [schar_small c hc]; simp
      rw [strip_counts, if_pos hcl, hidx, ih _ hp]
      simp only [List.filter_cons, hcl, beq_self_eq_true, if_true, List.length_cons]
      congr 1
      · omega
      · funext b
        by_cases hbc : b = c
        · subst hbc
          simp [Function.update_same]
          omega
        · rw [Function.update_noteq hbc, List.count_cons_of_ne hbc]
    · rw [strip_counts, if_neg hcl, ih _ hp]
      have : (chrclass fd.chrstatus c == some 0) = false := by simpa using hcl
      simp only [List.filter_cons, this]
      rfl
theorem strip_counts_lineno (p : List Nat) :
    ∀ fd : phylip_t, (strip_counts fd p).lineno = fd.lineno := by
  induction p with
  | nil => intro fd; rfl
  | cons c p ih =>
    intro fd
    rw [strip_counts]
    split
    · rw [ih]
    · rw [ih]

/-- The scan of the bytes before the first fatal one, when they fit into the
row. -/
theorem dfa_parse_loop_stops (fd : phylip_t) (g : Globals) (msa : msa_t) (seqno offset : Nat)
    (pre buf : List Nat) (hpre : Clean fd.chrstatus pre)
    (hrow : msa.sequence[seqno]? = some (some buf))
    (hfit : ((offset + (accepted fd.chrstatus pre).length : Nat) : Int) ≤ msa.length)
    (hroom : offset + (accepted fd.chrstatus pre).length ≤ buf.length) :
    dfa_parse_loop seqno offset pre 0 fd g msa =
      .ret (some (accepted fd.chrstatus pre).length, strip_counts fd pre, g,
        { msa with sequence := (msa.sequence.set seqno
            (some (buf.take offset ++ accepted fd.chrstatus pre ++
              buf.drop (offset + (accepted fd.chrstatus pre).length)))) }) := by
  rw [dfa_parse_loop_ret]
  refine ⟨hpre, Or.inr (by simpa using hfit), by simp, rfl, rfl, ?_⟩
  simpa using storeList_spec seqno _ msa offset buf hrow hroom

/-! ## Lemmas: lines of a stream -/

theorem segmentsFrom_line (rest : List Nat) :
    ∀ (l cur : List Nat), (∀ c ∈ l, c ≠ 10) →
    segmentsFrom cur (l ++ 10 :: rest) = (cur ++ l) :: segmentsFrom [] rest := by
  intro l
  induction l with
  | nil => intro cur _; simp [segmentsFrom]
  | cons c l ih =>
    intro cur h
    have hc : c ≠ 10 := h c (by simp)
    rw [List.cons_append, segmentsFrom, if_neg hc, ih _ (fun x hx => h x (by simp [hx]))]
    simp

theorem segmentsFrom_last :
    ∀ (l cur : List Nat), (∀ c ∈ l, c ≠ 10) →
    segmentsFrom cur l = if cur ++ l = [] then [] else [cur ++ l] := by
  intro l
  induction l with
  | nil => intro cur _; simp [segmentsFrom]
  | cons c l ih =>
    intro cur h
    have hc : c ≠ 10 := h c (by simp)
    simp only [segmentsFrom, if_neg hc]
    rw [ih _ (fun x hx => h x (by simp [hx]))]
    simp

/-- Every stream is a first newline-free segment, followed by a newline and
the rest of the stream or by nothing. -/
theorem split_at_newline (fp : List Nat) :
    ∃ l, (∀ c ∈ l, c ≠ 10) ∧ ((∃ rest, fp = l ++ 10 :: rest) ∨ fp = l) := by
  induction fp with
  | nil => exact ⟨[], by simp, Or.inr rfl⟩
  | cons c fp ih =>
    by_cases hc : c = 10
    · exact ⟨[], by simp, Or.inl ⟨fp, by simp [hc]⟩⟩
    · obtain ⟨l, hl, h⟩ := ih
      refine ⟨c :: l, ?_, ?_⟩
      · intro x hx
        simp only [List.mem_cons] at hx
        rcases hx with rfl | hx
        · exact hc
        · exact hl x hx
      · rcases h with ⟨rest, h⟩ | h
        · exact Or.inl ⟨rest, by simp [h]⟩
        · exact Or.inr (by simp [h])

/-- The stream is the text of its segments. -/
theorem segments_isText : ∀ (n : Nat) (fp : List Nat), fp.length ≤ n →
    IsText fp (segments fp) := by
  intro n
  induction n with
  | zero =>
    intro fp h
    have : fp = [] := List.length_eq_zero.mp (by omega)
    subst this
    simp [segments, segmentsFrom, IsText]
  | succ n ih =>
    intro fp h
    obtain ⟨l, hl, hcase⟩ := split_at_newline fp
    rcases hcase with ⟨rest, hfp⟩ | hfp <;> rw [hfp] at h ⊢
    · have e : segments (l ++ 10 :: rest) = l :: segments rest := by
        unfold segments
        rw [segmentsFrom_line rest l [] hl]
        simp
      rw [e]
      exact Or.inl ⟨rest, rfl, ih rest (by simp at h; omega)⟩
    · have e : segments l = if l = [] then [] else [l] := by
        unfold segments
        rw [segmentsFrom_last l [] hl]
        simp
      rw [e]
      by_cases hne : l = []
      · simp [hne, IsText]
      · rw [if_neg hne]
        exact Or.inr ⟨rfl, hne, rfl⟩

theorem isText_mem : ∀ (ls : List (List Nat)) (fp : List Nat), IsText fp ls →
    ∀ l ∈ ls, ∀ c ∈ l, c ∈ fp := by
  intro ls
  induction ls with
  | nil => intro fp _ l hl; simp at hl
  | cons x ls ih =>
    intro fp h l hl c hc
    rcases h with ⟨fp1, hfp, h1⟩ | ⟨rfl, _, hfp⟩
    · simp only [List.mem_cons] at hl
      rcases hl with rfl | hl
      · rw [hfp]; simp [hc]
      · rw [hfp]
        have := ih fp1 h1 l hl c hc
        simp [this]
    · simp only [List.mem_singleton] at hl
      subst hl
      rw [hfp]; exact hc

theorem segments_newline_free : ∀ (n : Nat) (fp : List Nat), fp.length ≤ n →
    ∀ l ∈ segments fp, ∀ c ∈ l, c ≠ 10 := by
  intro n
  induction n with
  | zero =>
    intro fp h
    have : fp = [] := List.length_eq_zero.mp (by omega)
    subst this
    simp [segments, segmentsFrom]
  | succ n ih =>
    intro fp h
    obtain ⟨l, hl, hcase⟩ := split_at_newline fp
    rcases hcase with ⟨rest, hfp⟩ | hfp <;> rw [hfp] at h ⊢
    · have e : segments (l ++ 10 :: rest) = l :: segments rest := by
        unfold segments
        rw [segmentsFrom_line rest l [] hl]
        simp
      rw [e]
      intro x hx
      simp only [List.mem_cons] at hx
      rcases hx with rfl | hx
      · exact hl
      · exact ih rest (by simp at h; omega) x hx
    · have e : segments l = if l = [] then [] else [l] := by
        unfold segments
        rw [segmentsFrom_last l [] hl]
        simp
      rw [e]
      intro x hx
      by_cases hne : l = []
      · simp [hne] at hx
      · rw [if_neg hne] at hx
        simp only [List.mem_singleton] at hx
        subst hx
        exact hl

/-- A cursor on a stream without NUL reads the segments of the stream. -/
theorem reads_segments (fd : phylip_t) (h0 : ∀ c ∈ fd.fp, c ≠ 0) :
    Reads fd (segments fd.fp) := by
  have ht := segments_isText fd.fp.length fd.fp (le_refl _)
  refine ⟨ht, ?_⟩
  intro l hl c hc
  exact ⟨h0 c (isText_mem _ _ ht l hl c hc),
    segments_newline_free fd.fp.length fd.fp (le_refl _) l hl c hc⟩

theorem getnextline_calls_eof : ∀ (k : Nat) (fd : phylip_t), fd.fp = [] →
    ∃ fd1, getnextline_calls k fd = .ret (List.replicate k none, fd1) := by
  intro k
  induction k with
  | zero => intro fd _; exact ⟨fd, rfl⟩
  | succ k ih =>
    intro fd h
    obtain ⟨fd1, h1⟩ := ih { fd with fp := [], line := none } rfl
    refine ⟨fd1, ?_⟩
    rw [getnextline_calls, getnextline_eof fd h]
    simp only []
    rw [h1]
    rfl

/-- Successive calls on a cursor that reads the lines `ls` return these lines
and then NULL. -/
theorem getnextline_calls_reads : ∀ (ls : List (List Nat)) (fd : phylip_t) (k : Nat),
    Reads fd ls →
    ∃ fd1, getnextline_calls (ls.length + k) fd =
      .ret (ls.map some ++ List.replicate k none, fd1) := by
  intro ls
  induction ls with
  | nil =>
    intro fd k h
    simpa using getnextline_calls_eof k fd h.1
  | cons l ls ih =>
    intro fd k h
    obtain ⟨fp1, hget, hr, _⟩ := getnextline_reads fd l ls h
    obtain ⟨fd1, h1⟩ := ih _ k hr
    refine ⟨fd1, ?_⟩
    have e : (l :: ls).length + k = (ls.length + k) + 1 := by simp; omega
    rw [e, getnextline_calls, hget]
    simp only []
    rw [h1]
    rfl

theorem isText_unlines_eq : ∀ (ls : List (List Nat)) (fp : List Nat), IsText fp ls →
    unlines ls = fp ∨
      (unlines ls = fp ++ [10] ∧ ∃ last, ls.getLast? = some last ∧ last ≠ []) := by
  intro ls
  induction ls with
  | nil => intro fp h; left; simpa [IsText, unlines] using h.symm
  | cons l ls ih =>
    intro fp h
    rcases h with ⟨fp1, hfp, h1⟩ | ⟨hnil, hne, hfp⟩
    · rcases ih fp1 h1 with h2 | ⟨h2, last, h3, h4⟩
      · left; rw [unlines, h2, hfp]
      · right
        refine ⟨by rw [unlines, h2, hfp]; simp, last, ?_, h4⟩
        cases ls with
        | nil => simp at h3
        | cons x xs => simpa using h3
    · right
      subst hnil
      exact ⟨by rw [hfp]; rfl, l, rfl, hne⟩

/-! ## Lemmas: the label of a taxon -/

/-- The label the parsers cut from a line is the label of the amended rule. -/
theorem label_spaceFirst (r : TaxonLines) (hl : IsLine r.first) :
    r.label = spaceFirstLabel (skipws r.first) := by
  unfold TaxonLines.label headerlen xstrchrnul spaceFirstLabel
  by_cases h32 : 32 ∈ skipws r.first
  · rw [if_pos h32, if_pos h32]
    exact take_takeWhile_length _ _
  · rw [if_neg h32, if_neg h32]
    by_cases h9 : 9 ∈ skipws r.first
    · rw [if_pos h9, if_pos h9]
      exact take_takeWhile_length _ _
    · rw [if_neg h9, if_neg h9]
      by_cases h13 : 13 ∈ skipws r.first
      · rw [if_pos h13, if_pos h13]
        exact take_takeWhile_length _ _
      · rw [if_neg h13, if_neg h13, take_takeWhile_length]
        apply List.takeWhile_eq_self_iff.mpr
        intro x hx
        have := (hl x (mem_skipws _ _ hx)).2
        simpa using this

theorem onLines_body_isLine (fd : phylip_t) (blanks : List (List Nat)) (hdr : List Nat)
    (body : List (List Nat)) (h : OnLines fd (blanks ++ hdr :: body)) :
    ∀ x ∈ body, IsLine x := by
  intro x hx
  obtain ⟨l, ls, heq, _, hr⟩ := h
  apply hr.2 x
  cases blanks with
  | nil =>
    simp only [List.nil_append, List.cons.injEq] at heq
    rw [← heq.2]
    exact hx
  | cons b bs =>
    simp only [List.cons_append, List.cons.injEq] at heq
    rw [← heq.2]
    simp [hx]

theorem first_mem_lines (recs : List TaxonLines) (r : TaxonLines) (hr : r ∈ recs) :
    r.first ∈ (recs.map TaxonLines.lines).flatten := by
  simp only [List.mem_flatten, List.mem_map]
  exact ⟨r.lines, ⟨r, hr, rfl⟩, by simp [TaxonLines.lines]⟩

/-! ## Lemmas: the line on which a row becomes full -/

/-- The data lines of a taxon before the line on which its row becomes full:
the inner loop of the sequential parser reads them and arrives at that line. -/
theorem sequential_data_upto (t : Nat → Nat) (n L k : Nat)
    (labels : List (Option (List Nat))) (tail : List (List Nat)) (a rest : List Nat) :
    ∀ (ds init : List (List Nat)) (d : List Nat) (fuel : Nat) (fd : phylip_t) (g : Globals)
      (contents : List (List Nat)) (cur : List Nat),
    d :: ds = init ++ [a ++ rest] → fd.chrstatus = t → Fills t L cur.length (init ++ [a]) →
    Reads fd (ds ++ tail) → fd.fp.length < fuel → contents[k]? = some cur →
    ∃ fd1 fuel1 contents1 cur1,
      sequential_data fuel fd g (msaOf n L labels contents) k d cur.length =
        sequential_data (fuel1 + 1) fd1 g (msaOf n L labels contents1) k (a ++ rest)
          cur1.length ∧
      contents1[k]? = some cur1 ∧ cur1.length + (accepted t a).length = L ∧ Clean t a ∧
      cur1 = cur ++ accepted t init.flatten ∧
      fd1.chrstatus = t ∧ Reads fd1 tail := by
  intro ds
  induction ds with
  | nil =>
    intro init d fuel fd g contents cur hsplit ht hf hr hfuel hk
    have hinit : init = [] ∧ d = a ++ rest := by
      cases init with
      | nil => simpa using hsplit
      | cons x xs =>
        simp only [List.cons_append, List.cons.injEq] at hsplit
        have := hsplit.2
        simp at this
    obtain ⟨rfl, rfl⟩ := hinit
    simp only [List.nil_append, Fills] at hf
    obtain ⟨hclean, hcase⟩ := hf
    have hfull : cur.length + (accepted t a).length = L := by
      rcases hcase with ⟨_, h⟩ | ⟨_, h⟩
      · exact h
      · exact absurd h id
    cases fuel with
    | zero => omega
    | succ fuel =>
      exact ⟨fd, fuel, contents, cur, rfl, hk, hfull, hclean, by simp [accepted], ht,
        by simpa using hr⟩
  | cons d2 ds ih =>
    intro init d fuel fd g contents cur hsplit ht hf hr hfuel hk
    have hinit : ∃ init1, init = d :: init1 ∧ d2 :: ds = init1 ++ [a ++ rest] := by
      cases init with
      | nil => simp at hsplit
      | cons x xs =>
        simp only [List.cons_append, List.cons.injEq] at hsplit
        exact ⟨xs, by rw [hsplit.1], hsplit.2⟩
    obtain ⟨init1, rfl, hsplit1⟩ := hinit
    simp only [List.cons_append, Fills] at hf
    obtain ⟨hclean, hcase⟩ := hf
    have hstep : cur.length + (accepted t d).length < L ∧
        Fills t L (cur.length + (accepted t d).length) (init1 ++ [a]) := by
      rcases hcase with ⟨h, _⟩ | h
      · simp at h
      · exact h
    cases fuel with
    | zero => omega
    | succ fuel =>
      subst ht
      have hr1 : Reads (strip_counts fd d) (d2 :: (ds ++ tail)) :=
        ⟨by rw [strip_counts_fp]; exact hr.1, hr.2⟩
      obtain ⟨fp1, hget, hr2, hlen2⟩ := getnextline_reads _ _ _ hr1
      have hltk := getElem?_lt_length _ _ _ hk
      rw [strip_counts_fp] at hlen2
      obtain ⟨fd1, fuel1, contents1, cur1, hrec, hk1, hfull1, hcl1, hcur1, hchr1, hrd1⟩ :=
        ih init1 d2 fuel { strip_counts fd d with fp := fp1, line := some d2 } g
          (contents.set k (cur ++ accepted fd.chrstatus d)) (cur ++ accepted fd.chrstatus d)
          hsplit1 (by simp [strip_counts_chr])
          (by simpa [List.length_append] using hstep.2) hr2 (by simp; omega)
          (by simp [List.getElem?_set_self, hltk])
      refine ⟨fd1, fuel1, contents1, cur1, ?_, hk1, hfull1, hcl1, ?_, hchr1, hrd1⟩
      · rw [sequential_data, dfa_parse_clean fd g n L labels contents k cur d hk hclean
          (by omega)]
        simp only []
        rw [if_neg (by simp only [msaOf]; omega), hget]
        simp only []
        simp only [List.length_append] at hrec
        rw [← hrec]
      · rw [hcur1]
        simp [accepted_append]

/-- The line on which the row of a taxon becomes full, when a further data
byte follows on it: the scan fails with ERROR_PHYLIP_LONGSEQ. -/
theorem dfa_parse_beyond (t : Nat → Nat) (n L k : Nat) (labels : List (Option (List Nat)))
    (lab : List Nat) (hlab : labels[k]? = some (some lab)) (fd : phylip_t) (g : Globals)
    (contents : List (List Nat)) (cur a s u : List Nat) (c : Nat) (ht : fd.chrstatus = t)
    (hk : contents[k]? = some cur) (hfull : cur.length + (accepted t a).length = L)
    (ha : Clean t a) (hs : Clean t s) (hs0 : accepted t s = [])
    (hc : chrclass t c = some 1) :
    ∃ m1, dfa_parse fd g (msaOf n L labels contents) (a ++ (s ++ c :: u)) k cur.length =
      .ret (none, strip_counts fd (a ++ s),
        { bpp_errno := ERROR_PHYLIP_LONGSEQ, bpp_errmsg := msg_longseq k lab }, m1) := by
  subst ht
  have hcl : Clean fd.chrstatus (a ++ s) := by
    intro x hx
    rcases List.mem_append.mp hx with h | h
    · exact ha x h
    · exact hs x h
  have hacc : accepted fd.chrstatus (a ++ s) = accepted fd.chrstatus a := by
    rw [accepted_append, hs0, List.append_nil]
  have h1 := dfa_parse_clean fd g n L labels contents k cur (a ++ s) hk hcl
    (by rw [hacc]; omega)
  unfold dfa_parse at h1 ⊢
  have h2 := dfa_parse_loop_append k cur.length (c :: u) (a ++ s) 0 fd g _ _ _ _ _ h1
  rw [List.append_assoc] at h2
  refine ⟨msaOf n L labels (contents.set k (cur ++ accepted fd.chrstatus (a ++ s))), ?_⟩
  rw [h2]
  simp only [dfa_parse_loop, strip_counts_chr, hc]
  rw [if_pos (by simp only [msaOf, hacc]; norm_cast; omega),
    msaOf_labelAt n L labels _ k lab hlab]

/-- The line on which the row of a taxon becomes full, when a fatal byte
follows on it: the scan fails with the error of that byte. -/
theorem dfa_parse_fatal_after (t : Nat → Nat) (n L k : Nat)
    (labels : List (Option (List Nat))) (fd : phylip_t) (g : Globals)
    (contents : List (List Nat)) (cur a s u : List Nat) (c : Nat) (ht : fd.chrstatus = t)
    (hk : contents[k]? = some cur) (hfull : cur.length + (accepted t a).length = L)
    (ha : Clean t a) (hs : Clean t s) (hs0 : accepted t s = [])
    (hc : chrclass t c = some 2) (hc128 : c < 128) :
    ∃ m1, dfa_parse fd g (msaOf n L labels contents) (a ++ (s ++ c :: u)) k cur.length =
      .ret (none, strip_counts fd (a ++ s),
        (if 32 ≤ c then
          { bpp_errno := ERROR_PHYLIP_ILLEGALCHAR, bpp_errmsg := msg_illegal c fd.lineno }
        else
          { bpp_errno := ERROR_PHYLIP_UNPRINTABLECHAR,
            bpp_errmsg := msg_unprintable c fd.lineno }), m1) := by
  subst ht
  have hcl : Clean fd.chrstatus (a ++ s) := by
    intro x hx
    rcases List.mem_append.mp hx with h | h
    · exact ha x h
    · exact hs x h
  have hacc : accepted fd.chrstatus (a ++ s) = accepted fd.chrstatus a := by
    rw [accepted_append, hs0, List.append_nil]
  have h1 := dfa_parse_clean fd g n L labels contents k cur (a ++ s) hk hcl
    (by rw [hacc]; omega)
  unfold dfa_parse at h1 ⊢
  have h2 := dfa_parse_loop_append k cur.length (c :: u) (a ++ s) 0 fd g _ _ _ _ _ h1
  rw [List.append_assoc] at h2
  refine ⟨msaOf n L labels (contents.set k (cur ++ accepted fd.chrstatus (a ++ s))), ?_⟩
  rw [h2]
  simp only [dfa_parse_loop, strip_counts_chr, hc, strip_counts_lineno, schar_small c hc128]
  by_cases h32 : 32 ≤ c
  · rw [if_pos (by omega), if_pos h32]
  · rw [if_neg (by omega), if_neg h32]
/-- Bytes that are no data may follow on the line on which the row becomes
full. -/
theorem fills_extend (t : Nat → Nat) (L : Nat) (a rest : List Nat) (hr : Clean t rest)
    (hr0 : accepted t rest = []) :
    ∀ (init : List (List Nat)) (j : Nat), Fills t L j (init ++ [a]) →
    Fills t L j (init ++ [a ++ rest]) := by
  intro init
  induction init with
  | nil =>
    intro j h
    simp only [List.nil_append, Fills] at h ⊢
    obtain ⟨hc, hcase⟩ := h
    refine ⟨?_, ?_⟩
    · intro x hx
      rcases List.mem_append.mp hx with h1 | h1
      · exact hc x h1
      · exact hr x h1
    · rw [accepted_append, hr0, List.append_nil]
      exact hcase
  | cons d init ih =>
    intro j h
    simp only [List.cons_append, Fills] at h ⊢
    obtain ⟨hc, hcase⟩ := h
    refine ⟨hc, ?_⟩
    rcases hcase with ⟨h1, _⟩ | ⟨h1, h2⟩
    · simp at h1
    · exact Or.inr ⟨h1, ih _ h2⟩

/-- The sequential parser on a block whose first taxa are complete arrives at
the data of the next taxon; when the inner loop returns NULL there, so does
the parser. -/
theorem parse_sequential_reach (t : Nat → Nat) (n L : Nat) (fd : phylip_t) (g : Globals)
    (blanks : List (List Nat)) (hdr : List Nat) (recs : List TaxonLines) (x : TaxonLines)
    (tail : List (List Nat)) (ht : fd.chrstatus = t)
    (hon : OnLines fd (blanks ++ hdr ::
      ((recs.map TaxonLines.lines).flatten ++ (x.lines ++ tail))))
    (hb : ∀ b ∈ blanks, Blank b)
    (hh : (parse_header hdr PHYLIP_SEQUENTIAL g).1 = some ((n : Int), (L : Int)))
    (hn : recs.length < n) (hok : ∀ r ∈ recs, r.ok t L)
    (hxb : ∀ b ∈ x.blanks, Blank b) (hxf : skipws x.first ≠ []) :
    ∃ (fd4 : phylip_t) (labels2 : List (Option (List Nat))) (contents2 : List (List Nat)),
      fd4.chrstatus = t ∧ Reads fd4 (x.more ++ tail) ∧
      labels2[recs.length]? = some (some x.label) ∧ contents2[recs.length]? = some [] ∧
      ∀ fd5 g5,
        sequential_data (fd4.fp.length + 1) fd4 g (msaOf n L labels2 contents2) recs.length
          ((skipws x.first).drop (headerlen (skipws x.first))) 0 = .ret (none, fd5, g5) →
        phylip_parse_sequential fd g = .ret (none, fd5, g5) := by
  obtain ⟨hnb, hn0, _, hg, _, _⟩ := parse_header_some _ _ _ _ _ hh
  have hnpos : 0 < n := by omega
  obtain ⟨fd1, hskip, hl1, hr1, hchr1, _⟩ :=
    skip_emptylines_spec hdr _ blanks (fd.fp.length + 2) fd hb hnb hon (by omega)
  obtain ⟨fd2, fuel2, labels2, contents2, htaxa, hr2, hchr2, hf2, hll2, hcl2, hfresh2⟩ :=
    sequential_taxa_more t n L g (x.lines ++ tail) recs 0 (fd1.fp.length + 1) fd1
      (List.replicate n none) (List.replicate n []) (by rw [hchr1, ht]) (by omega)
      (by simp) (by simp)
      (by intro i _ hi; simp [List.getElem?_replicate, hi]) hok hr1 (by omega)
  simp only [Nat.zero_add] at htaxa hfresh2
  have hr20 : Reads fd2 (x.blanks ++ (x.first :: (x.more ++ tail))) := by
    simpa [TaxonLines.lines, List.append_assoc] using hr2
  obtain ⟨fd3, fuel3, heq3, hr3, hchr3, hf3, _⟩ :=
    sequential_taxa_blanks (msaOf n L labels2 contents2) recs.length g _ x.blanks fuel2 fd2
      hxb hr20 hf2
  obtain ⟨c, p0, hp⟩ := List.exists_cons_of_ne_nil hxf
  have hws := skipws_head _ _ _ hp
  have hlab : x.label = (c :: p0).take (headerlen (c :: p0)) := by
    simp [TaxonLines.label, hp]
  cases fuel3 with
  | zero => omega
  | succ fuel3 =>
    obtain ⟨fp4, hget, hr4, _⟩ := getnextline_reads fd3 _ _ hr3
    refine ⟨{ fd3 with fp := fp4, line := some x.first },
      labels2.set recs.length (some x.label), contents2, by simp [hchr3, hchr2], hr4,
      by simp [List.getElem?_set_self, hll2, hn], hfresh2 recs.length (le_refl _) hn, ?_⟩
    intro fd5 g5 hdat
    unfold phylip_parse_sequential
    rw [hskip]
    simp only [hl1]
    have hph : parse_header hdr PHYLIP_SEQUENTIAL g = (some ((n : Int), (L : Int)), g) :=
      Prod.ext hh hg
    rw [hph]
    simp only []
    rw [msa_alloc_ok n L hnpos]
    simp only []
    rw [htaxa, heq3, sequential_taxa, hget]
    simp only [hp]
    rw [if_neg (by simp only [msaOf]; norm_cast; omega), if_neg (headerlen_pos c p0 hws),
      ← hlab, msaOf_setLabel n L labels2 contents2 recs.length x.label (by omega)]
    simp only []
    rw [hp] at hdat
    rw [hdat]

/-! ## Lemmas: the line number -/

theorem getnextline_lineno (fd fd1 : phylip_t) (l : Option (List Nat))
    (h : getnextline fd = .ret (l, fd1)) : fd1.lineno = fd.lineno := by
  unfold getnextline at h
  cases hl : getnextline_loop (fd.fp.length + 1) fd.fp [] with
  | fatal x => rw [hl] at h; cases h
  | nomem => rw [hl] at h; cases h
  | undefined => rw [hl] at h; cases h
  | ret r =>
    obtain ⟨l1, fp1⟩ := r
    rw [hl] at h
    simp only [Outcome.ret.injEq, Prod.mk.injEq] at h
    rw [← h.2]

/-! ## Lemmas: the filter of `cmd_extract` -/

theorem ends_with_iff (x suffix : List Nat) :
    ends_with x suffix ≠ 0 ↔ suffix.isSuffixOf x = true := by
  rw [List.isSuffixOf_iff_suffix, List.suffix_iff_eq_drop]
  unfold ends_with
  by_cases h : suffix.length > x.length
  · rw [if_pos h]
    constructor
    · intro h1; exact absurd rfl h1
    · intro h1
      have := congrArg List.length h1
      simp only [List.length_drop] at this
      omega
  · rw [if_neg h]
    by_cases h2 : x.drop (x.length - suffix.length) = suffix
    · rw [if_pos h2]
      exact ⟨fun _ => h2.symm, fun _ => by decide⟩
    · rw [if_neg h2]
      exact ⟨fun h1 => absurd rfl h1, fun h1 => absurd h1.symm h2⟩

theorem starts_with_iff (x pfx : List Nat) :
    starts_with x pfx ≠ 0 ↔ pfx.isPrefixOf x = true := by
  rw [List.isPrefixOf_iff_prefix, List.prefix_iff_eq_take]
  unfold starts_with
  by_cases h : pfx.length > x.length
  · rw [if_pos h]
    constructor
    · intro h1; exact absurd rfl h1
    · intro h1
      have := congrArg List.length h1
      simp only [List.length_take] at this
      omega
  · rw [if_neg h]
    by_cases h2 : x.take pfx.length = pfx
    · rw [if_pos h2]
      exact ⟨fun _ => h2.symm, fun _ => by decide⟩
    · rw [if_neg h2]
      exact ⟨fun h1 => absurd rfl h1, fun h1 => absurd h1.symm h2⟩

theorem first_hit_le (test : List Nat → List Nat → Int) (label : List Nat)
    (toks : List (List Nat)) : first_hit test label toks ≤ toks.length := by
  induction toks with
  | nil => simp [first_hit]
  | cons tok rest ih =>
    simp only [first_hit, List.length_cons]
    split
    · omega
    · omega

theorem first_hit_ne (test : List Nat → List Nat → Int) (label : List Nat)
    (toks : List (List Nat)) :
    first_hit test label toks ≠ toks.length ↔ ∃ tok ∈ toks, test label tok ≠ 0 := by
  induction toks with
  | nil => simp [first_hit]
  | cons tok rest ih =>
    simp only [first_hit, List.length_cons, List.mem_cons, exists_eq_or_imp]
    by_cases h : test label tok ≠ 0
    · rw [if_pos h]
      exact ⟨fun _ => Or.inl h, fun _ => by omega⟩
    · rw [if_neg h]
      constructor
      · intro h1
        exact Or.inr (ih.mp (by omega))
      · intro h1
        rcases h1 with h1 | h1
        · exact absurd h1 h
        · have := ih.mpr h1
          omega

theorem separate_tokens_spec (tokens : List (List Nat)) :
    (∀ tok, tok ∈ (separate_tokens tokens).1 ↔ tok ∈ tokens ∧ tok.head? = some 94) ∧
    (∀ tok, tok ∈ (separate_tokens tokens).2 ↔ tok ∈ tokens ∧ tok.head? ≠ some 94) := by
  induction tokens with
  | nil => simp [separate_tokens]
  | cons t rest ih =>
    obtain ⟨ih1, ih2⟩ := ih
    by_cases h : t.head? = some 94
    · simp only [separate_tokens, if_pos h, List.mem_cons]
      constructor
      · intro tok
        rw [ih1]
        constructor
        · rintro (rfl | ⟨h1, h2⟩)
          · exact ⟨Or.inl rfl, h⟩
          · exact ⟨Or.inr h1, h2⟩
        · rintro ⟨rfl | h1, h2⟩
          · exact Or.inl rfl
          · exact Or.inr ⟨h1, h2⟩
      · intro tok
        rw [ih2]
        constructor
        · rintro ⟨h1, h2⟩
          exact ⟨Or.inr h1, h2⟩
        · rintro ⟨rfl | h1, h2⟩
          · exact absurd h h2
          · exact ⟨h1, h2⟩
    · simp only [separate_tokens, if_neg h, List.mem_cons]
      constructor
      · intro tok
        rw [ih1]
        constructor
        · rintro ⟨h1, h2⟩
          exact ⟨Or.inr h1, h2⟩
        · rintro ⟨rfl | h1, h2⟩
          · exact absurd h2 h
          · exact ⟨h1, h2⟩
      · intro tok
        rw [ih2]
        constructor
        · rintro (rfl | ⟨h1, h2⟩)
          · exact ⟨Or.inl rfl, h⟩
          · exact ⟨Or.inr h1, h2⟩
        · rintro ⟨rfl | h1, h2⟩
          · exact Or.inl rfl
          · exact Or.inr ⟨h1, h2⟩

/-- The mark of a taxon is set exactly for the taxa the specification keeps. -/
theorem mark_taxon_iff (tokens : List (List Nat)) (label : List Nat) :
    mark_taxon (separate_tokens tokens).1 (separate_tokens tokens).2 label ≠ 0 ↔
      keptBy tokens label = true := by
  obtain ⟨h1, h2⟩ := separate_tokens_spec tokens
  have hm : mark_taxon (separate_tokens tokens).1 (separate_tokens tokens).2 label ≠ 0 ↔
      (first_hit ends_with label (separate_tokens tokens).1 ≠ (separate_tokens tokens).1.length ∨
       first_hit starts_with label (separate_tokens tokens).2 ≠
         (separate_tokens tokens).2.length) := by
    unfold mark_taxon
    by_cases ha : first_hit starts_with label (separate_tokens tokens).2 ≠
        (separate_tokens tokens).2.length
    · simp only [if_pos ha]
      exact ⟨fun _ => Or.inr ha, fun _ => by decide⟩
    · simp only [if_neg ha]
      by_cases hb : first_hit ends_with label (separate_tokens tokens).1 ≠
          (separate_tokens tokens).1.length
      · rw [if_pos hb]
        exact ⟨fun _ => Or.inl hb, fun _ => by decide⟩
      · rw [if_neg hb]
        exact ⟨fun h => absurd rfl h, fun h => by rcases h with h | h <;> contradiction⟩
  rw [hm, first_hit_ne, first_hit_ne]
  unfold keptBy
  rw [List.any_eq_true]
  constructor
  · rintro (⟨tok, hmem, ht⟩ | ⟨tok, hmem, ht⟩)
    · obtain ⟨hin, hh⟩ := (h1 tok).mp hmem
      exact ⟨tok, hin, by rw [if_pos hh]; exact (ends_with_iff _ _).mp ht⟩
    · obtain ⟨hin, hh⟩ := (h2 tok).mp hmem
      exact ⟨tok, hin, by rw [if_neg hh]; exact (starts_with_iff _ _).mp ht⟩
  · rintro ⟨tok, hin, ht⟩
    by_cases hh : tok.head? = some 94
    · rw [if_pos hh] at ht
      exact Or.inl ⟨tok, (h1 tok).mpr ⟨hin, hh⟩, (ends_with_iff _ _).mpr ht⟩
    · rw [if_neg hh] at ht
      exact Or.inr ⟨tok, (h2 tok).mpr ⟨hin, hh⟩, (starts_with_iff _ _).mpr ht⟩

/-- The marks of the taxa of a locus and the number of taxa to copy. -/
theorem mark_taxa_spec (m : msa_t) (sp sq : List (List Nat)) :
    ∀ (suf pre : List (List Nat × List Nat)) (c : Int),
    m.label = (pre ++ suf).map (fun p => some p.1) →
    mark_taxa m sp sq suf.length pre.length
        (pre.map (fun p => mark_taxon sp sq p.1) ++ List.replicate suf.length 0) c =
      some ((pre ++ suf).map (fun p => mark_taxon sp sq p.1),
        c + ((suf.filter (fun p => mark_taxon sp sq p.1 ≠ 0)).length : Int)) := by
  intro suf
  induction suf with
  | nil => intro pre c _; simp [mark_taxa]
  | cons p suf ih =>
    intro pre c hl
    have hj : m.label[pre.length]? = some (some p.1) := by
      rw [hl, List.map_append, List.getElem?_append_right (by simp)]
      simp
    have h1 := ih (pre ++ [p])
      (if mark_taxon sp sq p.1 ≠ 0 then c + 1 else c) (by simpa using hl)
    simp only [List.length_append, List.length_singleton, List.append_assoc,
      List.singleton_append] at h1
    rw [List.length_cons, mark_taxa, hj]
    simp only []
    rw [if_pos (by simp)]
    have hset : (pre.map (fun p : List Nat × List Nat => mark_taxon sp sq p.1) ++
          List.replicate (suf.length + 1) 0).set pre.length (mark_taxon sp sq p.1) =
        (pre ++ [p]).map (fun p : List Nat × List Nat => mark_taxon sp sq p.1) ++
          List.replicate suf.length 0 := by
      rw [List.set_append_right _ _ (by simp)]
      simp [List.replicate_succ]
    rw [hset, h1]
    congr 2
    by_cases hm : mark_taxon sp sq p.1 ≠ 0
    · rw [if_pos hm, List.filter_cons_of_pos (by simpa using hm)]
      simp only [List.length_cons]
      push_cast
      omega
    · rw [if_neg hm, List.filter_cons_of_neg (by simpa using hm)]

/-- The copy loop keeps the marked taxa, in their order. -/
theorem copy_taxa_spec (m : msa_t) (sp sq : List (List Nat))
    (all : List (List Nat × List Nat)) (hl : m.label = all.map (fun p => some p.1))
    (hs : m.sequence = all.map (fun p => some p.2)) (h0 : ∀ p ∈ all, 0 ∈ p.2) :
    ∀ (suf pre : List (List Nat × List Nat)) (ls ss : List (Option (List Nat))),
    all = pre ++ suf →
    copy_taxa m (all.map (fun p => mark_taxon sp sq p.1)) suf.length pre.length ls ss =
      some (ls ++ (suf.filter (fun p => mark_taxon sp sq p.1 ≠ 0)).map (fun p => some p.1),
        ss ++ (suf.filter (fun p => mark_taxon sp sq p.1 ≠ 0)).map
          (fun p => some (cstring p.2 ++ [0]))) := by
  intro suf
  induction suf with
  | nil => intro pre ls ss _; simp [copy_taxa]
  | cons p suf ih =>
    intro pre ls ss hall
    have hget : all[pre.length]? = some p := by
      rw [hall, List.getElem?_append_right (by simp)]
      simp
    have hi : (all.map (fun p => mark_taxon sp sq p.1))[pre.length]? =
        some (mark_taxon sp sq p.1) := by
      rw [List.getElem?_map, hget]; rfl
    have hlj : m.label[pre.length]? = some (some p.1) := by
      rw [hl, List.getElem?_map, hget]; rfl
    have hsj : m.sequence[pre.length]? = some (some p.2) := by
      rw [hs, List.getElem?_map, hget]; rfl
    have hp0 : 0 ∈ p.2 := h0 p (by rw [hall]; simp)
    rw [List.length_cons, copy_taxa, hi]
    simp only []
    by_cases hm : mark_taxon sp sq p.1 ≠ 0
    · rw [if_pos hm, hlj, hsj]
      simp only []
      rw [if_pos hp0]
      have h1 := ih (pre ++ [p]) (ls ++ [some p.1]) (ss ++ [some (cstring p.2 ++ [0])])
        (by rw [hall]; simp)
      simp only [List.length_append, List.length_singleton] at h1
      rw [h1, List.filter_cons_of_pos (by simpa using hm)]
      simp
    · rw [if_neg hm]
      have h1 := ih (pre ++ [p]) ls ss (by rw [hall]; simp)
      simp only [List.length_append, List.length_singleton] at h1
      rw [h1, List.filter_cons_of_neg (by simpa using hm)]

/-- The filter loop gives, for every locus, the locus of the specification. -/
theorem filter_loci_spec (tokens : List (List Nat)) :
    ∀ (loci : List (msa_t × List (List Nat × List Nat))) (acc : List msa_t),
    (∀ q ∈ loci, q.1.Rows q.2) →
    filter_loci (separate_tokens tokens).1 (separate_tokens tokens).2
        (loci.map (fun q => q.1)) acc =
      .ret (acc ++ loci.filterMap (extractLocus tokens)) := by
  intro loci
  induction loci with
  | nil => intro acc _; simp [filter_loci]
  | cons q loci ih =>
    intro acc hw
    obtain ⟨hc, hs, hl, h0⟩ := hw q (by simp)
    have hcn : q.1.count.toNat = q.2.length := by rw [hc]; simp
    have hfilt : q.2.filter
          (fun p => mark_taxon (separate_tokens tokens).1 (separate_tokens tokens).2 p.1 ≠ 0) =
        q.2.filter (fun p => keptBy tokens p.1) := by
      apply List.filter_congr
      intro p _
      have := mark_taxon_iff tokens p.1
      by_cases hk : keptBy tokens p.1 = true
      · simp [hk, this.mpr hk]
      · have hk2 : ¬ mark_taxon (separate_tokens tokens).1 (separate_tokens tokens).2 p.1 ≠ 0 :=
          fun h => hk (this.mp h)
        simp only [ne_eq, Decidable.not_not] at hk2
        simp [hk, hk2]
    have hmark := mark_taxa_spec q.1 (separate_tokens tokens).1 (separate_tokens tokens).2
      q.2 [] 0 (by simpa using hl)
    simp only [List.length_nil, List.map_nil, List.nil_append, Int.zero_add] at hmark
    have hcopy := copy_taxa_spec q.1 (separate_tokens tokens).1 (separate_tokens tokens).2
      q.2 hl hs h0 q.2 [] [] [] rfl
    simp only [List.length_nil, List.nil_append] at hcopy
    rw [hfilt] at hmark hcopy
    rw [List.map_cons, filter_loci, if_neg (by rw [hc]; omega), hcn, hmark]
    simp only []
    by_cases hnone : q.2.filter (fun p => keptBy tokens p.1) = []
    · rw [if_pos (by rw [hnone]; rfl), ih acc (fun x hx => hw x (by simp [hx]))]
      have : extractLocus tokens q = none := by
        unfold extractLocus
        rw [if_pos hnone]
      rw [List.filterMap_cons_none this]
    · have hpos : ((q.2.filter (fun p => keptBy tokens p.1)).length : Int) ≠ 0 := by
        have := List.length_pos.mpr hnone
        omega
      rw [if_neg hpos, hcopy]
      simp only []
      rw [ih _ (fun x hx => hw x (by simp [hx]))]
      have : extractLocus tokens q = some
          { count := ((q.2.filter (fun p => keptBy tokens p.1)).length : Int),
            length := q.1.length,
            sequence := (q.2.filter (fun p => keptBy tokens p.1)).map
              (fun p => some (cstring p.2 ++ [0])),
            label := (q.2.filter (fun p => keptBy tokens p.1)).map (fun p => some p.1),
            amb_sites_count := 0, dtype := 0 } := by
        unfold extractLocus
        rw [if_neg hnone]
      rw [List.filterMap_cons_some this]
      simp

theorem cstring_copy (s : List Nat) : cstring (cstring s ++ [0]) = cstring s := by
  apply cstring_terminated
  intro c hc
  have := (List.mem_takeWhile_imp hc)
  simpa using this

/-! ## Lemmas: blank lines between the taxa -/

/-- The scan of a line by two cursors with the same table and line number
has the same result, up to the counters of the cursors. -/
theorem dfa_parse_loop_rel (seqno offset : Nat) :
    ∀ (p : List Nat) (j : Nat) (fa fb : phylip_t) (g : Globals) (msa : msa_t),
    fa.chrstatus = fb.chrstatus → fa.lineno = fb.lineno →
    (∃ r fa1 fb1 g1 m1,
      dfa_parse_loop seqno offset p j fa g msa = .ret (r, fa1, g1, m1) ∧
      dfa_parse_loop seqno offset p j fb g msa = .ret (r, fb1, g1, m1) ∧
      fa1.fp = fa.fp ∧ fb1.fp = fb.fp ∧ fa1.chrstatus = fa.chrstatus ∧
      fb1.chrstatus = fb.chrstatus ∧ fa1.lineno = fa.lineno ∧ fb1.lineno = fb.lineno) ∨
    (dfa_parse_loop seqno offset p j fa g msa = .undefined ∧
      dfa_parse_loop seqno offset p j fb g msa = .undefined) := by
  intro p
  induction p with
  | nil =>
    intro j fa fb g msa _ _
    exact Or.inl ⟨some j, fa, fb, g, msa, rfl, rfl, rfl, rfl, rfl, rfl, rfl, rfl⟩
  | cons c p ih =>
    intro j fa fb g msa hc hl
    cases hcl : chrclass fb.chrstatus c with
    | none =>
      right
      have hcla : chrclass fa.chrstatus c = none := by rw [hc]; exact hcl
      simp only [dfa_parse_loop, hcla, hcl, and_self]
    | some v =>
      have hcla : chrclass fa.chrstatus c = some v := by rw [hc]; exact hcl
      rcases v with _ | _ | _ | v
      · simp only [dfa_parse_loop, hcla, hcl]
        rcases ih j
          { fa with stripped_count := fa.stripped_count + 1,
                    stripped := Function.update fa.stripped (schar c).toNat
                                  (fa.stripped (schar c).toNat + 1) }
          { fb with stripped_count := fb.stripped_count + 1,
                    stripped := Function.update fb.stripped (schar c).toNat
                                  (fb.stripped (schar c).toNat + 1) } g msa hc hl with
          ⟨r, fa1, fb1, g1, m1, h1, h2, h3, h4, h5, h6, h7, h8⟩ | ⟨h1, h2⟩
        · exact Or.inl ⟨r, fa1, fb1, g1, m1, h1, h2, h3, h4, h5, h6, h7, h8⟩
        · exact Or.inr ⟨h1, h2⟩
      · simp only [dfa_parse_loop, hcla, hcl]
        by_cases hfull : msa.length ≤ ((offset + j : Nat) : Int)
        · simp only [if_pos hfull]
          cases hlab : msa.labelAt seqno with
          | none => exact Or.inr ⟨rfl, rfl⟩
          | some l =>
            exact Or.inl ⟨none, fa, fb, _, msa, rfl, rfl, rfl, rfl, rfl, rfl, rfl, rfl⟩
        · simp only [if_neg hfull]
          cases hst : msa.store seqno (offset + j) c with
          | none => exact Or.inr ⟨rfl, rfl⟩
          | some m1 => exact ih (j + 1) fa fb g m1 hc hl
      · simp only [dfa_parse_loop, hcla, hcl]
        rw [hl]
        by_cases h32 : 32 ≤ schar c
        · simp only [if_pos h32]
          exact Or.inl ⟨none, fa, fb, _, msa, rfl, rfl, rfl, rfl, rfl, rfl, hl, rfl⟩
        · simp only [if_neg h32]
          exact Or.inl ⟨none, fa, fb, _, msa, rfl, rfl, rfl, rfl, rfl, rfl, hl, rfl⟩
      · simp only [dfa_parse_loop, hcla, hcl]
        exact ih j fa fb g msa hc hl

theorem reads_of_fp (fa fb : phylip_t) (ls : List (List Nat)) (h : fa.fp = fb.fp)
    (hr : Reads fb ls) : Reads fa ls :=
  ⟨by rw [h]; exact hr.1, hr.2⟩

/-- The inner loop of the sequential parser, run by two cursors that have the
same lines to read: the same result, and again the same lines to read. -/
theorem sequential_data_rel (seqno : Nat) :
    ∀ (ls : List (List Nat)) (fuelA fuelB : Nat) (fa fb : phylip_t) (g : Globals)
      (msa : msa_t) (p : List Nat) (j : Nat),
    SameRest fa fb ls → fa.fp.length < fuelA → fb.fp.length < fuelB →
    (∃ r fa1 fb1 g1 ls1,
      sequential_data fuelA fa g msa seqno p j = .ret (r, fa1, g1) ∧
      sequential_data fuelB fb g msa seqno p j = .ret (r, fb1, g1) ∧
      SameRest fa1 fb1 ls1 ∧ ls1.length ≤ ls.length ∧
      fa1.fp.length ≤ fa.fp.length ∧ fb1.fp.length ≤ fb.fp.length) ∨
    (sequential_data fuelA fa g msa seqno p j = .undefined ∧
      sequential_data fuelB fb g msa seqno p j = .undefined) := by
  intro ls
  induction ls with
  | nil =>
    intro fuelA fuelB fa fb g msa p j hs hfa hfb
    obtain ⟨hc, hl, hra, hrb⟩ := hs
    cases fuelA with
    | zero => omega
    | succ fuelA =>
    cases fuelB with
    | zero => omega
    | succ fuelB =>
      simp only [sequential_data, dfa_parse]
      rcases dfa_parse_loop_rel seqno j p 0 fa fb g msa hc hl with
        ⟨r, fa1, fb1, g1, m1, h1, h2, h3, h4, h5, h6, h7, h8⟩ | ⟨h1, h2⟩
      · rw [h1, h2]
        have hs1 : SameRest fa1 fb1 [] :=
          ⟨by rw [h5, h6, hc], by rw [h7, h8, hl], reads_of_fp _ _ _ h3 hra,
            reads_of_fp _ _ _ h4 hrb⟩
        cases r with
        | none =>
          exact Or.inl ⟨none, fa1, fb1, g1, [], rfl, rfl, hs1, le_refl _, by rw [h3],
            by rw [h4]⟩
        | some cnt =>
          simp only []
          by_cases hfull : ((j + cnt : Nat) : Int) = m1.length
          · simp only [if_pos hfull]
            exact Or.inl ⟨some m1, fa1, fb1, g1, [], rfl, rfl, hs1, le_refl _, by rw [h3],
              by rw [h4]⟩
          · simp only [if_neg hfull]
            rw [getnextline_reads_nil fa1 hs1.2.2.1, getnextline_reads_nil fb1 hs1.2.2.2]
            simp only []
            cases hlab : m1.labelAt seqno with
            | none => exact Or.inr ⟨rfl, rfl⟩
            | some lab =>
              refine Or.inl ⟨none, { fa1 with fp := [], line := none },
                { fb1 with fp := [], line := none }, _, [], rfl, rfl,
                ⟨hs1.1, hs1.2.1, ⟨rfl, by simp⟩, ⟨rfl, by simp⟩⟩, le_refl _, by simp, by simp⟩
      · rw [h1, h2]
        exact Or.inr ⟨rfl, rfl⟩
  | cons l ls ih =>
    intro fuelA fuelB fa fb g msa p j hs hfa hfb
    obtain ⟨hc, hl, hra, hrb⟩ := hs
    cases fuelA with
    | zero => omega
    | succ fuelA =>
    cases fuelB with
    | zero => omega
    | succ fuelB =>
      simp only [sequential_data, dfa_parse]
      rcases dfa_parse_loop_rel seqno j p 0 fa fb g msa hc hl with
        ⟨r, fa1, fb1, g1, m1, h1, h2, h3, h4, h5, h6, h7, h8⟩ | ⟨h1, h2⟩
      · rw [h1, h2]
        have hs1 : SameRest fa1 fb1 (l :: ls) :=
          ⟨by rw [h5, h6, hc], by rw [h7, h8, hl], reads_of_fp _ _ _ h3 hra,
            reads_of_fp _ _ _ h4 hrb⟩
        cases r with
        | none =>
          exact Or.inl ⟨none, fa1, fb1, g1, l :: ls, rfl, rfl, hs1, le_refl _, by rw [h3],
            by rw [h4]⟩
        | some cnt =>
          simp only []
          by_cases hfull : ((j + cnt : Nat) : Int) = m1.length
          · simp only [if_pos hfull]
            exact Or.inl ⟨some m1, fa1, fb1, g1, l :: ls, rfl, rfl, hs1, le_refl _,
              by rw [h3], by rw [h4]⟩
          · simp only [if_neg hfull]
            obtain ⟨fpa, hga, hra2, hla⟩ := getnextline_reads fa1 l ls hs1.2.2.1
            obtain ⟨fpb, hgb, hrb2, hlb⟩ := getnextline_reads fb1 l ls hs1.2.2.2
            rw [hga, hgb]
            simp only []
            rcases ih fuelA fuelB { fa1 with fp := fpa, line := some l }
                { fb1 with fp := fpb, line := some l } g1 m1 l (j + cnt)
                ⟨hs1.1, hs1.2.1, hra2, hrb2⟩ (by simp; rw [h3] at hla; omega)
                (by simp; rw [h4] at hlb; omega) with
              ⟨r2, fa2, fb2, g2, ls2, e1, e2, hs2, hlen, hfa2, hfb2⟩ | ⟨e1, e2⟩
            · refine Or.inl ⟨r2, fa2, fb2, g2, ls2, e1, e2, hs2, ?_, ?_, ?_⟩
              · simp only [List.length_cons]; omega
              · simp only [] at hfa2; rw [h3] at hla; omega
              · simp only [] at hfb2; rw [h4] at hlb; omega
            · exact Or.inr ⟨e1, e2⟩
      · rw [h1, h2]
        exact Or.inr ⟨rfl, rfl⟩
/-- The outer loop of the sequential parser, run by two cursors that have the
same lines to read, gives the same alignment or the same error. -/
theorem sequential_taxa_rel :
    ∀ (n : Nat) (ls : List (List Nat)) (fuelA fuelB : Nat) (fa fb : phylip_t) (g : Globals)
      (msa : msa_t) (k : Nat),
    ls.length ≤ n → SameRest fa fb ls → fa.fp.length < fuelA → fb.fp.length < fuelB →
    verdict (sequential_taxa fuelA fa g msa k) = verdict (sequential_taxa fuelB fb g msa k) := by
  intro n
  induction n with
  | zero =>
    intro ls fuelA fuelB fa fb g msa k hn hs hfa hfb
    have hnil : ls = [] := List.length_eq_zero.mp (by omega)
    subst hnil
    obtain ⟨_, _, hra, hrb⟩ := hs
    cases fuelA with
    | zero => omega
    | succ fuelA =>
    cases fuelB with
    | zero => omega
    | succ fuelB =>
      rw [sequential_taxa, sequential_taxa, getnextline_reads_nil fa hra,
        getnextline_reads_nil fb hrb]
      simp only []
      by_cases hk : (k : Int) ≠ msa.count
      · simp only [if_pos hk, verdict]
      · simp only [if_neg hk, verdict]
  | succ n ih =>
    intro ls fuelA fuelB fa fb g msa k hn hs hfa hfb
    obtain ⟨hc, hl, hra, hrb⟩ := hs
    cases fuelA with
    | zero => omega
    | succ fuelA =>
    cases fuelB with
    | zero => omega
    | succ fuelB =>
      cases ls with
      | nil =>
        rw [sequential_taxa, sequential_taxa, getnextline_reads_nil fa hra,
          getnextline_reads_nil fb hrb]
        simp only []
        by_cases hk : (k : Int) ≠ msa.count
        · simp only [if_pos hk, verdict]
        · simp only [if_neg hk, verdict]
      | cons l ls =>
        obtain ⟨fpa, hga, hra2, hla⟩ := getnextline_reads fa l ls hra
        obtain ⟨fpb, hgb, hrb2, hlb⟩ := getnextline_reads fb l ls hrb
        simp only [List.length_cons] at hn
        rw [sequential_taxa, sequential_taxa, hga, hgb]
        simp only []
        cases hsk : skipws l with
        | nil =>
          simp only []
          exact ih ls fuelA fuelB _ _ g msa k (by omega) ⟨hc, hl, hra2, hrb2⟩
            (by simp; omega) (by simp; omega)
        | cons c p0 =>
          simp only []
          by_cases hk : (k : Int) = msa.count
          · simp only [if_pos hk, verdict]
          · simp only [if_neg hk]
            by_cases hh : headerlen (c :: p0) = 0
            · simp only [if_pos hh, verdict]
            · simp only [if_neg hh]
              cases hset : msa.setLabel k ((c :: p0).take (headerlen (c :: p0))) with
              | none => simp only [verdict]
              | some msa1 =>
                simp only []
                rcases sequential_data_rel k ls (fpa.length + 1) (fpb.length + 1)
                    { fa with fp := fpa, line := some l } { fb with fp := fpb, line := some l }
                    g msa1 ((c :: p0).drop (headerlen (c :: p0))) 0
                    ⟨hc, hl, hra2, hrb2⟩ (by simp) (by simp) with
                  ⟨r, fa2, fb2, g2, ls2, e1, e2, hs2, hlen, hfa2, hfb2⟩ | ⟨e1, e2⟩
                · rw [e1, e2]
                  cases r with
                  | none => simp only [verdict]
                  | some msa2 =>
                    simp only []
                    by_cases hlast : ((k : Int) + 1) = msa2.count
                    · simp only [if_pos hlast, verdict]
                    · simp only [if_neg hlast]
                      exact ih ls2 fuelA fuelB fa2 fb2 g2 msa2 (k + 1) (by omega) hs2
                        (by simp only [] at hfa2; omega) (by simp only [] at hfb2; omega)
                · rw [e1, e2]
theorem dfa_parse_lineno (fd fd1 : phylip_t) (g g1 : Globals) (msa m1 : msa_t) (p : List Nat)
    (seqno offset : Nat) (r : Option Nat)
    (h : dfa_parse fd g msa p seqno offset = .ret (r, fd1, g1, m1)) :
    fd1.lineno = fd.lineno := by
  unfold dfa_parse at h
  rcases dfa_parse_loop_rel seqno offset p 0 fd fd g msa rfl rfl with
    ⟨r2, fa1, fb1, g2, m2, h1, _, _, _, _, _, h7, _⟩ | ⟨h1, _⟩
  · rw [h1] at h
    simp only [Outcome.ret.injEq, Prod.mk.injEq] at h
    rw [← h.2.1]
    exact h7
  · rw [h1] at h
    cases h

theorem sequential_data_lineno (seqno : Nat) :
    ∀ (fuel : Nat) (fd fd1 : phylip_t) (g g1 : Globals) (msa : msa_t) (p : List Nat) (j : Nat)
      (r : Option msa_t),
    sequential_data fuel fd g msa seqno p j = .ret (r, fd1, g1) → fd1.lineno = fd.lineno := by
  intro fuel
  induction fuel with
  | zero => intro fd fd1 g g1 msa p j r h; simp [sequential_data] at h
  | succ fuel ih =>
    intro fd fd1 g g1 msa p j r h
    rw [sequential_data] at h
    cases hd : dfa_parse fd g msa p seqno j with
    | fatal x => rw [hd] at h; cases h
    | nomem => rw [hd] at h; cases h
    | undefined => rw [hd] at h; cases h
    | ret v =>
      obtain ⟨c, fd2, g2, m2⟩ := v
      have hln := dfa_parse_lineno fd fd2 g g2 msa m2 p seqno j c hd
      rw [hd] at h
      cases c with
      | none =>
        simp only [Outcome.ret.injEq, Prod.mk.injEq] at h
        rw [← h.2.1]; exact hln
      | some cnt =>
        simp only [] at h
        by_cases hfull : ((j + cnt : Nat) : Int) = m2.length
        · rw [if_pos hfull] at h
          simp only [Outcome.ret.injEq, Prod.mk.injEq] at h
          rw [← h.2.1]; exact hln
        · rw [if_neg hfull] at h
          cases hg : getnextline fd2 with
          | fatal x => rw [hg] at h; cases h
          | nomem => rw [hg] at h; cases h
          | undefined => rw [hg] at h; cases h
          | ret w =>
            obtain ⟨l, fd3⟩ := w
            have hln3 := getnextline_lineno fd2 fd3 l hg
            rw [hg] at h
            cases l with
            | none =>
              simp only [] at h
              cases hlab : m2.labelAt seqno with
              | none => rw [hlab] at h; cases h
              | some lab =>
                rw [hlab] at h
                simp only [Outcome.ret.injEq, Prod.mk.injEq] at h
                rw [← h.2.1, hln3, hln]
            | some p1 =>
              simp only [] at h
              rw [ih _ _ _ _ _ _ _ _ h, hln3, hln]

theorem skip_emptylines_lineno : ∀ (fuel : Nat) (fd fd1 : phylip_t),
    skip_emptylines fuel fd = .ret fd1 → fd1.lineno = fd.lineno := by
  intro fuel
  induction fuel with
  | zero => intro fd fd1 h; simp [skip_emptylines] at h
  | succ fuel ih =>
    intro fd fd1 h
    rw [skip_emptylines] at h
    cases hline : fd.line with
    | none => rw [hline] at h; cases h
    | some line =>
      rw [hline] at h
      simp only [] at h
      by_cases he : emptyline line = 1
      · rw [if_pos he] at h
        cases hg : getnextline fd with
        | fatal x => rw [hg] at h; cases h
        | nomem => rw [hg] at h; cases h
        | undefined => rw [hg] at h; cases h
        | ret w =>
          obtain ⟨l, fd2⟩ := w
          rw [hg] at h
          rw [ih _ _ h, getnextline_lineno fd fd2 l hg]
      · rw [if_neg he] at h
        simp only [Outcome.ret.injEq] at h
        rw [h]

/-- Blank lines before the next taxon are skipped; the line number stays. -/
theorem sequential_taxa_skip (msa : msa_t) (k : Nat) (g : Globals) (rest : List (List Nat)) :
    ∀ (blanks : List (List Nat)) (fuel : Nat) (fd : phylip_t),
    (∀ b ∈ blanks, Blank b) → Reads fd (blanks ++ rest) → fd.fp.length < fuel →
    ∃ fd1 fuel1, sequential_taxa fuel fd g msa k = sequential_taxa fuel1 fd1 g msa k ∧
      Reads fd1 rest ∧ fd1.chrstatus = fd.chrstatus ∧ fd1.lineno = fd.lineno ∧
      fd1.fp.length < fuel1 := by
  intro blanks
  induction blanks with
  | nil =>
    intro fuel fd _ hr hfuel
    exact ⟨fd, fuel, rfl, by simpa using hr, rfl, rfl, hfuel⟩
  | cons b blanks ih =>
    intro fuel fd hb hr hfuel
    cases fuel with
    | zero => omega
    | succ fuel =>
      obtain ⟨fp1, hget, hr1, hlen1⟩ := getnextline_reads fd b (blanks ++ rest) (by simpa using hr)
      have hbl : skipws b = [] := hb b (by simp)
      obtain ⟨fd1, fuel1, heq, hr2, hchr, hln, hf1⟩ :=
        ih fuel { fd with fp := fp1, line := some b } (fun x hx => hb x (by simp [hx])) hr1
          (by simp; omega)
      refine ⟨fd1, fuel1, ?_, hr2, by simpa using hchr, by simpa using hln, hf1⟩
      rw [sequential_taxa, hget]
      simp only [hbl]
      exact heq

/-- The taxa loop over complete taxa that are not the last ones of the block:
the state in which it goes on with the next taxon. -/
theorem sequential_taxa_through (t : Nat → Nat) (n L : Nat) (g : Globals)
    (tail : List (List Nat)) :
    ∀ (recs : List TaxonLines) (k fuel : Nat) (fd : phylip_t)
      (labels : List (Option (List Nat))) (contents : List (List Nat)),
    fd.chrstatus = t → k + recs.length < n → labels.length = n →
    contents.length = n → (∀ i, k ≤ i → i < n → contents[i]? = some []) →
    (∀ r ∈ recs, r.ok t L) →
    Reads fd ((recs.map TaxonLines.lines).flatten ++ tail) → fd.fp.length < fuel →
    ∃ fd1 fuel1,
      sequential_taxa fuel fd g (msaOf n L labels contents) k =
        sequential_taxa fuel1 fd1 g
          (msaOf n L (afterRecs t recs k (labels, contents)).1
            (afterRecs t recs k (labels, contents)).2) (k + recs.length) ∧
      Reads fd1 tail ∧ fd1.chrstatus = t ∧ fd1.lineno = fd.lineno ∧ fd1.fp.length < fuel1 := by
  intro recs
  induction recs with
  | nil =>
    intro k fuel fd labels contents ht _ hll hcl hfresh _ hr hfuel
    exact ⟨fd, fuel, rfl, by simpa using hr, ht, rfl, hfuel⟩
  | cons r recs ih =>
    intro k fuel fd labels contents ht hk hll hcl hfresh hok hr hfuel
    obtain ⟨hblank, hfirst, hfills⟩ := hok r (by simp)
    simp only [List.length_cons] at hk
    have hr0 : Reads fd (r.blanks ++ (r.first :: (r.more ++
        ((recs.map TaxonLines.lines).flatten ++ tail)))) := by
      simpa [TaxonLines.lines, List.append_assoc] using hr
    obtain ⟨fd1, fuel1, heq, hr1, hchr1, hln1, hf1⟩ :=
      sequential_taxa_skip (msaOf n L labels contents) k g _ r.blanks fuel fd hblank hr0 hfuel
    rw [heq]
    cases fuel1 with
    | zero => omega
    | succ fuel1 =>
      obtain ⟨fp2, hget, hr2, hlen2⟩ := getnextline_reads fd1 _ _ hr1
      obtain ⟨c, p0, hp⟩ := List.exists_cons_of_ne_nil hfirst
      have hws := skipws_head _ _ _ hp
      have hdata : r.data = (c :: p0).drop (headerlen (c :: p0)) :: r.more := by
        simp [TaxonLines.data, hp]
      have hlab : r.label = (c :: p0).take (headerlen (c :: p0)) := by
        simp [TaxonLines.label, hp]
      rw [hdata] at hfills
      have hk0 : (contents)[k]? = some [] := hfresh k (le_refl _) (by omega)
      obtain ⟨fd3, hdat, hr3, hchr3, hle3⟩ :=
        sequential_data_fills t n L k (labels.set k (some r.label))
          ((recs.map TaxonLines.lines).flatten ++ tail) r.more
          ((c :: p0).drop (headerlen (c :: p0))) (fp2.length + 1)
          { fd1 with fp := fp2, line := some r.first } g contents []
          (by simp [hchr1, ht]) (by simpa using hfills) hr2 (by simp) hk0
      have hln3 := sequential_data_lineno k _ _ _ _ _ _ _ _ _ hdat
      simp only [List.length_nil, List.nil_append] at hdat
      have hseq : accepted t (((c :: p0).drop (headerlen (c :: p0)) :: r.more).flatten) =
          r.seq t := by
        simp [TaxonLines.seq, hdata]
      rw [hseq] at hdat
      obtain ⟨fd4, fuel4, hrec, hr4, hchr4, hln4, hf4⟩ :=
        ih (k + 1) fuel1 fd3 (labels.set k (some r.label)) (contents.set k (r.seq t))
          hchr3 (by omega) (by simp; omega) (by simp; omega)
          (by
            intro i hi hin
            rw [List.getElem?_set_ne (by omega)]
            exact hfresh i (by omega) hin)
          (fun x hx => hok x (by simp [hx])) hr3 (by simp at hle3; omega)
      refine ⟨fd4, fuel4, ?_, hr4, hchr4, by rw [hln4, hln3]; simpa using hln1, hf4⟩
      rw [sequential_taxa, hget]
      simp only [hp]
      rw [if_neg (by simp only [msaOf]; norm_cast; omega), if_neg (headerlen_pos c p0 hws),
        ← hlab, msaOf_setLabel n L labels contents k r.label (by omega)]
      simp only []
      rw [hdat]
      simp only []
      rw [if_neg (by simp only [msaOf]; norm_cast; omega), hrec]
      simp only [afterRecs, List.length_cons]
      congr 1
      omega

/-- The state after complete taxa depends on their label lines and data lines
only, not on the blank lines before them. -/
theorem afterRecs_congr (t : Nat → Nat) :
    ∀ (recs recs1 : List TaxonLines) (k : Nat)
      (s : List (Option (List Nat)) × List (List Nat)),
    recs1.map (fun r => (r.first, r.more)) = recs.map (fun r => (r.first, r.more)) →
    afterRecs t recs1 k s = afterRecs t recs k s := by
  intro recs
  induction recs with
  | nil =>
    intro recs1 k s h
    have : recs1 = [] := by simpa using h
    rw [this]
  | cons r recs ih =>
    intro recs1 k s h
    cases recs1 with
    | nil => simp at h
    | cons r1 recs1 =>
      simp only [List.map_cons, List.cons.injEq, Prod.mk.injEq] at h
      obtain ⟨⟨hf, hm⟩, hrest⟩ := h
      have hl : r1.label = r.label := by simp [TaxonLines.label, hf]
      have hs : r1.seq t = r.seq t := by simp [TaxonLines.seq, TaxonLines.data, hf, hm]
      simp only [afterRecs, hl, hs]
      exact ih recs1 (k + 1) _ hrest
theorem msa_alloc_ret (count length : Int) (msa : msa_t)
    (h : msa_alloc count length = .ret msa) (h0 : count ≠ 0) : 0 < count ∧ 0 ≤ length := by
  unfold msa_alloc at h
  by_cases h1 : count < 0
  · rw [if_pos h1] at h; cases h
  · rw [if_neg h1, if_neg h0] at h
    by_cases h2 : length + 1 < 0
    · rw [if_pos h2] at h; cases h
    · rw [if_neg h2] at h
      by_cases h3 : length + 1 = 0
      · rw [if_pos h3] at h; cases h
      · exact ⟨by omega, by omega⟩

/-- The sequential parser on a cursor that stands on blank lines and a header:
what it does from the header on. -/
theorem parse_sequential_from_header (fd : phylip_t) (g : Globals)
    (blanks : List (List Nat)) (hdr : List Nat) (body : List (List Nat))
    (hon : OnLines fd (blanks ++ hdr :: body)) (hb : ∀ b ∈ blanks, Blank b)
    (hnb : ¬ Blank hdr) :
    ∃ fd1, fd1.chrstatus = fd.chrstatus ∧ fd1.lineno = fd.lineno ∧ Reads fd1 body ∧
      phylip_parse_sequential fd g =
        (match parse_header hdr PHYLIP_SEQUENTIAL g with
         | (none, g1) => .ret (none, fd1, g1)
         | (some (count, length), g1) =>
           match msa_alloc count length with
           | .ret msa => sequential_taxa (fd1.fp.length + 1) fd1 g1 msa 0
           | .fatal m => .fatal m
           | .nomem => .nomem
           | .undefined => .undefined) := by
  obtain ⟨fd1, hskip, hl1, hr1, hchr1, _⟩ :=
    skip_emptylines_spec hdr body blanks (fd.fp.length + 2) fd hb hnb hon (by omega)
  refine ⟨fd1, hchr1, skip_emptylines_lineno _ _ _ hskip, hr1, ?_⟩
  unfold phylip_parse_sequential
  rw [hskip]
  simp only [hl1]

theorem records_congr (t : Nat → Nat) :
    ∀ (recs recs1 : List TaxonLines),
    recs1.map (fun r => (r.first, r.more)) = recs.map (fun r => (r.first, r.more)) →
    recs1.map (fun r => some r.label) = recs.map (fun r => some r.label) ∧
    recs1.map (TaxonLines.seq t) = recs.map (TaxonLines.seq t) ∧
    recs1.length = recs.length := by
  intro recs
  induction recs with
  | nil =>
    intro recs1 h
    have : recs1 = [] := by simpa using h
    rw [this]
    simp
  | cons r recs ih =>
    intro recs1 h
    cases recs1 with
    | nil => simp at h
    | cons r1 recs1 =>
      simp only [List.map_cons, List.cons.injEq, Prod.mk.injEq] at h
      obtain ⟨⟨hf, hm⟩, hrest⟩ := h
      have hl : r1.label = r.label := by simp [TaxonLines.label, hf]
      have hs : r1.seq t = r.seq t := by simp [TaxonLines.seq, TaxonLines.data, hf, hm]
      obtain ⟨h1, h2, h3⟩ := ih recs1 hrest
      simp [hl, hs, h1, h2, h3]

theorem ok_congr (t : Nat → Nat) (L : Nat) :
    ∀ (recs recs1 : List TaxonLines),
    recs1.map (fun r => (r.first, r.more)) = recs.map (fun r => (r.first, r.more)) →
    (∀ r ∈ recs, r.ok t L) → (∀ r ∈ recs1, ∀ b ∈ r.blanks, Blank b) →
    ∀ r ∈ recs1, r.ok t L := by
  intro recs
  induction recs with
  | nil =>
    intro recs1 h _ _ r hr
    have : recs1 = [] := by simpa using h
    rw [this] at hr
    simp at hr
  | cons r0 recs ih =>
    intro recs1 h hok hbl r hr
    cases recs1 with
    | nil => simp at hr
    | cons r1 recs1 =>
      simp only [List.map_cons, List.cons.injEq, Prod.mk.injEq] at h
      obtain ⟨⟨hf, hm⟩, hrest⟩ := h
      simp only [List.mem_cons] at hr
      rcases hr with rfl | hr
      · obtain ⟨_, h2, h3⟩ := hok r0 (by simp)
        refine ⟨hbl r (by simp), by rw [hf]; exact h2, ?_⟩
        have : r.data = r0.data := by simp [TaxonLines.data, hf, hm]
        rw [this]; exact h3
      · exact ih recs1 hrest (fun x hx => hok x (by simp [hx]))
          (fun x hx => hbl x (by simp [hx])) r hr

/-! ## Lemmas: blank input, signed bytes, negative headers, taxa that are all missing -/

/-- The loop that skips the blank lines before the header, on a cursor that
has blank lines only: it reads to the end of the stream and then tests the
line buffer that `getnextline` has released. -/
theorem skip_emptylines_blank :
    ∀ (ls : List (List Nat)) (l : List Nat) (fuel : Nat) (fd : phylip_t),
    (∀ b ∈ l :: ls, Blank b) → fd.line = some l → Reads fd ls →
    skip_emptylines fuel fd = .undefined := by
  intro ls
  induction ls with
  | nil =>
    intro l fuel fd hb hl hr
    cases fuel with
    | zero => rfl
    | succ fuel =>
      rw [skip_emptylines, hl]
      simp only []
      rw [if_pos ((emptyline_blank l).mpr (hb l (by simp))), getnextline_reads_nil fd hr]
      simp only []
      cases fuel with
      | zero => rfl
      | succ fuel => rw [skip_emptylines]
  | cons l2 ls ih =>
    intro l fuel fd hb hl hr
    cases fuel with
    | zero => rfl
    | succ fuel =>
      obtain ⟨fp1, hget, hr1, _⟩ := getnextline_reads fd l2 ls hr
      rw [skip_emptylines, hl]
      simp only []
      rw [if_pos ((emptyline_blank l).mpr (hb l (by simp))), hget]
      simp only []
      exact ih l2 fuel _ (fun b hb2 => hb b (by simp [hb2])) rfl hr1

theorem schar_high (c : Nat) (h1 : 128 ≤ c) (h2 : c < 256) : schar c = (c : Int) - 256 := by
  unfold schar
  rw [Nat.mod_eq_of_lt h2, if_neg (by omega)]

theorem keptSequence_missing (map : Nat → Nat) (L : Nat) (taxa : List (List Nat × List Nat))
    (h : ∀ p ∈ taxa, fullyMissing map L p.2 = true) :
    taxa.map (keptSequence map L) = List.replicate taxa.length none ∧
    taxa.map (keptLabel map L) = List.replicate taxa.length none := by
  induction taxa with
  | nil => simp
  | cons p taxa ih =>
    obtain ⟨h1, h2⟩ := ih (fun q hq => h q (by simp [hq]))
    have hp := h p (by simp)
    simp [keptSequence, keptLabel, hp, h1, h2, List.replicate_succ]

/-! ## Lemmas: the bounds of `dfa_parse` -/

theorem labelAt_of_label (msa msa1 : msa_t) (seqno : Nat) (h : msa1.label = msa.label) :
    msa1.labelAt seqno = msa.labelAt seqno := by
  unfold msa_t.labelAt
  rw [h]

/-- The loop of `dfa_parse` on a line of bytes below 128, entered with `j`
bytes stored: it returns; of the row of the taxon only cells from `offset + j`
up to `L - 1` can have changed; and it reports a sequence that is too long
exactly when more data bytes than the row has room for come before the first
fatal byte. -/
theorem dfa_parse_loop_bounds (t : Nat → Nat) (seqno offset L : Nat) (lab : List Nat) :
    ∀ (p : List Nat) (j : Nat) (fd : phylip_t) (g : Globals) (msa : msa_t) (buf : List Nat),
    fd.chrstatus = t → (∀ c ∈ p, c < 128) → msa.sequence[seqno]? = some (some buf) →
    msa.labelAt seqno = some lab → msa.length = (L : Int) → L < buf.length →
    offset + j ≤ L →
    ∃ (r : Option Nat) (fd1 : phylip_t) (g1 : Globals) (buf1 : List Nat),
      dfa_parse_loop seqno offset p j fd g msa =
        .ret (r, fd1, g1, { msa with sequence := msa.sequence.set seqno (some buf1) }) ∧
      buf1.length = buf.length ∧
      (∀ i, i < offset + j ∨ L ≤ i → buf1[i]? = buf[i]?) ∧
      ((r = none ∧ g1.bpp_errno = ERROR_PHYLIP_LONGSEQ) ↔
        L < offset + j + (accepted t (beforeFatal t p)).length) := by
  intro p
  induction p with
  | nil =>
    intro j fd g msa buf _ _ hrow _ _ _ _
    refine ⟨some j, fd, g, buf, ?_, rfl, fun _ _ => rfl, ?_⟩
    · rw [dfa_parse_loop, set_same _ _ _ hrow]
    · simp [beforeFatal, accepted]
      omega
  | cons c p ih =>
    intro j fd g msa buf ht hbyte hrow hlab hL hroom hoff
    have hc : c < 128 := hbyte c (by simp)
    have hp : ∀ x ∈ p, x < 128 := fun x hx => hbyte x (by simp [hx])
    have hcl : chrclass t c = some (t c % 256) := by
      unfold chrclass
      rw [tableAt_small t c hc]
      rfl
    rw [dfa_parse_loop, ht, hcl]
    rcases hk : t c % 256 with _ | _ | _ | k
    · -- stripped
      have hbf : accepted t (beforeFatal t (c :: p)) = accepted t (beforeFatal t p) := by
        simp [beforeFatal, accepted, hcl, hk, List.takeWhile_cons]
      rw [hbf]
      simp only []
      exact ih j _ g msa buf rfl hp hrow hlab hL hroom hoff
    · -- data
      have hbf : (accepted t (beforeFatal t (c :: p))).length =
          (accepted t (beforeFatal t p)).length + 1 := by
        simp [beforeFatal, accepted, hcl, hk, List.takeWhile_cons]
      rw [hbf]
      simp only [Nat.zero_add]
      by_cases hfull : msa.length ≤ ((offset + j : Nat) : Int)
      · rw [if_pos hfull, hlab]
        simp only []
        refine ⟨none, fd, { bpp_errno := ERROR_PHYLIP_LONGSEQ,
                            bpp_errmsg := msg_longseq seqno lab }, buf, ?_, rfl,
          fun _ _ => rfl, ?_⟩
        · rw [set_same _ _ _ hrow]
        · simp only [true_and]
          rw [hL] at hfull
          constructor
          · intro _
            have : L ≤ offset + j := by exact_mod_cast hfull
            omega
          · intro _; trivial
      · rw [if_neg hfull]
        rw [hL] at hfull
        have hlt : offset + j < L := by
          by_contra h
          exact hfull (by exact_mod_cast (Nat.le_of_not_lt h))
        have hst : msa.store seqno (offset + j) c =
            some { msa with sequence := msa.sequence.set seqno (some (buf.set (offset + j) c)) } := by
          unfold msa_t.store
          rw [hrow]
          simp only []
          rw [if_pos (by omega)]
        rw [hst]
        simp only []
        have hsl : seqno < msa.sequence.length := by
          by_contra h
          rw [List.getElem?_eq_none (by omega)] at hrow
          simp at hrow
        obtain ⟨r, fd1, g1, buf1, hrun, hlen, hsame, hiff⟩ :=
          ih (j + 1) fd g
            { msa with sequence := msa.sequence.set seqno (some (buf.set (offset + j) c)) }
            (buf.set (offset + j) c) ht hp
            (by simp [List.getElem?_set_self, hsl])
            (by rw [← hlab]; exact labelAt_of_label _ _ _ rfl) hL (by simpa using hroom)
            (by omega)
        refine ⟨r, fd1, g1, buf1, ?_, by simpa using hlen, ?_, ?_⟩
        · rw [hrun]
          simp [List.set_set]
        · intro i hi
          rw [hsame i (by omega), List.getElem?_set_ne (by omega)]
        · rw [hiff]
          omega
    · -- fatal
      have hbf : accepted t (beforeFatal t (c :: p)) = [] := by
        simp [beforeFatal, accepted, hcl, hk, List.takeWhile_cons]
      rw [hbf]
      simp only [Nat.zero_add]
      by_cases h32 : 32 ≤ schar c
      · rw [if_pos h32]
        refine ⟨none, fd, { bpp_errno := ERROR_PHYLIP_ILLEGALCHAR,
                            bpp_errmsg := msg_illegal c fd.lineno }, buf, ?_, rfl,
          fun _ _ => rfl, ?_⟩
        · rw [set_same _ _ _ hrow]
        · simp [ERROR_PHYLIP_ILLEGALCHAR, ERROR_PHYLIP_LONGSEQ]
          omega
      · rw [if_neg h32]
        refine ⟨none, fd, { bpp_errno := ERROR_PHYLIP_UNPRINTABLECHAR,
                            bpp_errmsg := msg_unprintable c fd.lineno }, buf, ?_, rfl,
          fun _ _ => rfl, ?_⟩
        · rw [set_same _ _ _ hrow]
        · simp [ERROR_PHYLIP_UNPRINTABLECHAR, ERROR_PHYLIP_LONGSEQ]
          omega
    · -- any other class
      have hbf : accepted t (beforeFatal t (c :: p)) = accepted t (beforeFatal t p) := by
        simp [beforeFatal, accepted, hcl, hk, List.takeWhile_cons]
      rw [hbf]
      simp only []
      exact ih j _ g msa buf ht hp hrow hlab hL hroom hoff

/-! ## Lemmas: `remove_ambiguous` on a vector of marks -/

/-- A vector of marks (0 or 1 for every site) is the vector of marks of a row
that holds the marks themselves, under the table that maps every byte to
itself. -/
theorem marks_ambiguousSite (amb0 : List Int) (h01 : ∀ a ∈ amb0, a = 0 ∨ a = 1) (c : Nat)
    (hc : c < amb0.length) :
    ambiguousSite (fun x => x) [amb0.map Int.toNat] c = (amb0.getD c 0 != 0) := by
  have hget : amb0[c]? = some (amb0[c]) := List.getElem?_eq_getElem hc
  have hmem : amb0[c] ∈ amb0 := List.getElem_mem hc
  simp only [ambiguousSite, List.any_cons, List.any_nil, Bool.or_false]
  rw [List.getD_eq_getElem?_getD, List.getD_eq_getElem?_getD, List.getElem?_map, hget]
  simp only [Option.map_some', Option.getD_some]
  rcases h01 _ hmem with h | h <;> rw [h] <;> rfl

theorem marks_siteMarks (amb0 : List Int) (h01 : ∀ a ∈ amb0, a = 0 ∨ a = 1) :
    siteMarks (fun x => x) [amb0.map Int.toNat] amb0.length = amb0 := by
  apply List.ext_getElem?
  intro c
  by_cases hc : c < amb0.length
  · rw [siteMarks_getElem? _ _ _ _ hc, marks_ambiguousSite amb0 h01 c hc]
    have hget : amb0[c]? = some (amb0[c]) := List.getElem?_eq_getElem hc
    have hmem : amb0[c] ∈ amb0 := List.getElem_mem hc
    rw [List.getD_eq_getElem?_getD, hget]
    simp only [Option.getD_some]
    rcases h01 _ hmem with h | h <;> rw [h] <;> rfl
  · rw [List.getElem?_eq_none (by rw [siteMarks_length]; omega),
      List.getElem?_eq_none (by omega)]

/-- What `remove_ambiguous` does with a vector of marks of which not all are
set: it returns 1, with the rows rearranged by one map `s` for all of them and
cut behind the sites that are not marked. -/
theorem remove_ambiguous_marks (msa : msa_t) (rows : List (List Nat)) (amb0 : List Int)
    (hlen : msa.length = (amb0.length : Int)) (hc : msa.count = rows.length)
    (hs : msa.sequence = rows.map some) (hr : ∀ buf ∈ rows, amb0.length < buf.length)
    (h01 : ∀ a ∈ amb0, a = 0 ∨ a = 1) (hna : ∃ c : Nat, amb0[c]? = some 0) :
    ∃ (s : Equiv.Perm Nat) (n : Nat),
      MoveDone amb0 s n ∧ (n : Int) = msa.length - amb0.sum ∧
      remove_ambiguous msa amb0 =
        .ret (1, { msa with
          length := (n : Int),
          sequence := rows.map (fun buf => some ((permuteCells 0 s buf).set n 0)) }) := by
  have henc := marks_siteMarks amb0 h01
  have hsumc : amb0.sum = (ambiguousCount (fun x => x) [amb0.map Int.toNat] amb0.length : Int) := by
    rw [← siteMarks_sum, henc]
  have hle := ambiguousCount_le (fun x => x) [amb0.map Int.toNat] amb0.length
  have hne : ambiguousCount (fun x => x) [amb0.map Int.toNat] amb0.length ≠ amb0.length := by
    intro heq
    obtain ⟨c, hc0⟩ := hna
    have hcl : c < amb0.length := by
      by_contra h
      rw [List.getElem?_eq_none (by omega)] at hc0
      simp at hc0
    have h1 := (ambiguousCount_eq_iff _ _ _).mp heq c hcl
    rw [marks_ambiguousSite amb0 h01 c hcl, List.getD_eq_getElem?_getD, hc0] at h1
    simp at h1
  have hsum : sum_marks amb0 msa.length.toNat 0 0 = some amb0.sum := by
    rw [sum_marks_spec amb0 msa.length.toNat 0 0 (by rw [hlen]; simp)]
    simp
  have hLn : msa.length.toNat = amb0.length := by rw [hlen]; simp
  obtain ⟨s1, n, hmove, hdone⟩ :=
    move_ambiguous_spec amb0 rows hr (msa.length.toNat + 1) 0 (msa.length - 1)
      (Equiv.refl Nat) msa hlen hc
      (by
        simp only [hs]
        apply List.map_congr_left
        intro buf _
        rw [permuteCells_id 0 (⇑(Equiv.refl Nat)) buf (fun c _ => rfl)])
      (by
        simp only [MoveInv]
        refine ⟨fun c _ => rfl, by omega, by omega, fun c hc => by omega,
          fun c h1 h2 => by omega, fun c _ _ => rfl, fun c hc => by omega,
          fun c hc => by omega, fun c d _ hd => by omega⟩)
      (by omega)
  have hn := moveDone_count (fun x => x) [amb0.map Int.toNat] amb0.length s1 n
    (by rw [henc]; exact hdone)
  refine ⟨s1, n, hdone, by rw [hsumc, hlen]; omega, ?_⟩
  rw [permuteCells_id (0 : Int) (⇑(Equiv.refl Nat)) _ (fun c _ => rfl)] at hmove
  simp only [remove_ambiguous]
  rw [hsum]
  simp only []
  rw [if_neg (by rw [hsumc, hlen]; exact_mod_cast hne), hmove]
  simp only []
  have hterm := terminate_rows_spec (msa.length - amb0.sum) (by rw [hsumc, hlen]; omega)
    rows.length 0 (rows.map (permuteCells 0 s1)) [] rfl (by simp)
    (by
      intro buf hb
      simp only [List.mem_map] at hb
      obtain ⟨b0, hb0, rfl⟩ := hb
      rw [permuteCells_length]
      have := hr b0 hb0
      rw [hsumc, hlen]
      omega)
  have hcn : msa.count.toNat = rows.length := by rw [hc]; simp
  have htn : (msa.length - amb0.sum).toNat = n := by rw [hsumc, hlen]; omega
  simp only [List.nil_append, List.map_map, htn] at hterm
  rw [hcn]
  rw [show (fun buf => some (permuteCells (0 : Nat) (⇑s1) buf)) =
    (some ∘ permuteCells (0 : Nat) ⇑s1) from rfl, hterm]
  simp only [Outcome.ret.injEq, Prod.mk.injEq, true_and]
  congr 1
  rw [hsumc, hlen]
  omega

/-! ## Lemmas: the cursor after a block -/

/-- The data lines of one taxon, read to the end of the line on which the row
becomes full: that line is the one the line buffer holds afterwards. -/
theorem sequential_data_line (t : Nat → Nat) (n L k : Nat) (labels : List (Option (List Nat)))
    (tail : List (List Nat)) :
    ∀ (ds : List (List Nat)) (d : List Nat) (fuel : Nat) (fd : phylip_t) (g : Globals)
      (contents : List (List Nat)) (cur l0 : List Nat),
    fd.chrstatus = t → Fills t L cur.length (d :: ds) → Reads fd (ds ++ tail) →
    fd.fp.length < fuel → contents[k]? = some cur → fd.line = some l0 →
    ∃ fd1, sequential_data fuel fd g (msaOf n L labels contents) k d cur.length =
        .ret (some (msaOf n L labels
                (contents.set k (cur ++ accepted t (d :: ds).flatten))), fd1, g) ∧
      Reads fd1 tail ∧ fd1.chrstatus = t ∧ fd1.fp.length ≤ fd.fp.length ∧
      fd1.line = (l0 :: ds).getLast? := by
  intro ds
  induction ds with
  | nil =>
    intro d fuel fd g contents cur l0 ht hf hr hfuel hk hline
    obtain ⟨hclean, hcase⟩ := hf
    have hlen : cur.length + (accepted t d).length = L := by
      rcases hcase with ⟨_, h⟩ | ⟨_, h⟩
      · exact h
      · simp [Fills] at h
    cases fuel with
    | zero => omega
    | succ fuel =>
      subst ht
      refine ⟨strip_counts fd d, ?_, ?_, strip_counts_chr fd d, by rw [strip_counts_fp], ?_⟩
      · rw [sequential_data, dfa_parse_clean fd g n L labels contents k cur d hk hclean (by omega)]
        simp only []
        rw [if_pos (by simp only [msaOf]; norm_cast)]
        simp
      · exact ⟨by rw [strip_counts_fp]; simpa using hr.1, by simpa using hr.2⟩
      · rw [(strip_counts_chrstatus fd d).2.2.1, hline]
        rfl
  | cons d2 ds ih =>
    intro d fuel fd g contents cur l0 ht hf hr hfuel hk hline
    obtain ⟨hclean, hcase⟩ := hf
    have hlt : cur.length + (accepted t d).length < L ∧
        Fills t L (cur.length + (accepted t d).length) (d2 :: ds) := by
      rcases hcase with ⟨h, _⟩ | h
      · simp at h
      · exact h
    cases fuel with
    | zero => omega
    | succ fuel =>
      subst ht
      have hr1 : Reads (strip_counts fd d) (d2 :: (ds ++ tail)) :=
        ⟨by rw [strip_counts_fp]; simpa using hr.1, by simpa using hr.2⟩
      obtain ⟨fp1, hget, hr2, hlen2⟩ := getnextline_reads _ _ _ hr1
      have hk2 : (contents.set k (cur ++ accepted fd.chrstatus d))[k]? =
          some (cur ++ accepted fd.chrstatus d) := by
        have hltk : k < contents.length := by
          by_contra hge
          rw [List.getElem?_eq_none (by omega)] at hk
          simp at hk
        simp [List.getElem?_set_self, hltk]
      have hf2 : Fills fd.chrstatus L (cur ++ accepted fd.chrstatus d).length (d2 :: ds) := by
        simpa using hlt.2
      rw [strip_counts_fp] at hlen2
      obtain ⟨fd1, hrec, hr3, hchr, hlen3, hline3⟩ :=
        ih d2 fuel { strip_counts fd d with fp := fp1, line := some d2 } g
          (contents.set k (cur ++ accepted fd.chrstatus d)) (cur ++ accepted fd.chrstatus d) d2
          (by simp [strip_counts_chr]) hf2 hr2 (by simp; omega) hk2 rfl
      refine ⟨fd1, ?_, hr3, by simpa [strip_counts_chr] using hchr, by simp at hlen3; omega, ?_⟩
      · rw [sequential_data, dfa_parse_clean fd g n L labels contents k cur d hk hclean (by omega)]
        simp only []
        rw [if_neg (by simp only [msaOf]; norm_cast; omega), hget]
        simp only []
        simp only [List.length_append] at hrec
        rw [hrec]
        simp [List.set_set, accepted_append, strip_counts_chr]
      · rw [hline3]
        simp [List.getLast?_cons_cons]

/-- The taxa of a block read to the last one: the line buffer holds the last
line of the last taxon afterwards. -/
theorem sequential_taxa_line (t : Nat → Nat) (n L : Nat) (g : Globals)
    (tail : List (List Nat)) :
    ∀ (recs : List TaxonLines) (k fuel : Nat) (fd : phylip_t)
      (labels : List (Option (List Nat))) (contents : List (List Nat)),
    fd.chrstatus = t → recs ≠ [] → k + recs.length = n → labels.length = n →
    contents.length = n → (∀ i, k ≤ i → i < n → contents[i]? = some []) →
    (∀ r ∈ recs, r.ok t L) →
    Reads fd ((recs.map TaxonLines.lines).flatten ++ tail) → fd.fp.length < fuel →
    ∃ fd1, sequential_taxa fuel fd g (msaOf n L labels contents) k =
        .ret (some (msaOf n L (labels.take k ++ recs.map (fun r => some r.label))
                (contents.take k ++ recs.map (TaxonLines.seq t))), fd1, g) ∧
      Reads fd1 tail ∧ fd1.chrstatus = t ∧ fd1.fp.length ≤ fd.fp.length ∧
      ∃ r, recs.getLast? = some r ∧ fd1.line = (r.first :: r.more).getLast? := by
  intro recs
  induction recs with
  | nil => intro k fuel fd labels contents _ h; exact absurd rfl h
  | cons r recs ih =>
    intro k fuel fd labels contents ht _ hk hll hcl hfresh hok hr hfuel
    obtain ⟨hblank, hfirst, hfills⟩ := hok r (by simp)
    simp only [List.length_cons] at hk
    have hr0 : Reads fd (r.blanks ++ (r.first :: (r.more ++
        ((recs.map TaxonLines.lines).flatten ++ tail)))) := by
      simpa [TaxonLines.lines, List.append_assoc] using hr
    obtain ⟨fd1, fuel1, heq, hr1, hchr1, hf1, hle1⟩ :=
      sequential_taxa_blanks (msaOf n L labels contents) k g _ r.blanks fuel fd hblank hr0 hfuel
    rw [heq]
    cases fuel1 with
    | zero => omega
    | succ fuel1 =>
      obtain ⟨fp2, hget, hr2, hlen2⟩ := getnextline_reads fd1 _ _ hr1
      obtain ⟨c, p0, hp⟩ := List.exists_cons_of_ne_nil hfirst
      have hws := skipws_head _ _ _ hp
      have hdata : r.data = (c :: p0).drop (headerlen (c :: p0)) :: r.more := by
        simp [TaxonLines.data, hp]
      have hlab : r.label = (c :: p0).take (headerlen (c :: p0)) := by
        simp [TaxonLines.label, hp]
      rw [hdata] at hfills
      have hk0 : (contents)[k]? = some [] := hfresh k (le_refl _) (by omega)
      obtain ⟨fd3, hdat, hr3, hchr3, hle3, hline3⟩ :=
        sequential_data_line t n L k (labels.set k (some r.label))
          ((recs.map TaxonLines.lines).flatten ++ tail) r.more
          ((c :: p0).drop (headerlen (c :: p0))) (fp2.length + 1)
          { fd1 with fp := fp2, line := some r.first } g contents [] r.first
          (by simp [hchr1, ht]) (by simpa using hfills) hr2 (by simp) hk0 rfl
      simp only [List.length_nil, List.nil_append] at hdat
      have hseq : accepted t (((c :: p0).drop (headerlen (c :: p0)) :: r.more).flatten) =
          r.seq t := by
        simp [TaxonLines.seq, hdata]
      rw [hseq] at hdat
      rw [sequential_taxa, hget]
      simp only [hp]
      rw [if_neg (by simp only [msaOf]; norm_cast; omega), if_neg (headerlen_pos c p0 hws),
        ← hlab, msaOf_setLabel n L labels contents k r.label (by omega)]
      simp only []
      rw [hdat]
      simp only []
      by_cases hlast : recs = []
      · subst hlast
        simp only [List.length_nil] at hk
        rw [if_pos (by simp only [msaOf]; norm_cast)]
        refine ⟨fd3, ?_, by simpa using hr3, hchr3, by simp at hle3; omega, r, rfl, hline3⟩
        have e1 : labels.set k (some r.label) = labels.take k ++ [some r.label] := by
          rw [← set_take_succ labels k _ (by omega)]
          exact (take_all_of_length _ _ (by simp; omega)).symm
        have e2 : contents.set k (r.seq t) = contents.take k ++ [r.seq t] := by
          rw [← set_take_succ contents k _ (by omega)]
          exact (take_all_of_length _ _ (by simp; omega)).symm
        simp [e1, e2]
      · rw [if_neg (by simp only [msaOf]; norm_cast; have := List.length_pos.mpr hlast; omega)]
        obtain ⟨fd4, hrec, hr4, hchr4, hle4, r4, hr4l, hline4⟩ :=
          ih (k + 1) fuel1 fd3 (labels.set k (some r.label)) (contents.set k (r.seq t))
            hchr3 hlast (by omega) (by simp; omega) (by simp; omega)
            (by
              intro i hi hin
              rw [List.getElem?_set_ne (by omega)]
              exact hfresh i (by omega) hin)
            (fun x hx => hok x (by simp [hx])) hr3 (by simp at hle3; omega)
        refine ⟨fd4, ?_, hr4, hchr4, by simp at hle3; omega, r4, ?_, hline4⟩
        · rw [hrec, set_take_succ labels k _ (by omega), set_take_succ contents k _ (by omega)]
          simp [List.append_assoc]
        · obtain ⟨x, xs, rfl⟩ := List.exists_cons_of_ne_nil hlast
          rw [List.getLast?_cons_cons]
          exact hr4l

/-- A block read from its header, as `parse_sequential_locus`, with the line
the line buffer holds afterwards. -/
theorem parse_sequential_locus_line (t : Nat → Nat) (g : Globals) (b : LocusLines)
    (tail : List (List Nat)) (fd : phylip_t) (ht : fd.chrstatus = t) (hok : b.ok t g)
    (hon : OnLines fd (b.lines ++ tail)) :
    ∃ fd1, phylip_parse_sequential fd g = .ret (some (b.msa t), fd1, g) ∧
      Reads fd1 tail ∧ fd1.chrstatus = t ∧
      ∃ r, b.recs.getLast? = some r ∧ fd1.line = (r.first :: r.more).getLast? := by
  obtain ⟨hb, hh, hn, hr⟩ := hok
  have hon1 : OnLines fd (b.blanks ++ b.hdr ::
      ((b.recs.map TaxonLines.lines).flatten ++ tail)) := by
    simpa [LocusLines.lines, List.append_assoc] using hon
  obtain ⟨hnb, hn0, _, hg, _, _⟩ := parse_header_some _ _ _ _ _ hh
  have hnpos : 0 < b.count := by omega
  obtain ⟨fd1, hskip, hl1, hr1, hchr1, _⟩ :=
    skip_emptylines_spec b.hdr _ b.blanks (fd.fp.length + 2) fd hb hnb hon1 (by omega)
  have hrecs : b.recs ≠ [] := by
    intro h; rw [h] at hn; simp at hn; omega
  obtain ⟨fd2, htaxa, hr2, hchr2, _, hline⟩ :=
    sequential_taxa_line t b.count b.length g tail b.recs 0 (fd1.fp.length + 1) fd1
      (List.replicate b.count none) (List.replicate b.count []) (by rw [hchr1, ht]) hrecs
      (by omega) (by simp) (by simp)
      (by intro i _ hi; simp [List.getElem?_replicate, hi]) hr hr1 (by omega)
  refine ⟨fd2, ?_, hr2, hchr2, hline⟩
  unfold phylip_parse_sequential
  rw [hskip]
  simp only [hl1]
  have hph : parse_header b.hdr PHYLIP_SEQUENTIAL g =
      (some ((b.count : Int), (b.length : Int)), g) := Prod.ext hh hg
  rw [hph]
  simp only []
  rw [msa_alloc_ok b.count b.length hnpos]
  simp only []
  rw [htaxa]
  simp [LocusLines.msa]

/-! ## Lemmas: the score of a site pattern -/

theorem mask_bit_eq (s i : Nat) : mask_bit s i = if s.testBit i = true then 1 else 0 := by
  unfold mask_bit
  rw [Nat.and_one_is_mod, Nat.shiftRight_eq_div_pow, Nat.testBit_to_div_mod]
  by_cases h : s / 2 ^ i % 2 = 1
  · simp [h]
  · have : s / 2 ^ i % 2 = 0 := by omega
    simp [this]

theorem score_code_full (s0 s1 s2 s3 i0 i1 i2 i3 : Nat) :
    score_code s0 s1 s2 s3 i0 i1 i2 i3 = 15 ↔
      s0.testBit i0 = true ∧ s1.testBit i1 = true ∧ s2.testBit i2 = true ∧
        s3.testBit i3 = true := by
  unfold score_code
  rw [mask_bit_eq, mask_bit_eq, mask_bit_eq, mask_bit_eq]
  cases s0.testBit i0 <;> cases s1.testBit i1 <;> cases s2.testBit i2 <;>
    cases s3.testBit i3 <;> decide

theorem score_body_add (s0 s1 s2 s3 i0 i1 i2 i3 : Nat) (c : Int × Int × Int) :
    score_body s0 s1 s2 s3 i0 i1 i2 i3 c = c + score_term s0 s1 s2 s3 i0 i1 i2 i3 := by
  unfold score_term score_body
  split_ifs <;> ext <;> simp

theorem for4_add (body : Nat → Int × Int × Int → Int × Int × Int)
    (f : Nat → Int × Int × Int) (h : ∀ i c, body i c = c + f i) (a : Int × Int × Int) :
    for4 body a = a + ∑ i ∈ Finset.range 4, f i := by
  unfold for4
  simp only [List.range_succ, List.range_zero, List.nil_append, List.cons_append,
    List.foldl_cons, List.foldl_nil, h, Finset.sum_range_succ, Finset.sum_range_zero]
  abel

theorem score_loops_sum (s0 s1 s2 s3 : Nat) :
    score_loops s0 s1 s2 s3 =
      ∑ q ∈ Finset.range 4 ×ˢ Finset.range 4 ×ˢ Finset.range 4 ×ˢ Finset.range 4,
        score_term s0 s1 s2 s3 q.1 q.2.1 q.2.2.1 q.2.2.2 := by
  unfold score_loops
  rw [for4_add _ (fun i0 => ∑ i1 ∈ Finset.range 4, ∑ i2 ∈ Finset.range 4,
      ∑ i3 ∈ Finset.range 4, score_term s0 s1 s2 s3 i0 i1 i2 i3)]
  · rw [Finset.sum_product]
    simp only [Finset.sum_product, zero_add]
    exact (zero_add _)
  · intro i0 c
    rw [for4_add _ (fun i1 => ∑ i2 ∈ Finset.range 4,
      ∑ i3 ∈ Finset.range 4, score_term s0 s1 s2 s3 i0 i1 i2 i3)]
    intro i1 c
    rw [for4_add _ (fun i2 => ∑ i3 ∈ Finset.range 4, score_term s0 s1 s2 s3 i0 i1 i2 i3)]
    intro i2 c
    rw [for4_add _ (fun i3 => score_term s0 s1 s2 s3 i0 i1 i2 i3)]
    intro i3 c
    exact score_body_add s0 s1 s2 s3 i0 i1 i2 i3 c

theorem resolutions_filter (s0 s1 s2 s3 : Nat) :
    (Finset.range 4 ×ˢ Finset.range 4 ×ˢ Finset.range 4 ×ˢ Finset.range 4).filter
      (fun q => score_code s0 s1 s2 s3 q.1 q.2.1 q.2.2.1 q.2.2.2 = 15) =
      resolutions s0 s1 s2 s3 := by
  ext q
  simp only [resolutions, setBits, Finset.mem_filter, Finset.mem_product, score_code_full]
  tauto

theorem score_term_pats (s0 s1 s2 s3 i0 i1 i2 i3 : Nat) :
    (score_term s0 s1 s2 s3 i0 i1 i2 i3).1 =
      if score_code s0 s1 s2 s3 i0 i1 i2 i3 = 15 then 1 else 0 := by
  by_cases h : score_code s0 s1 s2 s3 i0 i1 i2 i3 = 15 <;> simp [score_term, score_body, h]

theorem score_term_abba (s0 s1 s2 s3 : Nat) (q : Nat × Nat × Nat × Nat) :
    (score_term s0 s1 s2 s3 q.1 q.2.1 q.2.2.1 q.2.2.2).2.1 =
      if score_code s0 s1 s2 s3 q.1 q.2.1 q.2.2.1 q.2.2.2 = 15 ∧ isABBA q then 1 else 0 := by
  by_cases h : score_code s0 s1 s2 s3 q.1 q.2.1 q.2.2.1 q.2.2.2 = 15
  · by_cases ha : q.1 = q.2.2.2 ∧ q.2.1 = q.2.2.1 ∧ q.1 ≠ q.2.1
    · rw [if_pos ⟨h, ha⟩]
      simp only [score_term, score_body, if_pos h, if_pos ha]
      rfl
    · rw [if_neg (fun hc => ha hc.2)]
      simp only [score_term, score_body, if_pos h, if_neg ha]
  · rw [if_neg (fun hc => h hc.1)]
    simp only [score_term, score_body, if_neg h]

theorem score_term_baba (s0 s1 s2 s3 : Nat) (q : Nat × Nat × Nat × Nat) :
    (score_term s0 s1 s2 s3 q.1 q.2.1 q.2.2.1 q.2.2.2).2.2 =
      if score_code s0 s1 s2 s3 q.1 q.2.1 q.2.2.1 q.2.2.2 = 15 ∧ isBABA q then 1 else 0 := by
  by_cases h : score_code s0 s1 s2 s3 q.1 q.2.1 q.2.2.1 q.2.2.2 = 15
  · by_cases ha : q.1 = q.2.2.1 ∧ q.2.1 = q.2.2.2 ∧ q.1 ≠ q.2.1
    · rw [if_pos ⟨h, ha⟩]
      simp only [score_term, score_body, if_pos h, if_pos ha]
      rfl
    · rw [if_neg (fun hc => ha hc.2)]
      simp only [score_term, score_body, if_pos h, if_neg ha]
  · rw [if_neg (fun hc => h hc.1)]
    simp only [score_term, score_body, if_neg h]

/-- The counters after the loops: the number of resolutions, and the numbers
of resolutions with the pattern ABBA and with the pattern BABA. -/
theorem score_loops_spec (s0 s1 s2 s3 : Nat) :
    score_loops s0 s1 s2 s3 =
      (((resolutions s0 s1 s2 s3).card : Int),
       ((((resolutions s0 s1 s2 s3).filter isABBA).card : Nat) : Int),
       ((((resolutions s0 s1 s2 s3).filter isBABA).card : Nat) : Int)) := by
  rw [score_loops_sum]
  ext
  · dsimp only
    rw [Prod.fst_sum, ← resolutions_filter, Finset.natCast_card_filter]
    exact Finset.sum_congr rfl (fun q _ => score_term_pats s0 s1 s2 s3 _ _ _ _)
  · dsimp only
    rw [Prod.snd_sum, Prod.fst_sum, ← resolutions_filter, Finset.filter_filter,
      Finset.natCast_card_filter]
    exact Finset.sum_congr rfl (fun q _ => score_term_abba s0 s1 s2 s3 q)
  · dsimp only
    rw [Prod.snd_sum, Prod.snd_sum, ← resolutions_filter, Finset.filter_filter,
      Finset.natCast_card_filter]
    exact Finset.sum_congr rfl (fun q _ => score_term_baba s0 s1 s2 s3 q)

theorem setBits_pos (s : Nat) (h : s % 16 ≠ 0) : 0 < (setBits s).card := by
  rw [Finset.card_pos]
  by_contra hne
  rw [Finset.not_nonempty_iff_eq_empty] at hne
  apply h
  apply Nat.eq_of_testBit_eq
  intro i
  rw [show (16 : Nat) = 2 ^ 4 from rfl, Nat.testBit_mod_two_pow, Nat.zero_testBit]
  by_cases hi : i < 4
  · have : i ∉ setBits s := by rw [hne]; simp
    simp only [setBits, Finset.mem_filter, Finset.mem_range, hi, true_and] at this
    simp [this]
  · simp [hi]

theorem resolutions_card (s0 s1 s2 s3 : Nat) :
    (resolutions s0 s1 s2 s3).card =
      (setBits s0).card * (setBits s1).card * (setBits s2).card * (setBits s3).card := by
  simp only [resolutions, Finset.card_product]
  ring

theorem abba_baba_disjoint (q : Nat × Nat × Nat × Nat) : ¬ (isABBA q ∧ isBABA q) := by
  unfold isABBA isBABA
  rintro ⟨⟨h1, h2, h3⟩, h4, h5, _⟩
  apply h3
  rw [h4, ← h2]

/-! ## Lemmas: lists -/

theorem chain_unique (h : List (Nat × list_item_t)) :
    ∀ (items1 items2 : List Nat) (p : Option Nat),
    Chain h p items1 → Chain h p items2 → items1 = items2 := by
  intro items1
  induction items1 with
  | nil =>
    intro items2 p h1 h2
    cases items2 with
    | nil => rfl
    | cons a rest =>
      simp only [Chain] at h1 h2
      rw [h1] at h2
      exact absurd h2.1 (by simp)
  | cons a rest ih =>
    intro items2 p h1 h2
    cases items2 with
    | nil =>
      simp only [Chain] at h1 h2
      rw [h2] at h1
      exact absurd h1.1 (by simp)
    | cons b rest2 =>
      simp only [Chain] at h1 h2
      obtain ⟨e1, it1, hr1, hc1⟩ := h1
      obtain ⟨e2, it2, hr2, hc2⟩ := h2
      rw [e1] at e2
      simp only [Option.some.injEq] at e2
      subst e2
      rw [hr1] at hr2
      simp only [Option.some.injEq] at hr2
      subst hr2
      rw [ih rest2 _ hc1 hc2]
/-- The other operations on the list of the two items, as a check of the
model: appending, prepending, removing the first item, moving the first item
to the end and clearing leave a well-formed list. -/
theorem list_operations_example :
    (∃ h1 l1, list_append two_items two_item_list 30 = .ret (1, h1, l1) ∧
      WellFormed h1 l1 [1, 2, 3]) ∧
    (∃ h1 l1, list_prepend two_items two_item_list 30 = .ret (1, h1, l1) ∧
      WellFormed h1 l1 [3, 1, 2]) ∧
    (∃ h1 l1, list_delitem two_items two_item_list 1 = .ret (1, h1, l1) ∧
      WellFormed h1 l1 [2]) ∧
    (∃ h1 l1, list_reposition_tail two_items two_item_list 1 = .ret (1, h1, l1) ∧
      WellFormed h1 l1 [2, 1]) ∧
    (∃ h1 l1, list_clear two_items two_item_list = .ret (h1, l1) ∧ WellFormed h1 l1 []) :=
  ⟨⟨_, _, rfl, ⟨rfl, _, rfl, rfl, _, rfl, rfl, _, rfl, rfl⟩, rfl, rfl⟩,
   ⟨_, _, rfl, ⟨rfl, _, rfl, rfl, _, rfl, rfl, _, rfl, rfl⟩, rfl, rfl⟩,
   ⟨_, _, rfl, ⟨rfl, _, rfl, rfl⟩, rfl, rfl⟩,
   ⟨_, _, rfl, ⟨rfl, _, rfl, rfl, _, rfl, rfl⟩, rfl, rfl⟩,
   ⟨_, _, rfl, rfl, rfl, rfl⟩⟩

/-! ## Lemmas: the tokens of `cmd_extract` -/

theorem strcspn_field (d : Nat) (f rest : List Nat) (hf : ∀ c ∈ f, c ≠ d) :
    strcspn (f ++ d :: rest) d = f.length ∧ strcspn f d = f.length := by
  unfold strcspn
  constructor
  · rw [List.takeWhile_append_of_pos (by simpa using hf)]
    simp
  · rw [List.takeWhile_eq_self_iff.mpr (by simpa using hf)]

theorem filter_joinFields (d : Nat) : ∀ (fs : List (List Nat)) (f : List Nat),
    (∀ x ∈ f :: fs, ∀ c ∈ x, c ≠ d) →
    ((joinFields d (f :: fs)).filter (fun c => c = d)).length = fs.length := by
  intro fs
  induction fs with
  | nil =>
    intro f h
    simp only [joinFields, List.length_nil, List.length_eq_zero, List.filter_eq_nil_iff]
    intro c hc
    simpa using h f (by simp) c hc
  | cons g fs ih =>
    intro f h
    have h1 := ih g (fun x hx => h x (by simp [hx]))
    have h2 : f.filter (fun c => decide (c = d)) = [] := by
      rw [List.filter_eq_nil_iff]
      intro c hc
      simpa using h f (by simp) c hc
    simp only [joinFields, List.filter_append, h2, List.nil_append, List.filter_cons,
      decide_True, if_true, List.length_cons, h1]

/-- The loop of `split` on fields that are not empty and hold no delimiter,
written with the delimiter between them: every field is stored, in order. -/
theorem split_loop_fields (d : Nat) :
    ∀ (fs : List (List Nat)) (f : List Nat) (fuel : Nat) (done : List (List Nat))
      (room : List (Option (List Nat))),
    (∀ x ∈ f :: fs, x ≠ [] ∧ ∀ c ∈ x, c ≠ d) →
    (joinFields d (f :: fs)).length < fuel → fs.length < room.length →
    split_loop d fuel (joinFields d (f :: fs)) (done.map some ++ room) done.length =
      .ret (some ((done ++ f :: fs).map some ++ room.drop (fs.length + 1),
        done.length + fs.length + 1)) := by
  intro fs
  induction fs with
  | nil =>
    intro f fuel done room h hfuel hroom
    obtain ⟨hne, hd⟩ := h f (by simp)
    obtain ⟨c, s, rfl⟩ := List.exists_cons_of_ne_nil hne
    cases fuel with
    | zero => omega
    | succ fuel =>
      have hlen := (strcspn_field d (c :: s) [] hd).2
      simp only [joinFields]
      rw [split_loop, hlen]
      rw [if_neg (by simp), if_pos (by simp; omega)]
      simp only [List.drop_length, List.take_length]
      cases fuel with
      | zero =>
        simp only [joinFields, List.length_cons] at hfuel
        omega
      | succ fuel =>
        rw [split_loop]
        obtain ⟨r0, room1, rfl⟩ := List.exists_cons_of_ne_nil
          (List.ne_nil_of_length_pos (by omega : 0 < room.length))
        have : (List.map some done ++ r0 :: room1).set done.length (some (c :: s)) =
            List.map some done ++ some (c :: s) :: room1 := by
          rw [List.set_append_right _ _ (by simp)]
          simp
        rw [this]
        simp
  | cons g fs ih =>
    intro f fuel done room h hfuel hroom
    obtain ⟨hne, hd⟩ := h f (by simp)
    obtain ⟨c, s, rfl⟩ := List.exists_cons_of_ne_nil hne
    cases fuel with
    | zero => omega
    | succ fuel =>
      have hlen := (strcspn_field d (c :: s) (joinFields d (g :: fs)) hd).1
      have hj : joinFields d ((c :: s) :: g :: fs) =
          c :: (s ++ d :: joinFields d (g :: fs)) := by
        simp [joinFields]
      have hlen2 : strcspn (c :: (s ++ d :: joinFields d (g :: fs))) d = (c :: s).length := by
        simpa using hlen
      rw [hj, split_loop, hlen2]
      rw [if_neg (by simp), if_pos (by simp; omega)]
      have hdrop : (c :: (s ++ d :: joinFields d (g :: fs))).drop (c :: s).length =
          d :: joinFields d (g :: fs) := by
        simp
      have htake : (c :: (s ++ d :: joinFields d (g :: fs))).take (c :: s).length = c :: s := by
        simp
      rw [hdrop, htake]
      simp only [if_true]
      obtain ⟨r0, room1, rfl⟩ := List.exists_cons_of_ne_nil
        (List.ne_nil_of_length_pos (by omega : 0 < room.length))
      have hset : (List.map some done ++ r0 :: room1).set done.length (some (c :: s)) =
          List.map some (done ++ [c :: s]) ++ room1 := by
        rw [List.set_append_right _ _ (by simp)]
        simp
      rw [hset]
      have := ih g fuel (done ++ [c :: s]) room1 (fun x hx => h x (by simp [hx]))
        (by rw [hj] at hfuel; simp at hfuel ⊢; omega) (by simp at hroom; omega)
      simp only [List.length_append, List.length_singleton] at this
      rw [this]
      simp [List.append_assoc, Nat.add_assoc, Nat.add_comm 1]

/-- `split` on a text made of fields that are not empty and hold neither the
delimiter nor a NUL, with the delimiter between them (so that the text does
not end with the delimiter): the array holds the fields in order and
`*token_count` is their number. -/
theorem split_fields (d : Nat) (f : List Nat) (fs : List (List Nat)) (tc : Int)
    (h : ∀ x ∈ f :: fs, x ≠ [] ∧ ∀ c ∈ x, c ≠ d) :
    split (joinFields d (f :: fs)) [d] tc =
      .ret (some ((f :: fs).map some), ((f :: fs).length : Int)) := by
  have hcount := filter_joinFields d fs f (fun x hx => (h x hx).2)
  have hloop := split_loop_fields d fs f ((joinFields d (f :: fs)).length + 1) []
    (List.replicate (fs.length + 1) none) h (by omega) (by simp)
  simp only [List.map_nil, List.nil_append, List.length_nil, Nat.zero_add] at hloop
  unfold split
  simp only []
  rw [hcount, hloop]
  simp only [List.drop_replicate, Nat.sub_self, List.replicate_zero, List.append_nil]
  by_cases h1 : ((fs.length : Int) + 1) = 1
  · rw [if_pos h1]
    simp only [List.map_cons, List.getElem?_cons_zero, List.length_cons]
    push_cast
    rfl
  · rw [if_neg h1]
    simp only [List.length_cons]
    push_cast
    rfl
/-- The fields of a text hold no delimiter, and the text is its fields with
the delimiter between them. -/
theorem fieldsFrom_spec (d : Nat) : ∀ (s cur : List Nat), (∀ c ∈ cur, c ≠ d) →
    ∃ f fs, fieldsFrom d cur s = f :: fs ∧ joinFields d (f :: fs) = cur ++ s ∧
      ∀ x ∈ f :: fs, ∀ c ∈ x, c ≠ d := by
  intro s
  induction s with
  | nil =>
    intro cur hcur
    refine ⟨cur, [], rfl, by simp [joinFields], ?_⟩
    intro x hx
    simp only [List.mem_singleton] at hx
    rw [hx]
    exact hcur
  | cons c s ih =>
    intro cur hcur
    by_cases hc : c = d
    · obtain ⟨f, fs, h1, h2, h3⟩ := ih [] (by simp)
      refine ⟨cur, f :: fs, ?_, ?_, ?_⟩
      · rw [fieldsFrom, if_pos hc, h1]
      · simp only [joinFields, h2, List.nil_append, hc]
      · intro x hx
        simp only [List.mem_cons] at hx
        rcases hx with rfl | hx
        · exact hcur
        · exact h3 x (by simpa using hx)
    · obtain ⟨f, fs, h1, h2, h3⟩ := ih (cur ++ [c]) (by
        intro x hx
        simp only [List.mem_append, List.mem_singleton] at hx
        rcases hx with hx | rfl
        · exact hcur x hx
        · exact hc)
      refine ⟨f, fs, ?_, ?_, h3⟩
      · rw [fieldsFrom, if_neg hc, h1]
      · rw [h2]
        simp

/-- `split` on a text none of whose fields is empty (in particular the text is
not empty and does not begin or end with the delimiter): the array holds the
fields in order and `*token_count` is their number. -/
theorem split_spec (d : Nat) (s : List Nat) (tc : Int) (h : ∀ x ∈ fields d s, x ≠ []) :
    split s [d] tc = .ret (some ((fields d s).map some), ((fields d s).length : Int)) := by
  obtain ⟨f, fs, h1, h2, h3⟩ := fieldsFrom_spec d s [] (by simp)
  have hf : fields d s = f :: fs := h1
  have hs : s = joinFields d (f :: fs) := by simpa using h2.symm
  rw [hf] at h ⊢
  have := split_fields d f fs tc (fun x hx => ⟨h x hx, h3 x hx⟩)
  rw [← hs] at this
  exact this

/-! ## Lemmas: the numeral of a header field -/

theorem head?_dropWhile_isdigit (l : List Nat) :
    ∀ c, (l.dropWhile isdigit).head? = some c → isdigit c = false := by
  intro c hc
  have := List.head?_dropWhile_not isdigit l
  rw [hc] at this
  simpa using this

theorem drop_numeral (ws sign ds rest : List Nat) :
    (ws ++ sign ++ ds ++ rest).drop (ws.length + sign.length + ds.length) = rest := by
  rw [show ws.length + sign.length + ds.length = (ws ++ sign ++ ds).length by
    simp only [List.length_append]]
  simp only [List.drop_left]

/-- When `args_getint` returns a value other than 0, the text starts with a
numeral, and the value is what `%d` stores for it. -/
theorem args_getint_numeral (line : List Nat) (h : (args_getint line).1 ≠ 0) :
    ∃ v, Scans line v (line.drop (args_getint line).2) ∧ (args_getint line).1 = scanf_d v := by
  have hline : line = line.takeWhile isspace ++ line.dropWhile isspace :=
    (List.takeWhile_append_dropWhile isspace line).symm
  have hws : ∀ c ∈ line.takeWhile isspace, isspace c = true :=
    fun c hc => List.mem_takeWhile_imp hc
  obtain ⟨ws, hws_eq⟩ : ∃ ws, line.takeWhile isspace = ws := ⟨_, rfl⟩
  rw [hws_eq] at hline hws
  have key : ∀ (sign r : List Nat) (v : Int), line.dropWhile isspace = sign ++ r →
      (r.takeWhile isdigit).length ≠ 0 →
      args_getint line = (scanf_d v, ws.length + sign.length + (r.takeWhile isdigit).length) →
      ((sign = [] ∧ v = (digitsValue (r.takeWhile isdigit) : Int)) ∨
        (sign = [43] ∧ v = (digitsValue (r.takeWhile isdigit) : Int)) ∨
        (sign = [45] ∧ v = - (digitsValue (r.takeWhile isdigit) : Int))) →
      ∃ v, Scans line v (line.drop (args_getint line).2) ∧
        (args_getint line).1 = scanf_d v := by
    intro sign r v hdw hlen hval hsign
    have hl2 : line = ws ++ sign ++ r.takeWhile isdigit ++ r.dropWhile isdigit := by
      refine hline.trans ?_
      rw [hdw, List.append_assoc, List.append_assoc, List.takeWhile_append_dropWhile]
    have e : line.drop (ws.length + sign.length + (r.takeWhile isdigit).length) =
        r.dropWhile isdigit := by
      have := drop_numeral ws sign (r.takeWhile isdigit) (r.dropWhile isdigit)
      rw [← hl2] at this
      exact this
    rw [hval]
    simp only [e]
    exact ⟨v, ⟨ws, sign, r.takeWhile isdigit, hl2, hws,
      fun h0 => hlen (by rw [h0]; rfl), fun c hc => List.mem_takeWhile_imp hc,
      head?_dropWhile_isdigit r, hsign⟩, rfl⟩
  cases hr : line.dropWhile isspace with
  | nil =>
    exfalso
    apply h
    unfold args_getint
    simp [hr]
  | cons c r1 =>
    by_cases h45 : c = 45
    · subst h45
      have hval : args_getint line =
          if (r1.takeWhile isdigit).length = 0 then (0, 0)
          else (scanf_d (- (digitsValue (r1.takeWhile isdigit) : Int)),
                ws.length + 1 + (r1.takeWhile isdigit).length) := by
        unfold args_getint
        simp only [hr, hws_eq]
      by_cases hlen : (r1.takeWhile isdigit).length = 0
      · rw [hval, if_pos hlen] at h
        exact absurd rfl h
      · rw [if_neg hlen] at hval
        exact key [45] r1 _ (by rw [hr]; rfl) hlen hval (Or.inr (Or.inr ⟨rfl, rfl⟩))
    · by_cases h43 : c = 43
      · subst h43
        have hval : args_getint line =
            if (r1.takeWhile isdigit).length = 0 then (0, 0)
            else (scanf_d (digitsValue (r1.takeWhile isdigit) : Int),
                  ws.length + 1 + (r1.takeWhile isdigit).length) := by
          unfold args_getint
          simp only [hr, hws_eq]
        by_cases hlen : (r1.takeWhile isdigit).length = 0
        · rw [hval, if_pos hlen] at h
          exact absurd rfl h
        · rw [if_neg hlen] at hval
          exact key [43] r1 _ (by rw [hr]; rfl) hlen hval (Or.inr (Or.inl ⟨rfl, rfl⟩))
      · have hval : args_getint line =
            if ((c :: r1).takeWhile isdigit).length = 0 then (0, 0)
            else (scanf_d (digitsValue ((c :: r1).takeWhile isdigit) : Int),
                  ws.length + ((c :: r1).takeWhile isdigit).length) := by
          unfold args_getint
          simp only [hr, hws_eq]
          split
          · rename_i heq; simp only [List.cons.injEq] at heq; exact absurd heq.1 h45
          · rename_i heq; simp only [List.cons.injEq] at heq; exact absurd heq.1 h43
          · rfl
        by_cases hlen : ((c :: r1).takeWhile isdigit).length = 0
        · rw [hval, if_pos hlen] at h
          exact absurd rfl h
        · rw [if_neg hlen] at hval
          exact key [] (c :: r1) _ (by rw [hr]; rfl) hlen (by rw [hval]; rfl)
            (Or.inl ⟨rfl, rfl⟩)

/-! ## Lemmas: the line number across the blocks of a file -/

theorem sequential_taxa_lineno :
    ∀ (fuel : Nat) (fd fd1 : phylip_t) (g g1 : Globals) (msa : msa_t) (seqno : Nat)
      (r : Option msa_t),
    sequential_taxa fuel fd g msa seqno = .ret (r, fd1, g1) → fd1.lineno = fd.lineno := by
  intro fuel
  induction fuel with
  | zero => intro fd fd1 g g1 msa seqno r h; simp [sequential_taxa] at h
  | succ fuel ih =>
    intro fd fd1 g g1 msa seqno r h
    rw [sequential_taxa] at h
    cases hg : getnextline fd with
    | fatal x => rw [hg] at h; cases h
    | nomem => rw [hg] at h; cases h
    | undefined => rw [hg] at h; cases h
    | ret w =>
      obtain ⟨l, fd2⟩ := w
      have hln2 := getnextline_lineno fd fd2 l hg
      rw [hg] at h
      cases l with
      | none =>
        simp only [] at h
        split at h
        · simp only [Outcome.ret.injEq, Prod.mk.injEq] at h
          rw [← h.2.1]; exact hln2
        · simp only [Outcome.ret.injEq, Prod.mk.injEq] at h
          rw [← h.2.1]; exact hln2
      | some line =>
        simp only [] at h
        cases hs : skipws line with
        | nil =>
          rw [hs] at h
          simp only [] at h
          rw [ih _ _ _ _ _ _ _ h, hln2]
        | cons c p0 =>
          rw [hs] at h
          simp only [] at h
          split at h
          · simp only [Outcome.ret.injEq, Prod.mk.injEq] at h
            rw [← h.2.1]; exact hln2
          · split at h
            · cases h
            · cases hset : msa.setLabel seqno ((c :: p0).take (headerlen (c :: p0))) with
              | none => rw [hset] at h; cases h
              | some msa1 =>
                rw [hset] at h
                simp only [] at h
                cases hd : sequential_data (fd2.fp.length + 1) fd2 g msa1 seqno
                    ((c :: p0).drop (headerlen (c :: p0))) 0 with
                | fatal x => rw [hd] at h; cases h
                | nomem => rw [hd] at h; cases h
                | undefined => rw [hd] at h; cases h
                | ret v =>
                  obtain ⟨o, fd3, g3⟩ := v
                  have hln3 := sequential_data_lineno seqno _ _ _ _ _ _ _ _ _ hd
                  rw [hd] at h
                  cases o with
                  | none =>
                    simp only [Outcome.ret.injEq, Prod.mk.injEq] at h
                    rw [← h.2.1, hln3, hln2]
                  | some m2 =>
                    simp only [] at h
                    split at h
                    · simp only [Outcome.ret.injEq, Prod.mk.injEq] at h
                      rw [← h.2.1, hln3, hln2]
                    · rw [ih _ _ _ _ _ _ _ h, hln3, hln2]

/-- `phylip_parse_sequential` leaves the line number of the cursor as it was. -/
theorem parse_sequential_lineno (fd fd1 : phylip_t) (g g1 : Globals) (r : Option msa_t)
    (h : phylip_parse_sequential fd g = .ret (r, fd1, g1)) : fd1.lineno = fd.lineno := by
  unfold phylip_parse_sequential at h
  cases hs : skip_emptylines (fd.fp.length + 2) fd with
  | fatal x => rw [hs] at h; cases h
  | nomem => rw [hs] at h; cases h
  | undefined => rw [hs] at h; cases h
  | ret fd0 =>
    have hln0 := skip_emptylines_lineno _ _ _ hs
    rw [hs] at h
    simp only [] at h
    cases hl : fd0.line with
    | none => rw [hl] at h; cases h
    | some line =>
      rw [hl] at h
      simp only [] at h
      cases hp : parse_header line PHYLIP_SEQUENTIAL g with
      | mk o g2 =>
        rw [hp] at h
        cases o with
        | none =>
          simp only [Outcome.ret.injEq, Prod.mk.injEq] at h
          rw [← h.2.1]; exact hln0
        | some cl =>
          obtain ⟨count, length⟩ := cl
          simp only [] at h
          cases ha : msa_alloc count length with
          | fatal x => rw [ha] at h; cases h
          | nomem => rw [ha] at h; cases h
          | undefined => rw [ha] at h; cases h
          | ret msa0 =>
            rw [ha] at h
            simp only [] at h
            rw [sequential_taxa_lineno _ _ _ _ _ _ _ _ h, hln0]

theorem skip_blank_lines_lineno :
    ∀ (fuel : Nat) (fd fd1 : phylip_t) (b : Bool),
    skip_blank_lines fuel fd = .ret (b, fd1) → fd1.lineno = fd.lineno := by
  intro fuel
  induction fuel with
  | zero => intro fd fd1 b h; simp [skip_blank_lines] at h
  | succ fuel ih =>
    intro fd fd1 b h
    rw [skip_blank_lines] at h
    cases hg : getnextline fd with
    | fatal x => rw [hg] at h; cases h
    | nomem => rw [hg] at h; cases h
    | undefined => rw [hg] at h; cases h
    | ret w =>
      obtain ⟨l, fd2⟩ := w
      have hln2 := getnextline_lineno fd fd2 l hg
      rw [hg] at h
      cases l with
      | none =>
        simp only [Outcome.ret.injEq, Prod.mk.injEq] at h
        rw [← h.2]; exact hln2
      | some line =>
        simp only [] at h
        cases hs : skipws line with
        | nil =>
          rw [hs] at h
          simp only [] at h
          rw [ih _ _ _ h, hln2]
        | cons c p0 =>
          rw [hs] at h
          simp only [Outcome.ret.injEq, Prod.mk.injEq] at h
          rw [← h.2]; exact hln2

/-- The outer loop over blocks that are followed by a further line with
text: it goes on with the cursor on that line, which has the table and the
line number of the cursor it started from. -/
theorem multisequential_loop_upto (t : Nat → Nat) (g : Globals) (l : List Nat)
    (rest : List (List Nat)) (bl : List (List Nat)) (hbl : ∀ x ∈ bl, Blank x)
    (hl : ¬ Blank l) :
    ∀ (n : Nat) (blocks : List LocusLines) (fuel : Nat) (fd : phylip_t) (acc : List msa_t)
      (cnt : Int),
    blocks.length = n → n ≠ 0 → (∀ b ∈ blocks, b.ok t g) → fd.chrstatus = t →
    OnLines fd ((blocks.map LocusLines.lines).flatten ++ (bl ++ l :: rest)) →
    n ≤ fuel →
    ∃ fd1, multisequential_loop fuel fd g acc cnt =
        multisequential_loop (fuel - n) fd1 g (acc ++ blocks.map (LocusLines.msa t))
          (cnt + n) ∧
      OnLines fd1 (l :: rest) ∧ fd1.chrstatus = t ∧ fd1.lineno = fd.lineno := by
  intro n
  induction n with
  | zero => intro blocks fuel fd acc cnt _ h; exact absurd rfl h
  | succ n ih =>
    intro blocks fuel fd acc cnt hlen _ hok ht hon hfuel
    obtain ⟨b, bs, rfl⟩ : ∃ b bs, blocks = b :: bs := by
      cases blocks with
      | nil => simp at hlen
      | cons b bs => exact ⟨b, bs, rfl⟩
    simp only [List.length_cons, Nat.add_right_cancel_iff] at hlen
    obtain ⟨fuel1, rfl⟩ : ∃ f, fuel = f + 1 := ⟨fuel - 1, by omega⟩
    obtain ⟨fd1, hparse, hr1, hchr1⟩ :=
      parse_sequential_locus t g b ((bs.map LocusLines.lines).flatten ++ (bl ++ l :: rest)) fd
        ht (hok b (by simp)) (by simpa [List.append_assoc] using hon)
    have hln1 := parse_sequential_lineno _ _ _ _ _ hparse
    cases bs with
    | nil =>
      simp only [List.length_nil] at hlen
      subst hlen
      obtain ⟨fd2, hskip, hon2, hchr2⟩ :=
        skip_blank_lines_line l rest bl (fd1.fp.length + 1) fd1 hbl hl
          (by simpa using hr1) (by omega)
      have hln2 := skip_blank_lines_lineno _ _ _ _ hskip
      refine ⟨fd2, ?_, hon2, by rw [hchr2, hchr1], by rw [hln2, hln1]⟩
      rw [multisequential_loop, hparse]
      simp only []
      rw [hskip]
      simp
    | cons b2 bs =>
      have hok2 := hok b2 (by simp)
      obtain ⟨fd2, hskip, hon2, hchr2⟩ :=
        skip_blank_lines_line b2.hdr
          ((b2.recs.map TaxonLines.lines).flatten ++
            ((bs.map LocusLines.lines).flatten ++ (bl ++ l :: rest)))
          b2.blanks (fd1.fp.length + 1) fd1 hok2.1 (locus_header_not_blank t g b2 hok2)
          (by simpa [LocusLines.lines, List.append_assoc] using hr1) (by omega)
      have hln2 := skip_blank_lines_lineno _ _ _ _ hskip
      obtain ⟨fd3, hrec, hon3, hchr3, hln3⟩ :=
        ih ({ b2 with blanks := [] } :: bs) fuel1 fd2 (acc ++ [b.msa t]) (cnt + 1)
          (by simpa using hlen) (by subst hlen; simp)
          (by
            intro x hx
            simp only [List.mem_cons] at hx
            rcases hx with rfl | hx
            · exact ⟨by simp, hok2.2.1, hok2.2.2.1, hok2.2.2.2⟩
            · exact hok x (by simp [hx]))
          (by rw [hchr2, hchr1])
          (by simpa [LocusLines.lines, List.append_assoc] using hon2) (by omega)
      refine ⟨fd3, ?_, hon3, hchr3, by rw [hln3, hln2, hln1]⟩
      rw [multisequential_loop, hparse]
      simp only []
      rw [hskip]
      simp only []
      rw [hrec]
      simp only [List.map_cons, List.append_assoc, List.singleton_append, Nat.cast_add,
        Nat.cast_one, Nat.add_sub_add_right]
      rw [show cnt + 1 + (n : Int) = cnt + ((n : Int) + 1) by omega]
      rfl

/-- Two cursors that stand on the same lines, with the same table and the
same line number, get the same verdict from `phylip_parse_sequential`. -/
theorem parse_sequential_same (fa fb : phylip_t) (g : Globals) (hdr : List Nat)
    (body : List (List Nat)) (hnb : ¬ Blank hdr) (hona : OnLines fa (hdr :: body))
    (honb : OnLines fb (hdr :: body)) (hc : fa.chrstatus = fb.chrstatus)
    (hl : fa.lineno = fb.lineno) :
    verdict (phylip_parse_sequential fa g) = verdict (phylip_parse_sequential fb g) := by
  obtain ⟨fa1, hca, hla, hra, hpa⟩ :=
    parse_sequential_from_header fa g [] hdr body (by simpa using hona) (by simp) hnb
  obtain ⟨fb1, hcb, hlb, hrb, hpb⟩ :=
    parse_sequential_from_header fb g [] hdr body (by simpa using honb) (by simp) hnb
  rw [hpa, hpb]
  cases hph : parse_header hdr PHYLIP_SEQUENTIAL g with
  | mk o g1 =>
    cases o with
    | none => simp only [verdict]
    | some cl =>
      obtain ⟨count, length⟩ := cl
      simp only []
      cases hal : msa_alloc count length with
      | fatal x => rfl
      | nomem => rfl
      | undefined => rfl
      | ret msa =>
        simp only []
        exact sequential_taxa_rel body.length body _ _ fa1 fb1 g1 msa 0 (le_refl _)
          ⟨by rw [hca, hcb, hc], by rw [hla, hlb, hl], hra, hrb⟩ (by omega) (by omega)

theorem verdict_null (x : Outcome (Option msa_t × phylip_t × Globals)) (g1 : Globals)
    (h : verdict x = .ret (none, g1)) : ∃ fd1, x = .ret (none, fd1, g1) := by
  cases x with
  | ret v =>
    obtain ⟨r, fd1, g2⟩ := v
    simp only [verdict, Outcome.ret.injEq, Prod.mk.injEq] at h
    obtain ⟨rfl, rfl⟩ := h
    exact ⟨fd1, rfl⟩
  | fatal m => simp [verdict] at h
  | nomem => simp [verdict] at h
  | undefined => simp [verdict] at h

/-- `phylip_parse_multisequential` when `phylip_parse_sequential` returns NULL
on the block behind well-formed blocks. -/
theorem parse_multisequential_abort (t : Nat → Nat) (g : Globals) (fd : phylip_t)
    (pre : List LocusLines) (bl : List (List Nat)) (l : List Nat) (rest : List (List Nat))
    (fdk fdk1 : phylip_t) (g1 : Globals) (ht : fd.chrstatus = t) (hok : ∀ b ∈ pre, b.ok t g)
    (hbl : ∀ x ∈ bl, Blank x) (hl : ¬ Blank l)
    (hon : OnLines fd ((pre.map LocusLines.lines).flatten ++ (bl ++ l :: rest)))
    (honk : OnLines fdk (l :: rest)) (hck : fdk.chrstatus = t) (hlk : fdk.lineno = fd.lineno)
    (hfail : phylip_parse_sequential fdk g = .ret (none, fdk1, g1)) :
    phylip_parse_multisequential fd g = .fatal g1.bpp_errmsg := by
  have hfuel := onLines_fuel fd pre (bl ++ l :: rest) hon
  have hsame : ∀ fa : phylip_t, OnLines fa (l :: rest) → fa.chrstatus = t →
      fa.lineno = fd.lineno → ∃ fa1, phylip_parse_sequential fa g = .ret (none, fa1, g1) := by
    intro fa hona hca hla
    have h := parse_sequential_same fa fdk g l rest hl hona honk (by rw [hca, hck])
      (by rw [hla, hlk])
    rw [hfail] at h
    exact verdict_null _ _ h
  unfold phylip_parse_multisequential
  by_cases hpre : pre = []
  · subst hpre
    obtain ⟨fd1, hskip, hl1, hr1, hchr1, _⟩ :=
      skip_emptylines_spec l rest bl (fd.fp.length + 2) fd hbl hl (by simpa using hon)
        (by omega)
    have hln1 := skip_emptylines_lineno _ _ _ hskip
    have hskip1 : skip_emptylines (fd1.fp.length + 2) fd1 = .ret fd1 := by
      rw [skip_emptylines, hl1]
      simp only []
      rw [if_neg (by rw [emptyline_blank]; exact hl)]
    have heq : phylip_parse_sequential fd g = phylip_parse_sequential fd1 g := by
      unfold phylip_parse_sequential
      rw [hskip, hskip1]
    obtain ⟨fa1, hp⟩ := hsame fd1 ⟨l, rest, rfl, hl1, hr1⟩ (by rw [hchr1, ht]) hln1
    rw [multisequential_loop, heq, hp]
  · obtain ⟨fd1, h1, hon1, hchr1, hln1⟩ :=
      multisequential_loop_upto t g l rest bl hbl hl pre.length pre (fd.fp.length + 2) fd
        [] 0 rfl (by simpa [List.length_eq_zero] using hpre) hok ht hon (by omega)
    obtain ⟨fuel2, hfuel2⟩ : ∃ f, fd.fp.length + 2 - pre.length = f + 1 :=
      ⟨fd.fp.length + 2 - pre.length - 1, by omega⟩
    obtain ⟨fa1, hp⟩ := hsame fd1 hon1 hchr1 hln1
    rw [h1, hfuel2, multisequential_loop, hp]

/-! ## Lemmas: a byte from 128 on -/

/-- A byte from 128 to 255 behind bytes below 128 that are not fatal and whose
data fit into the row: `dfa_parse` indexes the table with a negative number. -/
theorem dfa_parse_high_byte (fd : phylip_t) (g : Globals) (msa : msa_t) (seqno offset : Nat)
    (pre rest buf : List Nat) (c : Nat) (hlow : ∀ x ∈ pre, x < 128)
    (hnf : ∀ x ∈ pre, chrclass fd.chrstatus x ≠ some 2)
    (hrow : msa.sequence[seqno]? = some (some buf))
    (hfit : ((offset + (accepted fd.chrstatus pre).length : Nat) : Int) ≤ msa.length)
    (hroom : msa.length ≤ (buf.length : Int)) (h1 : 128 ≤ c) (h2 : c < 256) :
    dfa_parse fd g msa (pre ++ c :: rest) seqno offset = .undefined := by
  have hcl : Clean fd.chrstatus pre := by
    intro x hx
    refine ⟨?_, hnf x hx⟩
    unfold chrclass
    rw [tableAt_small _ x (hlow x hx)]
    rfl
  have hscan := dfa_parse_loop_stops fd g msa seqno offset pre buf hcl hrow hfit (by omega)
  have happ := dfa_parse_loop_append seqno offset (c :: rest) pre 0 fd g msa _ _ _ _ hscan
  unfold dfa_parse
  rw [happ]
  simp only [dfa_parse_loop, strip_counts_chr, chrclass_none_of_high _ c h1 h2]

/-! ## The claims -/

/-- C1 (amended): when `phylip_parse_sequential` returns an alignment, the
header line it read (the first line from the cursor on that is not blank)
starts with two integers, and the alignment's `count` and `length` are the
`int` values stored for them: the two integers themselves when they lie in
the range of `int`, from `-2^31` to `2^31 - 1`.  The alignment has exactly
`count` labels and `count` sequences, every label is non-empty, and every
sequence is a string of exactly `length` bytes (followed by its terminator),
each of class Accept (1) in the cursor's table. -/
theorem C1_sequential_result (fd fd1 : phylip_t) (g g1 : Globals) (msa : msa_t)
    (h : phylip_parse_sequential fd g = .ret (some msa, fd1, g1)) :
    ∃ fd0 hdr, skip_emptylines (fd.fp.length + 2) fd = .ret fd0 ∧ fd0.line = some hdr ∧
      msa.count = (args_getint hdr).1 ∧
      msa.length = (args_getint (hdr.drop (args_getint hdr).2)).1 ∧
      (∃ v1 r1 v2 r2, Scans hdr v1 r1 ∧ Scans r1 v2 r2) ∧
      (∀ v1 r1 v2 r2, Scans hdr v1 r1 → Scans r1 v2 r2 →
        msa.count = scanf_d v1 ∧ msa.length = scanf_d v2 ∧
        (-(2 ^ 31) ≤ v1 → v1 < 2 ^ 31 → msa.count = v1) ∧
        (-(2 ^ 31) ≤ v2 → v2 < 2 ^ 31 → msa.length = v2)) ∧
      (msa.label.length : Int) = msa.count ∧ (msa.sequence.length : Int) = msa.count ∧
      ∀ i : Nat, (i : Int) < msa.count →
        ∃ lab buf, msa.label[i]? = some (some lab) ∧ lab ≠ [] ∧
          msa.sequence[i]? = some (some buf) ∧ buf = cstring buf ++ [0] ∧
          ((cstring buf).length : Int) = msa.length ∧
          ∀ c ∈ cstring buf, chrclass fd.chrstatus c = some 1 := by
  obtain ⟨fd0, hdr, n, L, labels, contents, hs, hl, hp, hn, hL, hm, hll, hcl, hdone⟩ :=
    parse_sequential_good fd fd1 g g1 msa h
  obtain ⟨_, hn0, hL0, _, hc1, hc2⟩ := parse_header_some _ _ _ _ _ hp
  subst hm
  refine ⟨fd0, hdr, hs, hl, hc1, hc2, ?_, ?_, by simp [msaOf, hll], by simp [msaOf, hcl], ?_⟩
  · obtain ⟨v1, hs1, _⟩ := args_getint_numeral hdr (by rw [← hc1]; exact hn0)
    obtain ⟨v2, hs2, _⟩ := args_getint_numeral (hdr.drop (args_getint hdr).2)
      (by rw [← hc2]; exact hL0)
    exact ⟨v1, _, v2, _, hs1, hs2⟩
  · intro v1 r1 v2 r2 h1 h2
    obtain ⟨e1, e2⟩ := args_getint_scans hdr v1 r1 h1
    obtain ⟨e3, _⟩ := args_getint_scans r1 v2 r2 h2
    rw [e2] at hc2
    have a1 : (msaOf n L labels contents).count = scanf_d v1 := by
      simp only [msaOf]; rw [hc1, e1]
    have a2 : (msaOf n L labels contents).length = scanf_d v2 := by
      simp only [msaOf]; rw [hc2, e3]
    exact ⟨a1, a2, fun b1 b2 => by rw [a1, scanf_d_of_range v1 b1 b2],
      fun b1 b2 => by rw [a2, scanf_d_of_range v2 b1 b2]⟩
  · intro i hi
    simp only [msaOf] at hi
    obtain ⟨lab, s, h1, h2, h3, h4, h5⟩ := hdone i (by omega)
    have hcs : cstring (s ++ [0]) = s := cstring_terminated s (fun c hc => (h5 c hc).2.1)
    refine ⟨lab, s ++ [0], h1, h2.1, ?_, by rw [hcs], by rw [hcs]; simp [msaOf, h4], ?_⟩
    · simp [msaOf, h3, bufOf_full L s h4]
    · rw [hcs]
      exact fun c hc => (h5 c hc).1

/-- C1 at a block of two taxa and three columns. -/
theorem C1_sequential_result_witness :
    ∃ fd0 hdr, skip_emptylines (small_cursor.fp.length + 2) small_cursor = .ret fd0 ∧
      fd0.line = some hdr ∧
      small_msa.count = (args_getint hdr).1 ∧
      small_msa.length = (args_getint (hdr.drop (args_getint hdr).2)).1 ∧
      (∃ v1 r1 v2 r2, Scans hdr v1 r1 ∧ Scans r1 v2 r2) ∧
      (∀ v1 r1 v2 r2, Scans hdr v1 r1 → Scans r1 v2 r2 →
        small_msa.count = scanf_d v1 ∧ small_msa.length = scanf_d v2 ∧
        (-(2 ^ 31) ≤ v1 → v1 < 2 ^ 31 → small_msa.count = v1) ∧
        (-(2 ^ 31) ≤ v2 → v2 < 2 ^ 31 → small_msa.length = v2)) ∧
      (small_msa.label.length : Int) = small_msa.count ∧
      (small_msa.sequence.length : Int) = small_msa.count ∧
      ∀ i : Nat, (i : Int) < small_msa.count →
        ∃ lab buf, small_msa.label[i]? = some (some lab) ∧ lab ≠ [] ∧
          small_msa.sequence[i]? = some (some buf) ∧ buf = cstring buf ++ [0] ∧
          ((cstring buf).length : Int) = small_msa.length ∧
          ∀ c ∈ cstring buf, chrclass small_cursor.chrstatus c = some 1 :=
  C1_sequential_result small_cursor small_cursor_after ⟨0, []⟩ ⟨0, []⟩ small_msa rfl

/-- C1 as stated fails for a numeral outside the range of `int`: on the header
"4294967298 3" followed by the taxa "A ACG" and "B TTA" the parser returns an
alignment; the first integer of the header is 4294967298, and the alignment
has the count 2, with two labels and two sequences. -/
theorem C1_counterexample :
    Scans (str "4294967298 3") 4294967298 (str " 3") ∧ Scans (str " 3") 3 [] ∧
    ∃ fd1, phylip_parse_sequential wrapped_cursor ⟨0, []⟩ =
      .ret (some { count := 2, length := 3,
                   sequence := [some (str "ACG" ++ [0]), some (str "TTA" ++ [0])],
                   label := [some (str "A"), some (str "B")] }, fd1, ⟨0, []⟩) :=
  ⟨⟨[], [], str "4294967298", rfl, by decide, by decide, by decide, by simp [str, isdigit],
      Or.inl ⟨rfl, by decide⟩⟩,
   ⟨[32], [], [51], rfl, by decide, by decide, by decide, by simp, Or.inl ⟨rfl, rfl⟩⟩,
   _, rfl⟩

/-- C3: under a table in which A, C, G, T are Accept and space is Strip, the
lines "4 6", "A ACGTAC", "B ACGTAC", "C ACGTAC", "D ACGTAC" (the last one with
or without its newline) parse to the alignment of count 4 and length 6 with
labels A, B, C, D in that order and every sequence "ACGTAC". -/
theorem C3_sequential_example (t : Nat → Nat) (g : Globals) (contents : List Nat)
    (hA : t 65 = 1) (hC : t 67 = 1) (hG : t 71 = 1) (hT : t 84 = 1) (hS : t 32 = 0)
    (hc : contents = unlines example_lines ∨
          contents = unlines example_lines.dropLast ++ str "D ACGTAC") :
    ∃ fd fd1, phylip_open contents t = .ret (some fd) ∧
      phylip_parse_sequential fd g = .ret (some example_msa, fd1, g) := by
  have cA := chrclass_of_entry t 65 1 (by omega) (by omega) hA
  have cC := chrclass_of_entry t 67 1 (by omega) (by omega) hC
  have cG := chrclass_of_entry t 71 1 (by omega) (by omega) hG
  have cT := chrclass_of_entry t 84 1 (by omega) (by omega) hT
  have cS := chrclass_of_entry t 32 0 (by omega) (by omega) hS
  have htext : IsText contents example_lines := by
    rcases hc with rfl | rfl
    · exact isText_unlines _
    · have := isText_append_unlines example_lines.dropLast [str "D ACGTAC"] (str "D ACGTAC")
        (Or.inr ⟨rfl, by decide, rfl⟩)
      exact this
  have hlines : ∀ x ∈ example_lines, IsLine x := by decide
  obtain ⟨fd, hopen, hon, hchr, _⟩ :=
    phylip_open_lines contents t (str "4 6") _ htext hlines
  have hok : ∀ r ∈ [(⟨[], str "A ACGTAC", []⟩ : TaxonLines), ⟨[], str "B ACGTAC", []⟩,
      ⟨[], str "C ACGTAC", []⟩, ⟨[], str "D ACGTAC", []⟩], r.ok t 6 := by
    have hclean : Clean t (str " ACGTAC") := by
      simp [Clean, str, cA, cC, cG, cT, cS]
    have hacc : accepted t (str " ACGTAC") = str "ACGTAC" := by
      simp [accepted, str, List.filter, cA, cC, cG, cT, cS]
    intro r hr
    simp only [List.mem_cons, List.mem_singleton, List.not_mem_nil, or_false] at hr
    have hd : r.data = [str " ACGTAC"] := by
      rcases hr with rfl | rfl | rfl | rfl <;> rfl
    have hf : skipws r.first ≠ [] := by
      rcases hr with rfl | rfl | rfl | rfl <;> decide
    have hb : r.blanks = [] := by
      rcases hr with rfl | rfl | rfl | rfl <;> rfl
    refine ⟨by simp [hb], hf, ?_⟩
    rw [hd]
    exact ⟨hclean, Or.inl ⟨rfl, by rw [hacc]; rfl⟩⟩
  obtain ⟨fd1, hparse, _, _⟩ :=
    parse_sequential_block t 4 6 fd g [] (str "4 6")
      [⟨[], str "A ACGTAC", []⟩, ⟨[], str "B ACGTAC", []⟩, ⟨[], str "C ACGTAC", []⟩,
       ⟨[], str "D ACGTAC", []⟩] [] hchr hon (by simp) rfl rfl hok
  refine ⟨fd, fd1, hopen, ?_⟩
  rw [hparse]
  have hacc : accepted t (str " ACGTAC") = str "ACGTAC" := by
    simp [accepted, str, List.filter, cA, cC, cG, cT, cS]
  have hseq : ∀ r : TaxonLines, r.data = [str " ACGTAC"] → r.seq t = str "ACGTAC" := by
    intro r hd
    unfold TaxonLines.seq
    rw [hd]
    simpa using hacc
  simp only [List.map, msaOf, example_msa]
  rw [hseq ⟨[], str "A ACGTAC", []⟩ rfl, hseq ⟨[], str "B ACGTAC", []⟩ rfl,
    hseq ⟨[], str "C ACGTAC", []⟩ rfl, hseq ⟨[], str "D ACGTAC", []⟩ rfl]
  rfl

/-- C3 at a concrete table. -/
theorem C3_sequential_example_witness :
    ∃ fd fd1, phylip_open (unlines example_lines) example_table = .ret (some fd) ∧
      phylip_parse_sequential fd ⟨0, []⟩ = .ret (some example_msa, fd1, ⟨0, []⟩) :=
  C3_sequential_example example_table ⟨0, []⟩ (unlines example_lines) rfl rfl rfl rfl rfl
    (Or.inl rfl)

/-- C2 (round trip): for an alignment returned by a successful
`phylip_parse_sequential` under a table in which the space character is of
class Strip, `phylip_print` writes a text, and opening that text with the same
table and parsing it with `phylip_parse_sequential` succeeds and returns an
alignment equal to the first one: same count, same length, the same labels
and the same sequences in the same order. -/
theorem C2_print_parse_roundtrip (fd fd1 : phylip_t) (g g1 g2 : Globals) (msa : msa_t)
    (h : phylip_parse_sequential fd g = .ret (some msa, fd1, g1))
    (hs : chrclass fd.chrstatus 32 = some 0) :
    ∃ text fd2 fd3, phylip_print msa = some text ∧
      phylip_open text fd.chrstatus = .ret (some fd2) ∧
      phylip_parse_sequential fd2 g2 = .ret (some msa, fd3, g2) := by
  obtain ⟨_, hdr, n, L, labels, contents, _, _, hp, hn, hL, hm, hll, hcl, hdone⟩ :=
    parse_sequential_good fd fd1 g g1 msa h
  obtain ⟨_, _, _, _, hc1, hc2⟩ := parse_header_some _ _ _ _ _ hp
  have hn2 : n < 2 ^ 31 := by
    have := (args_getint_range hdr).2
    rw [← hc1] at this
    exact_mod_cast this
  have hL2 : L < 2 ^ 31 := by
    have := (args_getint_range (hdr.drop (args_getint hdr).2)).2
    rw [← hc2] at this
    exact_mod_cast this
  rw [← hll] at hdone
  obtain ⟨rows, hr1, hr2, hr3⟩ := rows_of_done fd.chrstatus L labels contents (by omega) hdone
  have hrn : rows.length = n := by rw [← hll, hr1]; simp
  subst hm hr1 hr2
  obtain ⟨fd2, fd3, hopen, hparse⟩ :=
    parse_printed fd.chrstatus n L rows g2 hs hrn hn hL hn2 hL2 hr3
  exact ⟨_, fd2, fd3,
    phylip_print_rows fd.chrstatus n L rows hrn (fun r hr => (hr3 r hr).2), hopen, hparse⟩

/-- C2 at the block of two taxa and three columns. -/
theorem C2_print_parse_roundtrip_witness :
    ∃ text fd2 fd3, phylip_print small_msa = some text ∧
      phylip_open text small_cursor.chrstatus = .ret (some fd2) ∧
      phylip_parse_sequential fd2 ⟨0, []⟩ = .ret (some small_msa, fd3, ⟨0, []⟩) :=
  C2_print_parse_roundtrip small_cursor small_cursor_after ⟨0, []⟩ ⟨0, []⟩ ⟨0, []⟩ small_msa
    rfl rfl

/-- C4 (amended): `parse_header` fails with the error kind ERROR_PHYLIP_SYNTAX
and the message "Invalid number of sequences in header" on every line whose
first field is missing, is not an integer or is zero, and with the message
"Invalid sequence length in header" on every line whose first field is an
integer that is stored as a non-zero `int` (every non-zero integer from
`-2^31` to `2^31 - 1` is stored as itself) and whose second field is missing,
not an integer or zero; the header "abc 6" fails with the first message; and a
block parser whose cursor stands on such a header (a line that is not blank)
returns no alignment and leaves that error in the error slot.  A field whose
numeral is stored as the `int` 0 counts as zero: as first field it gives the
first message, as second field the second one. -/
theorem C4_header_errors (line : List Nat) (format : Int) (g : Globals) :
    (NoInteger line →
      parse_header line format g =
        (none, { bpp_errno := ERROR_PHYLIP_SYNTAX, bpp_errmsg := msg_header_count })) ∧
    (∀ v rest, Scans line v rest → scanf_d v ≠ 0 → NoInteger rest →
      parse_header line format g =
        (none, { bpp_errno := ERROR_PHYLIP_SYNTAX, bpp_errmsg := msg_header_length })) ∧
    parse_header (str "abc 6") format g =
      (none, { bpp_errno := ERROR_PHYLIP_SYNTAX, bpp_errmsg := msg_header_count }) ∧
    (∀ fd : phylip_t, fd.line = some line → ¬ Blank line →
      (NoInteger line →
        phylip_parse_sequential fd g =
          .ret (none, fd, { bpp_errno := ERROR_PHYLIP_SYNTAX, bpp_errmsg := msg_header_count }) ∧
        ∀ freqs, phylip_parse_interleaved freqs fd g =
          .ret (none, fd, { bpp_errno := ERROR_PHYLIP_SYNTAX, bpp_errmsg := msg_header_count })) ∧
      (∀ v rest, Scans line v rest → scanf_d v ≠ 0 → NoInteger rest →
        phylip_parse_sequential fd g =
          .ret (none, fd, { bpp_errno := ERROR_PHYLIP_SYNTAX, bpp_errmsg := msg_header_length }) ∧
        ∀ freqs, phylip_parse_interleaved freqs fd g =
          .ret (none, fd, { bpp_errno := ERROR_PHYLIP_SYNTAX,
                            bpp_errmsg := msg_header_length }))) ∧
    (∀ v : Int, -(2 ^ 31) ≤ v → v < 2 ^ 31 → scanf_d v = v) ∧
    (∀ v rest, Scans line v rest → scanf_d v = 0 →
      parse_header line format g =
        (none, { bpp_errno := ERROR_PHYLIP_SYNTAX, bpp_errmsg := msg_header_count })) ∧
    (∀ v rest v2 rest2, Scans line v rest → scanf_d v ≠ 0 → Scans rest v2 rest2 →
      scanf_d v2 = 0 →
      parse_header line format g =
        (none, { bpp_errno := ERROR_PHYLIP_SYNTAX, bpp_errmsg := msg_header_length })) := by
  refine ⟨parse_header_first_bad line format g, parse_header_second_bad line format g, ?_, ?_,
    scanf_d_of_range, ?_, ?_⟩
  · exact parse_header_first_bad _ format g
      (Or.inl ⟨[], str "abc 6", rfl, by simp, by simp [str, isspace], by decide⟩)
  · intro fd hl hnb
    constructor
    · intro h
      have h1 := parse_header_first_bad line PHYLIP_SEQUENTIAL g h
      have h2 := parse_header_first_bad line PHYLIP_INTERLEAVED g h
      refine ⟨?_, fun freqs => ?_⟩
      · rw [parse_sequential_header_rejected fd g line hl hnb (by rw [h1]), h1]
      · rw [parse_interleaved_header_rejected freqs fd g line hl hnb (by rw [h2]), h2]
    · intro v rest hs hv h
      have h1 := parse_header_second_bad line PHYLIP_SEQUENTIAL g v rest hs hv h
      have h2 := parse_header_second_bad line PHYLIP_INTERLEAVED g v rest hs hv h
      refine ⟨?_, fun freqs => ?_⟩
      · rw [parse_sequential_header_rejected fd g line hl hnb (by rw [h1]), h1]
      · rw [parse_interleaved_header_rejected freqs fd g line hl hnb (by rw [h2]), h2]
  · intro v rest hs hv
    unfold parse_header
    rw [if_pos (by rw [(args_getint_scans line v rest hs).1]; exact hv)]
    rfl
  · intro v rest v2 rest2 hs hv hs2 hv2
    obtain ⟨e1, e2⟩ := args_getint_scans line v rest hs
    unfold parse_header
    rw [if_neg (by rw [e1]; exact hv)]
    simp only [e2]
    rw [if_pos (by rw [(args_getint_scans rest v2 rest2 hs2).1]; exact hv2)]
    rfl

/-- C4 at the headers " 0 6" (first field zero) and "4 x" (second field not an
integer), and at a cursor standing on the header "abc 6". -/
theorem C4_header_errors_witness :
    parse_header (str " 0 6") PHYLIP_SEQUENTIAL ⟨0, []⟩ =
      (none, { bpp_errno := ERROR_PHYLIP_SYNTAX, bpp_errmsg := msg_header_count }) ∧
    parse_header (str "4 x") PHYLIP_INTERLEAVED ⟨0, []⟩ =
      (none, { bpp_errno := ERROR_PHYLIP_SYNTAX, bpp_errmsg := msg_header_length }) ∧
    phylip_parse_sequential { small_cursor with line := some (str "abc 6") } ⟨0, []⟩ =
      .ret (none, { small_cursor with line := some (str "abc 6") },
            { bpp_errno := ERROR_PHYLIP_SYNTAX, bpp_errmsg := msg_header_count }) ∧
    ∀ freqs, phylip_parse_interleaved freqs
        { small_cursor with line := some (str "abc 6") } ⟨0, []⟩ =
      .ret (none, { small_cursor with line := some (str "abc 6") },
            { bpp_errno := ERROR_PHYLIP_SYNTAX, bpp_errmsg := msg_header_count }) :=
  ⟨(C4_header_errors (str " 0 6") PHYLIP_SEQUENTIAL ⟨0, []⟩).1
      (Or.inr ⟨str " 6", [32], [], [48], rfl, by decide, by decide, by decide,
        by simp [str, isdigit], Or.inl ⟨rfl, rfl⟩⟩),
   (C4_header_errors (str "4 x") PHYLIP_INTERLEAVED ⟨0, []⟩).2.1 4 (str " x")
      ⟨[], [], [52], rfl, by decide, by decide, by decide, by simp [str, isdigit],
        Or.inl ⟨rfl, rfl⟩⟩ (by decide)
      (Or.inl ⟨[32], [120], rfl, by decide, by simp [isspace], rfl⟩),
   ((C4_header_errors (str "abc 6") PHYLIP_SEQUENTIAL ⟨0, []⟩).2.2.2.1
      { small_cursor with line := some (str "abc 6") } rfl (by decide)).1
      (Or.inl ⟨[], str "abc 6", rfl, by decide, by simp [str, isspace], rfl⟩)⟩

/-- C4 as stated fails for a first field outside the range of `int`: in the
header "4294967296 x" the first field is the non-zero integer 4294967296 and
the second field is not an integer, so the claim gives the message "Invalid
sequence length in header"; the numeral is stored as the `int` 0 and the
message is "Invalid number of sequences in header". -/
theorem C4_counterexample :
    Scans (str "4294967296 x") 4294967296 (str " x") ∧ NoInteger (str " x") ∧
    parse_header (str "4294967296 x") PHYLIP_SEQUENTIAL ⟨0, []⟩ =
      (none, { bpp_errno := ERROR_PHYLIP_SYNTAX, bpp_errmsg := msg_header_count }) ∧
    parse_header (str "4294967296 x") PHYLIP_INTERLEAVED ⟨0, []⟩ =
      (none, { bpp_errno := ERROR_PHYLIP_SYNTAX, bpp_errmsg := msg_header_count }) ∧
    msg_header_count ≠ msg_header_length :=
  ⟨⟨[], [], str "4294967296", rfl, by decide, by decide, by decide, by simp [str, isdigit],
      Or.inl ⟨rfl, by decide⟩⟩,
   Or.inl ⟨[32], [120], rfl, by decide, by simp [isspace], rfl⟩, rfl, rfl,
   by decide⟩

/-- C7 (amended): when the expected format is sequential and the line starts
with two integers that are stored as non-zero `int` values (two non-zero
integers from `-2^31` to `2^31 - 1` are stored as themselves),
`parse_header` succeeds (and returns the two stored values) if and only if
everything after the second integer is white space (space, tab, carriage
return, newline); any other trailing byte makes it return 0, and so do the
format markers: "4 6 S" and "4 6 I" are rejected.  When one of the two
numerals is stored as 0 the header is rejected whatever follows. -/
theorem C7_sequential_trailing (line : List Nat) (g : Globals) (v1 v2 : Int)
    (r1 r2 : List Nat) (h1 : Scans line v1 r1) (h2 : Scans r1 v2 r2) :
    ((parse_header line PHYLIP_SEQUENTIAL g).1.isSome = true ↔
      scanf_d v1 ≠ 0 ∧ scanf_d v2 ≠ 0 ∧ ∀ c ∈ r2, whitespace c = true) ∧
    (scanf_d v1 ≠ 0 → scanf_d v2 ≠ 0 → (∀ c ∈ r2, whitespace c = true) →
      parse_header line PHYLIP_SEQUENTIAL g = (some (scanf_d v1, scanf_d v2), g)) ∧
    (scanf_d v1 ≠ 0 → scanf_d v2 ≠ 0 → (∃ c ∈ r2, whitespace c = false) →
      parse_header line PHYLIP_SEQUENTIAL g = (none, g)) ∧
    (-(2 ^ 31) ≤ v1 → v1 < 2 ^ 31 → scanf_d v1 = v1) ∧
    (-(2 ^ 31) ≤ v2 → v2 < 2 ^ 31 → scanf_d v2 = v2) ∧
    parse_header (str "4 6 S") PHYLIP_SEQUENTIAL g = (none, g) ∧
    parse_header (str "4 6 I") PHYLIP_SEQUENTIAL g = (none, g) := by
  have hgood : scanf_d v1 ≠ 0 → scanf_d v2 ≠ 0 →
      parse_header line PHYLIP_SEQUENTIAL g =
        if skipws r2 = [] then (some (scanf_d v1, scanf_d v2), g) else (none, g) :=
    fun hv1 hv2 => parse_header_two_integers line PHYLIP_SEQUENTIAL g v1 v2 r1 r2 h1 hv1 h2 hv2
  refine ⟨?_, ?_, ?_, scanf_d_of_range v1, scanf_d_of_range v2, rfl, rfl⟩
  · constructor
    · intro hs
      cases hp : (parse_header line PHYLIP_SEQUENTIAL g).1 with
      | none => rw [hp] at hs; exact absurd hs (by simp)
      | some cl =>
        obtain ⟨c, l⟩ := cl
        obtain ⟨_, hc, hl, _, hc1, hl1⟩ := parse_header_some line PHYLIP_SEQUENTIAL g c l hp
        obtain ⟨e1, e2⟩ := args_getint_scans line v1 r1 h1
        rw [e2] at hl1
        obtain ⟨e3, _⟩ := args_getint_scans r1 v2 r2 h2
        have hv1 : scanf_d v1 ≠ 0 := by rw [← e1, ← hc1]; exact hc
        have hv2 : scanf_d v2 ≠ 0 := by rw [← e3, ← hl1]; exact hl
        refine ⟨hv1, hv2, ?_⟩
        rw [← skipws_nil_iff]
        by_contra hsk
        rw [hgood hv1 hv2, if_neg hsk] at hp
        exact absurd hp (by simp)
    · rintro ⟨hv1, hv2, hw⟩
      rw [hgood hv1 hv2, if_pos ((skipws_nil_iff r2).mpr hw)]
      rfl
  · intro hv1 hv2 hw
    rw [hgood hv1 hv2, if_pos ((skipws_nil_iff r2).mpr hw)]
  · rintro hv1 hv2 ⟨c, hc, hcw⟩
    rw [hgood hv1 hv2, if_neg]
    intro hs
    have := (skipws_nil_iff r2).mp hs c hc
    rw [this] at hcw
    exact absurd hcw (by simp)

/-- C7 at the headers "4 6 " and "4 6 x". -/
theorem C7_sequential_trailing_witness :
    parse_header (str "4 6 ") PHYLIP_SEQUENTIAL ⟨0, []⟩ = (some (4, 6), ⟨0, []⟩) ∧
    parse_header (str "4 6 x") PHYLIP_SEQUENTIAL ⟨0, []⟩ = (none, ⟨0, []⟩) :=
  ⟨(C7_sequential_trailing (str "4 6 ") ⟨0, []⟩ 4 6 (str " 6 ") (str " ")
      ⟨[], [], [52], rfl, by decide, by decide, by decide, by simp [str, isdigit],
        Or.inl ⟨rfl, rfl⟩⟩
      ⟨[32], [], [54], rfl, by decide, by decide, by decide, by simp [str, isdigit],
        Or.inl ⟨rfl, rfl⟩⟩).2.1 (by decide) (by decide) (by decide),
   (C7_sequential_trailing (str "4 6 x") ⟨0, []⟩ 4 6 (str " 6 x") (str " x")
      ⟨[], [], [52], rfl, by decide, by decide, by decide, by simp [str, isdigit],
        Or.inl ⟨rfl, rfl⟩⟩
      ⟨[32], [], [54], rfl, by decide, by decide, by decide, by simp [str, isdigit],
        Or.inl ⟨rfl, rfl⟩⟩).2.2.1 (by decide) (by decide) ⟨120, by decide, by decide⟩⟩

/-- C7 as stated fails for a numeral outside the range of `int`: the header
"4294967296 6" holds two non-zero integers and nothing after the second one,
and `parse_header` rejects it, because the first numeral is stored as the
`int` 0. -/
theorem C7_counterexample :
    Scans (str "4294967296 6") 4294967296 (str " 6") ∧ Scans (str " 6") 6 [] ∧
    parse_header (str "4294967296 6") PHYLIP_SEQUENTIAL ⟨0, []⟩ =
      (none, { bpp_errno := ERROR_PHYLIP_SYNTAX, bpp_errmsg := msg_header_count }) ∧
    (parse_header (str "4294967296 6") PHYLIP_SEQUENTIAL ⟨0, []⟩).1.isSome = false :=
  ⟨⟨[], [], str "4294967296", rfl, by decide, by decide, by decide, by simp [str, isdigit],
      Or.inl ⟨rfl, by decide⟩⟩,
   ⟨[32], [], [54], rfl, by decide, by decide, by decide, by simp, Or.inl ⟨rfl, rfl⟩⟩,
   rfl, rfl⟩

/-- C6 (the code departs from it): with the interleaved format expected, a
header with a format marker is not accepted.  After the test for `S`, `s`, `I`,
`i` the pointer is not moved past the marker, so the second white-space loop
stops on it and `parse_header` returns 0: on "4 6 I", "4 6 S", "4 6 i",
"4 6 s" and "4 6 I " alike, with the error slot left untouched. -/
theorem C6_interleaved_marker_rejected (g : Globals) :
    parse_header (str "4 6 I") PHYLIP_INTERLEAVED g = (none, g) ∧
    parse_header (str "4 6 S") PHYLIP_INTERLEAVED g = (none, g) ∧
    parse_header (str "4 6 i") PHYLIP_INTERLEAVED g = (none, g) ∧
    parse_header (str "4 6 s") PHYLIP_INTERLEAVED g = (none, g) ∧
    parse_header (str "4 6 I ") PHYLIP_INTERLEAVED g = (none, g) ∧
    parse_header (str "4 6") PHYLIP_INTERLEAVED g = (some (4, 6), g) :=
  ⟨rfl, rfl, rfl, rfl, rfl, rfl⟩

/-- C8: an interleaved input written in `K` blocks (the first one with the
labels, then `K - 1` later ones, and lines without data after them at will),
in which every taxon's lines yield exactly `w` Accept bytes in each of the
first `K - 1` blocks and exactly `wl` in the last one (`1 ≤ wl ≤ w`), is
parsed: `phylip_parse_interleaved` returns an alignment if and only if
`(K - 1) * w + wl` is the length declared in the header; the alignment then
has the declared count and length, the labels of the first block, and for
every taxon the concatenation of its `K` chunks in block order.  When the sum
is not the declared length the parser releases the alignment and returns NULL
(`r = none`); this return is reached when the field `freqs` of the structure
holds NULL, and with another value in it the release is undefined. -/
theorem C8_interleaved_blocks (t : Nat → Nat) (n L w wl freqs : Nat) (fd : phylip_t)
    (g : Globals)
    (blanks : List (List Nat)) (hdr : List Nat) (first : List TaxonLines)
    (later : List (List (List (List Nat)))) (trail : List (List Nat))
    (ht : fd.chrstatus = t)
    (hon : OnLines fd (blanks ++ hdr ::
      ((first.map TaxonLines.lines).flatten ++
        ((later.map List.flatten).flatten ++ trail))))
    (hb : ∀ b ∈ blanks, Blank b)
    (hh : (parse_header hdr PHYLIP_INTERLEAVED g).1 = some ((n : Int), (L : Int)))
    (hn : first.length = n) (hln : ∀ gs ∈ later, gs.length = n)
    (_hwl : 1 ≤ wl ∧ wl ≤ w)
    (hfirst : ∀ r ∈ first, r.yields t (if later = [] then wl else w))
    (hmid : ∀ gs ∈ later.dropLast, ∀ grp ∈ gs, Yields t w grp)
    (hlast : ∀ gs ∈ later.getLast?, ∀ grp ∈ gs, Yields t wl grp)
    (htr : ∀ z ∈ trail, Clean t z ∧ accepted t z = []) :
    ∃ r fd1 g1,
      phylip_parse_interleaved freqs fd g =
        (if r.isSome = true ∨ freqs = 0 then .ret (r, fd1, g1) else .undefined) ∧
      (r.isSome = true ↔ later.length * w + wl = L) ∧
      ∀ m, r = some m →
        m.count = n ∧ m.length = L ∧ m.label.length = n ∧ m.sequence.length = n ∧
        ∀ i x, first[i]? = some x →
          m.label[i]? = some (some x.label) ∧
          m.sequence[i]? = some (some (x.seq t ++
            (later.map (fun gs => accepted t (gs.getD i []).flatten)).flatten ++ [0])) := by
  obtain ⟨bs, hbs2, hsum, hbsw⟩ := uniform_blocks w wl later
  have hlines : blocksLines bs = (later.map List.flatten).flatten := by
    rw [← hbs2]; simp [blocksLines, List.map_map, Function.comp_def]
  have hbs : ∀ p ∈ bs, p.2.length = n ∧ ∀ grp ∈ p.2, Yields t p.1 grp := by
    intro p hp
    have hmem : p.2 ∈ later := by rw [← hbs2]; exact List.mem_map_of_mem _ hp
    refine ⟨hln _ hmem, ?_⟩
    rcases hbsw p hp with ⟨h1, h2⟩ | ⟨h1, h2⟩
    · rw [h1]; exact hmid _ h2
    · rw [h1]; exact hlast _ h2
  obtain ⟨r, fd1, g1, hres, hyes, hno, _, _⟩ :=
    parse_interleaved_blocks freqs t n L (if later = [] then wl else w) fd g blanks hdr first bs
      trail ht (by rw [hlines]; exact hon) hb hh hn hfirst hbs htr
  rw [hsum] at hyes hno
  rw [released_eq] at hres
  refine ⟨r, fd1, g1, hres, ?_, ?_⟩
  · constructor
    · intro hs
      by_contra hne
      rw [hno hne] at hs
      exact absurd hs (by simp)
    · intro he
      rw [(hyes he).1]; rfl
  · intro m hm
    have he : later.length * w + wl = L := by
      by_contra hne
      rw [hno hne] at hm
      exact absurd hm (by simp)
    obtain ⟨hm2, hplen, hprows⟩ := hyes he
    rw [hm2] at hm
    injection hm with hm
    subst hm
    have hlen : ∀ p ∈ bs, p.2.length = (first.map (TaxonLines.seq t)).length := by
      intro p hp; rw [(hbs p hp).1]; simp [hn]
    refine ⟨rfl, rfl, by simp [msaOf, hn], by simp [msaOf, hplen], ?_⟩
    intro i x hx
    have hrow := pasteBlocks_getElem? t bs (first.map (TaxonLines.seq t)) i (x.seq t)
      (by simp [hx]) hlen
    rw [hbs2] at hrow
    refine ⟨by simp [msaOf, hx], ?_⟩
    simp only [msaOf, List.getElem?_map, hrow, Option.map_some']
    have hlenrow := hprows _ (List.getElem?_mem hrow)
    rw [bufOf_full L _ hlenrow]

/-- C8 at two taxa and five columns written in a block of three columns and a
block of two columns: the parse succeeds, as 1 * 3 + 2 = 5, and the rows are
"ACG" ++ "TA" and "TTA" ++ "CC". -/
theorem C8_interleaved_blocks_witness :
    ∃ r fd1 g1,
      phylip_parse_interleaved 0 blocks_cursor ⟨0, []⟩ =
        (if r.isSome = true ∨ 0 = 0 then .ret (r, fd1, g1) else .undefined) ∧
      (r.isSome = true ↔ 1 * 3 + 2 = 5) ∧
      ∀ m, r = some m →
        m.count = (2 : Nat) ∧ m.length = (5 : Nat) ∧ m.label.length = 2 ∧
        m.sequence.length = 2 ∧
        ∀ i x, [(⟨[], str "A ACG", []⟩ : TaxonLines), ⟨[], str "B TTA", []⟩][i]? = some x →
          m.label[i]? = some (some x.label) ∧
          m.sequence[i]? = some (some (x.seq example_table ++
            ([[[[], str "TA"], [str "CC"]]].map
              (fun gs => accepted example_table (gs.getD i []).flatten)).flatten ++ [0])) :=
  C8_interleaved_blocks example_table 2 5 3 2 0 blocks_cursor ⟨0, []⟩ [] (str "2 5")
    [⟨[], str "A ACG", []⟩, ⟨[], str "B TTA", []⟩] [[[[], str "TA"], [str "CC"]]] [] rfl
    ⟨str "2 5", [str "A ACG", str "B TTA", [], str "TA", str "CC"], rfl, rfl,
      isText_unlines [str "A ACG", str "B TTA", [], str "TA", str "CC"], by decide⟩
    (by simp) rfl rfl (by simp) (by decide)
    (by
      intro r hr
      simp only [List.mem_cons, List.mem_singleton, List.not_mem_nil, or_false] at hr
      rcases hr with rfl | rfl
      · exact ⟨by simp, by decide, [], str " ACG", rfl, by simp, by decide, by decide,
          by decide⟩
      · exact ⟨by simp, by decide, [], str " TTA", rfl, by simp, by decide, by decide,
          by decide⟩)
    (by simp)
    (by
      intro gs hgs grp hgrp
      simp only [List.getLast?, List.getLast, Option.mem_def, Option.some.injEq] at hgs
      subst hgs
      simp only [List.mem_cons, List.mem_singleton, List.not_mem_nil, or_false] at hgrp
      rcases hgrp with rfl | rfl
      · exact ⟨[[]], str "TA", rfl, by decide, by decide, by decide, by decide⟩
      · exact ⟨[], str "CC", rfl, by simp, by decide, by decide, by decide⟩)
    (by simp)

/-- C12: on an input made of `N ≥ 1` well-formed sequential blocks, separated
and followed by blank lines at will, `phylip_parse_multisequential` returns
`count = N` and a list of `N` alignments whose `i`-th element (0-based, file
order) is the alignment `phylip_parse_sequential` returns on the `i`-th block
alone (first part).  If `phylip_parse_sequential` returns NULL on a block
(`fdk` is a cursor that stands on the lines of that block and of what follows
it, with the table and the line number of `fd`), behind any number of
well-formed blocks, the call ends in `fatal` with the message of the error
slot and returns no list (second part). -/
theorem C12_multisequential (t : Nat → Nat) (g : Globals) (fd : phylip_t)
    (ht : fd.chrstatus = t) :
    (∀ (blocks : List LocusLines) (trail : List (List Nat)),
      blocks ≠ [] → (∀ b ∈ blocks, b.ok t g) → (∀ x ∈ trail, Blank x) →
      OnLines fd ((blocks.map LocusLines.lines).flatten ++ trail) →
      ∃ list fd1, phylip_parse_multisequential fd g =
          .ret (list, (blocks.length : Int), fd1, g) ∧
        list.length = blocks.length ∧
        ∀ (i : Nat) (b : LocusLines), blocks[i]? = some b →
          ∀ fdi : phylip_t, fdi.chrstatus = t → OnLines fdi b.lines →
            ∃ m fdi1, list[i]? = some m ∧
              phylip_parse_sequential fdi g = .ret (some m, fdi1, g)) ∧
    (∀ (pre : List LocusLines) (bl : List (List Nat)) (l : List Nat)
       (rest : List (List Nat)) (fdk fdk1 : phylip_t) (g1 : Globals),
      (∀ b ∈ pre, b.ok t g) → (∀ x ∈ bl, Blank x) → ¬ Blank l →
      OnLines fd ((pre.map LocusLines.lines).flatten ++ (bl ++ l :: rest)) →
      OnLines fdk (l :: rest) → fdk.chrstatus = t → fdk.lineno = fd.lineno →
      phylip_parse_sequential fdk g = .ret (none, fdk1, g1) →
      phylip_parse_multisequential fd g = .fatal g1.bpp_errmsg) := by
  constructor
  · intro blocks trail hne hok htr hon
    obtain ⟨fd1, h⟩ := parse_multisequential_blocks t g fd blocks trail ht hne hok htr hon
    refine ⟨_, fd1, h, by simp, ?_⟩
    intro i b hb fdi hti honi
    obtain ⟨fdi1, hp, _, _⟩ :=
      parse_sequential_locus t g b [] fdi hti (hok b (List.getElem?_mem hb))
        (by simpa using honi)
    exact ⟨b.msa t, fdi1, by simp [hb], hp⟩
  · intro pre bl l rest fdk fdk1 g1 hok hbl hl hon honk hck hlk hfail
    exact parse_multisequential_abort t g fd pre bl l rest fdk fdk1 g1 ht hok hbl hl hon honk
      hck hlk hfail

/-- C12 at two blocks of two taxa ("2 3" and "2 2"); at one block followed by
the line "x", which is no header; and at one block followed by a block whose
taxon line holds the fatal byte `!`. -/
theorem C12_multisequential_witness :
    (∃ list fd1, phylip_parse_multisequential two_loci_cursor ⟨0, []⟩ =
        .ret (list, 2, fd1, ⟨0, []⟩) ∧ list.length = 2) ∧
    phylip_parse_multisequential bad_locus_cursor ⟨0, []⟩ =
      .fatal (str "Invalid number of sequences in header") ∧
    phylip_parse_multisequential bang_locus_cursor ⟨0, []⟩ =
      .fatal (str "illegal character '!' on line 1 in the fasta file") := by
  have hrec : ∀ (a b : List Nat) (L : Nat), Clean example_table b →
      (accepted example_table b).length = L →
      (skipws (a ++ 32 :: b)).drop (headerlen (skipws (a ++ 32 :: b))) = 32 :: b →
      TaxonLines.ok example_table L ⟨[], a ++ 32 :: b, []⟩ := by
    intro a b L hc hl hd
    refine ⟨by simp, ?_, ?_⟩
    · intro h
      simp only [TaxonLines.first] at h
      rw [h] at hd
      simp at hd
    · simp only [TaxonLines.data, hd]
      refine ⟨?_, Or.inl ⟨rfl, ?_⟩⟩
      · intro c hcm
        simp only [List.mem_cons] at hcm
        rcases hcm with rfl | hcm
        · decide
        · exact hc c hcm
      · simp only [accepted, List.filter_cons] at hl ⊢
        simpa [example_table, chrclass, tableAt, schar] using hl
  refine ⟨?_, ?_, ?_⟩
  · obtain ⟨list, fd1, h, hlen, _⟩ :=
      (C12_multisequential example_table ⟨0, []⟩ two_loci_cursor rfl).1
        [⟨[], str "2 3", [⟨[], str "A ACG", []⟩, ⟨[], str "B TTA", []⟩], 2, 3⟩,
         ⟨[[]], str "2 2", [⟨[], str "C AC", []⟩, ⟨[], str "D GT", []⟩], 2, 2⟩] [[]]
        (by simp)
        (by
          intro b hb
          simp only [List.mem_cons, List.mem_singleton, List.not_mem_nil, or_false] at hb
          rcases hb with rfl | rfl
          · refine ⟨by simp, rfl, rfl, ?_⟩
            intro r hr
            simp only [List.mem_cons, List.mem_singleton, List.not_mem_nil, or_false] at hr
            rcases hr with rfl | rfl
            · exact hrec (str "A") (str "ACG") 3 (by decide) (by decide) (by decide)
            · exact hrec (str "B") (str "TTA") 3 (by decide) (by decide) (by decide)
          · refine ⟨by decide, rfl, rfl, ?_⟩
            intro r hr
            simp only [List.mem_cons, List.mem_singleton, List.not_mem_nil, or_false] at hr
            rcases hr with rfl | rfl
            · exact hrec (str "C") (str "AC") 2 (by decide) (by decide) (by decide)
            · exact hrec (str "D") (str "GT") 2 (by decide) (by decide) (by decide))
        (by decide)
        ⟨str "2 3", [str "A ACG", str "B TTA", [], str "2 2", str "C AC", str "D GT", []],
          rfl, rfl,
          isText_unlines [str "A ACG", str "B TTA", [], str "2 2", str "C AC", str "D GT", []],
          by decide⟩
    exact ⟨list, fd1, h, hlen⟩
  · exact (C12_multisequential example_table ⟨0, []⟩ bad_locus_cursor rfl).2
      [⟨[], str "2 3", [⟨[], str "A ACG", []⟩, ⟨[], str "B TTA", []⟩], 2, 3⟩] [] (str "x") []
      { bad_locus_cursor with fp := [], line := some (str "x") }
      { bad_locus_cursor with fp := [], line := some (str "x") }
      { bpp_errno := ERROR_PHYLIP_SYNTAX,
        bpp_errmsg := str "Invalid number of sequences in header" }
      (by
        intro b hb
        simp only [List.mem_singleton] at hb
        subst hb
        refine ⟨by simp, rfl, rfl, ?_⟩
        intro r hr
        simp only [List.mem_cons, List.mem_singleton, List.not_mem_nil, or_false] at hr
        rcases hr with rfl | rfl
        · exact hrec (str "A") (str "ACG") 3 (by decide) (by decide) (by decide)
        · exact hrec (str "B") (str "TTA") 3 (by decide) (by decide) (by decide))
      (by simp) (by decide)
      ⟨str "2 3", [str "A ACG", str "B TTA", str "x"], rfl, rfl,
        isText_unlines [str "A ACG", str "B TTA", str "x"], by decide⟩
      ⟨str "x", [], rfl, rfl, rfl, by decide⟩ rfl rfl rfl
  · exact (C12_multisequential example_table ⟨0, []⟩ bang_locus_cursor rfl).2
      [⟨[], str "2 3", [⟨[], str "A ACG", []⟩, ⟨[], str "B TTA", []⟩], 2, 3⟩] [] (str "1 3")
      [str "A ACG!"] bang_cursor _
      { bpp_errno := ERROR_PHYLIP_ILLEGALCHAR,
        bpp_errmsg := str "illegal character '!' on line 1 in the fasta file" }
      (by
        intro b hb
        simp only [List.mem_singleton] at hb
        subst hb
        refine ⟨by simp, rfl, rfl, ?_⟩
        intro r hr
        simp only [List.mem_cons, List.mem_singleton, List.not_mem_nil, or_false] at hr
        rcases hr with rfl | rfl
        · exact hrec (str "A") (str "ACG") 3 (by decide) (by decide) (by decide)
        · exact hrec (str "B") (str "TTA") 3 (by decide) (by decide) (by decide))
      (by simp) (by decide)
      ⟨str "2 3", [str "A ACG", str "B TTA", str "1 3", str "A ACG!"], rfl, rfl,
        isText_unlines [str "A ACG", str "B TTA", str "1 3", str "A ACG!"], by decide⟩
      ⟨str "1 3", [str "A ACG!"], rfl, rfl, isText_unlines [str "A ACG!"], by decide⟩
      rfl rfl rfl

/-- C13: for every alignment with `a` ambiguous sites and at least one site
free of ambiguity, `msa_remove_ambiguous` returns 1 and sets `length` to
`length - a`; there is one map `f` that is a bijection between the new sites
`0 .. length - a - 1` and the original sites free of ambiguity such that, for
every taxon, the byte at each new site `m` is that taxon's byte at the original
site `f m` (and the terminator follows at `length - a`); no new site is
ambiguous. -/
theorem C13_remove_ambiguous_bijection (map : Nat → Nat) (msa : msa_t)
    (rows : List (List Nat)) (h : msa.HasRows rows)
    (hna : ∃ c, c < msa.length.toNat ∧ ambiguousSite map rows c = false) :
    ∃ (msa1 : msa_t) (rows1 : List (List Nat)) (f : Nat → Nat),
      msa_remove_ambiguous map msa = .ret (1, msa1) ∧
      msa1.length = msa.length - (ambiguousCount map rows msa.length.toNat : Int) ∧
      msa1.count = msa.count ∧ msa1.label = msa.label ∧
      msa1.sequence = rows1.map some ∧ rows1.length = rows.length ∧
      Set.BijOn f {m | (m : Int) < msa1.length}
        {c | c < msa.length.toNat ∧ ambiguousSite map rows c = false} ∧
      (∀ (k : Nat) (buf : List Nat), rows[k]? = some buf →
        ∃ buf1, rows1[k]? = some buf1 ∧ buf1[msa1.length.toNat]? = some 0 ∧
          ∀ m : Nat, (m : Int) < msa1.length → buf1[m]? = buf[f m]?) ∧
      (∀ m : Nat, (m : Int) < msa1.length → ambiguousSite map rows1 m = false) := by
  have hne : ambiguousCount map rows msa.length.toNat ≠ msa.length.toNat := by
    intro heq
    obtain ⟨c, hc, hz⟩ := hna
    rw [(ambiguousCount_eq_iff map rows _).mp heq c hc] at hz
    exact absurd hz (by simp)
  obtain ⟨s, rows1, hdone, hrows1, hres, hrow, hamb⟩ := remove_ambiguous_rows map msa rows h hne
  have hle := ambiguousCount_le map rows msa.length.toNat
  have h0 := h.1
  obtain ⟨ha, hn, hiff, _, _, _⟩ := hdone
  simp only [siteMarks_length] at ha hn hiff
  have hslt : ∀ c, c < msa.length.toNat → s c < msa.length.toNat := by
    intro c hc
    by_contra hcon
    have h1 := ha (s c) (by omega)
    have h2 := s.injective h1
    omega
  refine ⟨_, rows1, s, hres, by simp only []; omega, rfl, rfl, rfl, by simp [hrows1], ?_, ?_, ?_⟩
  · simp only []
    refine ⟨?_, ?_, ?_⟩
    · intro m hm
      simp only [Set.mem_setOf_eq] at hm ⊢
      have hmn : m < msa.length.toNat - ambiguousCount map rows msa.length.toNat := by omega
      have hml : m < msa.length.toNat := by omega
      refine ⟨hslt m hml, ?_⟩
      have := (hiff m hml).mp hmn
      rwa [siteMarks_zero map rows _ _ (hslt m hml)] at this
    · intro m _ m2 _ heq
      exact s.injective heq
    · intro c hc
      simp only [Set.mem_setOf_eq] at hc
      obtain ⟨hcl, hcz⟩ := hc
      have hk : s.symm c < msa.length.toNat := by
        by_contra hcon
        have h1 := ha (s.symm c) (by omega)
        rw [Equiv.apply_symm_apply] at h1
        omega
      refine ⟨s.symm c, ?_, by simp⟩
      simp only [Set.mem_setOf_eq]
      have h2 : s.symm c < msa.length.toNat - ambiguousCount map rows msa.length.toNat := by
        rw [hiff _ hk, Equiv.apply_symm_apply, siteMarks_zero map rows _ _ hcl]
        exact hcz
      omega
  · intro k buf hk
    obtain ⟨h1, h2, h3⟩ := hrow k buf hk
    refine ⟨_, h1, ?_, ?_⟩
    · simp only [Int.toNat_ofNat]
      exact h2
    · intro m hm
      exact (h3 m (by simp only [] at hm; omega)).1
  · intro m hm
    simp only [] at hm
    have hmn : m < msa.length.toNat - ambiguousCount map rows msa.length.toNat := by omega
    rw [hamb m hmn]
    have := (hiff m (by omega)).mp hmn
    rwa [siteMarks_zero map rows _ _ (hslt m (by omega))] at this

/-- C13 at two taxa and four sites of which the first and the third are
ambiguous. -/
theorem C13_remove_ambiguous_bijection_witness :
    ∃ (msa1 : msa_t) (rows1 : List (List Nat)) (f : Nat → Nat),
      msa_remove_ambiguous example_amb amb_msa = .ret (1, msa1) ∧
      msa1.length = amb_msa.length - (ambiguousCount example_amb amb_rows 4 : Int) ∧
      msa1.count = amb_msa.count ∧ msa1.label = amb_msa.label ∧
      msa1.sequence = rows1.map some ∧ rows1.length = amb_rows.length ∧
      Set.BijOn f {m | (m : Int) < msa1.length}
        {c | c < 4 ∧ ambiguousSite example_amb amb_rows c = false} ∧
      (∀ (k : Nat) (buf : List Nat), amb_rows[k]? = some buf →
        ∃ buf1, rows1[k]? = some buf1 ∧ buf1[msa1.length.toNat]? = some 0 ∧
          ∀ m : Nat, (m : Int) < msa1.length → buf1[m]? = buf[f m]?) ∧
      (∀ m : Nat, (m : Int) < msa1.length → ambiguousSite example_amb rows1 m = false) :=
  C13_remove_ambiguous_bijection example_amb amb_msa amb_rows
    ⟨by decide, rfl, rfl, by decide⟩ ⟨1, by decide, by decide⟩

/-- C14 (amended): `msa_remove_ambiguous` is a partition, but not a stable
one.  For every alignment with at least one site free of ambiguity, after the
call the new site `m` (for every `m` below the new length) is the original
site `f m`, the same for all taxa, where: `f m = m` when the original site `m`
is free of ambiguity (such a site stays where it is); otherwise `f m` is an
original site free of ambiguity at or beyond the new length, and these
replacements are taken from right to left (`f` is decreasing on them).  So the
retained sites keep their original relative order only where no ambiguous
site stood before the new length. -/
theorem C14_remove_ambiguous_order (map : Nat → Nat) (msa : msa_t)
    (rows : List (List Nat)) (h : msa.HasRows rows)
    (hna : ∃ c, c < msa.length.toNat ∧ ambiguousSite map rows c = false) :
    ∃ (msa1 : msa_t) (rows1 : List (List Nat)) (f : Nat → Nat),
      msa_remove_ambiguous map msa = .ret (1, msa1) ∧
      msa1.length = msa.length - (ambiguousCount map rows msa.length.toNat : Int) ∧
      msa1.sequence = rows1.map some ∧
      (∀ (k : Nat) (buf : List Nat), rows[k]? = some buf →
        ∃ buf1, rows1[k]? = some buf1 ∧
          ∀ m : Nat, (m : Int) < msa1.length → buf1[m]? = buf[f m]?) ∧
      (∀ m : Nat, (m : Int) < msa1.length → ambiguousSite map rows m = false → f m = m) ∧
      (∀ m : Nat, (m : Int) < msa1.length → ambiguousSite map rows m = true →
        msa1.length ≤ (f m : Int) ∧ f m < msa.length.toNat ∧
        ambiguousSite map rows (f m) = false) ∧
      (∀ m d : Nat, m < d → (d : Int) < msa1.length → ambiguousSite map rows m = true →
        ambiguousSite map rows d = true → f d < f m) := by
  have hne : ambiguousCount map rows msa.length.toNat ≠ msa.length.toNat := by
    intro heq
    obtain ⟨c, hc, hz⟩ := hna
    rw [(ambiguousCount_eq_iff map rows _).mp heq c hc] at hz
    exact absurd hz (by simp)
  obtain ⟨s, rows1, hdone, hrows1, hres, hrow, hamb⟩ := remove_ambiguous_rows map msa rows h hne
  have hle := ambiguousCount_le map rows msa.length.toNat
  have h0 := h.1
  have hslt := fun c hc => moveDone_lt _ s _ hdone c (by rw [siteMarks_length]; exact hc)
  simp only [siteMarks_length] at hslt
  obtain ⟨ha, hn, hiff, hstay, hmoved, horder⟩ := hdone
  simp only [siteMarks_length] at ha hn hiff hmoved
  have hnz : ∀ c, c < msa.length.toNat → ambiguousSite map rows c = true →
      (siteMarks map rows msa.length.toNat).getD c 0 ≠ 0 := by
    intro c hc hz h2
    rw [siteMarks_zero map rows _ _ hc, hz] at h2
    exact absurd h2 (by simp)
  refine ⟨_, rows1, s, hres, by simp only []; omega, rfl, ?_, ?_, ?_, ?_⟩
  · intro k buf hk
    obtain ⟨h1, _, h3⟩ := hrow k buf hk
    exact ⟨_, h1, fun m hm => (h3 m (by simp only [] at hm; omega)).1⟩
  · intro m hm hz
    simp only [] at hm
    exact hstay m (by omega) ((siteMarks_zero map rows _ _ (by omega)).mpr hz)
  · intro m hm hz
    simp only [] at hm ⊢
    have hml : m < msa.length.toNat := by omega
    have hmn : m < msa.length.toNat - ambiguousCount map rows msa.length.toNat := by omega
    obtain ⟨h1, h2⟩ := hmoved m hmn (hnz m hml hz)
    refine ⟨by omega, h2, ?_⟩
    have := (hiff m hml).mp hmn
    rwa [siteMarks_zero map rows _ _ h2] at this
  · intro m d hmd hd hzm hzd
    simp only [] at hd
    exact horder m d hmd (by omega) (hnz m (by omega) hzm) (hnz d (by omega) hzd)

/-- C14 (amended) at two taxa and four sites of which the first and the third
are ambiguous. -/
theorem C14_remove_ambiguous_order_witness :
    ∃ (msa1 : msa_t) (rows1 : List (List Nat)) (f : Nat → Nat),
      msa_remove_ambiguous example_amb amb_msa = .ret (1, msa1) ∧
      msa1.length = amb_msa.length - (ambiguousCount example_amb amb_rows 4 : Int) ∧
      msa1.sequence = rows1.map some ∧
      (∀ (k : Nat) (buf : List Nat), amb_rows[k]? = some buf →
        ∃ buf1, rows1[k]? = some buf1 ∧
          ∀ m : Nat, (m : Int) < msa1.length → buf1[m]? = buf[f m]?) ∧
      (∀ m : Nat, (m : Int) < msa1.length → ambiguousSite example_amb amb_rows m = false →
        f m = m) ∧
      (∀ m : Nat, (m : Int) < msa1.length → ambiguousSite example_amb amb_rows m = true →
        msa1.length ≤ (f m : Int) ∧ f m < 4 ∧
        ambiguousSite example_amb amb_rows (f m) = false) ∧
      (∀ m d : Nat, m < d → (d : Int) < msa1.length →
        ambiguousSite example_amb amb_rows m = true →
        ambiguousSite example_amb amb_rows d = true → f d < f m) :=
  C14_remove_ambiguous_order example_amb amb_msa amb_rows
    ⟨by decide, rfl, rfl, by decide⟩ ⟨1, by decide, by decide⟩

/-- C14 as stated fails: in the alignment "NACG", "TARC" the sites free of
ambiguity are the sites 1 and 3, in this order, holding "A", "A" and "G", "C";
after the call the new site 0 holds "G", "C" and the new site 1 holds "A",
"A": the two retained sites have changed places. -/
theorem C14_counterexample :
    ∃ msa1, msa_remove_ambiguous example_amb amb_msa = .ret (1, msa1) ∧
      msa1.length = 2 ∧
      msa1.sequence = [some (str "GA" ++ [0, 78, 0]), some (str "CA" ++ [0, 84, 0])] ∧
      (List.range 4).filter (fun c => !ambiguousSite example_amb amb_rows c) = [1, 3] ∧
      amb_rows.map (fun buf => [buf.getD 1 0, buf.getD 3 0]) = [str "AG", str "AC"] :=
  ⟨_, rfl, rfl, rfl, by decide, by decide⟩

/-- C15: removal of the ambiguous sites is idempotent.  When
`msa_remove_ambiguous` has succeeded on an alignment (it returned 1), a second
call on the result succeeds as well, sets `amb_sites_count` to 0 and leaves
everything else, the length and every sequence buffer among it, exactly as the
first call left it. -/
theorem C15_remove_ambiguous_idempotent (map : Nat → Nat) (msa msa1 : msa_t)
    (rows : List (List Nat)) (h : msa.HasRows rows)
    (h1 : msa_remove_ambiguous map msa = .ret (1, msa1)) :
    msa_remove_ambiguous map msa1 = .ret (1, { msa1 with amb_sites_count := 0 }) := by
  have hle := ambiguousCount_le map rows msa.length.toNat
  by_cases hne : ambiguousCount map rows msa.length.toNat = msa.length.toNat
  · rw [(msa_remove_ambiguous_spec map msa rows h).1 hne] at h1
    simp at h1
  obtain ⟨s, rows1, hdone, hrows1, hres, hrow, hamb⟩ := remove_ambiguous_rows map msa rows h hne
  rw [hres] at h1
  simp only [Outcome.ret.injEq, Prod.mk.injEq, true_and] at h1
  have hslt := fun c hc => moveDone_lt _ s _ hdone c (by rw [siteMarks_length]; exact hc)
  simp only [siteMarks_length] at hslt
  obtain ⟨ha, hn, hiff, _, _, _⟩ := hdone
  simp only [siteMarks_length] at ha hn hiff
  obtain ⟨h0, hc, hs, hr⟩ := h
  generalize hnn : msa.length.toNat - ambiguousCount map rows msa.length.toNat = n at *
  have hnpos : 0 < n := by omega
  have hl1 : msa1.length.toNat = n := by rw [← h1]; simp
  -- the rows of the result
  have hmem : ∀ buf1 ∈ rows1, ∃ buf ∈ rows, buf1 = (permuteCells 0 s buf).set n 0 := by
    intro buf1 hb1
    rw [hrows1] at hb1
    simp only [List.mem_map] at hb1
    obtain ⟨buf, hb, rfl⟩ := hb1
    exact ⟨buf, hb, rfl⟩
  have hcell : ∀ buf ∈ rows, ∀ m, m < n →
      ((permuteCells 0 s buf).set n 0)[m]? = buf[s m]? := by
    intro buf hb m hm
    have := (hr buf hb).1
    exact permuted_row_getElem? s buf n m (by omega) (by omega)
      (by have := hslt m (by omega); omega)
  have hrows : msa1.HasRows rows1 := by
    refine ⟨by rw [← h1]; simp, by rw [← h1]; simp [hc, hrows1], by rw [← h1], ?_⟩
    intro buf1 hb1
    obtain ⟨buf, hb, rfl⟩ := hmem buf1 hb1
    obtain ⟨hbl, hbytes⟩ := hr buf hb
    rw [hl1]
    refine ⟨by simp [permuteCells_length]; omega, ?_⟩
    intro c hcm
    rw [List.mem_take_iff_getElem] at hcm
    obtain ⟨m, hm, rfl⟩ := hcm
    have hmn : m < n := by
      simp only [List.length_set, permuteCells_length] at hm
      omega
    have hget := hcell buf hb m hmn
    have hsm := hslt m (by omega)
    rw [List.getElem?_eq_getElem (by simp [permuteCells_length]; omega),
      List.getElem?_eq_getElem (by omega)] at hget
    simp only [Option.some.injEq] at hget
    rw [hget]
    exact hbytes _ (by
      rw [List.mem_take_iff_getElem]
      exact ⟨s m, by simp; omega, rfl⟩)
  have hfree : ∀ c, c < n → ambiguousSite map rows1 c = false := by
    intro c hcn
    rw [hamb c hcn]
    have := (hiff c (by omega)).mp hcn
    rwa [siteMarks_zero map rows _ _ (hslt c (by omega))] at this
  have hzero : ambiguousCount map rows1 msa1.length.toNat = 0 := by
    rw [hl1]; exact ambiguousCount_zero map rows1 n hfree
  obtain ⟨s2, hdone2, hres2⟩ :=
    (msa_remove_ambiguous_spec map msa1 rows1 hrows).2 (by rw [hzero, hl1]; omega)
  rw [hres2, hzero, hl1]
  simp only [Nat.sub_zero, Outcome.ret.injEq, Prod.mk.injEq, true_and]
  rw [hzero, hl1] at hdone2
  obtain ⟨ha2, _, _, hstay2, _, _⟩ := hdone2
  simp only [siteMarks_length, Nat.sub_zero] at ha2 hstay2
  have hid : ∀ c, s2 c = c := by
    intro c
    by_cases hcn : c < n
    · exact hstay2 c hcn ((siteMarks_zero map rows1 n c hcn).mpr (hfree c hcn))
    · exact ha2 c (by omega)
  have hseq : rows1.map (fun buf => some ((permuteCells 0 s2 buf).set n 0)) = msa1.sequence := by
    rw [← h1]
    simp only []
    apply List.map_congr_left
    intro buf1 hb1
    obtain ⟨buf, hb, rfl⟩ := hmem buf1 hb1
    have hbl := (hr buf hb).1
    rw [permuteCells_id 0 s2 _ (fun c _ => hid c)]
    rw [set_same _ n 0 (by
      rw [List.getElem?_set_self (by rw [permuteCells_length]; omega)])]
  rw [hseq]
  have hlen : ((n : Nat) : Int) = msa1.length := by rw [← h1]
  rw [hlen]
  simp

/-- C15 at two taxa and four sites of which the first and the third are
ambiguous. -/
theorem C15_remove_ambiguous_idempotent_witness :
    msa_remove_ambiguous example_amb
      { count := 2, length := 2,
        sequence := [some (str "GA" ++ [0, 78, 0]), some (str "CA" ++ [0, 84, 0])],
        label := [some (str "A"), some (str "B")], amb_sites_count := 2 } =
    .ret (1, { count := 2, length := 2,
               sequence := [some (str "GA" ++ [0, 78, 0]), some (str "CA" ++ [0, 84, 0])],
               label := [some (str "A"), some (str "B")], amb_sites_count := 0 }) :=
  C15_remove_ambiguous_idempotent example_amb amb_msa _ amb_rows
    ⟨by decide, rfl, rfl, by decide⟩ rfl

/-- C16: `msa_remove_ambiguous` returns 0 (failure) if and only if every site
of the alignment is ambiguous (it returns 1 otherwise), and in that case the
alignment's length and all sequence bytes are left unchanged (so are the count
and the labels). -/
theorem C16_remove_ambiguous_fails (map : Nat → Nat) (msa : msa_t)
    (rows : List (List Nat)) (h : msa.HasRows rows) :
    ∃ (rc : Int) (msa1 : msa_t), msa_remove_ambiguous map msa = .ret (rc, msa1) ∧
      (rc = 0 ∨ rc = 1) ∧
      (rc = 0 ↔ ∀ c, c < msa.length.toNat → ambiguousSite map rows c = true) ∧
      (rc = 0 → msa1.length = msa.length ∧ msa1.sequence = msa.sequence ∧
        msa1.count = msa.count ∧ msa1.label = msa.label) := by
  by_cases hall : ambiguousCount map rows msa.length.toNat = msa.length.toNat
  · refine ⟨0, _, (msa_remove_ambiguous_spec map msa rows h).1 hall, Or.inl rfl, ?_,
      fun _ => ⟨rfl, rfl, rfl, rfl⟩⟩
    exact ⟨fun _ => (ambiguousCount_eq_iff map rows _).mp hall, fun _ => rfl⟩
  · obtain ⟨s, _, hres⟩ := (msa_remove_ambiguous_spec map msa rows h).2 hall
    refine ⟨1, _, hres, Or.inr rfl, ?_, fun h1 => absurd h1 (by decide)⟩
    exact ⟨fun h1 => absurd h1 (by decide),
      fun h2 => absurd ((ambiguousCount_eq_iff map rows _).mpr h2) hall⟩

/-- C16 at two taxa and two sites that are both ambiguous. -/
theorem C16_remove_ambiguous_fails_witness :
    ∃ (rc : Int) (msa1 : msa_t), msa_remove_ambiguous example_amb all_amb_msa = .ret (rc, msa1) ∧
      (rc = 0 ∨ rc = 1) ∧
      (rc = 0 ↔ ∀ c, c < 2 → ambiguousSite example_amb [str "NA" ++ [0], str "TR" ++ [0]] c
        = true) ∧
      (rc = 0 → msa1.length = all_amb_msa.length ∧ msa1.sequence = all_amb_msa.sequence ∧
        msa1.count = all_amb_msa.count ∧ msa1.label = all_amb_msa.label) :=
  C16_remove_ambiguous_fails example_amb all_amb_msa [str "NA" ++ [0], str "TR" ++ [0]]
    ⟨by decide, rfl, rfl, by decide⟩

/-- C17: for every alignment in which at least one taxon is not fully
missing, `msa_remove_missing_sequences` returns the number `d` of fully
missing taxa, sets `count` to `count - d`, leaves `length` unchanged, and the
resulting labels and sequences are exactly the original ones with the fully
missing taxa deleted: the survivors byte for byte, in their original order;
when no taxon is fully missing it returns 0 and the alignment is unchanged. -/
theorem C17_remove_missing_frame (nt aa : Nat → Nat) (msa : msa_t)
    (taxa : List (List Nat × List Nat)) (map : Nat → Nat)
    (hmap : map = if msa.dtype = BPP_DATA_DNA then nt else aa) (h : msa.HasTaxa taxa)
    (hsome : ∃ p ∈ taxa, fullyMissing map msa.length.toNat p.2 = false) :
    ∃ msa1, msa_remove_missing_sequences nt aa msa =
        .ret (((taxa.filter (fun p => fullyMissing map msa.length.toNat p.2)).length : Int),
              msa1) ∧
      msa1.count =
        msa.count - ((taxa.filter (fun p => fullyMissing map msa.length.toNat p.2)).length : Int) ∧
      msa1.length = msa.length ∧
      msa1.label = (taxa.filter (fun p => !fullyMissing map msa.length.toNat p.2)).map
        (fun p => some p.1) ∧
      msa1.sequence = (taxa.filter (fun p => !fullyMissing map msa.length.toNat p.2)).map
        (fun p => some p.2) ∧
      ((taxa.filter (fun p => fullyMissing map msa.length.toNat p.2)).length = 0 →
        msa1 = msa) := by
  have hnall : missingCount map msa.length.toNat taxa ≠ taxa.length := by
    intro heq
    obtain ⟨p, hp, hz⟩ := hsome
    rw [(missingCount_eq_iff map _ taxa).mp heq p hp] at hz
    exact absurd hz (by simp)
  have hres := (msa_remove_missing_sequences_spec nt aa msa taxa map hmap h).2 hnall
  refine ⟨_, hres, rfl, rfl, rfl, rfl, ?_⟩
  intro hz
  have hz2 : missingCount map msa.length.toNat taxa = 0 := hz
  have hsurv := survivors_all map msa.length.toNat taxa hz2
  obtain ⟨⟨_, _, hs, _⟩, hl⟩ := h
  rw [hsurv, hz2]
  simp only [Nat.cast_zero, Int.sub_zero]
  have e3 : msa.sequence = taxa.map (fun p => some p.2) := by
    rw [hs, List.map_map]; rfl
  rw [← e3, ← hl]

/-- C17 at three taxa of which the second is fully missing. -/
theorem C17_remove_missing_frame_witness :
    ∃ msa1, msa_remove_missing_sequences example_missing example_missing gap_msa =
        .ret (((gap_taxa.filter (fun p => fullyMissing example_missing 4 p.2)).length : Int),
              msa1) ∧
      msa1.count =
        gap_msa.count - ((gap_taxa.filter (fun p => fullyMissing example_missing 4 p.2)).length
          : Int) ∧
      msa1.length = gap_msa.length ∧
      msa1.label = (gap_taxa.filter (fun p => !fullyMissing example_missing 4 p.2)).map
        (fun p => some p.1) ∧
      msa1.sequence = (gap_taxa.filter (fun p => !fullyMissing example_missing 4 p.2)).map
        (fun p => some p.2) ∧
      ((gap_taxa.filter (fun p => fullyMissing example_missing 4 p.2)).length = 0 →
        msa1 = gap_msa) :=
  C17_remove_missing_frame example_missing example_missing gap_msa gap_taxa example_missing
    rfl ⟨⟨by decide, rfl, by simp [gap_msa, List.map_map, Function.comp_def], by decide⟩, rfl⟩
    ⟨(str "A", str "AC-T" ++ [0]), by decide, by decide⟩

/-- C18: `msa_remove_missing_sequences` fails (returns -1) if and only if
every taxon of the alignment is fully missing, that is, every byte of every
row maps to non-zero in the table of missing data selected by the alignment's
data type; this is the case for every alignment of length 0.  Otherwise it
returns the number of deleted taxa. -/
theorem C18_remove_missing_fails (nt aa : Nat → Nat) (msa : msa_t)
    (taxa : List (List Nat × List Nat)) (map : Nat → Nat)
    (hmap : map = if msa.dtype = BPP_DATA_DNA then nt else aa) (h : msa.HasTaxa taxa) :
    ∃ (rc : Int) (msa1 : msa_t), msa_remove_missing_sequences nt aa msa = .ret (rc, msa1) ∧
      (rc = -1 ↔ ∀ p ∈ taxa, ∀ c ∈ p.2.take msa.length.toNat, map c ≠ 0) ∧
      (rc ≠ -1 → 0 ≤ rc) ∧ (msa.length = 0 → rc = -1) := by
  have hfm : (∀ p ∈ taxa, fullyMissing map msa.length.toNat p.2 = true) ↔
      ∀ p ∈ taxa, ∀ c ∈ p.2.take msa.length.toNat, map c ≠ 0 := by
    simp [fullyMissing]
  by_cases hall : missingCount map msa.length.toNat taxa = taxa.length
  · have hres := (msa_remove_missing_sequences_spec nt aa msa taxa map hmap h).1 hall
    refine ⟨-1, _, hres, ?_, fun h1 => absurd rfl h1, fun _ => rfl⟩
    rw [← hfm]
    exact ⟨fun _ => (missingCount_eq_iff map _ taxa).mp hall, fun _ => rfl⟩
  · have hres := (msa_remove_missing_sequences_spec nt aa msa taxa map hmap h).2 hall
    refine ⟨_, _, hres, ?_, fun _ => by omega, ?_⟩
    · rw [← hfm]
      constructor
      · intro h1; omega
      · intro h1
        exact absurd ((missingCount_eq_iff map _ taxa).mpr h1) hall
    · intro hzero
      exfalso
      apply hall
      rw [missingCount_eq_iff]
      intro p _
      simp [fullyMissing, hzero]

/-- C18 at two taxa that are both fully missing. -/
theorem C18_remove_missing_fails_witness :
    ∃ (rc : Int) (msa1 : msa_t),
      msa_remove_missing_sequences example_missing example_missing void_msa = .ret (rc, msa1) ∧
      (rc = -1 ↔ ∀ p ∈ void_taxa, ∀ c ∈ p.2.take 2, example_missing c ≠ 0) ∧
      (rc ≠ -1 → 0 ≤ rc) ∧ (void_msa.length = 0 → rc = -1) :=
  C18_remove_missing_fails example_missing example_missing void_msa void_taxa example_missing
    rfl ⟨⟨by decide, rfl, by simp [void_msa, List.map_map, Function.comp_def], by decide⟩, rfl⟩

/-- C20: `phylip_concat` fails (fatal error, no alignment produced) if and
only if some input locus has more than 4 taxa or the set of distinct labels
over all loci does not have exactly 4 elements; when it does not fail it
returns an alignment. -/
theorem C20_concat_fails (loci : List (msa_t × List (List Nat × List Nat)))
    (hw : ∀ q ∈ loci, q.1.Lists q.2) :
    ((∃ msg, phylip_concat (loci.map (fun q => q.1)) (loci.length : Int) = .fatal msg) ↔
      ((∃ q ∈ loci, 4 < q.1.count) ∨ (allLabels loci).toFinset.card ≠ 4)) ∧
    ((¬ ((∃ q ∈ loci, 4 < q.1.count) ∨ (allLabels loci).toFinset.card ≠ 4)) →
      ∃ msa, phylip_concat (loci.map (fun q => q.1)) (loci.length : Int) = .ret msa) := by
  have hcount : (∃ q ∈ loci, 4 < q.1.count) ↔ ∃ q ∈ loci, 4 < q.2.length := by
    constructor
    · rintro ⟨q, hq, h⟩
      rw [(hw q hq).2.1] at h
      exact ⟨q, hq, by omega⟩
    · rintro ⟨q, hq, h⟩
      refine ⟨q, hq, ?_⟩
      rw [(hw q hq).2.1]
      omega
  have hgood : (¬ ((∃ q ∈ loci, 4 < q.1.count) ∨ (allLabels loci).toFinset.card ≠ 4)) →
      ∃ msa, phylip_concat (loci.map (fun q => q.1)) (loci.length : Int) = .ret msa := by
    intro h
    rw [hcount] at h
    push_neg at h
    exact ⟨_, phylip_concat_spec loci hw h.1 (by rw [firstSeen_length]; exact h.2)⟩
  refine ⟨⟨?_, ?_⟩, hgood⟩
  · rintro ⟨msg, hm⟩
    by_contra h
    obtain ⟨msa, hr⟩ := hgood h
    rw [hr] at hm
    cases hm
  · intro h
    rw [hcount, ← firstSeen_length] at h
    exact phylip_concat_fatal loci hw h

/-- C20 at locus A alone, which has two labels only: the concatenation ends
in `fatal`. -/
theorem C20_concat_fails_witness :
    ∃ msg, phylip_concat [locus_A] 1 = .fatal msg :=
  (C20_concat_fails [(locus_A, taxa_A)]
    (by
      intro q hq
      simp only [List.mem_singleton] at hq
      subst hq
      exact ⟨by decide, rfl, rfl, rfl, by decide⟩)).1.mpr (Or.inr (by decide))

/-- C21: when `dfa_parse` reaches a byte of class Fatal (2) before any other
error (the bytes before it hold no fatal byte and their data fit into the
row), it returns -1.  For a byte below 128 the error is
ERROR_PHYLIP_ILLEGALCHAR, with the character in the message, when the byte is
32 or more, and ERROR_PHYLIP_UNPRINTABLECHAR, with its hexadecimal code in the
message, otherwise (first part).  For a byte from 128 to 255 no error is
reported: the byte is read as a signed `char`, the table is indexed with a
negative number and the behaviour is undefined, whatever the table holds
(second part). -/
theorem C21_fatal_byte (fd : phylip_t) (g : Globals) (msa : msa_t) (seqno offset : Nat)
    (pre rest buf : List Nat) (c : Nat) (hpre : Clean fd.chrstatus pre)
    (hrow : msa.sequence[seqno]? = some (some buf))
    (hfit : ((offset + (accepted fd.chrstatus pre).length : Nat) : Int) ≤ msa.length)
    (hroom : offset + (accepted fd.chrstatus pre).length ≤ buf.length) :
    (c < 128 → chrclass fd.chrstatus c = some 2 →
      ∃ fd1 msa1, dfa_parse fd g msa (pre ++ c :: rest) seqno offset =
        .ret (none, fd1,
          (if 32 ≤ c then
            { bpp_errno := ERROR_PHYLIP_ILLEGALCHAR,
              bpp_errmsg := str "illegal character '" ++ [c] ++ str "' on line " ++
                fmt_d fd.lineno ++ str " in the fasta file" }
          else
            { bpp_errno := ERROR_PHYLIP_UNPRINTABLECHAR,
              bpp_errmsg := str "illegal unprintable character " ++ fmt_x2 c ++
                str " (hexadecimal) on line " ++ fmt_d fd.lineno ++
                str " in the fasta file" }), msa1)) ∧
    (128 ≤ c → c < 256 →
      dfa_parse fd g msa (pre ++ c :: rest) seqno offset = .undefined) := by
  have hscan := dfa_parse_loop_stops fd g msa seqno offset pre buf hpre hrow hfit hroom
  have happ := dfa_parse_loop_append seqno offset (c :: rest) pre 0 fd g msa _ _ _ _ hscan
  constructor
  · intro hc hcl
    refine ⟨strip_counts fd pre,
      { msa with sequence := (msa.sequence.set seqno
          (some (buf.take offset ++ accepted fd.chrstatus pre ++
            buf.drop (offset + (accepted fd.chrstatus pre).length)))) }, ?_⟩
    unfold dfa_parse
    rw [happ]
    simp only [dfa_parse_loop, strip_counts_chr, hcl, strip_counts_lineno, schar_small c hc]
    by_cases h32 : 32 ≤ c
    · rw [if_pos (by omega), if_pos h32]
      rfl
    · rw [if_neg (by omega), if_neg h32]
      rfl
  · intro h1 h2
    unfold dfa_parse
    rw [happ]
    simp only [dfa_parse_loop, strip_counts_chr, chrclass_none_of_high _ c h1 h2]

/-- C21 on the line "AC!G" under the table of the examples: the scan stops at
`!` with ERROR_PHYLIP_ILLEGALCHAR; and on a line that starts with the byte
200, whatever the table: undefined behaviour. -/
theorem C21_fatal_byte_witness :
    (∃ fd1 msa1, dfa_parse idle_cursor ⟨0, []⟩ one_row_msa (str "AC!G") 0 0 =
      .ret (none, fd1,
        { bpp_errno := ERROR_PHYLIP_ILLEGALCHAR,
          bpp_errmsg := str "illegal character '!' on line 1 in the fasta file" }, msa1)) ∧
    dfa_parse { idle_cursor with chrstatus := fatal_table } ⟨0, []⟩ one_row_msa
      (200 :: str "AC") 0 0 = .undefined :=
  ⟨(C21_fatal_byte idle_cursor ⟨0, []⟩ one_row_msa 0 0 (str "AC") (str "G") [0, 0, 0, 0] 33
      (by decide) rfl (by decide) (by decide)).1 (by decide) rfl,
   (C21_fatal_byte { idle_cursor with chrstatus := fatal_table } ⟨0, []⟩ one_row_msa 0 0 []
      (str "AC") [0, 0, 0, 0] 200 (by decide) rfl (by decide) (by decide)).2
      (by decide) (by decide)⟩

/-- C22, as far as the code goes.  First part: for every line of bytes below
128 that holds no Fatal byte and at most `length - offset` Accept bytes,
`dfa_parse` returns the number `j` of Accept bytes of the line, stores exactly
those bytes, in the order of the line, at the positions
`offset .. offset + j - 1` of the row of the taxon (the other cells and rows
stay), increases `stripped_count` by the number of Strip bytes of the line and
`stripped[b]` by the number of occurrences of `b` for every Strip byte `b`,
and changes no counter for a byte of another class; the error slot stays.
Second part: when the line holds a byte from 128 to 255 (behind bytes below
128 that hold no Fatal byte and whose Accept bytes fit), the call is
undefined, whatever class the table gives to that byte: the byte is read as a
signed `char` and the table is indexed with a negative number. -/
theorem C22_dfa_parse_effect (fd : phylip_t) (g : Globals) (msa : msa_t)
    (seqno offset : Nat) (p buf : List Nat)
    (hrow : msa.sequence[seqno]? = some (some buf))
    (hroom : msa.length ≤ (buf.length : Int)) :
    ((∀ c ∈ p, c < 128) → (∀ c ∈ p, chrclass fd.chrstatus c ≠ some 2) →
      ((offset + (accepted fd.chrstatus p).length : Nat) : Int) ≤ msa.length →
      dfa_parse fd g msa p seqno offset =
        .ret (some (accepted fd.chrstatus p).length,
          { fd with
            stripped_count := fd.stripped_count +
              (p.filter (fun c => chrclass fd.chrstatus c == some 0)).length,
            stripped := fun b => fd.stripped b +
              if chrclass fd.chrstatus b = some 0 then p.count b else 0 },
          g,
          { msa with sequence := (msa.sequence.set seqno
              (some (buf.take offset ++ accepted fd.chrstatus p ++
                buf.drop (offset + (accepted fd.chrstatus p).length)))) })) ∧
    (∀ (pre : List Nat) (c : Nat) (rest : List Nat), p = pre ++ c :: rest →
      (∀ x ∈ pre, x < 128) → (∀ x ∈ pre, chrclass fd.chrstatus x ≠ some 2) →
      ((offset + (accepted fd.chrstatus pre).length : Nat) : Int) ≤ msa.length →
      128 ≤ c → c < 256 →
      dfa_parse fd g msa p seqno offset = .undefined) := by
  constructor
  · intro hbyte hclean hfit
    have hcl : Clean fd.chrstatus p := by
      intro c hc
      refine ⟨?_, hclean c hc⟩
      unfold chrclass
      rw [tableAt_small _ c (hbyte c hc)]
      rfl
    unfold dfa_parse
    rw [dfa_parse_loop_stops fd g msa seqno offset p buf hcl hrow hfit (by omega),
      strip_counts_spec p fd hbyte]
    congr 4
    funext b
    congr 1
    by_cases hb : chrclass fd.chrstatus b = some 0
    · rw [if_pos hb, List.count_filter (by simpa using hb)]
    · rw [if_neg hb]
      apply List.count_eq_zero.mpr
      intro hmem
      have := (List.mem_filter.mp hmem).2
      simp at this
      exact hb this
  · intro pre c rest hp hlow hnf hfit h1 h2
    rw [hp]
    exact dfa_parse_high_byte fd g msa seqno offset pre rest buf c hlow hnf hrow hfit hroom h1 h2

/-- C22 on the line " A C" under the table of the examples: two bytes are
stored and the two spaces are counted; and on the line of the bytes `A`, 200,
`C` under a table that gives the class Accept to every byte: the call is
undefined. -/
theorem C22_dfa_parse_effect_witness :
    (∃ fd1, dfa_parse idle_cursor ⟨0, []⟩ one_row_msa (str " A C") 0 1 =
      .ret (some 2, fd1, ⟨0, []⟩,
        { one_row_msa with sequence := [some [0, 65, 67, 0]] }) ∧
      fd1.stripped_count = 2 ∧ fd1.stripped 32 = 2 ∧ fd1.stripped 65 = 0) ∧
    accept_table 200 = 1 ∧
    dfa_parse { idle_cursor with chrstatus := accept_table } ⟨0, []⟩ one_row_msa
      [65, 200, 67] 0 0 = .undefined :=
  ⟨⟨_, (C22_dfa_parse_effect idle_cursor ⟨0, []⟩ one_row_msa 0 1 (str " A C") [0, 0, 0, 0]
      rfl (by decide)).1 (by decide) (by decide) (by decide), rfl, rfl, rfl⟩,
   rfl,
   (C22_dfa_parse_effect { idle_cursor with chrstatus := accept_table } ⟨0, []⟩ one_row_msa
      0 0 [65, 200, 67] [0, 0, 0, 0] rfl (by decide)).2 [65] 200 [67] rfl (by decide)
      (by decide) (by decide) (by decide) (by decide)⟩

/-- C23: for every stream contents without NUL bytes, successive calls of
`getnextline` return, in order, exactly the maximal newline-free segments of
the contents with the newline that ends them removed, a last segment that is
not empty and has no newline after it among them, and from then on NULL; a
call returns NULL only when no byte is left.  The segments are determined by
the contents alone (they are free of newlines, and joined with newlines they
give back the contents, up to the newline missing at the end), so the result
does not depend on where the reads of 2048 bytes cut a long line. -/
theorem C23_getnextline_segments (fd : phylip_t) (h0 : ∀ c ∈ fd.fp, c ≠ 0) :
    (∀ l ∈ segments fd.fp, ∀ c ∈ l, c ≠ 10) ∧
    (unlines (segments fd.fp) = fd.fp ∨
      (unlines (segments fd.fp) = fd.fp ++ [10] ∧
        ∃ last, (segments fd.fp).getLast? = some last ∧ last ≠ [])) ∧
    (∀ k, ∃ fd1, getnextline_calls ((segments fd.fp).length + k) fd =
      .ret ((segments fd.fp).map some ++ List.replicate k none, fd1)) ∧
    (fd.fp = [] → getnextline fd = .ret (none, { fd with fp := [], line := none })) ∧
    (fd.fp ≠ [] → ∃ l fd1, getnextline fd = .ret (some l, fd1)) := by
  have hr := reads_segments fd h0
  refine ⟨segments_newline_free fd.fp.length fd.fp (le_refl _),
    isText_unlines_eq _ _ hr.1, fun k => getnextline_calls_reads _ fd k hr,
    getnextline_eof fd, ?_⟩
  intro hne
  cases hs : segments fd.fp with
  | nil =>
    rw [hs] at hr
    exact absurd hr.1 hne
  | cons l ls =>
    rw [hs] at hr
    obtain ⟨fp1, hget, _, _⟩ := getnextline_reads fd l ls hr
    exact ⟨l, _, hget⟩

/-- C23 on a stream whose first line has 5000 bytes and whose last line has
no newline: three calls return the two lines and NULL. -/
theorem C23_getnextline_segments_witness :
    ∃ fd1, getnextline_calls 3 long_line_cursor =
      .ret ([some (List.replicate 5000 65), some [66], none], fd1) := by
  have h := (C23_getnextline_segments long_line_cursor (by
    intro c hc
    have hc1 : c ∈ List.replicate 5000 65 ++ 10 :: [66] := hc
    simp only [List.mem_append, List.mem_replicate, List.mem_cons, List.mem_singleton,
      List.not_mem_nil, or_false] at hc1
    omega)).2.2.1 1
  have e : segments long_line_cursor.fp = [List.replicate 5000 65, [66]] := by
    have e1 : long_line_cursor.fp = List.replicate 5000 65 ++ 10 :: [66] := rfl
    unfold segments
    rw [e1, segmentsFrom_line [66] (List.replicate 5000 65) []
      (by intro c hc; rw [List.mem_replicate] at hc; omega)]
    rfl
  rw [e] at h
  exact h

/-- C24, as the code behaves: both block parsers can return NULL without
having written the error slot.  On a header with a third token ("2 3 x")
`parse_header` returns 0 on a path that sets neither `bpp_errno` nor
`bpp_errmsg`, and both parsers return NULL with the error slot exactly as it
was before the call, whatever it held.  When the chunk lengths of an
interleaved input sum to less than the declared length, the message is
written but `bpp_errno` keeps the value it had before the call (the parser
then releases the alignment; NULL is returned when the field `freqs` of the
structure holds NULL, and with another value in it the release is
undefined). -/
theorem C24_stale_error_slot (g : Globals) :
    phylip_parse_sequential trailing_cursor g = .ret (none, trailing_cursor, g) ∧
    (∀ freqs, phylip_parse_interleaved freqs trailing_cursor g =
      .ret (none, trailing_cursor, g)) ∧
    ∀ freqs, ∃ fd1, phylip_parse_interleaved freqs narrow_cursor g =
      if freqs = 0 then
        .ret (none, fd1, { bpp_errno := g.bpp_errno,
                           bpp_errmsg := str "Sequence length is 3 but expected 5" })
      else .undefined := by
  refine ⟨?_, ?_, ?_⟩
  · exact parse_sequential_header_rejected trailing_cursor g (str "2 3 x") rfl (by decide) rfl
  · intro freqs
    exact parse_interleaved_header_rejected freqs trailing_cursor g (str "2 3 x") rfl (by decide)
      rfl
  · intro freqs
    obtain ⟨r, fd1, g1, hres, _, hno, hlt, _⟩ :=
      parse_interleaved_blocks freqs example_table 2 5 3 narrow_cursor g [] (str "2 5")
        [⟨[], str "A ACG", []⟩, ⟨[], str "B TTA", []⟩] [] [] rfl
        ⟨str "2 5", [str "A ACG", str "B TTA"], rfl, rfl,
          isText_unlines [str "A ACG", str "B TTA"], by decide⟩
        (by simp) rfl rfl
        (by
          intro r hr
          simp only [List.mem_cons, List.mem_singleton, List.not_mem_nil, or_false] at hr
          rcases hr with rfl | rfl
          · exact ⟨by simp, by decide, [], str " ACG", rfl, by simp, by decide, by decide,
              by decide⟩
          · exact ⟨by simp, by decide, [], str " TTA", rfl, by simp, by decide, by decide,
              by decide⟩)
        (by simp) (by simp)
    have h1 := hno (by decide)
    have h2 := hlt (by decide)
    subst h1 h2
    exact ⟨fd1, hres.trans (destroy_return_null_eq _ _ _)⟩

/-- C25 (amended): in both block parsers, for every taxon line, after the
leading white space has been skipped the stored label is the prefix of the
remainder up to (not including) the first space when the remainder holds a
space anywhere; otherwise up to the first tab when it holds a tab; otherwise
up to the first carriage return when it holds one; otherwise it is the whole
remainder (a line holds no newline).  First part: `phylip_parse_sequential` on
a well-formed block; second part: `phylip_parse_interleaved` on well-formed
blocks whose widths sum to the declared length. -/
theorem C25_label_rule (t : Nat → Nat) (n L : Nat) (fd : phylip_t) (g : Globals)
    (blanks : List (List Nat)) (hdr : List Nat) (recs : List TaxonLines)
    (ht : fd.chrstatus = t) (hb : ∀ b ∈ blanks, Blank b) (hn : recs.length = n) :
    (∀ tail : List (List Nat),
      OnLines fd (blanks ++ hdr :: ((recs.map TaxonLines.lines).flatten ++ tail)) →
      (parse_header hdr PHYLIP_SEQUENTIAL g).1 = some ((n : Int), (L : Int)) →
      (∀ r ∈ recs, r.ok t L) →
      ∃ m fd1, phylip_parse_sequential fd g = .ret (some m, fd1, g) ∧
        m.label = recs.map (fun r => some (spaceFirstLabel (skipws r.first)))) ∧
    (∀ (freqs w1 : Nat) (bs : List (Nat × List (List (List Nat)))) (trail : List (List Nat)),
      OnLines fd (blanks ++ hdr ::
        ((recs.map TaxonLines.lines).flatten ++ (blocksLines bs ++ trail))) →
      (parse_header hdr PHYLIP_INTERLEAVED g).1 = some ((n : Int), (L : Int)) →
      (∀ r ∈ recs, r.yields t w1) →
      (∀ p ∈ bs, p.2.length = n ∧ ∀ grp ∈ p.2, Yields t p.1 grp) →
      (∀ z ∈ trail, Clean t z ∧ accepted t z = []) → w1 + blocksWidth bs = L →
      ∃ m fd1 g1, phylip_parse_interleaved freqs fd g = .ret (some m, fd1, g1) ∧
        m.label = recs.map (fun r => some (spaceFirstLabel (skipws r.first)))) := by
  have hlab : ∀ body : List (List Nat),
      OnLines fd (blanks ++ hdr :: ((recs.map TaxonLines.lines).flatten ++ body)) →
      recs.map (fun r => some r.label) =
        recs.map (fun r => some (spaceFirstLabel (skipws r.first))) := by
    intro body hon
    apply List.map_congr_left
    intro r hr
    rw [label_spaceFirst r (onLines_body_isLine fd blanks hdr _ hon r.first
      (by simp [first_mem_lines recs r hr]))]
  constructor
  · intro tail hon hh hok
    obtain ⟨fd1, hres, _, _⟩ := parse_sequential_block t n L fd g blanks hdr recs tail ht hon hb
      hh hn hok
    exact ⟨_, fd1, hres, hlab tail hon⟩
  · intro freqs w1 bs trail hon hh hy hbs htr hsum
    obtain ⟨r, fd1, g1, hres, hok, _⟩ := parse_interleaved_blocks freqs t n L w1 fd g blanks hdr
      recs bs trail ht hon hb hh hn hy hbs htr
    rw [(hok hsum).1] at hres
    exact ⟨_, fd1, g1, hres, hlab _ hon⟩

/-- C25 on the block "1 3", "A ACG", read by either parser: the label is "A",
the bytes before the first space. -/
theorem C25_label_rule_witness :
    (∃ m fd1, phylip_parse_sequential single_cursor ⟨0, []⟩ = .ret (some m, fd1, ⟨0, []⟩) ∧
      m.label = [some (str "A")]) ∧
    (∃ m fd1 g1, phylip_parse_interleaved 0 single_cursor ⟨0, []⟩ = .ret (some m, fd1, g1) ∧
      m.label = [some (str "A")]) := by
  have h := C25_label_rule example_table 1 3 single_cursor ⟨0, []⟩ [] (str "1 3")
    [⟨[], str "A ACG", []⟩] rfl (by simp) rfl
  have hon : OnLines single_cursor ([] ++ str "1 3" ::
      (([(⟨[], str "A ACG", []⟩ : TaxonLines)].map TaxonLines.lines).flatten ++ [])) :=
    ⟨str "1 3", [str "A ACG"], rfl, rfl, isText_unlines [str "A ACG"], by decide⟩
  constructor
  · exact h.1 [] hon rfl (by
      intro r hr
      simp only [List.mem_singleton] at hr
      subst hr
      exact ⟨by simp, by decide, by decide, Or.inl ⟨rfl, by decide⟩⟩)
  · exact h.2 0 3 [] [] hon rfl (by
      intro r hr
      simp only [List.mem_singleton] at hr
      subst hr
      exact ⟨by simp, by decide, [], str " ACG", rfl, by simp, by decide, by decide,
        by decide⟩) (by simp) (by simp) rfl

/-- C25 as stated fails: on the taxon line made of "A", a tab and "C ACG" the
first character that is a space, tab, carriage return or newline is the tab,
so the claim gives the label "A"; the parser stores the three bytes before the
first space: "A", the tab and "C". -/
theorem C25_counterexample :
    ∃ fd1, phylip_parse_sequential tab_label_cursor ⟨0, []⟩ =
        .ret (some { count := 1, length := 3, sequence := [some (str "ACG" ++ [0])],
                     label := [some (str "A\tC")] }, fd1, ⟨0, []⟩) ∧
      (str "A\tC ACG").takeWhile (fun c => !whitespace c) = str "A" ∧
      str "A\tC" ≠ str "A" :=
  ⟨_, rfl, by decide, by decide⟩

/-- C26 (amended): in `phylip_parse_sequential`, when the data of a taxon
reach the declared length before the end of the current line (the data lines
`init` and the part `a` of the last line fill the row, and `rest` follows on
that line), the remaining characters of the line are scanned all the same.
When they are Strip or SilentSkip bytes only, the taxon is complete and the
parse goes on with the next taxon on the next line (first part).  When a
further Accept byte comes first, the parse fails with ERROR_PHYLIP_LONGSEQ and
the message "Sequence k (label) longer than expected" (second part).  When a
Fatal byte comes first, the parse fails with the error of that byte (third
part). -/
theorem C26_full_line_scanned (t : Nat → Nat) (n L : Nat) (fd : phylip_t) (g : Globals)
    (blanks : List (List Nat)) (hdr : List Nat) (recs : List TaxonLines) (x : TaxonLines)
    (init : List (List Nat)) (a rest : List Nat) (ht : fd.chrstatus = t)
    (hb : ∀ b ∈ blanks, Blank b)
    (hh : (parse_header hdr PHYLIP_SEQUENTIAL g).1 = some ((n : Int), (L : Int)))
    (hn : recs.length < n) (hok : ∀ r ∈ recs, r.ok t L)
    (hxb : ∀ b ∈ x.blanks, Blank b) (hxf : skipws x.first ≠ [])
    (hdata : x.data = init ++ [a ++ rest]) (hfill : Fills t L 0 (init ++ [a])) :
    (Clean t rest → accepted t rest = [] →
      ∀ (later : List TaxonLines) (tail : List (List Nat)),
      recs.length + 1 + later.length = n → (∀ r ∈ later, r.ok t L) →
      OnLines fd (blanks ++ hdr ::
        (((recs ++ x :: later).map TaxonLines.lines).flatten ++ tail)) →
      ∃ fd1, phylip_parse_sequential fd g =
          .ret (some (msaOf n L ((recs ++ x :: later).map (fun r => some r.label))
                  ((recs ++ x :: later).map (TaxonLines.seq t))), fd1, g) ∧
        x.seq t = accepted t (init ++ [a]).flatten ∧ Reads fd1 tail) ∧
    (∀ (s u : List Nat) (c : Nat) (tail : List (List Nat)),
      rest = s ++ c :: u → Clean t s → accepted t s = [] → chrclass t c = some 1 →
      OnLines fd (blanks ++ hdr ::
        ((recs.map TaxonLines.lines).flatten ++ (x.lines ++ tail))) →
      ∃ fd1, phylip_parse_sequential fd g =
        .ret (none, fd1,
          { bpp_errno := ERROR_PHYLIP_LONGSEQ,
            bpp_errmsg := str "Sequence " ++ fmt_d ((recs.length : Int) + 1) ++ str " (" ++
              x.label.take 100 ++ str ") longer than expected" })) ∧
    (∀ (s u : List Nat) (c : Nat) (tail : List (List Nat)),
      rest = s ++ c :: u → Clean t s → accepted t s = [] → chrclass t c = some 2 →
      c < 128 →
      OnLines fd (blanks ++ hdr ::
        ((recs.map TaxonLines.lines).flatten ++ (x.lines ++ tail))) →
      ∃ fd1, phylip_parse_sequential fd g =
        .ret (none, fd1,
          (if 32 ≤ c then
            { bpp_errno := ERROR_PHYLIP_ILLEGALCHAR,
              bpp_errmsg := str "illegal character '" ++ [c] ++ str "' on line " ++
                fmt_d fd1.lineno ++ str " in the fasta file" }
          else
            { bpp_errno := ERROR_PHYLIP_UNPRINTABLECHAR,
              bpp_errmsg := str "illegal unprintable character " ++ fmt_x2 c ++
                str " (hexadecimal) on line " ++ fmt_d fd1.lineno ++
                str " in the fasta file" }))) := by
  have hd0 : (skipws x.first).drop (headerlen (skipws x.first)) :: x.more =
      init ++ [a ++ rest] := by
    rw [← hdata]; rfl
  refine ⟨?_, ?_, ?_⟩
  · intro hrc hr0 later tail hcount hlater hon
    have hxok : x.ok t L := ⟨hxb, hxf, by rw [hdata]; exact fills_extend t L a rest hrc hr0 _ _ hfill⟩
    obtain ⟨fd1, hres, hrd, _⟩ := parse_sequential_block t n L fd g blanks hdr
      (recs ++ x :: later) tail ht hon hb hh (by simp; omega)
      (by
        intro r hr
        simp only [List.mem_append, List.mem_cons] at hr
        rcases hr with h | rfl | h
        · exact hok r h
        · exact hxok
        · exact hlater r h)
    refine ⟨fd1, hres, ?_, hrd⟩
    unfold TaxonLines.seq
    rw [hdata]
    simp [accepted_append, hr0]
  · intro s u c tail hrest hs hs0 hc hon
    obtain ⟨fd4, labels2, contents2, hchr4, hr4, hlab2, hfresh, hreach⟩ :=
      parse_sequential_reach t n L fd g blanks hdr recs x tail ht hon hb hh hn hok hxb hxf
    obtain ⟨fd6, fuel6, contents6, cur6, hpre, hk6, hfull6, hcl6, _, hchr6, _⟩ :=
      sequential_data_upto t n L recs.length labels2 tail a rest x.more init _
        (fd4.fp.length + 1) fd4 g contents2 [] hd0 hchr4 hfill hr4 (by omega) hfresh
    obtain ⟨m1, hdfa⟩ := dfa_parse_beyond t n L recs.length labels2 x.label hlab2 fd6 g
      contents6 cur6 a s u c hchr6 hk6 hfull6 hcl6 hs hs0 hc
    refine ⟨strip_counts fd6 (a ++ s), hreach _ _ ?_⟩
    simp only [List.length_nil] at hpre
    rw [hpre, hrest, sequential_data, hdfa]
    rfl
  · intro s u c tail hrest hs hs0 hc hc128 hon
    obtain ⟨fd4, labels2, contents2, hchr4, hr4, hlab2, hfresh, hreach⟩ :=
      parse_sequential_reach t n L fd g blanks hdr recs x tail ht hon hb hh hn hok hxb hxf
    obtain ⟨fd6, fuel6, contents6, cur6, hpre, hk6, hfull6, hcl6, _, hchr6, _⟩ :=
      sequential_data_upto t n L recs.length labels2 tail a rest x.more init _
        (fd4.fp.length + 1) fd4 g contents2 [] hd0 hchr4 hfill hr4 (by omega) hfresh
    obtain ⟨m1, hdfa⟩ := dfa_parse_fatal_after t n L recs.length labels2 fd6 g
      contents6 cur6 a s u c hchr6 hk6 hfull6 hcl6 hs hs0 hc hc128
    refine ⟨strip_counts fd6 (a ++ s), ?_⟩
    rw [strip_counts_lineno]
    apply hreach
    simp only [List.length_nil] at hpre
    rw [hpre, hrest, sequential_data, hdfa]
    by_cases h32 : 32 ≤ c
    · simp only [if_pos h32]; rfl
    · simp only [if_neg h32]; rfl

/-- C26 on the block "1 3", "A ACG!": the row is full after "ACG", the scan
goes on and stops at `!` with ERROR_PHYLIP_ILLEGALCHAR. -/
theorem C26_full_line_scanned_witness :
    ∃ fd1, phylip_parse_sequential bang_cursor ⟨0, []⟩ =
      .ret (none, fd1,
        { bpp_errno := ERROR_PHYLIP_ILLEGALCHAR,
          bpp_errmsg := str "illegal character '!' on line " ++ fmt_d fd1.lineno ++
            str " in the fasta file" }) :=
  (C26_full_line_scanned example_table 1 3 bang_cursor ⟨0, []⟩ [] (str "1 3") []
    ⟨[], str "A ACG!", []⟩ [] (str " ACG") (str "!") rfl (by simp) rfl (by decide) (by simp)
    (by simp) (by decide) rfl ⟨by decide, Or.inl ⟨rfl, by decide⟩⟩).2.2 [] [] 33 [] rfl
    (by decide) rfl rfl (by decide)
    ⟨str "1 3", [str "A ACG!"], rfl, rfl, isText_unlines [str "A ACG!"], by decide⟩

/-- C26 as stated fails: on the block "1 3", "A ACGT" the data of the taxon
reach the declared length 3 before the end of the line; the remaining byte is
scanned, and the parse fails with ERROR_PHYLIP_LONGSEQ instead of completing
the taxon. -/
theorem C26_counterexample :
    ∃ fd1, phylip_parse_sequential over_cursor ⟨0, []⟩ =
      .ret (none, fd1, { bpp_errno := ERROR_PHYLIP_LONGSEQ,
                         bpp_errmsg := str "Sequence 1 (A) longer than expected" }) :=
  ⟨_, rfl⟩

/-- C27 (amended): in `phylip_parse_sequential`, when a further line that is
not blank follows the `N`-th complete taxon of a block whose header declares
`N` taxa, the parse of the block succeeds all the same: it returns the
alignment of the `N` taxa as soon as the `N`-th one is complete, reports no
error (the error slot stays as it was), and leaves the further line unread. -/
theorem C27_further_taxon_unread (t : Nat → Nat) (n L : Nat) (fd : phylip_t) (g : Globals)
    (blanks : List (List Nat)) (hdr : List Nat) (recs : List TaxonLines)
    (between : List (List Nat)) (extra : List Nat) (rest : List (List Nat))
    (ht : fd.chrstatus = t)
    (hon : OnLines fd (blanks ++ hdr ::
      ((recs.map TaxonLines.lines).flatten ++ (between ++ extra :: rest))))
    (hb : ∀ b ∈ blanks, Blank b)
    (hh : (parse_header hdr PHYLIP_SEQUENTIAL g).1 = some ((n : Int), (L : Int)))
    (hn : recs.length = n) (hok : ∀ r ∈ recs, r.ok t L)
    (_hbetween : ∀ b ∈ between, Blank b) (_hextra : ¬ Blank extra) :
    ∃ fd1, phylip_parse_sequential fd g =
        .ret (some (msaOf n L (recs.map (fun r => some r.label))
                (recs.map (TaxonLines.seq t))), fd1, g) ∧
      Reads fd1 (between ++ extra :: rest) := by
  obtain ⟨fd1, hres, hrd, _⟩ := parse_sequential_block t n L fd g blanks hdr recs
    (between ++ extra :: rest) ht hon hb hh hn hok
  exact ⟨fd1, hres, hrd⟩

/-- C27 on the block "2 3", "A ACG", "B TTA" followed by the line "C GGG". -/
theorem C27_further_taxon_unread_witness :
    ∃ fd1, phylip_parse_sequential extra_cursor ⟨0, []⟩ =
        .ret (some (msaOf 2 3 [some (str "A"), some (str "B")] [str "ACG", str "TTA"]),
          fd1, ⟨0, []⟩) ∧
      Reads fd1 ([] ++ str "C GGG" :: []) :=
  C27_further_taxon_unread example_table 2 3 extra_cursor ⟨0, []⟩ [] (str "2 3")
    [⟨[], str "A ACG", []⟩, ⟨[], str "B TTA", []⟩] [] (str "C GGG") [] rfl
    ⟨str "2 3", [str "A ACG", str "B TTA", str "C GGG"], rfl, rfl,
      isText_unlines [str "A ACG", str "B TTA", str "C GGG"], by decide⟩
    (by simp) rfl rfl
    (by
      intro r hr
      simp only [List.mem_cons, List.mem_singleton, List.not_mem_nil, or_false] at hr
      rcases hr with rfl | rfl
      · exact ⟨by simp, by decide, by decide, Or.inl ⟨rfl, by decide⟩⟩
      · exact ⟨by simp, by decide, by decide, Or.inl ⟨rfl, by decide⟩⟩)
    (by simp) (by decide)

/-- C27 as stated fails: on the block "2 3", "A ACG", "B TTA" followed by the
line "C GGG" of a third taxon the parse does not fail with "Found at least 3
sequences but expected 2": it returns the alignment of the two taxa, with the
error slot untouched and the third line still in the stream. -/
theorem C27_counterexample :
    ∃ fd1, phylip_parse_sequential extra_cursor ⟨0, []⟩ = .ret (some small_msa, fd1, ⟨0, []⟩) ∧
      fd1.fp = str "C GGG\n" :=
  ⟨_, rfl, rfl⟩

/-- C29, as the code behaves: `getnextline` never changes `lineno` (first
part), which `phylip_open` has set to 1; so the line number in the message of
an illegal character is 1 wherever the byte stands: in a file whose third
line holds the byte `!`, the message names line 1 (second part). -/
theorem C29_lineno_constant :
    (∀ (fd fd1 : phylip_t) (l : Option (List Nat)),
      getnextline fd = .ret (l, fd1) → fd1.lineno = fd.lineno) ∧
    ∃ fd0 fd1, phylip_open bang_file example_table = .ret (some fd0) ∧
      phylip_parse_sequential fd0 ⟨0, []⟩ =
        .ret (none, fd1,
          { bpp_errno := ERROR_PHYLIP_ILLEGALCHAR,
            bpp_errmsg := str "illegal character '!' on line 1 in the fasta file" }) ∧
      bang_file = unlines [str "1 3", str "A AC", str "G!"] :=
  ⟨getnextline_lineno, _, _, rfl, rfl, rfl⟩

/-- C29 at the first call on the cursor of the three-column example: the line
"A ACG" is read and `lineno` is still 1. -/
theorem C29_lineno_constant_witness :
    ({ small_cursor with fp := str "B  TTA\n", line := some (str "A ACG") } : phylip_t).lineno
      = small_cursor.lineno :=
  C29_lineno_constant.1 small_cursor _ (some (str "A ACG")) rfl

/-- C30: in `cmd_extract`, for every list of loci and every list of tokens, a
taxon is kept if and only if its label ends with one of the tokens that begin
with `^` (the whole token, `^` included, is the ending) or starts with one of
the other tokens; the kept taxa retain their label, their sequence (the copy
holds the same string) and their order, the locus of the output has the
length of the locus of the input, the loci without a kept taxon are left out,
and the other loci keep the order of the file. -/
theorem C30_extract_filter (tokens : List (List Nat))
    (loci : List (msa_t × List (List Nat × List Nat))) (hw : ∀ q ∈ loci, q.1.Rows q.2) :
    cmd_extract_filter tokens (loci.map (fun q => q.1)) =
      .ret (loci.filterMap (fun q =>
        if q.2.filter (fun p => keptBy tokens p.1) = [] then none
        else
          some { count := ((q.2.filter (fun p => keptBy tokens p.1)).length : Int),
                 length := q.1.length,
                 sequence := (q.2.filter (fun p => keptBy tokens p.1)).map
                   (fun p => some (cstring p.2 ++ [0])),
                 label := (q.2.filter (fun p => keptBy tokens p.1)).map (fun p => some p.1),
                 amb_sites_count := 0, dtype := 0 })) ∧
    (∀ s : List Nat, cstring (cstring s ++ [0]) = cstring s) ∧
    (∀ label : List Nat, keptBy tokens label = true ↔
      ∃ tok ∈ tokens, (tok.head? = some 94 ∧ tok <:+ label) ∨
        (tok.head? ≠ some 94 ∧ tok <+: label)) := by
  refine ⟨?_, cstring_copy, ?_⟩
  · unfold cmd_extract_filter
    have := filter_loci_spec tokens loci [] hw
    simp only [List.nil_append] at this
    rw [this]
    rfl
  · intro label
    unfold keptBy
    rw [List.any_eq_true]
    constructor
    · rintro ⟨tok, hin, ht⟩
      refine ⟨tok, hin, ?_⟩
      by_cases hh : tok.head? = some 94
      · rw [if_pos hh] at ht
        exact Or.inl ⟨hh, List.isSuffixOf_iff_suffix.mp ht⟩
      · rw [if_neg hh] at ht
        exact Or.inr ⟨hh, List.isPrefixOf_iff_prefix.mp ht⟩
    · rintro ⟨tok, hin, ⟨hh, ht⟩ | ⟨hh, ht⟩⟩
      · exact ⟨tok, hin, by rw [if_pos hh]; exact List.isSuffixOf_iff_suffix.mpr ht⟩
      · exact ⟨tok, hin, by rw [if_neg hh]; exact List.isPrefixOf_iff_prefix.mpr ht⟩

/-- C30 on two loci and the tokens `^a` and `X`: no taxon of the first locus
is kept; of the taxa `s1^a`, `s2^b`, `Xy` of the second one the first and the
third are kept. -/
theorem C30_extract_filter_witness :
    cmd_extract_filter example_tokens [dropped_msa, extract_msa] =
      .ret [{ count := 2, length := 3,
              sequence := [some (str "ACG" ++ [0]), some (str "GGA" ++ [0])],
              label := [some (str "s1^a"), some (str "Xy")] }] :=
  (C30_extract_filter example_tokens
    [(dropped_msa, [(str "q", str "AC" ++ [0])]), (extract_msa, extract_taxa)]
    (by
      intro q hq
      simp only [List.mem_cons, List.mem_singleton, List.not_mem_nil, or_false] at hq
      rcases hq with rfl | rfl <;> exact ⟨rfl, rfl, rfl, by decide⟩)).1

/-- C28: blank lines (empty, or of spaces, tabs and carriage returns only)
before the header line, between the header and the first taxon, or between
two taxa of a sequential block do not change the result of
`phylip_parse_sequential`.  Two inputs that have the same header, the same
label and data lines of their complete taxa and the same lines after these,
and that differ only in the blank lines at those places, get the same
verdict: the parse succeeds on the one exactly when it succeeds on the other,
with the same alignment, and it fails on both with the same error. -/
theorem C28_blank_lines (t : Nat → Nat) (g : Globals) (fd fd1 : phylip_t)
    (blanks blanks1 : List (List Nat)) (hdr : List Nat) (recs recs1 : List TaxonLines)
    (between between1 tail : List (List Nat))
    (ht : fd.chrstatus = t) (ht1 : fd1.chrstatus = t) (hln : fd1.lineno = fd.lineno)
    (hon : OnLines fd (blanks ++ hdr ::
      ((recs.map TaxonLines.lines).flatten ++ (between ++ tail))))
    (hon1 : OnLines fd1 (blanks1 ++ hdr ::
      ((recs1.map TaxonLines.lines).flatten ++ (between1 ++ tail))))
    (hb : ∀ b ∈ blanks, Blank b) (hb1 : ∀ b ∈ blanks1, Blank b)
    (hbt : ∀ b ∈ between, Blank b) (hbt1 : ∀ b ∈ between1, Blank b)
    (hnb : ¬ Blank hdr)
    (hsame : recs1.map (fun r => (r.first, r.more)) = recs.map (fun r => (r.first, r.more)))
    (hbl1 : ∀ r ∈ recs1, ∀ b ∈ r.blanks, Blank b)
    (hrec : ∀ (n : Int) (L : Nat),
      (parse_header hdr PHYLIP_SEQUENTIAL g).1 = some (n, (L : Int)) →
      (recs.length : Int) ≤ n ∧ ∀ r ∈ recs, r.ok t L) :
    verdict (phylip_parse_sequential fd1 g) = verdict (phylip_parse_sequential fd g) := by
  obtain ⟨fa, hca, hla, hra, hpa⟩ := parse_sequential_from_header fd g blanks hdr _ hon hb hnb
  obtain ⟨fb, hcb, hlb, hrb, hpb⟩ :=
    parse_sequential_from_header fd1 g blanks1 hdr _ hon1 hb1 hnb
  cases hph : parse_header hdr PHYLIP_SEQUENTIAL g with
  | mk o g1 =>
    rw [hph] at hpa hpb
    cases o with
    | none =>
      simp only [] at hpa hpb
      rw [hpa, hpb]
      simp only [verdict]
    | some cl =>
      obtain ⟨count, length⟩ := cl
      simp only [] at hpa hpb
      have hh : (parse_header hdr PHYLIP_SEQUENTIAL g).1 = some (count, length) := by
        rw [hph]
      obtain ⟨_, hn0, _, hg, _, _⟩ := parse_header_some _ _ _ _ _ hh
      have hg1 : g = g1 := by rw [hph] at hg; exact hg.symm
      subst hg1
      cases hal : msa_alloc count length with
      | fatal x => rw [hal] at hpa hpb; rw [hpa, hpb]
      | nomem => rw [hal] at hpa hpb; rw [hpa, hpb]
      | undefined => rw [hal] at hpa hpb; rw [hpa, hpb]
      | ret msa =>
        obtain ⟨hcpos, hlpos⟩ := msa_alloc_ret count length msa hal hn0
        obtain ⟨n, rfl⟩ : ∃ n : Nat, count = (n : Int) := ⟨count.toNat, by omega⟩
        obtain ⟨L, rfl⟩ : ∃ L : Nat, length = (L : Int) := ⟨length.toNat, by omega⟩
        have hnpos : 0 < n := by omega
        rw [hal] at hpa hpb
        simp only [] at hpa hpb
        rw [msa_alloc_ok n L hnpos] at hal
        simp only [Outcome.ret.injEq] at hal
        subst hal
        obtain ⟨hle, hok⟩ := hrec (n : Int) L hh
        have hok1 := ok_congr t L recs recs1 hsame hok hbl1
        obtain ⟨hlabs, hseqs, hlen⟩ := records_congr t recs recs1 hsame
        have hle2 : recs.length ≤ n := by omega
        rcases Nat.lt_or_ge recs.length n with hlt | hge
        · -- the block goes on after these taxa
          obtain ⟨fa2, fuelA2, heqA, hrA2, hcA2, hlA2, hfA2⟩ :=
            sequential_taxa_through t n L g (between ++ tail) recs 0 (fa.fp.length + 1) fa
              (List.replicate n none) (List.replicate n []) (by rw [hca, ht]) (by omega)
              (by simp) (by simp)
              (by intro i _ hi; simp [List.getElem?_replicate, hi]) hok hra (by omega)
          obtain ⟨fb2, fuelB2, heqB, hrB2, hcB2, hlB2, hfB2⟩ :=
            sequential_taxa_through t n L g (between1 ++ tail) recs1 0 (fb.fp.length + 1) fb
              (List.replicate n none) (List.replicate n []) (by rw [hcb, ht1]) (by omega)
              (by simp) (by simp)
              (by intro i _ hi; simp [List.getElem?_replicate, hi]) hok1 hrb (by omega)
          rw [afterRecs_congr t recs recs1 0 _ hsame, hlen] at heqB
          obtain ⟨fa3, fuelA3, heqA3, hrA3, hcA3, hlA3, hfA3⟩ :=
            sequential_taxa_skip
              (msaOf n L (afterRecs t recs 0 (List.replicate n none, List.replicate n [])).1
                (afterRecs t recs 0 (List.replicate n none, List.replicate n [])).2)
              (0 + recs.length) g tail between fuelA2 fa2 hbt hrA2 hfA2
          obtain ⟨fb3, fuelB3, heqB3, hrB3, hcB3, hlB3, hfB3⟩ :=
            sequential_taxa_skip
              (msaOf n L (afterRecs t recs 0 (List.replicate n none, List.replicate n [])).1
                (afterRecs t recs 0 (List.replicate n none, List.replicate n [])).2)
              (0 + recs.length) g tail between1 fuelB2 fb2 hbt1 hrB2 hfB2
          rw [hpa, hpb, heqA, heqB, heqA3, heqB3]
          exact sequential_taxa_rel tail.length tail fuelB3 fuelA3 fb3 fa3 g _ _ (le_refl _)
            ⟨by rw [hcB3, hcA3, hcB2, hcA2], by rw [hlB3, hlA3, hlB2, hlA2, hlb, hla, hln],
              hrB3, hrA3⟩ hfB3 hfA3
        · -- the block is complete
          have hn : recs.length = n := by omega
          obtain ⟨_, hresA, _, _⟩ := parse_sequential_block t n L fd g blanks hdr recs
            (between ++ tail) ht hon hb hh hn hok
          obtain ⟨_, hresB, _, _⟩ := parse_sequential_block t n L fd1 g blanks1 hdr recs1
            (between1 ++ tail) ht1 hon1 hb1 hh (by omega) hok1
          rw [hresA, hresB, hlabs, hseqs]
          rfl

/-- C28 on the block "2 3", "A ACG", "B  TTA" without blank lines and with
blank lines before the header, after it and between the taxa. -/
theorem C28_blank_lines_witness :
    verdict (phylip_parse_sequential airy_cursor ⟨0, []⟩) =
      verdict (phylip_parse_sequential small_cursor ⟨0, []⟩) :=
  C28_blank_lines example_table ⟨0, []⟩ small_cursor airy_cursor [] [[], str " "] (str "2 3")
    [⟨[], str "A ACG", []⟩, ⟨[], str "B  TTA", []⟩]
    [⟨[[]], str "A ACG", []⟩, ⟨[str "\t", []], str "B  TTA", []⟩] [] [] []
    rfl rfl rfl
    ⟨str "2 3", [str "A ACG", str "B  TTA"], rfl, rfl,
      isText_unlines [str "A ACG", str "B  TTA"], by decide⟩
    ⟨[], [str " ", str "2 3", [], str "A ACG", str "\t", [], str "B  TTA"], rfl, rfl,
      isText_unlines [str " ", str "2 3", [], str "A ACG", str "\t", [], str "B  TTA"],
      by decide⟩
    (by simp) (by decide) (by simp) (by simp) (by decide) rfl (by decide)
    (by
      intro n L h
      have h2 : (parse_header (str "2 3") PHYLIP_SEQUENTIAL ⟨0, []⟩).1 = some (2, 3) := rfl
      rw [h2] at h
      simp only [Option.some.injEq, Prod.mk.injEq] at h
      obtain ⟨rfl, h3⟩ := h
      have hL : L = 3 := by omega
      subst hL
      refine ⟨by decide, ?_⟩
      intro r hr
      simp only [List.mem_cons, List.mem_singleton, List.not_mem_nil, or_false] at hr
      rcases hr with rfl | rfl
      · exact ⟨by simp, by decide, by decide, Or.inl ⟨rfl, by decide⟩⟩
      · exact ⟨by simp, by decide, by decide, Or.inl ⟨rfl, by decide⟩⟩)

/-- C32, as the code behaves: on a cursor that has only blank lines left (the
line in the buffer and every line still to be read hold white space only)
`phylip_parse_sequential` does not end with an alignment or a reported
failure.  The loop `while (emptyline(fd->line)) getnextline(fd);` reads to the
end of the stream, where `getnextline` releases the line buffer and sets
`fd->line` to NULL, and then calls `emptyline` on that null pointer. -/
theorem C32_blank_input_undefined (fd : phylip_t) (g : Globals) (lines : List (List Nat))
    (hon : OnLines fd lines) (hb : ∀ l ∈ lines, Blank l) :
    phylip_parse_sequential fd g = .undefined := by
  obtain ⟨l, ls, rfl, hl, hr⟩ := hon
  unfold phylip_parse_sequential
  rw [skip_emptylines_blank ls l _ fd hb hl hr]

/-- C32 on the file that holds two blank lines: `phylip_open` caches the first
one, and the parse of the cursor it returns ends in the read through the null
pointer. -/
theorem C32_blank_input_undefined_witness :
    phylip_open blank_file example_table = .ret (some blank_cursor) ∧
    OnLines blank_cursor [[], str " \t"] ∧
    phylip_parse_sequential blank_cursor ⟨0, []⟩ = .undefined :=
  ⟨rfl, ⟨[], [str " \t"], rfl, rfl, isText_unlines [str " \t"], by decide⟩,
    C32_blank_input_undefined blank_cursor ⟨0, []⟩ [[], str " \t"]
      ⟨[], [str " \t"], rfl, rfl, isText_unlines [str " \t"], by decide⟩ (by decide)⟩

/-- C33, as the code behaves: `dfa_parse` reads a byte into a `char`, which is
signed, and uses its value as the index of the 256-entry tables.  For a byte
below 128 the index is the byte itself and lies inside the tables; for a byte
from 128 to 255 the index is the byte minus 256, a negative number, so that
the table is read before its first entry and `dfa_parse` on a line that
starts with such a byte has no defined result. -/
theorem C33_signed_index (t : Nat → Nat) (c : Nat) (hc : c < 256) :
    (c < 128 → schar c = (c : Int) ∧ tableAt t (schar c) = some (t c)) ∧
    (128 ≤ c → schar c = (c : Int) - 256 ∧ schar c < 0 ∧ tableAt t (schar c) = none ∧
      ∀ (fd : phylip_t) (g : Globals) (msa : msa_t) (rest : List Nat) (seqno offset : Nat),
        dfa_parse fd g msa (c :: rest) seqno offset = .undefined) := by
  constructor
  · intro h
    have hs := schar_small c h
    refine ⟨hs, ?_⟩
    rw [hs]
    unfold tableAt
    rw [if_pos (by omega)]
    simp
  · intro h
    have hs := schar_high c h hc
    refine ⟨hs, by omega, ?_, ?_⟩
    · rw [hs]
      unfold tableAt
      rw [if_neg (by omega)]
    · intro fd g msa rest seqno offset
      unfold dfa_parse
      rw [dfa_parse_loop, chrclass_none_of_high fd.chrstatus c h hc]

/-- C33 at the byte 200 (0xC8): the index is -56. -/
theorem C33_signed_index_witness :
    (200 < 128 → schar 200 = (200 : Int) ∧
      tableAt example_table (schar 200) = some (example_table 200)) ∧
    (128 ≤ 200 → schar 200 = (200 : Int) - 256 ∧ schar 200 < 0 ∧
      tableAt example_table (schar 200) = none ∧
      ∀ (fd : phylip_t) (g : Globals) (msa : msa_t) (rest : List Nat) (seqno offset : Nat),
        dfa_parse fd g msa (200 :: rest) seqno offset = .undefined) :=
  C33_signed_index example_table 200 (by decide)

/-- C35 (amended): `parse_header` rejects only a field that is stored as the
`int` 0; among the integers from `-2^31` to `2^31 - 1`, which are stored as
themselves, that is the integer value 0 alone.  When the line holds two
integers followed by nothing but white space, the header is accepted if and
only if neither of them is stored as 0, and the two stored values are handed
to the caller, also when they are negative: "-3 6" gives the count -3 and
"4 -6" the length -6.  (In `phylip_parse_sequential` the two numbers are
written straight into `msa->count` and `msa->length`; the allocation of -3
pointers that follows cannot be met, which ends the process.) -/
theorem C35_negative_header (line : List Nat) (format : Int) (g : Globals) (v1 v2 : Int)
    (r1 r2 : List Nat) (h1 : Scans line v1 r1) (h2 : Scans r1 v2 r2)
    (hws : ∀ c ∈ r2, whitespace c = true) :
    ((parse_header line format g).1.isSome = true ↔ scanf_d v1 ≠ 0 ∧ scanf_d v2 ≠ 0) ∧
    (scanf_d v1 ≠ 0 → scanf_d v2 ≠ 0 →
      parse_header line format g = (some (scanf_d v1, scanf_d v2), g)) ∧
    (∀ v : Int, -(2 ^ 31) ≤ v → v < 2 ^ 31 → scanf_d v = v) ∧
    parse_header (str "-3 6") format g = (some (-3, 6), g) ∧
    parse_header (str "4 -6") format g = (some (4, -6), g) ∧
    phylip_parse_sequential negative_cursor g = .nomem := by
  have hsk : skipws r2 = [] := by
    unfold skipws
    rw [List.dropWhile_eq_nil_iff]
    exact hws
  have hacc : scanf_d v1 ≠ 0 → scanf_d v2 ≠ 0 →
      parse_header line format g = (some (scanf_d v1, scanf_d v2), g) := by
    intro hv1 hv2
    rw [parse_header_two_integers line format g v1 v2 r1 r2 h1 hv1 h2 hv2, if_pos hsk]
  refine ⟨⟨?_, ?_⟩, hacc, scanf_d_of_range, ?_, ?_, ?_⟩
  · intro h
    cases hp : (parse_header line format g).1 with
    | none => rw [hp] at h; simp at h
    | some cl =>
      obtain ⟨c, l⟩ := cl
      obtain ⟨_, hc, hl, _, hc1, hl1⟩ := parse_header_some line format g c l hp
      obtain ⟨e1, e2⟩ := args_getint_scans line v1 r1 h1
      rw [e2] at hl1
      obtain ⟨e3, _⟩ := args_getint_scans r1 v2 r2 h2
      rw [e1] at hc1
      rw [e3] at hl1
      exact ⟨by rw [← hc1]; exact hc, by rw [← hl1]; exact hl⟩
  · rintro ⟨hv1, hv2⟩
    rw [hacc hv1 hv2]
    rfl
  · rfl
  · rfl
  · rfl

/-- C35 at the header "-3 6": the count -3 is read after no white space, the
length 6 after one space, and nothing follows. -/
theorem C35_negative_header_witness :
    (parse_header (str "-3 6") PHYLIP_SEQUENTIAL ⟨0, []⟩).1.isSome = true ∧
    scanf_d (-3) = -3 ∧
    parse_header (str "-3 6") PHYLIP_SEQUENTIAL ⟨0, []⟩ = (some (-3, 6), ⟨0, []⟩) ∧
    parse_header (str "4 -6") PHYLIP_SEQUENTIAL ⟨0, []⟩ = (some (4, -6), ⟨0, []⟩) ∧
    phylip_parse_sequential negative_cursor ⟨0, []⟩ = .nomem := by
  have h := C35_negative_header (str "-3 6") PHYLIP_SEQUENTIAL ⟨0, []⟩ (-3) 6 (str " 6") []
    ⟨[], [45], [51], rfl, by decide, by decide, by decide, by simp [str, isdigit],
      Or.inr (Or.inr ⟨rfl, rfl⟩)⟩
    ⟨[32], [], [54], rfl, by decide, by decide, by decide, by simp,
      Or.inl ⟨rfl, rfl⟩⟩
    (by simp)
  exact ⟨h.1.mpr ⟨by decide, by decide⟩, h.2.2.1 (-3) (by decide) (by decide), h.2.2.2⟩

/-- C35 as stated fails for numerals outside the range of `int`: the header
"4294967296 6" is rejected although its first field is not the integer 0 (it
is stored as the `int` 0), and the negative count of "-4294967297 6" is not
stored unchanged but as -1. -/
theorem C35_counterexample :
    Scans (str "4294967296 6") 4294967296 (str " 6") ∧ Scans (str " 6") 6 [] ∧
    parse_header (str "4294967296 6") PHYLIP_SEQUENTIAL ⟨0, []⟩ =
      (none, { bpp_errno := ERROR_PHYLIP_SYNTAX, bpp_errmsg := msg_header_count }) ∧
    Scans (str "-4294967297 6") (-4294967297) (str " 6") ∧
    parse_header (str "-4294967297 6") PHYLIP_SEQUENTIAL ⟨0, []⟩ = (some (-1, 6), ⟨0, []⟩) :=
  ⟨⟨[], [], str "4294967296", rfl, by decide, by decide, by decide, by simp [str, isdigit],
      Or.inl ⟨rfl, by decide⟩⟩,
   ⟨[32], [], [54], rfl, by decide, by decide, by decide, by simp, Or.inl ⟨rfl, rfl⟩⟩,
   rfl,
   ⟨[], [45], str "4294967297", rfl, by decide, by decide, by decide, by simp [str, isdigit],
      Or.inr (Or.inr ⟨rfl, by decide⟩)⟩,
   rfl⟩

/-- C37 (amended): `msa_remove_missing_sequences` is not atomic on failure.
It returns -1 exactly when every taxon is fully missing, and then `count` and
`length` are as they were, but every slot of `label` and of `sequence` is
null: the loop has released the storage of every taxon before the test that
returns -1 is reached.  With at least one taxon the alignment is therefore not
what it was before the call. -/
theorem C37_failure_not_atomic (nt aa : Nat → Nat) (msa : msa_t)
    (taxa : List (List Nat × List Nat)) (map : Nat → Nat)
    (hmap : map = if msa.dtype = BPP_DATA_DNA then nt else aa) (h : msa.HasTaxa taxa) :
    ((∃ m1, msa_remove_missing_sequences nt aa msa = .ret (-1, m1)) ↔
      ∀ p ∈ taxa, fullyMissing map msa.length.toNat p.2 = true) ∧
    (∀ m1, msa_remove_missing_sequences nt aa msa = .ret (-1, m1) →
      m1 = { msa with sequence := List.replicate taxa.length none,
                      label := List.replicate taxa.length none } ∧
      m1.count = msa.count ∧ m1.length = msa.length) ∧
    (taxa ≠ [] →
      ({ msa with sequence := List.replicate taxa.length none,
                  label := List.replicate taxa.length none } : msa_t).sequence ≠ msa.sequence ∧
      ({ msa with sequence := List.replicate taxa.length none,
                  label := List.replicate taxa.length none } : msa_t).label ≠ msa.label) := by
  have hspec := msa_remove_missing_sequences_spec nt aa msa taxa map hmap h
  have hall_run : (∀ p ∈ taxa, fullyMissing map msa.length.toNat p.2 = true) →
      msa_remove_missing_sequences nt aa msa =
        .ret (-1, { msa with sequence := List.replicate taxa.length none,
                             label := List.replicate taxa.length none }) := by
    intro hall
    obtain ⟨e1, e2⟩ := keptSequence_missing map msa.length.toNat taxa hall
    rw [hspec.1 ((missingCount_eq_iff map msa.length.toNat taxa).mpr hall), e1, e2]
  have hback : ∀ m1, msa_remove_missing_sequences nt aa msa = .ret (-1, m1) →
      ∀ p ∈ taxa, fullyMissing map msa.length.toNat p.2 = true := by
    intro m1 hm
    by_contra hnot
    have hne : missingCount map msa.length.toNat taxa ≠ taxa.length :=
      fun heq => hnot ((missingCount_eq_iff map msa.length.toNat taxa).mp heq)
    rw [hspec.2 hne] at hm
    simp only [Outcome.ret.injEq, Prod.mk.injEq] at hm
    have := hm.1
    omega
  refine ⟨⟨fun ⟨m1, hm⟩ => hback m1 hm, fun hall => ⟨_, hall_run hall⟩⟩, ?_, ?_⟩
  · intro m1 hm
    rw [hall_run (hback m1 hm)] at hm
    simp only [Outcome.ret.injEq, Prod.mk.injEq, true_and] at hm
    subst hm
    exact ⟨rfl, rfl, rfl⟩
  · intro hne
    obtain ⟨⟨_, _, hs, _⟩, hl⟩ := h
    obtain ⟨p, rest, rfl⟩ := List.exists_cons_of_ne_nil hne
    constructor
    · simp only [hs]
      simp [List.replicate_succ]
    · simp only [hl]
      simp [List.replicate_succ]

/-- C37 on the alignment of two taxa that are both fully missing: the call
returns -1 and leaves two null labels and two null sequences. -/
theorem C37_failure_not_atomic_witness :
    (∃ m1, msa_remove_missing_sequences example_missing example_missing void_msa =
      .ret (-1, m1)) ∧
    (∀ m1, msa_remove_missing_sequences example_missing example_missing void_msa =
        .ret (-1, m1) →
      m1 = { void_msa with sequence := List.replicate void_taxa.length none,
                           label := List.replicate void_taxa.length none } ∧
      m1.count = void_msa.count ∧ m1.length = void_msa.length) := by
  have h := C37_failure_not_atomic example_missing example_missing void_msa void_taxa
    example_missing rfl
    ⟨⟨by decide, rfl, by simp [void_msa, List.map_map, Function.comp_def], by decide⟩, rfl⟩
  exact ⟨h.1.mpr (by decide), h.2.1⟩

/-- C37 as stated fails: on the alignment of the two taxa "??" (label A) and
"N-" (label B), which are both fully missing, the call returns -1, and
afterwards both labels and both sequences are null pointers, while `count` is
still 2. -/
theorem C37_counterexample :
    void_msa.label = [some (str "A"), some (str "B")] ∧
    void_msa.sequence = [some (str "??" ++ [0]), some (str "N-" ++ [0])] ∧
    msa_remove_missing_sequences example_missing example_missing void_msa =
      .ret (-1, { count := 2, length := 2, sequence := [none, none], label := [none, none] }) :=
  ⟨rfl, rfl, rfl⟩

/-- C34, as far as the code goes.  First part: for every line of bytes below
128, every taxon whose row and label exist and every offset with
`0 <= offset <= length`, `dfa_parse` returns, and of the row of the taxon it
has changed at most the cells `p` with `offset <= p < length`: every cell
before `offset` and every cell from `length` on, the terminator among them,
holds what it held before, and the other rows, the labels, `count` and
`length` are as they were; the call fails with `ERROR_PHYLIP_LONGSEQ` exactly
when the line holds more than `length - offset` data bytes before its first
fatal byte.  Second part: when the line holds a byte from 128 to 255 (behind
bytes below 128 that hold no fatal byte and whose data bytes fit into the
row), the call is undefined, whatever the table holds: the byte is read as a
signed `char`, so the table is read, and for a byte of class Strip the counter
`stripped` would be written, at a negative index. -/
theorem C34_writes_in_bounds (fd : phylip_t) (g : Globals) (msa : msa_t)
    (seqno offset L : Nat) (p buf lab : List Nat)
    (hrow : msa.sequence[seqno]? = some (some buf)) (hlab : msa.labelAt seqno = some lab)
    (hL : msa.length = (L : Int)) (hroom : L < buf.length) (hoff : offset ≤ L) :
    ((∀ c ∈ p, c < 128) →
      ∃ (r : Option Nat) (fd1 : phylip_t) (g1 : Globals) (buf1 : List Nat),
        dfa_parse fd g msa p seqno offset =
          .ret (r, fd1, g1, { msa with sequence := msa.sequence.set seqno (some buf1) }) ∧
        buf1.length = buf.length ∧
        (∀ i, i < offset ∨ L ≤ i → buf1[i]? = buf[i]?) ∧
        ((r = none ∧ g1.bpp_errno = ERROR_PHYLIP_LONGSEQ) ↔
          L - offset < (accepted fd.chrstatus (beforeFatal fd.chrstatus p)).length)) ∧
    (∀ (pre : List Nat) (c : Nat) (rest : List Nat), p = pre ++ c :: rest →
      (∀ x ∈ pre, x < 128) → (∀ x ∈ pre, chrclass fd.chrstatus x ≠ some 2) →
      offset + (accepted fd.chrstatus pre).length ≤ L → 128 ≤ c → c < 256 →
      dfa_parse fd g msa p seqno offset = .undefined) := by
  constructor
  · intro hbyte
    obtain ⟨r, fd1, g1, buf1, hrun, hlen, hsame, hiff⟩ :=
      dfa_parse_loop_bounds fd.chrstatus seqno offset L lab p 0 fd g msa buf rfl hbyte hrow hlab
        hL hroom (by omega)
    refine ⟨r, fd1, g1, buf1, hrun, hlen, fun i hi => hsame i (by omega), ?_⟩
    rw [hiff]
    omega
  · intro pre c rest hp hlow hnf hfit h1 h2
    rw [hp]
    exact dfa_parse_high_byte fd g msa seqno offset pre rest buf c hlow hnf hrow
      (by rw [hL]; exact_mod_cast hfit) (by rw [hL]; exact_mod_cast hroom.le) h1 h2

/-- C34 on a row of three columns that holds one byte, with a mark behind the
terminator: the line "AC!G" stores two bytes at the cells 1 and 2 and fails on
the fatal byte, not with `ERROR_PHYLIP_LONGSEQ`; the first cell, the
terminator and the mark are as before.  And the line of the bytes `A`, 200
ends in undefined behaviour. -/
theorem C34_writes_in_bounds_witness :
    (∃ (r : Option Nat) (fd1 : phylip_t) (g1 : Globals) (buf1 : List Nat),
      dfa_parse idle_cursor ⟨0, []⟩ marked_row_msa (str "AC!G") 0 1 =
        .ret (r, fd1, g1,
          { marked_row_msa with sequence := marked_row_msa.sequence.set 0 (some buf1) }) ∧
      buf1.length = [84, 0, 0, 0, 9].length ∧
      (∀ i, i < 1 ∨ 3 ≤ i → buf1[i]? = [84, 0, 0, 0, 9][i]?) ∧
      ((r = none ∧ g1.bpp_errno = ERROR_PHYLIP_LONGSEQ) ↔
        3 - 1 < (accepted idle_cursor.chrstatus
          (beforeFatal idle_cursor.chrstatus (str "AC!G"))).length)) ∧
    dfa_parse idle_cursor ⟨0, []⟩ marked_row_msa [65, 200] 0 1 = .undefined :=
  ⟨(C34_writes_in_bounds idle_cursor ⟨0, []⟩ marked_row_msa 0 1 3 (str "AC!G")
      [84, 0, 0, 0, 9] (str "A") rfl rfl rfl (by decide) (by decide)).1 (by decide),
   (C34_writes_in_bounds idle_cursor ⟨0, []⟩ marked_row_msa 0 1 3 [65, 200]
      [84, 0, 0, 0, 9] (str "A") rfl rfl rfl (by decide) (by decide)).2 [65] 200 [] rfl
      (by decide) (by decide) (by decide) (by decide) (by decide)⟩

/-- C36: for every alignment and every vector of marks (0 or 1 for every
site) with at least one site that is not marked, `remove_ambiguous` returns 1
with the length reduced by the number of marked sites, and below the new
length a site that was not marked is where it was, with its bytes unchanged in
every row; a position below the new length that held a marked site holds,
in every row, the bytes of one site `f m` that was not marked and stood at or
beyond the new length. -/
theorem C36_remove_ambiguous_frame (msa : msa_t) (rows : List (List Nat)) (amb0 : List Int)
    (hlen : msa.length = (amb0.length : Int)) (hc : msa.count = rows.length)
    (hs : msa.sequence = rows.map some) (hr : ∀ buf ∈ rows, amb0.length < buf.length)
    (h01 : ∀ a ∈ amb0, a = 0 ∨ a = 1) (hna : ∃ c : Nat, amb0[c]? = some 0) :
    ∃ (msa1 : msa_t) (rows1 : List (List Nat)) (f : Nat → Nat),
      remove_ambiguous msa amb0 = .ret (1, msa1) ∧
      msa1.length = msa.length - amb0.sum ∧ 0 < msa1.length ∧
      msa1.count = msa.count ∧ msa1.label = msa.label ∧
      msa1.sequence = rows1.map some ∧ rows1.length = rows.length ∧
      (∀ (k : Nat) (buf : List Nat), rows[k]? = some buf →
        ∃ buf1, rows1[k]? = some buf1 ∧
          ∀ m : Nat, (m : Int) < msa1.length →
            (amb0[m]? = some 0 → buf1[m]? = buf[m]?) ∧
            (amb0[m]? = some 1 → buf1[m]? = buf[f m]?)) ∧
      (∀ m : Nat, (m : Int) < msa1.length → amb0[m]? = some 1 →
        msa1.length ≤ (f m : Int) ∧ f m < amb0.length ∧ amb0[f m]? = some 0) := by
  obtain ⟨s, n, hdone, hn, hres⟩ := remove_ambiguous_marks msa rows amb0 hlen hc hs hr h01 hna
  obtain ⟨ha, hnl, hiff, hfix, hmov, _⟩ := hdone
  have hslt : ∀ c, c < amb0.length → s c < amb0.length := by
    intro c hc
    by_contra hcon
    have h1 := ha (s c) (by omega)
    have h2 := s.injective h1
    omega
  have hpos : 0 < n := by
    obtain ⟨c, hc0⟩ := hna
    have hcl : c < amb0.length := by
      by_contra h
      rw [List.getElem?_eq_none (by omega)] at hc0
      simp at hc0
    have hk : s.symm c < amb0.length := by
      by_contra hcon
      have h1 := ha (s.symm c) (by omega)
      rw [Equiv.apply_symm_apply] at h1
      omega
    have := (hiff _ hk).mpr (by
      rw [Equiv.apply_symm_apply, List.getD_eq_getElem?_getD, hc0]; rfl)
    omega
  have hget0 : ∀ c, c < amb0.length → amb0.getD c 0 = 0 → amb0[c]? = some 0 := by
    intro c hc h
    rw [List.getD_eq_getElem?_getD, List.getElem?_eq_getElem hc] at h
    rw [List.getElem?_eq_getElem hc]
    simpa using h
  refine ⟨_, rows.map (fun buf => (permuteCells 0 s buf).set n 0), s, hres, ?_, ?_, rfl, rfl,
    by simp [List.map_map, Function.comp_def], by simp, ?_, ?_⟩
  · simp only []
    exact hn
  · simp only []
    exact_mod_cast hpos
  · intro k buf hk
    have hmem : buf ∈ rows := List.getElem?_mem hk
    have hroom := hr buf hmem
    refine ⟨(permuteCells 0 (⇑s) buf).set n 0, by simp [List.getElem?_map, hk], ?_⟩
    intro m hm
    simp only [] at hm
    have hmn : m < n := by exact_mod_cast hm
    have hperm : ((permuteCells 0 (⇑s) buf).set n 0)[m]? = buf[s m]? :=
      permuted_row_getElem? (⇑s) buf n m (by omega) (by omega)
        (by have := hslt m (by omega); omega)
    constructor
    · intro h0
      rw [hperm, hfix m hmn (by rw [List.getD_eq_getElem?_getD, h0]; rfl)]
    · intro _
      exact hperm
  · intro m hm h1
    simp only [] at hm ⊢
    have hmn : m < n := by exact_mod_cast hm
    have hne : amb0.getD m 0 ≠ 0 := by
      rw [List.getD_eq_getElem?_getD, h1]
      simp
    obtain ⟨h2, h3⟩ := hmov m hmn hne
    refine ⟨by exact_mod_cast h2, h3, ?_⟩
    exact hget0 _ h3 ((hiff m (by omega)).mp hmn)

/-- C36 at two taxa and four sites of which the first and the third are
marked. -/
theorem C36_remove_ambiguous_frame_witness :
    ∃ (msa1 : msa_t) (rows1 : List (List Nat)) (f : Nat → Nat),
      remove_ambiguous amb_msa amb_marks = .ret (1, msa1) ∧
      msa1.length = amb_msa.length - amb_marks.sum ∧ 0 < msa1.length ∧
      msa1.count = amb_msa.count ∧ msa1.label = amb_msa.label ∧
      msa1.sequence = rows1.map some ∧ rows1.length = amb_rows.length ∧
      (∀ (k : Nat) (buf : List Nat), amb_rows[k]? = some buf →
        ∃ buf1, rows1[k]? = some buf1 ∧
          ∀ m : Nat, (m : Int) < msa1.length →
            (amb_marks[m]? = some 0 → buf1[m]? = buf[m]?) ∧
            (amb_marks[m]? = some 1 → buf1[m]? = buf[f m]?)) ∧
      (∀ m : Nat, (m : Int) < msa1.length → amb_marks[m]? = some 1 →
        msa1.length ≤ (f m : Int) ∧ f m < amb_marks.length ∧ amb_marks[f m]? = some 0) :=
  C36_remove_ambiguous_frame amb_msa amb_rows amb_marks rfl rfl rfl (by decide) (by decide)
    ⟨1, rfl⟩

/-- C31 (amended): after a successful `phylip_parse_sequential` on a
well-formed block the cursor has read the lines of the block and no further
line: the line buffer holds the last line of the last taxon (the line on which
its data reached the declared length), and every line behind it is still to be
read.  A call made directly on the returned cursor therefore starts from that
data line: when the line is no header, the call returns NULL with the error of
`parse_header` (last part).  When a further well-formed block follows, the call
that `phylip_parse_multisequential` makes next (after its loop over the blank
lines has read the header of that block into the line buffer) returns the
alignment of that block and leaves what follows it unread. -/
theorem C31_cursor_after_block (t : Nat → Nat) (g : Globals) (fd : phylip_t)
    (b : LocusLines) (tail : List (List Nat)) (ht : fd.chrstatus = t) (hok : b.ok t g)
    (hon : OnLines fd (b.lines ++ tail)) :
    ∃ fd1, phylip_parse_sequential fd g = .ret (some (b.msa t), fd1, g) ∧
      (∃ r, b.recs.getLast? = some r ∧ fd1.line = (r.first :: r.more).getLast?) ∧
      Reads fd1 tail ∧
      (∀ (next : LocusLines) (tail2 : List (List Nat)), next.ok t g →
        tail = next.lines ++ tail2 →
        ∃ fd2 fd3, skip_blank_lines (fd1.fp.length + 1) fd1 = .ret (true, fd2) ∧
          fd2.line = some next.hdr ∧
          phylip_parse_sequential fd2 g = .ret (some (next.msa t), fd3, g) ∧
          Reads fd3 tail2) ∧
      ∀ last : List Nat, fd1.line = some last → ¬ Blank last →
        (parse_header last PHYLIP_SEQUENTIAL g).1 = none →
        phylip_parse_sequential fd1 g =
          .ret (none, fd1, (parse_header last PHYLIP_SEQUENTIAL g).2) := by
  obtain ⟨fd1, hres, hr1, hchr1, hline⟩ := parse_sequential_locus_line t g b tail fd ht hok hon
  refine ⟨fd1, hres, hline, hr1, ?_, ?_⟩
  · intro next tail2 hnext htail
    have hnb := locus_header_not_blank t g next hnext
    have hr2 : Reads fd1 (next.blanks ++ next.hdr ::
        ((next.recs.map TaxonLines.lines).flatten ++ tail2)) := by
      rw [htail] at hr1
      simpa [LocusLines.lines, List.append_assoc] using hr1
    obtain ⟨fd2, hskip, hon2, hchr2⟩ :=
      skip_blank_lines_line next.hdr _ next.blanks (fd1.fp.length + 1) fd1 hnext.1 hnb hr2
        (by omega)
    obtain ⟨fd3, hres3, hr3, _⟩ :=
      parse_sequential_block t next.count next.length fd2 g [] next.hdr next.recs tail2
        (by rw [hchr2, hchr1]) (by simpa using hon2) (by simp) hnext.2.1 hnext.2.2.1
        hnext.2.2.2
    obtain ⟨l, ls, hl, hline2, _⟩ := hon2
    simp only [List.cons.injEq] at hl
    exact ⟨fd2, fd3, hskip, by rw [hline2, hl.1], hres3, hr3⟩
  · intro last hl hnb hp
    exact parse_sequential_header_rejected fd1 g last hl hnb hp

/-- C31 on the two blocks of `two_loci_cursor`: after the first call the line
buffer holds "B TTA", and the next call of the driver returns the second
block. -/
theorem C31_cursor_after_block_witness :
    ∃ fd1, phylip_parse_sequential two_loci_cursor ⟨0, []⟩ =
        .ret (some (first_locus.msa example_table), fd1, ⟨0, []⟩) ∧
      (∃ r, first_locus.recs.getLast? = some r ∧ fd1.line = (r.first :: r.more).getLast?) ∧
      Reads fd1 (second_locus.lines ++ [[]]) ∧
      (∀ (next : LocusLines) (tail2 : List (List Nat)), next.ok example_table ⟨0, []⟩ →
        second_locus.lines ++ [[]] = next.lines ++ tail2 →
        ∃ fd2 fd3, skip_blank_lines (fd1.fp.length + 1) fd1 = .ret (true, fd2) ∧
          fd2.line = some next.hdr ∧
          phylip_parse_sequential fd2 ⟨0, []⟩ =
            .ret (some (next.msa example_table), fd3, ⟨0, []⟩) ∧
          Reads fd3 tail2) ∧
      ∀ last : List Nat, fd1.line = some last → ¬ Blank last →
        (parse_header last PHYLIP_SEQUENTIAL ⟨0, []⟩).1 = none →
        phylip_parse_sequential fd1 ⟨0, []⟩ =
          .ret (none, fd1, (parse_header last PHYLIP_SEQUENTIAL ⟨0, []⟩).2) :=
  C31_cursor_after_block example_table ⟨0, []⟩ two_loci_cursor first_locus
    (second_locus.lines ++ [[]]) rfl
    ⟨by decide, rfl, rfl, by
      intro r hr
      simp only [first_locus, List.mem_cons, List.mem_singleton, List.not_mem_nil,
        or_false] at hr
      rcases hr with rfl | rfl
      · exact ⟨by decide, by decide, by decide, Or.inl ⟨rfl, by decide⟩⟩
      · exact ⟨by decide, by decide, by decide, Or.inl ⟨rfl, by decide⟩⟩⟩
    ⟨str "2 3", [str "A ACG", str "B TTA", [], str "2 2", str "C AC", str "D GT", []], rfl, rfl,
      isText_unlines [str "A ACG", str "B TTA", [], str "2 2", str "C AC", str "D GT", []],
      by decide⟩

/-- C31 as stated fails for a following call that is made directly: on the two
blocks of `two_loci_cursor` ("2 3", "A ACG", "B TTA", an empty line, "2 2",
"C AC", "D GT") the first call returns the alignment of the first block and
leaves the data line "B TTA" in the line buffer; a second call on the returned
cursor does not parse the second block from its header "2 2": it takes
"B TTA" for the header and returns NULL with the message "Invalid number of
sequences in header". -/
theorem C31_counterexample :
    ∃ m fd1, phylip_parse_sequential two_loci_cursor ⟨0, []⟩ = .ret (some m, fd1, ⟨0, []⟩) ∧
      fd1.line = some (str "B TTA") ∧ fd1.fp = str "\n2 2\nC AC\nD GT\n\n" ∧
      phylip_parse_sequential fd1 ⟨0, []⟩ =
        .ret (none, fd1, { bpp_errno := ERROR_PHYLIP_SYNTAX,
                           bpp_errmsg := str "Invalid number of sequences in header" }) :=
  ⟨_, _, rfl, rfl, rfl, rfl⟩

/-- C38: for every four state masks whose low 4 bits are not all zero,
`abba_baba_score` passes its `assert` and sets the pattern count to the
product of the numbers of set bits among the low 4 bits of the four masks,
which is the number of resolutions `(a, b, c, d)` (one set bit of each mask);
the ABBA numerator is the number of resolutions with `a = d`, `b = c`,
`a != b`, the BABA numerator the number of those with `a = c`, `b = d`,
`a != b`; no resolution is counted in both, so the two numerators together do
not exceed the pattern count; and when every mask has exactly one of its low
4 bits set the pattern count is 1. -/
theorem C38_abba_baba_score (s0 s1 s2 s3 : Nat) (h0 : s0 % 16 ≠ 0) (h1 : s1 % 16 ≠ 0)
    (h2 : s2 % 16 ≠ 0) (h3 : s3 % 16 ≠ 0) :
    ∃ pats abba baba : Nat,
      abba_baba_score s0 s1 s2 s3 = .ret ((pats : Int), (abba : Int), (baba : Int)) ∧
      pats = (setBits s0).card * (setBits s1).card * (setBits s2).card * (setBits s3).card ∧
      pats = (resolutions s0 s1 s2 s3).card ∧
      abba = ((resolutions s0 s1 s2 s3).filter isABBA).card ∧
      baba = ((resolutions s0 s1 s2 s3).filter isBABA).card ∧
      (∀ q, ¬ (isABBA q ∧ isBABA q)) ∧ abba + baba ≤ pats ∧ 0 < pats ∧
      ((setBits s0).card = 1 → (setBits s1).card = 1 → (setBits s2).card = 1 →
        (setBits s3).card = 1 → pats = 1) := by
  have hcard := resolutions_card s0 s1 s2 s3
  have hpos : 0 < (resolutions s0 s1 s2 s3).card := by
    rw [hcard]
    exact Nat.mul_pos (Nat.mul_pos (Nat.mul_pos (setBits_pos s0 h0) (setBits_pos s1 h1))
      (setBits_pos s2 h2)) (setBits_pos s3 h3)
  refine ⟨_, _, _, ?_, hcard, rfl, rfl, rfl, abba_baba_disjoint, ?_, hpos, ?_⟩
  · unfold abba_baba_score
    rw [score_loops_spec, if_neg (by simp only []; omega)]
  · rw [← Finset.card_union_of_disjoint]
    · apply Finset.card_le_card
      intro q hq
      simp only [Finset.mem_union, Finset.mem_filter] at hq
      rcases hq with hq | hq <;> exact hq.1
    · rw [Finset.disjoint_filter]
      intro q _ ha hb
      exact abba_baba_disjoint q ⟨ha, hb⟩
  · intro e0 e1 e2 e3
    rw [hcard, e0, e1, e2, e3]

/-- C38 at the masks 1, 2, 2, 1 (the site pattern ACCA): one pattern, which is
counted as ABBA. -/
theorem C38_abba_baba_score_witness :
    ∃ pats abba baba : Nat,
      abba_baba_score 1 2 2 1 = .ret ((pats : Int), (abba : Int), (baba : Int)) ∧
      pats = (setBits 1).card * (setBits 2).card * (setBits 2).card * (setBits 1).card ∧
      pats = (resolutions 1 2 2 1).card ∧
      abba = ((resolutions 1 2 2 1).filter isABBA).card ∧
      baba = ((resolutions 1 2 2 1).filter isBABA).card ∧
      (∀ q, ¬ (isABBA q ∧ isBABA q)) ∧ abba + baba ≤ pats ∧ 0 < pats ∧
      ((setBits 1).card = 1 → (setBits 2).card = 1 → (setBits 2).card = 1 →
        (setBits 1).card = 1 → pats = 1) :=
  C38_abba_baba_score 1 2 2 1 (by decide) (by decide) (by decide) (by decide)

/-- C39, as the code behaves: `list_delitem` does not keep the list well
formed when the item it removes is the current tail.  On the well-formed list
of the two items at the addresses 1 and 2 the call for the item 2 returns 1
with `count` 1 and `head` 1, the item 1 now pointing to NULL, but `tail` still
holds the address 2 of the item that has been released.  The list is then not
well formed for any sequence of items, and `list_append` on it stores through
the released item. -/
theorem C39_delitem_stale_tail :
    WellFormed two_items two_item_list [1, 2] ∧
    list_delitem two_items two_item_list 2 =
      .ret (1, [(1, { data := 10, next := none })], { head := some 1, tail := some 2, count := 1 }) ∧
    read_item [(1, { data := 10, next := none })] 2 = none ∧
    (∀ items, ¬ WellFormed [(1, { data := 10, next := none })]
      { head := some 1, tail := some 2, count := 1 } items) ∧
    list_append [(1, { data := 10, next := none })]
      { head := some 1, tail := some 2, count := 1 } 30 = .undefined := by
  refine ⟨⟨⟨rfl, _, rfl, rfl, _, rfl, rfl⟩, rfl, rfl⟩, rfl, rfl, ?_, rfl⟩
  intro items hw
  obtain ⟨hc, _, ht⟩ := hw
  have hc1 : Chain [(1, ({ data := 10, next := none } : list_item_t))] (some 1) [1] :=
    ⟨rfl, _, rfl, rfl⟩
  have := chain_unique _ _ _ _ hc hc1
  subst this
  simp at ht

/-- C40, as the code behaves: on a string that ends with the delimiter the
token count that `split` reports is not the number of tokens it has stored.
On "a,b," it returns an array of three cells of which the first two hold "a"
and "b" and the third has never been stored to, and it reports 3 tokens; the
fields of "a,b," are "a", "b" and the empty string.  The loop of `cmd_extract`
over the 3 reported tokens reads that third cell.  On the empty string the
last test of `split` reads `tokens[0]`, which has never been stored to. -/
theorem C40_split_trailing_delimiter (tc : Int) :
    split (str "a,b,") (str ",") tc =
      .ret (some [some (str "a"), some (str "b"), none], 3) ∧
    fields 44 (str "a,b,") = [str "a", str "b", []] ∧
    count_tokens [some (str "a"), some (str "b"), none] 3 0 0 0 = none ∧
    split [] (str ",") tc = .undefined :=
  ⟨rfl, rfl, rfl, rfl⟩

end BppTools
